import Mathlib

/-!
# String-graph visitors (SGVisitors.cpp)

A shallow embedding of the visitors of `src/StringGraph/SGVisitors.cpp`.

The graph container (`StringGraph`, `Vertex`, `Edge`) is declared outside the
visitor file; it is represented here as follows.

* A vertex pointer is the vertex identifier, an edge pointer is the edge
  identifier.  The twin pointer of an edge is the identifier of its twin.
* The adjacency list of a vertex is the sub-list of `StringGraph.edges` whose
  `start` is that vertex, in the order of the list.
* The colour fields of the vertex and edge objects are held as maps from the
  identity of the object to its colour.
* `size_t` arithmetic is arithmetic modulo `2 ^ 64`; conversion to `int` is the
  two's complement reading of the low 32 bits.
-/

namespace SGA

abbrev VertexID := Nat

abbrev EdgeID := Nat

/-- Colours of vertices and edges (`GraphColor`). -/
inductive GraphColor where
  | GC_WHITE
  | GC_GRAY
  | GC_BLACK
  | GC_BLUE
  | GC_RED
deriving DecidableEq

/-- Direction of an edge on the side of its start vertex (`EdgeDir`). -/
inductive EdgeDir where
  | ED_SENSE
  | ED_ANTISENSE
deriving DecidableEq, Fintype

/-- Relative strand of the two reads of an edge (`EdgeComp`). -/
inductive EdgeComp where
  | EC_SAME
  | EC_REVERSE
deriving DecidableEq, Fintype

open GraphColor EdgeDir EdgeComp

/-- The operator `!dir`. -/
def EdgeDir.flip : EdgeDir → EdgeDir
  | ED_SENSE => ED_ANTISENSE
  | ED_ANTISENSE => ED_SENSE

/-- The array `EDGE_DIRECTIONS`, of length `ED_COUNT = 2`. -/
def EDGE_DIRECTIONS : List EdgeDir := [ED_SENSE, ED_ANTISENSE]

/-- The part of an `Overlap` record the visitors read. -/
structure Overlap where
  /-- Value of `getOverlapLength(0)`: the length of the overlap on the start read. -/
  overlapLength : Nat
  /-- Value of `isContainment()`. -/
  isContainment : Bool
  /-- Value of `getContainedIdx()`. -/
  containedIdx : Nat
deriving DecidableEq

/-- One half of a bidirected edge. -/
structure Edge where
  id : EdgeID
  start : VertexID
  end_ : VertexID
  dir : EdgeDir
  comp : EdgeComp
  twin : EdgeID
  seqLen : Nat
  overlap : Overlap
deriving DecidableEq

/-- A vertex: its identity, its sequence and its containment flag. -/
structure Vertex where
  id : VertexID
  seq : String
  contained : Bool
deriving DecidableEq

/-- The string graph with its global flags. -/
structure StringGraph where
  vertices : List Vertex
  edges : List Edge
  vertexColor : VertexID → GraphColor
  edgeColor : EdgeID → GraphColor
  hasContainment : Bool
  hasTransitive : Bool
  exactMode : Bool
  minOverlap : Int

/-- Modelled from the spec: `Edge::getTwinDir`, which is missing from the
sources: for a SAME-strand overlap the twin direction is the opposite of the
direction of the edge, for a REVERSE overlap it is the direction of the edge. -/
def Edge.getTwinDir (e : Edge) : EdgeDir :=
  match e.comp with
  | EC_SAME => e.dir.flip
  | EC_REVERSE => e.dir

/-- Modelled from the spec: `Edge::getTransitiveDir`, which is missing from the
sources: the direction in which a path continues at the end vertex, the
opposite of the twin direction. -/
def Edge.getTransitiveDir (e : Edge) : EdgeDir := e.getTwinDir.flip

namespace StringGraph

/-- Modelled from the spec: `Vertex::getEdges(dir)`, which is missing from the
sources: the edges of the vertex in one direction, in adjacency order. -/
def getEdges (g : StringGraph) (v : VertexID) (dir : EdgeDir) : List Edge :=
  g.edges.filter (fun e => decide (e.start = v ∧ e.dir = dir))

/-- Modelled from the spec: `Vertex::getEdges()`, which is missing from the
sources: all edges of the vertex, in adjacency order. -/
def getAllEdges (g : StringGraph) (v : VertexID) : List Edge :=
  g.edges.filter (fun e => decide (e.start = v))

/-- Modelled from the spec: `Vertex::countEdges(dir)`, which is missing from the
sources. -/
def countEdges (g : StringGraph) (v : VertexID) (dir : EdgeDir) : Nat :=
  (g.getEdges v dir).length

/-- Modelled from the spec: `Vertex::countEdges()`, which is missing from the
sources. -/
def countAllEdges (g : StringGraph) (v : VertexID) : Nat :=
  (g.getAllEdges v).length

/-- Value of `isContained()` for the vertex with this identifier. -/
def isContained (g : StringGraph) (v : VertexID) : Bool :=
  g.vertices.any (fun x => decide (x.id = v) && x.contained)

/-- Assignment `pVertex->setColor(c)`. -/
def setVertexColor (g : StringGraph) (v : VertexID) (c : GraphColor) : StringGraph :=
  { g with vertexColor := fun x => if x = v then c else g.vertexColor x }

/-- Assignment `pEdge->setColor(c)`. -/
def setEdgeColor (g : StringGraph) (e : EdgeID) (c : GraphColor) : StringGraph :=
  { g with edgeColor := fun x => if x = e then c else g.edgeColor x }

/-- Modelled from the spec: `StringGraph::setColors`, which is missing from the
sources: every vertex and every edge receives the colour. -/
def setColors (g : StringGraph) (c : GraphColor) : StringGraph :=
  { g with vertexColor := fun _ => c, edgeColor := fun _ => c }

/-- Modelled from the spec: `StringGraph::checkColors`, which is missing from the
sources: every vertex and every edge has the colour. -/
def checkColors (g : StringGraph) (c : GraphColor) : Bool :=
  g.vertices.all (fun v => decide (g.vertexColor v.id = c)) &&
    g.edges.all (fun e => decide (g.edgeColor e.id = c))

/-- Modelled from the spec: a `StringGraph::checkColors` that covers the
vertices only: every vertex has the colour. -/
def checkVertexColors (g : StringGraph) (c : GraphColor) : Bool :=
  g.vertices.all (fun v => decide (g.vertexColor v.id = c))

/-- Modelled from the spec: `StringGraph::sweepEdges`, which is missing from the
sources: every edge of the colour is destroyed. -/
def sweepEdges (g : StringGraph) (c : GraphColor) : StringGraph :=
  { g with edges := g.edges.filter (fun e => decide (g.edgeColor e.id ≠ c)) }

/-- Modelled from the spec: `StringGraph::sweepVertices`, which is missing from
the sources: every vertex of the colour is destroyed, together with all edges
incident to it. -/
def sweepVertices (g : StringGraph) (c : GraphColor) : StringGraph :=
  { g with
    vertices := g.vertices.filter (fun v => decide (g.vertexColor v.id ≠ c)),
    edges := g.edges.filter
      (fun e => decide (g.vertexColor e.start ≠ c ∧ g.vertexColor e.end_ ≠ c)) }

/-- Modelled from the spec: `Vertex::deleteEdge`, which is missing from the
sources: the edge object is removed from the adjacency list of the vertex and
destroyed. -/
def deleteEdge (g : StringGraph) (v : VertexID) (e : EdgeID) : StringGraph :=
  { g with edges := g.edges.filter (fun x => decide (¬ (x.start = v ∧ x.id = e))) }

/-- Modelled from the spec: `StringGraph::setContainmentFlag`. -/
def setContainmentFlag (g : StringGraph) (b : Bool) : StringGraph :=
  { g with hasContainment := b }

/-- Modelled from the spec: `StringGraph::setTransitiveFlag`. -/
def setTransitiveFlag (g : StringGraph) (b : Bool) : StringGraph :=
  { g with hasTransitive := b }

end StringGraph

/-- The order of `EdgeLenComp`: ascending sequence length. -/
def EdgeLenLE (a b : Edge) : Prop := a.seqLen ≤ b.seqLen

instance EdgeLenLE.decidable : DecidableRel EdgeLenLE :=
  fun a b => inferInstanceAs (Decidable (a.seqLen ≤ b.seqLen))

instance EdgeLenLE.total : IsTotal Edge EdgeLenLE :=
  ⟨fun a b => Nat.le_total a.seqLen b.seqLen⟩

instance EdgeLenLE.trans : IsTrans Edge EdgeLenLE :=
  ⟨fun _ _ _ h1 h2 => Nat.le_trans h1 h2⟩

/-- The call `std::sort(begin, end, EdgeLenComp())` on a vector of edges. -/
def sortByLen (l : List Edge) : List Edge := l.insertionSort EdgeLenLE

/-- Modelled from the spec: `StringGraph::sortVertexAdjListsByLen`, which is
missing from the sources: every adjacency list becomes ascending in sequence
length.  Sorting the edge table orders the adjacency list of every vertex. -/
def StringGraph.sortVertexAdjListsByLen (g : StringGraph) : StringGraph :=
  { g with edges := sortByLen g.edges }

/-- Addition of two `size_t` values. -/
def sizeAdd (a b : Nat) : Nat := (a + b) % 2 ^ 64

/-- Subtraction of two `size_t` values. -/
def sizeSub (a b : Nat) : Nat := (a + (2 ^ 64 - b % 2 ^ 64)) % 2 ^ 64

/-- Conversion of a `size_t` value to `int`. -/
def sizeToInt (n : Nat) : Int :=
  if n % 2 ^ 32 < 2 ^ 31 then ((n % 2 ^ 32 : Nat) : Int) else ((n % 2 ^ 32 : Nat) : Int) - 2 ^ 32

/-- A visitor: its state type with the three callbacks.  An assertion that
fails gives `none`. -/
structure SGVisitor (S : Type) where
  previsit : S → StringGraph → Option (S × StringGraph)
  visit : S → StringGraph → VertexID → (S × StringGraph) × Bool
  postvisit : S → StringGraph → Option (S × StringGraph)

/-- The loop of the driver over the vertices; the returned flag is the
accumulated disjunction of the values returned by `visit`. -/
def visitVertices {S : Type} (vis : SGVisitor S) :
    List VertexID → (S × StringGraph) × Bool → (S × StringGraph) × Bool
  | [], acc => acc
  | v :: rest, acc =>
    let r := vis.visit acc.1.1 acc.1.2 v
    visitVertices vis rest (r.1, r.2 || acc.2)

/-- Modelled from the spec: the visitor driver `StringGraph::visit`, which is
missing from the sources: `previsit`, then `visit` on every vertex in the
iteration order, then `postvisit`. -/
def StringGraph.visitInOrder {S : Type} (g : StringGraph) (order : List VertexID)
    (vis : SGVisitor S) (s : S) : Option ((S × StringGraph) × Bool) :=
  match vis.previsit s g with
  | none => none
  | some sg =>
    let r := visitVertices vis order (sg, false)
    match vis.postvisit r.1.1 r.1.2 with
    | none => none
    | some sg2 => some (sg2, r.2)

/-- The driver with the iteration order of the graph. -/
def StringGraph.visit {S : Type} (g : StringGraph) (vis : SGVisitor S) (s : S) :
    Option ((S × StringGraph) × Bool) :=
  g.visitInOrder (g.vertices.map (fun v => v.id)) vis s

/-- A visitor whose `visit` reads edge objects that it may have destroyed
before: `visit` gives `none` when it reads a destroyed object, which is
undefined behaviour. -/
structure SGCheckedVisitor (S : Type) where
  previsit : S → StringGraph → Option (S × StringGraph)
  visit : S → StringGraph → VertexID → Option ((S × StringGraph) × Bool)
  postvisit : S → StringGraph → Option (S × StringGraph)

/-- The loop of the driver over the vertices for such a visitor; the pass is
undefined as soon as one call of `visit` is. -/
def visitVerticesChecked {S : Type} (vis : SGCheckedVisitor S) :
    List VertexID → (S × StringGraph) × Bool → Option ((S × StringGraph) × Bool)
  | [], acc => some acc
  | v :: rest, acc =>
    match vis.visit acc.1.1 acc.1.2 v with
    | none => none
    | some r => visitVerticesChecked vis rest (r.1, r.2 || acc.2)

/-- Modelled from the spec: the visitor driver `StringGraph::visit`, which is
missing from the sources, for such a visitor: `previsit`, then `visit` on every
vertex in the iteration order, then `postvisit`. -/
def StringGraph.visitInOrderChecked {S : Type} (g : StringGraph) (order : List VertexID)
    (vis : SGCheckedVisitor S) (s : S) : Option ((S × StringGraph) × Bool) :=
  match vis.previsit s g with
  | none => none
  | some sg =>
    match visitVerticesChecked vis order (sg, false) with
    | none => none
    | some r =>
      match vis.postvisit r.1.1 r.1.2 with
      | none => none
      | some sg2 => some (sg2, r.2)

/-- The driver with the iteration order of the graph, for such a visitor. -/
def StringGraph.visitChecked {S : Type} (g : StringGraph) (vis : SGCheckedVisitor S) (s : S) :
    Option ((S × StringGraph) × Bool) :=
  g.visitInOrderChecked (g.vertices.map (fun v => v.id)) vis s

/-! ## SGTransitiveReductionVisitor -/

/-- The constant `FUZZ` of `SGTransitiveReductionVisitor::visit`. -/
def FUZZ : Nat := 10

/-- The counters of `SGTransitiveReductionVisitor`. -/
structure SGTransitiveReductionVisitor where
  marked_verts : Nat
  marked_edges : Nat
deriving DecidableEq

namespace SGTransitiveReductionVisitor

/-- The state of one call of `visit`: the graph, the counter `marked_edges`
and the local `trans_count`. -/
structure MarkState where
  graph : StringGraph
  marked_edges : Nat
  trans_count : Nat

/-- The assertion on containments, `setColors(GC_WHITE)`, the sort of the
adjacency lists and the reset of the counters. -/
def previsit (_s : SGTransitiveReductionVisitor) (g : StringGraph) :
    Option (SGTransitiveReductionVisitor × StringGraph) :=
  if g.hasContainment then none
  else some ({ marked_verts := 0, marked_edges := 0 },
    (g.setColors GC_WHITE).sortVertexAdjListsByLen)

/-- The first loop of a direction: the end of every edge becomes GRAY. -/
def colorEnds (edges : List Edge) (g : StringGraph) : StringGraph :=
  edges.foldl (fun g e => g.setVertexColor e.end_ GC_GRAY) g

/-- The inner loop of stage 1 over `w_edges`, with its `break`. -/
def stage1Inner (longestLen vwLen : Nat) : List Edge → StringGraph → StringGraph
  | [], g => g
  | wx :: rest, g =>
    if sizeAdd vwLen wx.seqLen ≤ longestLen then
      stage1Inner longestLen vwLen rest
        (if g.vertexColor wx.end_ = GC_GRAY then g.setVertexColor wx.end_ GC_BLACK else g)
    else g

/-- One iteration of the outer loop of stage 1. -/
def stage1Step (longestLen : Nat) (g : StringGraph) (vw : Edge) : StringGraph :=
  if g.vertexColor vw.end_ = GC_GRAY then
    stage1Inner longestLen vw.seqLen (g.getEdges vw.end_ vw.getTwinDir.flip) g
  else g

/-- Stage 1. -/
def stage1 (longestLen : Nat) (edges : List Edge) (g : StringGraph) : StringGraph :=
  edges.foldl (stage1Step longestLen) g

/-- The inner loop of stage 2 over `w_edges` from index `j`, with its `break`. -/
def stage2Inner : Nat → List Edge → StringGraph → StringGraph
  | _, [], g => g
  | j, wx :: rest, g =>
    if wx.seqLen < FUZZ ∨ j = 0 then
      stage2Inner (j + 1) rest
        (if g.vertexColor wx.end_ = GC_GRAY then g.setVertexColor wx.end_ GC_BLACK else g)
    else g

/-- One iteration of the outer loop of stage 2. -/
def stage2Step (g : StringGraph) (vw : Edge) : StringGraph :=
  stage2Inner 0 (g.getEdges vw.end_ vw.getTwinDir.flip) g

/-- Stage 2. -/
def stage2 (edges : List Edge) (g : StringGraph) : StringGraph :=
  edges.foldl stage2Step g

/-- One iteration of the last loop of a direction: an edge whose end is BLACK
is marked BLACK together with its twin, then the end becomes WHITE. -/
def markStep (st : MarkState) (e : Edge) : MarkState :=
  let st1 : MarkState :=
    if st.graph.vertexColor e.end_ = GC_BLACK then
      if st.graph.edgeColor e.id ≠ GC_BLACK ∨ st.graph.edgeColor e.twin ≠ GC_BLACK then
        { graph := (st.graph.setEdgeColor e.id GC_BLACK).setEdgeColor e.twin GC_BLACK,
          marked_edges := st.marked_edges + 2,
          trans_count := st.trans_count + 1 }
      else st
    else st
  { st1 with graph := st1.graph.setVertexColor e.end_ GC_WHITE }

/-- The last loop of a direction. -/
def markEdges (edges : List Edge) (st : MarkState) : MarkState :=
  edges.foldl markStep st

/-- The body of the loop over the two directions. -/
def visitDir (v : VertexID) (st : MarkState) (dir : EdgeDir) : MarkState :=
  let edges := st.graph.getEdges v dir
  match edges.getLast? with
  | none => st
  | some pLongestEdge =>
    let longestLen := sizeAdd pLongestEdge.seqLen FUZZ
    let g1 := colorEnds edges st.graph
    let g2 := stage1 longestLen edges g1
    let g3 := stage2 edges g2
    markEdges edges { st with graph := g3 }

/-- The function `SGTransitiveReductionVisitor::visit`. -/
def visit (s : SGTransitiveReductionVisitor) (g : StringGraph) (v : VertexID) :
    (SGTransitiveReductionVisitor × StringGraph) × Bool :=
  let st := EDGE_DIRECTIONS.foldl (visitDir v)
    { graph := g, marked_edges := s.marked_edges, trans_count := 0 }
  (({ marked_verts := if st.trans_count > 0 then s.marked_verts + 1 else s.marked_verts,
      marked_edges := st.marked_edges }, st.graph), false)

/-- The function `SGTransitiveReductionVisitor::postvisit`, with its assertion
on the colours. -/
def postvisit (s : SGTransitiveReductionVisitor) (g : StringGraph) :
    Option (SGTransitiveReductionVisitor × StringGraph) :=
  let g1 := (g.sweepEdges GC_BLACK).setTransitiveFlag false
  if g1.checkColors GC_WHITE then some (s, g1) else none

/-- The visitor object. -/
def visitor : SGVisitor SGTransitiveReductionVisitor :=
  { previsit := previsit, visit := visit, postvisit := postvisit }

/-- A full pass in the iteration order of the graph; the result is the graph. -/
def run (g : StringGraph) : Option StringGraph :=
  (g.visit visitor { marked_verts := 0, marked_edges := 0 }).map (fun r => r.1.2)

/-- A full pass, with the counters. -/
def runCounting (g : StringGraph) : Option (SGTransitiveReductionVisitor × StringGraph) :=
  (g.visit visitor { marked_verts := 0, marked_edges := 0 }).map (fun r => r.1)

end SGTransitiveReductionVisitor

/-! ## SGContainRemoveVisitor -/

/-- The visitor has no data members; `calls` records the arguments
`(pRemodelVert, pRemodelEdge)` of the calls of
`SGAlgorithms::remodelVertexForExcision2`, in call order. -/
structure SGContainRemoveVisitor where
  calls : List (VertexID × EdgeID)
deriving DecidableEq

namespace SGContainRemoveVisitor

/-- The function `SGContainRemoveVisitor::previsit`. -/
def previsit (s : SGContainRemoveVisitor) (g : StringGraph) :
    Option (SGContainRemoveVisitor × StringGraph) :=
  some (s, (g.setColors GC_WHITE).setContainmentFlag false)

/-- The loop that calls `remodelVertexForExcision2` for every neighbour. -/
def remodelLoop (remodel : StringGraph → VertexID → EdgeID → StringGraph)
    (neighborEdges : List Edge) (sg : SGContainRemoveVisitor × StringGraph) :
    SGContainRemoveVisitor × StringGraph :=
  neighborEdges.foldl
    (fun sg e => ({ calls := sg.1.calls ++ [(e.end_, e.twin)] }, remodel sg.2 e.end_ e.twin)) sg

/-- The loop that deletes every neighbour edge together with its twin.  Every
iteration reads the edge object `neighborEdges[j]`, for its end and its twin;
the read of an object that an earlier iteration has destroyed is undefined
behaviour, `none`. -/
def deleteLoop (v : VertexID) : List Edge → StringGraph → Option StringGraph
  | [], g => some g
  | e :: neighborEdges, g =>
    if e ∈ g.edges then
      deleteLoop v neighborEdges ((g.deleteEdge e.end_ e.twin).deleteEdge v e.id)
    else none

/-- The function `SGContainRemoveVisitor::visit`; `remodel` stands for the
external `SGAlgorithms::remodelVertexForExcision2`. -/
def visit (remodel : StringGraph → VertexID → EdgeID → StringGraph)
    (s : SGContainRemoveVisitor) (g : StringGraph) (v : VertexID) :
    Option ((SGContainRemoveVisitor × StringGraph) × Bool) :=
  if g.isContained v = false then some ((s, g), false)
  else
    let neighborEdges := g.getAllEdges v
    if (!g.hasTransitive && !g.exactMode) = true then
      let sorted := sortByLen neighborEdges
      let sg := remodelLoop remodel sorted (s, g)
      (deleteLoop v sorted sg.2).map (fun g2 => ((sg.1, g2.setVertexColor v GC_BLACK), false))
    else
      (deleteLoop v neighborEdges g).map (fun g2 => ((s, g2.setVertexColor v GC_BLACK), false))

/-- The function `SGContainRemoveVisitor::postvisit`. -/
def postvisit (s : SGContainRemoveVisitor) (g : StringGraph) :
    Option (SGContainRemoveVisitor × StringGraph) :=
  some (s, g.sweepVertices GC_BLACK)

/-- The visitor object. -/
def visitor (remodel : StringGraph → VertexID → EdgeID → StringGraph) :
    SGCheckedVisitor SGContainRemoveVisitor :=
  { previsit := previsit, visit := visit remodel, postvisit := postvisit }

/-- A full pass in the iteration order of the graph; the result is the graph. -/
def run (remodel : StringGraph → VertexID → EdgeID → StringGraph) (g : StringGraph) :
    Option StringGraph :=
  (g.visitChecked (visitor remodel) { calls := [] }).map (fun r => r.1.2)

end SGContainRemoveVisitor

/-! ## SGTrimVisitor -/

/-- The counters of `SGTrimVisitor`. -/
structure SGTrimVisitor where
  num_island : Nat
  num_terminal : Nat
  num_contig : Nat
deriving DecidableEq

namespace SGTrimVisitor

/-- The function `SGTrimVisitor::previsit`. -/
def previsit (_s : SGTrimVisitor) (g : StringGraph) : Option (SGTrimVisitor × StringGraph) :=
  some ({ num_island := 0, num_terminal := 0, num_contig := 0 }, g.setColors GC_WHITE)

/-- The body of the loop over the two directions: the new graph and the value
stored in `noext[idx]`. -/
def visitDir (g : StringGraph) (v : VertexID) (dir : EdgeDir) : StringGraph × Bool :=
  if g.countEdges v dir = 0 then (g.setVertexColor v GC_BLACK, true) else (g, false)

/-- The function `SGTrimVisitor::visit`. -/
def visit (s : SGTrimVisitor) (g : StringGraph) (v : VertexID) :
    (SGTrimVisitor × StringGraph) × Bool :=
  let r0 := visitDir g v ED_SENSE
  let r1 := visitDir r0.1 v ED_ANTISENSE
  let s1 : SGTrimVisitor :=
    if (r0.2 && r1.2) = true then { s with num_island := s.num_island + 1 }
    else if (r0.2 || r1.2) = true then { s with num_terminal := s.num_terminal + 1 }
    else { s with num_contig := s.num_contig + 1 }
  ((s1, r1.1), r0.2 || r1.2)

/-- The function `SGTrimVisitor::postvisit`. -/
def postvisit (s : SGTrimVisitor) (g : StringGraph) : Option (SGTrimVisitor × StringGraph) :=
  some (s, g.sweepVertices GC_BLACK)

/-- The visitor object. -/
def visitor : SGVisitor SGTrimVisitor :=
  { previsit := previsit, visit := visit, postvisit := postvisit }

/-- A full pass visiting the vertices in the given order; the result is the graph. -/
def runInOrder (order : List VertexID) (g : StringGraph) : Option StringGraph :=
  (g.visitInOrder order visitor { num_island := 0, num_terminal := 0, num_contig := 0 }).map
    (fun r => r.1.2)

end SGTrimVisitor

/-! ## SGSmallRepeatResolveVisitor -/

/-- The data member `m_minDiff` of `SGSmallRepeatResolveVisitor`, an `int`. -/
structure SGSmallRepeatResolveVisitor where
  m_minDiff : Int
deriving DecidableEq

namespace SGSmallRepeatResolveVisitor

/-- The function `SGSmallRepeatResolveVisitor::previsit`. -/
def previsit (s : SGSmallRepeatResolveVisitor) (g : StringGraph) :
    Option (SGSmallRepeatResolveVisitor × StringGraph) :=
  some (s, g)

/-- The edge object behind the pointer `pXY->getTwin()`: the edge of the end
vertex whose identity is the twin identity. -/
def getTwin (g : StringGraph) (e : Edge) : Option Edge :=
  g.edges.find? (fun t => decide (t.start = e.end_ ∧ t.id = e.twin))

/-- The loop over `y_edges` that computes `y_longest_len`, skipping `pYX`. -/
def yLongestLen (pYX : EdgeID) : List Edge → Nat → Nat
  | [], acc => acc
  | pYZ :: rest, acc =>
    if pYZ.id = pYX then yLongestLen pYX rest acc
    else if pYZ.overlap.overlapLength > acc then yLongestLen pYX rest pYZ.overlap.overlapLength
    else yLongestLen pYX rest acc

/-- The body of the loop over the two directions; the state is the graph with
the local `changed`.  A twin pointer that leads to no edge of the end vertex is
excluded by the twin invariant of the graph; the body then leaves the state as
it is. -/
def visitDir (minDiff : Int) (x : VertexID) (st : StringGraph × Bool) (dir : EdgeDir) :
    StringGraph × Bool :=
  let g := st.1
  let x_edges := g.getEdges x dir
  if x_edges.length < 2 then st
  else
    match x_edges.getLast?, x_edges.head? with
    | some pXY, some pFront =>
      let xy_len := pXY.overlap.overlapLength
      let x_longest_len := pFront.overlap.overlapLength
      if xy_len = x_longest_len then st
      else
        match getTwin g pXY with
        | none => st
        | some pYX =>
          let y_edges := g.getEdges pXY.end_ pYX.dir
          let yx_len := pYX.overlap.overlapLength
          let y_longest_len := yLongestLen pYX.id y_edges 0
          if y_longest_len > yx_len then
            let x_diff := sizeToInt (sizeSub x_longest_len xy_len)
            let y_diff := sizeToInt (sizeSub y_longest_len yx_len)
            if x_diff > minDiff ∧ y_diff > minDiff then
              ((g.deleteEdge x pXY.id).deleteEdge pXY.end_ pYX.id, true)
            else st
          else st
    | _, _ => st

/-- The function `SGSmallRepeatResolveVisitor::visit`. -/
def visit (s : SGSmallRepeatResolveVisitor) (g : StringGraph) (x : VertexID) :
    (SGSmallRepeatResolveVisitor × StringGraph) × Bool :=
  let st := EDGE_DIRECTIONS.foldl (visitDir s.m_minDiff x) (g, false)
  ((s, st.1), st.2)

/-- The function `SGSmallRepeatResolveVisitor::postvisit`. -/
def postvisit (s : SGSmallRepeatResolveVisitor) (g : StringGraph) :
    Option (SGSmallRepeatResolveVisitor × StringGraph) :=
  some (s, g)

/-- The visitor object. -/
def visitor : SGVisitor SGSmallRepeatResolveVisitor :=
  { previsit := previsit, visit := visit, postvisit := postvisit }

/-- A full pass visiting the vertices in the given order; the result is the graph. -/
def runInOrder (minDiff : Int) (order : List VertexID) (g : StringGraph) : Option StringGraph :=
  (g.visitInOrder order visitor { m_minDiff := minDiff }).map (fun r => r.1.2)

end SGSmallRepeatResolveVisitor

/-! ## SGBubbleVisitor -/

/-- The counter of `SGBubbleVisitor`. -/
structure SGBubbleVisitor where
  num_bubbles : Nat
deriving DecidableEq

namespace SGBubbleVisitor

/-- The function `SGBubbleVisitor::previsit`. -/
def previsit (_s : SGBubbleVisitor) (g : StringGraph) : Option (SGBubbleVisitor × StringGraph) :=
  some ({ num_bubbles := 0 }, g.setColors GC_WHITE)

/-- The loop "check the vertices": `true` when it reaches a `return false`. -/
def checkAbort (g : StringGraph) : List Edge → Bool
  | [] => false
  | pVWEdge :: rest =>
    let wEdges := g.getEdges pVWEdge.end_ pVWEdge.getTwinDir.flip
    if g.vertexColor pVWEdge.end_ = GC_RED then true
    else
      match wEdges with
      | [pBubbleEdge] =>
        if g.vertexColor pBubbleEdge.end_ = GC_RED then true else checkAbort g rest
      | _ => checkAbort g rest

/-- One iteration of the loop "mark the vertices": the graph and `bubble_found`. -/
def markStep (st : StringGraph × Bool) (pVWEdge : Edge) : StringGraph × Bool :=
  match st.1.getEdges pVWEdge.end_ pVWEdge.getTwinDir.flip with
  | [pBubbleEdge] =>
    if st.1.vertexColor pBubbleEdge.end_ = GC_BLACK then
      (st.1.setVertexColor pVWEdge.end_ GC_RED, true)
    else
      ((st.1.setVertexColor pBubbleEdge.end_ GC_BLACK).setVertexColor pVWEdge.end_ GC_BLUE, st.2)
  | _ => st

/-- One iteration of the loop "unmark vertices". -/
def unmarkStep (g : StringGraph) (pVWEdge : Edge) : StringGraph :=
  let g1 :=
    match g.getEdges pVWEdge.end_ pVWEdge.getTwinDir.flip with
    | [pBubbleEdge] => g.setVertexColor pBubbleEdge.end_ GC_WHITE
    | _ => g
  if g1.vertexColor pVWEdge.end_ = GC_BLUE then g1.setVertexColor pVWEdge.end_ GC_WHITE else g1

/-- The state of one call of `visit`. -/
structure VisitState where
  graph : StringGraph
  num_bubbles : Nat
  bubble_found : Bool

/-- The loop over the directions; the second component is the returned value. -/
def visitDirs (v : VertexID) : List EdgeDir → VisitState → VisitState × Bool
  | [], st => (st, st.bubble_found)
  | dir :: rest, st =>
    let edges := st.graph.getEdges v dir
    if edges.length > 1 then
      if checkAbort st.graph edges = true then (st, false)
      else
        let m := edges.foldl markStep (st.graph, st.bubble_found)
        let g2 := edges.foldl unmarkStep m.1
        visitDirs v rest
          { graph := g2,
            num_bubbles := if m.2 = true then st.num_bubbles + 1 else st.num_bubbles,
            bubble_found := m.2 }
    else visitDirs v rest st

/-- The function `SGBubbleVisitor::visit`. -/
def visit (s : SGBubbleVisitor) (g : StringGraph) (v : VertexID) :
    (SGBubbleVisitor × StringGraph) × Bool :=
  let r := visitDirs v EDGE_DIRECTIONS
    { graph := g, num_bubbles := s.num_bubbles, bubble_found := false }
  (({ num_bubbles := r.1.num_bubbles }, r.1.graph), r.2)

/-- The function `SGBubbleVisitor::postvisit`, with its assertion on the
colours. -/
def postvisit (s : SGBubbleVisitor) (g : StringGraph) : Option (SGBubbleVisitor × StringGraph) :=
  let g1 := g.sweepVertices GC_RED
  if g1.checkColors GC_WHITE then some (s, g1) else none

/-- The visitor object. -/
def visitor : SGVisitor SGBubbleVisitor :=
  { previsit := previsit, visit := visit, postvisit := postvisit }

/-- A full pass visiting the vertices in the given order; the result is the graph. -/
def runInOrder (order : List VertexID) (g : StringGraph) : Option StringGraph :=
  (g.visitInOrder order visitor { num_bubbles := 0 }).map (fun r => r.1.2)

end SGBubbleVisitor

/-! ## SGIdenticalRemoveVisitor -/

/-- The vertex object behind a vertex pointer: the vertex of the table with
this identifier. -/
def StringGraph.getVertex (g : StringGraph) (v : VertexID) : Option Vertex :=
  g.vertices.find? (fun x => decide (x.id = v))

/-- The counter of `SGIdenticalRemoveVisitor`. -/
structure SGIdenticalRemoveVisitor where
  count : Nat
deriving DecidableEq

namespace SGIdenticalRemoveVisitor

/-- The function `SGIdenticalRemoveVisitor::previsit`. -/
def previsit (_s : SGIdenticalRemoveVisitor) (g : StringGraph) :
    Option (SGIdenticalRemoveVisitor × StringGraph) :=
  some ({ count := 0 }, g.setColors GC_WHITE)

/-- The loop over `neighborEdges`: `true` when it reaches the `break`, that is
when it finds an identical neighbour.  An end pointer that leads to no vertex
of the table is excluded by the invariants of the graph; the loop then goes on
to the next edge. -/
def findIdentical (g : StringGraph) (pVertex : Vertex) : List Edge → Bool
  | [] => false
  | pEdge :: rest =>
    match g.getVertex pEdge.end_ with
    | none => findIdentical g pVertex rest
    | some pOther =>
      if pVertex.seq.length ≠ pOther.seq.length then findIdentical g pVertex rest
      else if (!pEdge.overlap.isContainment || pEdge.overlap.containedIdx != 0) = true then
        findIdentical g pVertex rest
      else if pVertex.seq = pOther.seq then true
      else findIdentical g pVertex rest

/-- The function `SGIdenticalRemoveVisitor::visit`. -/
def visit (s : SGIdenticalRemoveVisitor) (g : StringGraph) (v : VertexID) :
    (SGIdenticalRemoveVisitor × StringGraph) × Bool :=
  match g.getVertex v with
  | none => ((s, g), false)
  | some pVertex =>
    if pVertex.contained = false then ((s, g), false)
    else if findIdentical g pVertex (g.getAllEdges v) = true then
      (({ count := s.count + 1 }, g.setVertexColor v GC_BLACK), false)
    else ((s, g), false)

/-- The function `SGIdenticalRemoveVisitor::postvisit`. -/
def postvisit (s : SGIdenticalRemoveVisitor) (g : StringGraph) :
    Option (SGIdenticalRemoveVisitor × StringGraph) :=
  some (s, g.sweepVertices GC_BLACK)

/-- The visitor object. -/
def visitor : SGVisitor SGIdenticalRemoveVisitor :=
  { previsit := previsit, visit := visit, postvisit := postvisit }

/-- A full pass visiting the vertices in the given order; the result is the graph. -/
def runInOrder (order : List VertexID) (g : StringGraph) : Option StringGraph :=
  (g.visitInOrder order visitor { count := 0 }).map (fun r => r.1.2)

end SGIdenticalRemoveVisitor

/-! ## SGIslandVisitor -/

/-- The visitor `SGIslandVisitor`, which has no data members. -/
structure SGIslandVisitor where
deriving DecidableEq

namespace SGIslandVisitor

/-- The function `SGIslandVisitor::previsit`. -/
def previsit (s : SGIslandVisitor) (g : StringGraph) : Option (SGIslandVisitor × StringGraph) :=
  some (s, g.setColors GC_WHITE)

/-- The function `SGIslandVisitor::visit`. -/
def visit (s : SGIslandVisitor) (g : StringGraph) (v : VertexID) :
    (SGIslandVisitor × StringGraph) × Bool :=
  if g.countAllEdges v = 0 then ((s, g.setVertexColor v GC_BLACK), true)
  else ((s, g), false)

/-- The function `SGIslandVisitor::postvisit`. -/
def postvisit (s : SGIslandVisitor) (g : StringGraph) : Option (SGIslandVisitor × StringGraph) :=
  some (s, g.sweepVertices GC_BLACK)

/-- The visitor object. -/
def visitor : SGVisitor SGIslandVisitor :=
  { previsit := previsit, visit := visit, postvisit := postvisit }

/-- A full pass visiting the vertices in the given order; the result is the
visitor, the graph and the flag accumulated by the driver. -/
def runInOrder (order : List VertexID) (g : StringGraph) :
    Option ((SGIslandVisitor × StringGraph) × Bool) :=
  g.visitInOrder order visitor {}

end SGIslandVisitor

/-! ## SGBubbleEdgeVisitor -/

/-- An edge descriptor (`EdgeDesc`): the end vertex, the direction and the
relative strand. -/
structure EdgeDesc where
  pVertex : VertexID
  dir : EdgeDir
  comp : EdgeComp
deriving DecidableEq

/-- Modelled from the spec: `Edge::getDesc`, which is missing from the sources:
the descriptor (end vertex, direction, strand) of the edge. -/
def Edge.getDesc (e : Edge) : EdgeDesc :=
  { pVertex := e.end_, dir := e.dir, comp := e.comp }

/-- Modelled from the spec: `EdgeDesc::getTransitiveDir`, which is missing from
the sources: the direction in which a path continues at the end vertex, as for
`Edge::getTransitiveDir`. -/
def EdgeDesc.getTransitiveDir (ed : EdgeDesc) : EdgeDir :=
  match ed.comp with
  | EC_SAME => ed.dir
  | EC_REVERSE => ed.dir.flip

/-- An element of the exploration queue (`ExploreElement`). -/
structure ExploreElement where
  ed : EdgeDesc
  ovr : Overlap
deriving DecidableEq

/-- The functions of `SGAlgorithms` that `SGBubbleEdgeVisitor::visit` calls;
they are defined outside the visitor file. -/
structure OverlapAlgebra where
  hasTransitiveOverlap : Overlap → Overlap → Bool
  inferTransitiveOverlap : Overlap → Overlap → Overlap
  overlapToEdgeDesc : VertexID → Overlap → EdgeDesc

/-- Modelled from the spec: `Vertex::deleteEdges`, which is missing from the
sources: every edge of the vertex is destroyed together with its twin. -/
def StringGraph.deleteEdges (g : StringGraph) (v : VertexID) : StringGraph :=
  (g.getAllEdges v).foldl (fun h e => (h.deleteEdge e.end_ e.twin).deleteEdge v e.id) g

/-- The counter of `SGBubbleEdgeVisitor`. -/
structure SGBubbleEdgeVisitor where
  num_bubbles : Nat
deriving DecidableEq

namespace SGBubbleEdgeVisitor

/-- The function `SGBubbleEdgeVisitor::previsit`. -/
def previsit (_s : SGBubbleEdgeVisitor) (g : StringGraph) :
    Option (SGBubbleEdgeVisitor × StringGraph) :=
  some ({ num_bubbles := 0 }, g.setColors GC_WHITE)

/-- The iterator loop over `targetList` that erases every entry equal to the
vertex. -/
def eraseTarget (v : VertexID) (targetList : List VertexID) : List VertexID :=
  targetList.filter (fun t => decide (t ≠ v))

/-- The loop "enqueue the neighbors of pY": the queue after the loop. -/
def enqueueNeighbors (alg : OverlapAlgebra) (ovrXY : Overlap) (edges : List Edge)
    (queue : List ExploreElement) : List ExploreElement :=
  edges.foldl (fun q pEdge =>
    if alg.hasTransitiveOverlap ovrXY pEdge.overlap = true then
      q ++ [{ ed := alg.overlapToEdgeDesc pEdge.end_
                (alg.inferTransitiveOverlap ovrXY pEdge.overlap),
              ovr := alg.inferTransitiveOverlap ovrXY pEdge.overlap }]
    else q) queue

/-- The exploration loop `while(!queue.empty() && numSteps-- > 0)`: the target
list when the loop is left. -/
def explore (alg : OverlapAlgebra) (g : StringGraph) :
    Nat → List ExploreElement → List VertexID → List VertexID
  | 0, _, targetList => targetList
  | _ + 1, [], targetList => targetList
  | numSteps + 1, ee :: queue, targetList =>
    if (eraseTarget ee.ed.pVertex targetList).isEmpty = true then
      eraseTarget ee.ed.pVertex targetList
    else
      explore alg g numSteps
        (enqueueNeighbors alg ee.ovr (g.getEdges ee.ed.pVertex ee.ed.getTransitiveDir) queue)
        (eraseTarget ee.ed.pVertex targetList)

/-- The state of one call of `visit`. -/
structure VisitState where
  graph : StringGraph
  num_bubbles : Nat
  bubble_found : Bool

/-- The part of the loop body after `pXY` and `pXZ` are chosen: the target
list, the exploration from `pXY` with 100 steps, and the removal of the edges
of the end of `pXZ` when the target list is empty.  The call
`pXZ->getEnd()->deleteEdges()` destroys the edges of that vertex together with
their twins; the next statement, `pXZ->getEnd()->setColor(GC_RED)`, reads the
edge object `pXZ` again, which is undefined behaviour, `none`, when the call
has destroyed it. -/
def collapse (alg : OverlapAlgebra) (st : VisitState) (pXY pXZ : Edge) : Option VisitState :=
  let targetList :=
    (st.graph.getEdges pXZ.end_ pXZ.getTransitiveDir).map (fun e => e.end_)
  let remaining :=
    explore alg st.graph 100 [{ ed := pXY.getDesc, ovr := pXY.overlap }] targetList
  if remaining.isEmpty = true then
    if pXZ ∈ (st.graph.deleteEdges pXZ.end_).edges then
      some { graph := (st.graph.deleteEdges pXZ.end_).setVertexColor pXZ.end_ GC_RED,
             num_bubbles := st.num_bubbles + 1,
             bubble_found := true }
    else none
  else some st

/-- The loop over the directions, which the `break` of the equal-length case
leaves. -/
def visitDirs (alg : OverlapAlgebra) (x : VertexID) :
    List EdgeDir → VisitState → Option VisitState
  | [], st => some st
  | dir :: rest, st =>
    match st.graph.getEdges x dir with
    | [e0, e1] =>
      if e0.overlap.overlapLength > e1.overlap.overlapLength then
        match collapse alg st e0 e1 with
        | none => none
        | some st1 => visitDirs alg x rest st1
      else if e1.overlap.overlapLength > e0.overlap.overlapLength then
        match collapse alg st e1 e0 with
        | none => none
        | some st1 => visitDirs alg x rest st1
      else some st
    | _ => visitDirs alg x rest st

/-- The function `SGBubbleEdgeVisitor::visit`. -/
def visit (alg : OverlapAlgebra) (s : SGBubbleEdgeVisitor) (g : StringGraph) (x : VertexID) :
    Option ((SGBubbleEdgeVisitor × StringGraph) × Bool) :=
  match visitDirs alg x EDGE_DIRECTIONS
    { graph := g, num_bubbles := s.num_bubbles, bubble_found := false } with
  | none => none
  | some r => some (({ num_bubbles := r.num_bubbles }, r.graph), r.bubble_found)

/-- The function `SGBubbleEdgeVisitor::postvisit`, with its assertion on the
colours. -/
def postvisit (s : SGBubbleEdgeVisitor) (g : StringGraph) :
    Option (SGBubbleEdgeVisitor × StringGraph) :=
  let g1 := g.sweepVertices GC_RED
  if g1.checkColors GC_WHITE then some (s, g1) else none

/-- The visitor object. -/
def visitor (alg : OverlapAlgebra) : SGCheckedVisitor SGBubbleEdgeVisitor :=
  { previsit := previsit, visit := visit alg, postvisit := postvisit }

end SGBubbleEdgeVisitor

/-! ## SGRemodelVisitor -/

/-- A map from edge descriptors to overlaps (`SGAlgorithms::EdgeDescOverlapMap`):
the entries in iteration order. -/
abbrev EdgeDescOverlapMap := List (EdgeDesc × Overlap)

/-- The functions defined outside the visitor file that
`SGRemodelVisitor::visit` calls.  The two maps are the results of the
`CompleteOverlapSet` that `visit` builds for the vertex from the error rate
`m_remodelER` of the visitor and the minimal overlap of the graph. -/
structure RemodelAlgebra where
  /-- Value of `getOverlapMap()` after `computeIrreducible(NULL, &containMap)`. -/
  overlapMap : StringGraph → VertexID → EdgeDescOverlapMap
  /-- The map `containMap` after `computeIrreducible(NULL, &containMap)`. -/
  containMap : StringGraph → VertexID → EdgeDescOverlapMap
  createEdgesFromOverlap : StringGraph → Overlap → StringGraph
  updateContainFlags : StringGraph → VertexID → EdgeDescOverlapMap → StringGraph

/-- The visitor `SGRemodelVisitor`.  Its data member `m_remodelER` is only
handed on to functions defined outside the visitor file; `calls` records the
overlap arguments of the calls of `SGAlgorithms::createEdgesFromOverlap`, in
call order. -/
structure SGRemodelVisitor where
  calls : List Overlap
deriving DecidableEq

namespace SGRemodelVisitor

/-- One iteration of the loop over the existing edges: an edge whose
descriptor is a key of the map erases that entry; any other edge is coloured
BLACK together with its twin. -/
def matchStep (st : EdgeDescOverlapMap × StringGraph) (e : Edge) :
    EdgeDescOverlapMap × StringGraph :=
  match st.1.find? (fun kv => decide (kv.1 = e.getDesc)) with
  | some _ => (st.1.eraseP (fun kv => decide (kv.1 = e.getDesc)), st.2)
  | none => (st.1, (st.2.setEdgeColor e.id GC_BLACK).setEdgeColor e.twin GC_BLACK)

/-- The loop over the remaining entries of the map, which calls
`createEdgesFromOverlap` for each of them. -/
def createLoop (alg : RemodelAlgebra) (remaining : EdgeDescOverlapMap)
    (sg : SGRemodelVisitor × StringGraph) : SGRemodelVisitor × StringGraph :=
  remaining.foldl
    (fun sg kv => ({ calls := sg.1.calls ++ [kv.2] }, alg.createEdgesFromOverlap sg.2 kv.2)) sg

/-- The function `SGRemodelVisitor::visit`. -/
def visit (alg : RemodelAlgebra) (s : SGRemodelVisitor) (g : StringGraph) (v : VertexID) :
    (SGRemodelVisitor × StringGraph) × Bool :=
  let containMap := alg.containMap g v
  let m := (g.getAllEdges v).foldl matchStep (alg.overlapMap g v, g)
  let sg := createLoop alg m.1 (s, m.2)
  ((sg.1, alg.updateContainFlags sg.2 v containMap), !m.1.isEmpty)

end SGRemodelVisitor

/-! ## SGBreakWriteVisitor -/

namespace SGBreakWriteVisitor

/-- The function `SGBreakWriteVisitor::calculateOverlapLengthDifference`; the
overlap lengths and their difference are values of type `int`. -/
def calculateOverlapLengthDifference (g : StringGraph) (v : VertexID) (dir : EdgeDir) : Int :=
  let edges := g.getEdges v dir
  if edges.length < 2 then 0
  else
    match edges[edges.length - 1]?, edges[edges.length - 2]? with
    | some pShortest, some pSecond =>
      (pSecond.overlap.overlapLength : Int) - (pShortest.overlap.overlapLength : Int)
    | _, _ => 0

end SGBreakWriteVisitor

/-! ## SGDuplicateVisitor -/

/-- The loop of `markDuplicateEdges` over the edges of a vertex: `seen` holds
the descriptors of the edges met so far; an edge whose descriptor has been met
receives the colour.  The state is the graph and whether an edge was
coloured. -/
def markDuplicatesFrom (c : GraphColor) :
    List EdgeDesc → List Edge → StringGraph × Bool → StringGraph × Bool
  | _, [], st => st
  | seen, e :: rest, st =>
    if e.getDesc ∈ seen then markDuplicatesFrom c seen rest (st.1.setEdgeColor e.id c, true)
    else markDuplicatesFrom c (e.getDesc :: seen) rest st

/-- Modelled from the spec: `Vertex::markDuplicateEdges`, which is missing from
the sources: of the edges of the vertex with one edge descriptor one is kept,
the first, and every further one receives the colour; the value tells whether
there was a further one. -/
def StringGraph.markDuplicateEdges (g : StringGraph) (v : VertexID) (c : GraphColor) :
    StringGraph × Bool :=
  markDuplicatesFrom c [] (g.getAllEdges v) (g, false)

/-- The data member of `SGDuplicateVisitor`. -/
structure SGDuplicateVisitor where
  m_hasDuplicate : Bool
deriving DecidableEq

namespace SGDuplicateVisitor

/-- The function `SGDuplicateVisitor::previsit`, with its assertion on the
colours.  `StringGraph::checkColors` is missing from the sources and is a
parameter: `StringGraph.checkColors` covers the vertices and the edges,
`StringGraph.checkVertexColors` the vertices only. -/
def previsit (checkColors : StringGraph → GraphColor → Bool) (_s : SGDuplicateVisitor)
    (g : StringGraph) : Option (SGDuplicateVisitor × StringGraph) :=
  if checkColors g GC_WHITE = true then some ({ m_hasDuplicate := false }, g) else none

/-- The function `SGDuplicateVisitor::visit`. -/
def visit (s : SGDuplicateVisitor) (g : StringGraph) (v : VertexID) :
    (SGDuplicateVisitor × StringGraph) × Bool :=
  (({ m_hasDuplicate := (g.markDuplicateEdges v GC_RED).2 || s.m_hasDuplicate },
    (g.markDuplicateEdges v GC_RED).1), false)

/-- The function `SGDuplicateVisitor::postvisit`: the assertion on the
colours, then the sweep of the RED edges when a duplicate was found. -/
def postvisit (checkColors : StringGraph → GraphColor → Bool) (s : SGDuplicateVisitor)
    (g : StringGraph) : Option (SGDuplicateVisitor × StringGraph) :=
  if checkColors g GC_WHITE = true then
    some (s, if s.m_hasDuplicate = true then g.sweepEdges GC_RED else g)
  else none

/-- The visitor object. -/
def visitor (checkColors : StringGraph → GraphColor → Bool) : SGVisitor SGDuplicateVisitor :=
  { previsit := previsit checkColors, visit := visit, postvisit := postvisit checkColors }

/-- A full pass visiting the vertices in the given order; the result is the graph. -/
def runInOrder (checkColors : StringGraph → GraphColor → Bool) (order : List VertexID)
    (g : StringGraph) : Option StringGraph :=
  (g.visitInOrder order (visitor checkColors) { m_hasDuplicate := false }).map (fun r => r.1.2)

end SGDuplicateVisitor

/-! ## SGEdgeStatsVisitor -/

/-- A candidate missing overlap (`SGEdgeStatsVisitor::Candidate`): the fields
`pEndpoint` and `ovr` that the visitor reads, in the order of the constructor
call `Candidate(pYZ->getEnd(), ovr_xz)`. -/
structure Candidate where
  pEndpoint : VertexID
  ovr : Overlap
deriving DecidableEq

namespace SGEdgeStatsVisitor

/-- The loops `edges[i]->getEnd()->setColor(c)` over the edges of the vertex. -/
def colorEnds (c : GraphColor) (edges : List Edge) (g : StringGraph) : StringGraph :=
  edges.foldl (fun h e => h.setVertexColor e.end_ c) g

/-- The body of the inner loop of `getMissingCandidates` for the edges `pXY`
and `pYZ`; the state is the graph with the vector `out`.  The function
`getMinOverlapLength` of the match of an overlap is defined outside the visitor
file and returns an `int`. -/
def candidateStep (alg : OverlapAlgebra) (getMinOverlapLength : Overlap → Int) (minOverlap : Int)
    (pXY : Edge) (st : StringGraph × List Candidate) (pYZ : Edge) :
    StringGraph × List Candidate :=
  if st.1.vertexColor pYZ.end_ ≠ GC_BLACK then
    if alg.hasTransitiveOverlap pXY.overlap pYZ.overlap = true then
      if getMinOverlapLength (alg.inferTransitiveOverlap pXY.overlap pYZ.overlap) ≥ minOverlap then
        (st.1.setVertexColor pYZ.end_ GC_BLACK,
          st.2 ++ [{ pEndpoint := pYZ.end_,
                     ovr := alg.inferTransitiveOverlap pXY.overlap pYZ.overlap }])
      else st
    else st
  else st

/-- The body of the outer loop of `getMissingCandidates` for the edge `pXY`:
the loop over the edges of its end vertex. -/
def neighborLoop (alg : OverlapAlgebra) (getMinOverlapLength : Overlap → Int) (minOverlap : Int)
    (st : StringGraph × List Candidate) (pXY : Edge) : StringGraph × List Candidate :=
  (st.1.getAllEdges pXY.end_).foldl (candidateStep alg getMinOverlapLength minOverlap pXY) st

/-- The loop `out[i].pEndpoint->setColor(GC_WHITE)` over the candidates. -/
def resetCandidates (out : List Candidate) (g : StringGraph) : StringGraph :=
  out.foldl (fun h c => h.setVertexColor c.pEndpoint GC_WHITE) g

/-- The function `SGEdgeStatsVisitor::getMissingCandidates`: the graph on
return with the returned vector. -/
def getMissingCandidates (alg : OverlapAlgebra) (getMinOverlapLength : Overlap → Int)
    (g : StringGraph) (v : VertexID) (minOverlap : Int) : StringGraph × List Candidate :=
  let edges := g.getAllEdges v
  let g1 := (colorEnds GC_BLACK edges g).setVertexColor v GC_BLACK
  let st := edges.foldl (neighborLoop alg getMinOverlapLength minOverlap) (g1, [])
  let g2 := (colorEnds GC_WHITE edges st.1).setVertexColor v GC_WHITE
  (resetCandidates st.2 g2, st.2)

end SGEdgeStatsVisitor

/-! ## Auxiliary definitions for the proofs -/

namespace SGTransitiveReductionVisitor

/-- The loop "if the end is GRAY make it BLACK" over a list of edges. -/
def blackenEnds (ws : List Edge) (g : StringGraph) : StringGraph :=
  ws.foldl (fun g wx =>
    if g.vertexColor wx.end_ = GC_GRAY then g.setVertexColor wx.end_ GC_BLACK else g) g

/-- The entries of `w_edges` that the inner loop of stage 2 examines from index `j`. -/
def stage2Prefix : Nat → List Edge → List Edge
  | _, [] => []
  | j, wx :: rest => if wx.seqLen < FUZZ ∨ j = 0 then wx :: stage2Prefix (j + 1) rest else []

/-- A step of a scan over the edges of `v`: it blackens GRAY ends of some of the
onward edges of the end of the edge. -/
def ScanStep (f : StringGraph → Edge → StringGraph) : Prop :=
  ∀ g vw, ∃ ws : List Edge,
    (∀ wx ∈ ws, wx ∈ g.getEdges vw.end_ vw.getTwinDir.flip) ∧ f g vw = blackenEnds ws g

/-- A two-hop path from the edge list `es` to the vertex `x`. -/
def TwoHop (g : StringGraph) (es : List Edge) (x : VertexID) : Prop :=
  ∃ vw ∈ es, ∃ wx ∈ g.getEdges vw.end_ vw.getTwinDir.flip, wx.end_ = x

/-- The graph at the start of the marking loop of a direction. -/
def scanned (L : Nat) (es : List Edge) (g : StringGraph) : StringGraph :=
  stage2 es (stage1 L es (colorEnds es g))

/-- The edge `f` closes a two-hop path of the edge list: there are edges `vw`
and `wx` with `vw` leaving the start of `f` in the direction of `f`, `wx`
continuing at the end of `vw` in the direction opposite to its twin direction,
and `wx` ending at the end of `f`. -/
def Spanned (E : List Edge) (f : Edge) : Prop :=
  ∃ vw ∈ E, ∃ wx ∈ E, vw.start = f.start ∧ vw.dir = f.dir ∧ wx.start = vw.end_ ∧
    wx.dir = vw.getTwinDir.flip ∧ wx.end_ = f.end_

/-- No vertex has two edges in one direction to the same end vertex. -/
def NoParallelEdges (E : List Edge) : Prop :=
  (E.map (fun e => (e.start, e.dir, e.end_))).Nodup

/-- The state in which `visit` enters the loop over the directions. -/
def enter (s : SGTransitiveReductionVisitor) (g : StringGraph) : MarkState :=
  { graph := g, marked_edges := s.marked_edges, trans_count := 0 }

end SGTransitiveReductionVisitor

/-- Every edge lies in the adjacency list of a vertex of the graph. -/
def EdgesAttached (g : StringGraph) : Prop :=
  ∀ e ∈ g.edges, e.start ∈ g.vertices.map (fun v => v.id)

instance EdgesAttached.decidable (g : StringGraph) : Decidable (EdgesAttached g) := by
  unfold EdgesAttached
  infer_instance

/-- Twin consistency: the twin of every edge is an edge of the end vertex that
leads back to the start vertex in the twin direction, and its twin is the edge. -/
def TwinConsistent (g : StringGraph) : Prop :=
  (g.edges.map (fun e => e.id)).Nodup ∧
    ∀ e ∈ g.edges, ∃ t ∈ g.edges, t.id = e.twin ∧ t.twin = e.id ∧ t.start = e.end_ ∧
      t.end_ = e.start ∧ t.dir = e.getTwinDir ∧ t.comp = e.comp

instance TwinConsistent.decidable (g : StringGraph) : Decidable (TwinConsistent g) := by
  unfold TwinConsistent
  infer_instance

/-- Every sequence length is below `2 ^ 63`, so that sums of two of them do
not wrap around in `size_t`. -/
def SeqLenBounded (E : List Edge) : Prop := ∀ e ∈ E, e.seqLen < 2 ^ 63

instance SeqLenBounded.decidable (E : List Edge) : Decidable (SeqLenBounded E) := by
  unfold SeqLenBounded
  infer_instance

namespace SGTransitiveReductionVisitor

instance NoParallelEdges.decidable (E : List Edge) : Decidable (NoParallelEdges E) := by
  unfold NoParallelEdges
  infer_instance

/-- The property of the edge list `E2` that no edge spans a two-hop path whose
length is at most the length of an edge of `E` from the same vertex in the same
direction, plus `FUZZ`. -/
def Reduced (E E2 : List Edge) : Prop :=
  ∀ vw ∈ E2, ∀ wx ∈ E2, wx.start = vw.end_ → wx.dir = vw.getTwinDir.flip →
    ∀ u ∈ E, u.start = vw.start → u.dir = vw.dir →
      vw.seqLen + wx.seqLen ≤ u.seqLen + FUZZ →
        ∀ vx ∈ E2, vx.start = vw.start → vx.dir = vw.dir → vx.end_ ≠ wx.end_

instance Reduced.decidable (E E2 : List Edge) : Decidable (Reduced E E2) := by
  unfold Reduced
  infer_instance

/-- The graph after `previsit`. -/
def prepared (g : StringGraph) : StringGraph :=
  (g.setColors GC_WHITE).sortVertexAdjListsByLen

/-- The visitor and the graph after `previsit` and the visits. -/
def visited (g : StringGraph) : (SGTransitiveReductionVisitor × StringGraph) × Bool :=
  visitVertices visitor (g.vertices.map (fun v => v.id))
    (({ marked_verts := 0, marked_edges := 0 }, prepared g), false)

/-- The result of a full pass. -/
def result (g : StringGraph) : StringGraph :=
  ((visited g).1.2.sweepEdges GC_BLACK).setTransitiveFlag false

end SGTransitiveReductionVisitor

/-- An overlap record of the given length that is not a containment. -/
def mkOverlap (len : Nat) : Overlap :=
  { overlapLength := len, isContainment := false, containedIdx := 0 }

/-- The half at `a` of a bidirected edge between `a` and `b`: identity `2 * k`,
direction `d`, twin identity `2 * k + 1`. -/
def edgeHalf (k : EdgeID) (a b : VertexID) (d : EdgeDir) (c : EdgeComp) (len ov : Nat) : Edge :=
  Edge.mk (2 * k) a b d c (2 * k + 1) len (mkOverlap ov)

/-- The half at `b` of a bidirected edge between `a` and `b`, the twin of
`edgeHalf`: identity `2 * k + 1`, the twin direction, twin identity `2 * k`. -/
def edgeTwin (k : EdgeID) (a b : VertexID) (d : EdgeDir) (c : EdgeComp) (len ov : Nat) : Edge :=
  Edge.mk (2 * k + 1) b a (edgeHalf k a b d c len ov).getTwinDir c (2 * k) len (mkOverlap ov)

/-- The two halves of a bidirected edge between `a` and `b`, with sequence
length `lenAB` at `a` and `lenBA` at `b`. -/
def edgePair (k : EdgeID) (a b : VertexID) (d : EdgeDir) (c : EdgeComp)
    (lenAB lenBA ov : Nat) : List Edge :=
  [edgeHalf k a b d c lenAB ov, edgeTwin k a b d c lenBA ov]

/-- A graph on the vertices `0, ..., n - 1`, none of them contained, with the
given edges, all colours WHITE, no containment and the transitive flag set. -/
def mkGraph (n : Nat) (edges : List Edge) : StringGraph :=
  { vertices := (List.range n).map (fun i => Vertex.mk i "" false),
    edges := edges,
    vertexColor := fun _ => GC_WHITE,
    edgeColor := fun _ => GC_WHITE,
    hasContainment := false,
    hasTransitive := true,
    exactMode := false,
    minOverlap := 0 }

/-- Vertices `0`, `1`, `2` with the edges `0 → 1`, `1 → 2` and two parallel
edges `0 → 2`. -/
def parallelGraph : StringGraph :=
  mkGraph 3 (edgePair 0 0 1 ED_SENSE EC_SAME 10 10 90 ++ edgePair 1 1 2 ED_SENSE EC_SAME 10 10 90 ++
    edgePair 2 0 2 ED_SENSE EC_SAME 20 20 80 ++ edgePair 3 0 2 ED_SENSE EC_SAME 20 20 80)

/-- The chain `0 → 1 → 2` with the edge `0 → 2`, all on the same strand. -/
def chainGraph : StringGraph :=
  mkGraph 3 (edgePair 0 0 1 ED_SENSE EC_SAME 50 50 50 ++ edgePair 1 1 2 ED_SENSE EC_SAME 50 50 50 ++
    edgePair 2 0 2 ED_SENSE EC_SAME 100 100 5)

/-- The chain of the specification: overlaps A-B 50, B-C 50 and A-C 95 between
reads of length 100, with A = 0, B = 1, C = 2, all on the same strand. -/
def specChainGraph : StringGraph :=
  mkGraph 3 (edgePair 0 0 1 ED_SENSE EC_SAME 50 50 50 ++ edgePair 1 1 2 ED_SENSE EC_SAME 50 50 50 ++
    edgePair 2 0 2 ED_SENSE EC_SAME 5 5 95)

/-- Five vertices without parallel edges: `2 → 4`, `1 → 2`, `0 → 3`, `0 → 2`,
`2 → 3` and `3 → 4`, all on the same strand.  The first pass removes `2 → 4`,
the shortest onward edge of vertex `2`. -/
def shortestLostGraph : StringGraph :=
  mkGraph 5 (edgePair 0 2 4 ED_SENSE EC_SAME 30 5 70 ++ edgePair 1 1 2 ED_SENSE EC_SAME 30 40 70 ++
    edgePair 2 0 3 ED_SENSE EC_SAME 12 30 88 ++ edgePair 3 0 2 ED_SENSE EC_SAME 40 80 60 ++
    edgePair 4 2 3 ED_SENSE EC_SAME 30 60 70 ++ edgePair 5 3 4 ED_SENSE EC_SAME 50 15 50)

/-- The chain `0 → 1 → 2` on the same strand with an edge `0 → 2` on the
reverse strand: the edge from `0` reaches `2` on its other side. -/
def chainReverseGraph : StringGraph :=
  mkGraph 3 (edgePair 0 0 1 ED_SENSE EC_SAME 50 50 50 ++ edgePair 1 1 2 ED_SENSE EC_SAME 50 50 50 ++
    edgePair 2 0 2 ED_SENSE EC_REVERSE 5 5 95)

namespace SGTransitiveReductionVisitor

/-- The lengths of the edge list are consistent on triangles: an edge that
closes a two-hop path is at most `FUZZ` shorter than the path. -/
def TriangleConsistent (E : List Edge) : Prop :=
  ∀ vw ∈ E, ∀ wx ∈ E, ∀ vx ∈ E, vw.start = vx.start → vw.dir = vx.dir → wx.start = vw.end_ →
    wx.dir = vw.getTwinDir.flip → wx.end_ = vx.end_ → vw.seqLen + wx.seqLen ≤ vx.seqLen + FUZZ

instance TriangleConsistent.decidable (E : List Edge) : Decidable (TriangleConsistent E) := by
  unfold TriangleConsistent
  infer_instance

end SGTransitiveReductionVisitor

/-- The edge `t` is the twin half of the edge `e`. -/
def IsTwinOf (t e : Edge) : Prop :=
  t.id = e.twin ∧ t.twin = e.id ∧ t.start = e.end_ ∧ t.end_ = e.start ∧
    t.dir = e.getTwinDir ∧ t.comp = e.comp

instance IsTwinOf.decidable (t e : Edge) : Decidable (IsTwinOf t e) := by
  unfold IsTwinOf
  infer_instance

/-- A three-vertex chain: the edges of the graph are the six halves `ab`, `ba`,
`bc`, `cb`, `ac`, `ca`; `A` has the edges `ab` to `B` and `ac` to `C` in one
direction, and `B` has the edge `bc` to `C` in the direction that continues
`ab` (the opposite of the twin direction of `ab`). -/
def ThreeChain (g : StringGraph) (A B C : VertexID) (ab ba bc cb ac ca : Edge) : Prop :=
  g.edges.Perm [ab, ba, bc, cb, ac, ca] ∧
    ([ab, ba, bc, cb, ac, ca].map (fun e => e.id)).Nodup ∧
    IsTwinOf ba ab ∧ IsTwinOf cb bc ∧ IsTwinOf ca ac ∧
    ab.start = A ∧ ab.end_ = B ∧ bc.start = B ∧ bc.end_ = C ∧ ac.start = A ∧ ac.end_ = C ∧
    ac.dir = ab.dir ∧ bc.dir = ab.getTwinDir.flip ∧
    A ≠ B ∧ A ≠ C ∧ B ≠ C ∧
    (∀ x, x ∈ g.vertices.map (fun v => v.id) ↔ x = A ∨ x = B ∨ x = C)

instance ThreeChain.decidable (g : StringGraph) (A B C : VertexID) (ab ba bc cb ac ca : Edge) :
    Decidable (ThreeChain g A B C ab ba bc cb ac ca) :=
  if h : g.edges.Perm [ab, ba, bc, cb, ac, ca] ∧
    ([ab, ba, bc, cb, ac, ca].map (fun e => e.id)).Nodup ∧
    IsTwinOf ba ab ∧ IsTwinOf cb bc ∧ IsTwinOf ca ac ∧
    ab.start = A ∧ ab.end_ = B ∧ bc.start = B ∧ bc.end_ = C ∧ ac.start = A ∧ ac.end_ = C ∧
    ac.dir = ab.dir ∧ bc.dir = ab.getTwinDir.flip ∧
    A ≠ B ∧ A ≠ C ∧ B ≠ C ∧
    ((g.vertices.map (fun v => v.id)).all (fun x => decide (x = A ∨ x = B ∨ x = C)) = true ∧
      A ∈ g.vertices.map (fun v => v.id) ∧ B ∈ g.vertices.map (fun v => v.id) ∧
      C ∈ g.vertices.map (fun v => v.id))
  then isTrue (by
    obtain ⟨h1, h2, h3, h4, h5, h6, h7, h8, h9, h10, h11, h12, h13, h14, h15, h16, h17, hA, hB,
      hC⟩ := h
    refine ⟨h1, h2, h3, h4, h5, h6, h7, h8, h9, h10, h11, h12, h13, h14, h15, h16, ?_⟩
    intro x
    constructor
    · intro hx
      have := List.all_eq_true.1 h17 x hx
      simpa using this
    · rintro (rfl | rfl | rfl)
      · exact hA
      · exact hB
      · exact hC)
  else isFalse (by
    intro hc
    apply h
    obtain ⟨h1, h2, h3, h4, h5, h6, h7, h8, h9, h10, h11, h12, h13, h14, h15, h16, h17⟩ := hc
    refine ⟨h1, h2, h3, h4, h5, h6, h7, h8, h9, h10, h11, h12, h13, h14, h15, h16, ?_, ?_, ?_, ?_⟩
    · rw [List.all_eq_true]
      intro x hx
      simpa using (h17 x).1 hx
    · exact (h17 A).2 (Or.inl rfl)
    · exact (h17 B).2 (Or.inr (Or.inl rfl))
    · exact (h17 C).2 (Or.inr (Or.inr rfl)))

namespace SGContainRemoveVisitor

/-- A remodelling procedure that adds no edge: the graph is returned as it is. -/
def noRemodel (g : StringGraph) (_w : VertexID) (_e : EdgeID) : StringGraph := g

/-- Vertices `0`, `1`, `2` with the edges `0 - 1` and `1 - 2`; vertex `1` is
marked as contained and the containment flag is set. -/
def containedGraph (hasTransitive : Bool) : StringGraph :=
  { vertices := [Vertex.mk 0 "ACGTACGT" false, Vertex.mk 1 "CGTA" true,
                 Vertex.mk 2 "GTACGTAC" false],
    edges := edgePair 0 0 1 ED_SENSE EC_SAME 30 6 4 ++ edgePair 1 1 2 ED_SENSE EC_SAME 4 0 4,
    vertexColor := fun _ => GC_WHITE,
    edgeColor := fun _ => GC_WHITE,
    hasContainment := true,
    hasTransitive := hasTransitive,
    exactMode := false,
    minOverlap := 0 }

/-- The graph after the deletion loop when every read of the loop is defined:
every neighbour edge is deleted together with its twin. -/
def deleteAll (v : VertexID) (neighborEdges : List Edge) (g : StringGraph) : StringGraph :=
  neighborEdges.foldl (fun g e => (g.deleteEdge e.end_ e.twin).deleteEdge v e.id) g

/-- The result of `visit` when every read of its deletion loop is defined. -/
def visitDefined (remodel : StringGraph → VertexID → EdgeID → StringGraph)
    (s : SGContainRemoveVisitor) (g : StringGraph) (v : VertexID) :
    (SGContainRemoveVisitor × StringGraph) × Bool :=
  if g.isContained v = false then ((s, g), false)
  else
    let neighborEdges := g.getAllEdges v
    if (!g.hasTransitive && !g.exactMode) = true then
      let sorted := sortByLen neighborEdges
      let sg := remodelLoop remodel sorted (s, g)
      ((sg.1, (deleteAll v sorted sg.2).setVertexColor v GC_BLACK), false)
    else
      ((s, (deleteAll v neighborEdges g).setVertexColor v GC_BLACK), false)

/-- The visitor whose `visit` is `visitDefined`. -/
def visitorDefined (remodel : StringGraph → VertexID → EdgeID → StringGraph) :
    SGVisitor SGContainRemoveVisitor :=
  { previsit := previsit, visit := visitDefined remodel, postvisit := postvisit }

/-- The graph after `previsit` and the visits of a pass in which every read is
defined. -/
def visited (remodel : StringGraph → VertexID → EdgeID → StringGraph) (g : StringGraph) :
    StringGraph :=
  (visitVertices (visitorDefined remodel) (g.vertices.map (fun v => v.id))
    (({ calls := [] }, (g.setColors GC_WHITE).setContainmentFlag false), false)).1.2

end SGContainRemoveVisitor

/-- No edge leads from a vertex to itself. -/
def NoSelfLoops (g : StringGraph) : Prop := ∀ e ∈ g.edges, e.start ≠ e.end_

instance NoSelfLoops.decidable (g : StringGraph) : Decidable (NoSelfLoops g) := by
  unfold NoSelfLoops
  infer_instance

namespace SGContainRemoveVisitor

/-- The remodelling procedure neither adds nor removes an edge that starts or
ends at the vertex `v`. -/
def RemodelKeepsEdgesAt (remodel : StringGraph → VertexID → EdgeID → StringGraph)
    (v : VertexID) : Prop :=
  ∀ h w t x, (x.start = v ∨ x.end_ = v) → (x ∈ (remodel h w t).edges ↔ x ∈ h.edges)

/-- The test an edge passes to survive the deletion loop at `v` over the
neighbour edges `es`. -/
def survives (v : VertexID) (es : List Edge) (x : Edge) : Bool :=
  es.all (fun e => decide (¬ (x.start = v ∧ x.id = e.id)) &&
    decide (¬ (x.start = e.end_ ∧ x.id = e.twin)))

end SGContainRemoveVisitor

/-- Every overlap length fits the return type `int` of `getOverlapLength`. -/
def OverlapsFitInt (g : StringGraph) : Prop :=
  ∀ e ∈ g.edges, e.overlap.overlapLength < 2 ^ 31

instance OverlapsFitInt.decidable (g : StringGraph) : Decidable (OverlapsFitInt g) := by
  unfold OverlapsFitInt
  infer_instance

namespace SGSmallRepeatResolveVisitor

/-- The largest overlap length among the edges of the start vertex of `pYX` in
the direction of `pYX`, other than `pYX` itself; `0` when there is none. -/
def yLongest (g : StringGraph) (pYX : Edge) : Nat :=
  (((g.getEdges pYX.start pYX.dir).filter (fun e => decide (e.id ≠ pYX.id))).map
    (fun e => e.overlap.overlapLength)).foldr max 0

/-- The condition under which the visitor deletes the last edge `pXY` of a
direction, whose first edge is `pFront` and whose twin is `pYX`. -/
def ShouldDelete (minDiff : Int) (g : StringGraph) (pXY pFront pYX : Edge) : Prop :=
  pXY.overlap.overlapLength ≠ pFront.overlap.overlapLength ∧
    yLongest g pYX > pYX.overlap.overlapLength ∧
    (pFront.overlap.overlapLength : Int) - (pXY.overlap.overlapLength : Int) > minDiff ∧
    (yLongest g pYX : Int) - (pYX.overlap.overlapLength : Int) > minDiff

instance ShouldDelete.decidable (minDiff : Int) (g : StringGraph) (pXY pFront pYX : Edge) :
    Decidable (ShouldDelete minDiff g pXY pFront pYX) := by
  unfold ShouldDelete
  infer_instance

end SGSmallRepeatResolveVisitor

/-- Vertices X = 0, Y = 1, Z = 2, W = 3: X has the edges X->Z and X->Y in the
direction `d`, and Y has, in the direction of the twin of X->Y, the edges Y->W
and Y->X; the overlap lengths are `ovXY` for X-Y, `ovXZ` for X-Z and `ovYW`
for Y-W.  In each adjacency list the edge with the shortest overlap is last. -/
def repeatGraph (d : EdgeDir) (c1 c2 c3 : EdgeComp) (ovXY ovXZ ovYW : Nat) : StringGraph :=
  mkGraph 4 (edgePair 1 0 2 d c2 (100 - ovXZ) (100 - ovXZ) ovXZ ++
    [edgeHalf 0 0 1 d c1 (100 - ovXY) ovXY] ++
    edgePair 2 1 3 (edgeHalf 0 0 1 d c1 (100 - ovXY) ovXY).getTwinDir c3
      (100 - ovYW) (100 - ovYW) ovYW ++
    [edgeTwin 0 0 1 d c1 (100 - ovXY) ovXY])

/-- The di-bubble S = 0, A = 1, B = 2, T = 3: S has the edges S->A and S->B in
the direction `d`; A and B each have one onward edge, A->T and B->T, in the
direction that continues the edge from S.  The flags choose the order of the
two edges in the adjacency list of S and of the two twins in the adjacency
list of T. -/
def bubbleGraph (d : EdgeDir) (cSA cSB cAT cBT : EdgeComp) (swapS swapT : Bool) : StringGraph :=
  mkGraph 4
    ((if swapS = true then [edgeHalf 1 0 2 d cSB 40 60, edgeHalf 0 0 1 d cSA 40 60]
      else [edgeHalf 0 0 1 d cSA 40 60, edgeHalf 1 0 2 d cSB 40 60]) ++
     [edgeTwin 0 0 1 d cSA 40 60,
      edgeHalf 2 1 3 (edgeHalf 0 0 1 d cSA 40 60).getTwinDir.flip cAT 40 60,
      edgeTwin 1 0 2 d cSB 40 60,
      edgeHalf 3 2 3 (edgeHalf 1 0 2 d cSB 40 60).getTwinDir.flip cBT 40 60] ++
     (if swapT = true then
        [edgeTwin 3 2 3 (edgeHalf 1 0 2 d cSB 40 60).getTwinDir.flip cBT 40 60,
         edgeTwin 2 1 3 (edgeHalf 0 0 1 d cSA 40 60).getTwinDir.flip cAT 40 60]
      else
        [edgeTwin 2 1 3 (edgeHalf 0 0 1 d cSA 40 60).getTwinDir.flip cAT 40 60,
         edgeTwin 3 2 3 (edgeHalf 1 0 2 d cSB 40 60).getTwinDir.flip cBT 40 60]))

namespace SGTrimVisitor

/-- The vertex has no edge in the SENSE direction or no edge in the ANTISENSE
direction. -/
def isDeadEnd (g : StringGraph) (v : VertexID) : Prop :=
  g.countEdges v ED_SENSE = 0 ∨ g.countEdges v ED_ANTISENSE = 0

instance isDeadEnd.decidable (g : StringGraph) (v : VertexID) : Decidable (isDeadEnd g v) := by
  unfold isDeadEnd
  infer_instance

/-- The graph after `previsit` and the visits of a pass in the given order. -/
def visited (order : List VertexID) (g : StringGraph) : StringGraph :=
  (visitVertices visitor order
    (({ num_island := 0, num_terminal := 0, num_contig := 0 }, g.setColors GC_WHITE),
      false)).1.2

end SGTrimVisitor

/-- The tip X = 0 at the vertex Y = 1, whose three edges (to X, to 2 and to 3)
all lie in the SENSE direction; the vertices 2 and 3 go on to the vertices 4
and 5. -/
def tipOneSidedGraph : StringGraph :=
  mkGraph 6 (edgePair 0 0 1 ED_ANTISENSE EC_SAME 40 40 60 ++
    edgePair 1 1 2 ED_SENSE EC_SAME 40 40 60 ++ edgePair 2 1 3 ED_SENSE EC_SAME 40 40 60 ++
    edgePair 3 2 4 ED_SENSE EC_SAME 40 40 60 ++ edgePair 4 3 5 ED_SENSE EC_SAME 40 40 60)

/-- The tip X = 0 at the vertex Y = 1, which has the edge to X in the
ANTISENSE direction and the edges to 2 and 3 in the SENSE direction; the
vertices 2 and 3 have no further edge. -/
def tipStarGraph : StringGraph :=
  mkGraph 4 (edgePair 0 0 1 ED_SENSE EC_SAME 40 40 60 ++
    edgePair 1 1 2 ED_SENSE EC_SAME 40 40 60 ++ edgePair 2 1 3 ED_SENSE EC_SAME 40 40 60)

/-- The tip X = 0 at the vertex Y = 1, which has the edge to X in the
ANTISENSE direction and the edges to 2 and 3 in the SENSE direction; the
vertices 2 and 3 go on to the vertices 4 and 5. -/
def tipGraph : StringGraph :=
  mkGraph 6 (edgePair 0 0 1 ED_SENSE EC_SAME 40 40 60 ++
    edgePair 1 1 2 ED_SENSE EC_SAME 40 40 60 ++ edgePair 2 1 3 ED_SENSE EC_SAME 40 40 60 ++
    edgePair 3 2 4 ED_SENSE EC_SAME 40 40 60 ++ edgePair 4 3 5 ED_SENSE EC_SAME 40 40 60)

/-- The twin invariant of the graph: edge objects are distinct, and every edge
`e` has a twin in the adjacency list of its end vertex whose twin is `e`. -/
def TwinPaired (g : StringGraph) : Prop :=
  (g.edges.map (fun e => e.id)).Nodup ∧
    ∀ e ∈ g.edges, ∃ t ∈ g.edges, t.start = e.end_ ∧ t.id = e.twin ∧ t.twin = e.id

instance TwinPaired.decidable (g : StringGraph) : Decidable (TwinPaired g) := by
  unfold TwinPaired
  infer_instance

/-- The chain `0 → 1 → 2` with the edge `0 → 2` and two vertices `3` and `4`
without edges. -/
def islandGraph : StringGraph :=
  mkGraph 5 (edgePair 0 0 1 ED_SENSE EC_SAME 50 50 50 ++ edgePair 1 1 2 ED_SENSE EC_SAME 50 50 50 ++
    edgePair 2 0 2 ED_SENSE EC_SAME 100 100 5)

namespace SGIslandVisitor

/-- The visitor, the graph and the accumulated flag after `previsit` and the
visits of a pass in the given order. -/
def visited (order : List VertexID) (g : StringGraph) : (SGIslandVisitor × StringGraph) × Bool :=
  visitVertices visitor order (({}, g.setColors GC_WHITE), false)

end SGIslandVisitor

/-- The two halves of a bidirected edge between `a` and `b` for a containment
overlap of length `ov`: the half at `a` reports the contained index `idxAB`,
the half at `b` reports `idxBA`. -/
def containPair (k : EdgeID) (a b : VertexID) (d : EdgeDir) (c : EdgeComp)
    (ov idxAB idxBA : Nat) : List Edge :=
  [Edge.mk (2 * k) a b d c (2 * k + 1) 0 (Overlap.mk ov true idxAB),
   Edge.mk (2 * k + 1) b a (edgeHalf k a b d c 0 ov).getTwinDir c (2 * k) 0 (Overlap.mk ov true idxBA)]

/-- The reads R1 = 1 and R2 = 2 with the sequence ACGTACGTACGT, both marked as
contained and joined by a mutual containment overlap, the half at R2 reporting
the contained index 0; the vertex 0 has another sequence and an overlap with
each of them. -/
def identicalGraph : StringGraph :=
  { vertices := [Vertex.mk 0 "TTACGTACGTAC" false, Vertex.mk 1 "ACGTACGTACGT" true,
                 Vertex.mk 2 "ACGTACGTACGT" true],
    edges := edgePair 0 0 1 ED_SENSE EC_SAME 2 2 10 ++ edgePair 1 0 2 ED_SENSE EC_SAME 2 2 10 ++
      containPair 2 1 2 ED_SENSE EC_SAME 12 1 0,
    vertexColor := fun _ => GC_WHITE,
    edgeColor := fun _ => GC_WHITE,
    hasContainment := true,
    hasTransitive := true,
    exactMode := false,
    minOverlap := 0 }

/-- Three reads 0, 1, 2 with the sequence ACGTACGTACGT, pairwise joined by a
mutual containment overlap; of the two halves of an overlap, the half at the
read with the larger identifier reports the contained index 0.  The reads
R1 = 1 and R2 = 2 are marked as contained. -/
def threeIdenticalGraph : StringGraph :=
  { vertices := [Vertex.mk 0 "ACGTACGTACGT" false, Vertex.mk 1 "ACGTACGTACGT" true,
                 Vertex.mk 2 "ACGTACGTACGT" true],
    edges := containPair 0 0 1 ED_SENSE EC_SAME 12 1 0 ++ containPair 1 0 2 ED_SENSE EC_SAME 12 1 0 ++
      containPair 2 1 2 ED_SENSE EC_SAME 12 1 0,
    vertexColor := fun _ => GC_WHITE,
    edgeColor := fun _ => GC_WHITE,
    hasContainment := true,
    hasTransitive := true,
    exactMode := false,
    minOverlap := 0 }

namespace SGIdenticalRemoveVisitor

/-- The edge `e` leads to an identical vertex: its overlap is a containment
with contained index 0, and its end vertex has the sequence `seq`. -/
def LeadsToIdentical (g : StringGraph) (seq : String) (e : Edge) : Prop :=
  e.overlap.isContainment = true ∧ e.overlap.containedIdx = 0 ∧
    ∃ pOther, g.getVertex e.end_ = some pOther ∧ pOther.seq = seq

instance LeadsToIdentical.decidable (g : StringGraph) (seq : String) (e : Edge) :
    Decidable (LeadsToIdentical g seq e) :=
  match h : g.getVertex e.end_ with
  | none => isFalse (by
      rintro ⟨_, _, o, ho, _⟩
      rw [h] at ho
      exact Option.noConfusion ho)
  | some o =>
    if hc : e.overlap.isContainment = true ∧ e.overlap.containedIdx = 0 ∧ o.seq = seq then
      isTrue ⟨hc.1, hc.2.1, o, h, hc.2.2⟩
    else isFalse (by
      rintro ⟨h1, h2, o2, ho2, h3⟩
      rw [h] at ho2
      cases ho2
      exact hc ⟨h1, h2, h3⟩)

/-- The vertex `v` is contained and has an edge that leads to an identical
vertex. -/
def Identical (g : StringGraph) (v : VertexID) : Prop :=
  ∃ pVertex, g.getVertex v = some pVertex ∧ pVertex.contained = true ∧
    ∃ e ∈ g.getAllEdges v, LeadsToIdentical g pVertex.seq e

instance Identical.decidable (g : StringGraph) (v : VertexID) : Decidable (Identical g v) :=
  match h : g.getVertex v with
  | none => isFalse (by
      rintro ⟨p, hp, _⟩
      rw [h] at hp
      exact Option.noConfusion hp)
  | some p =>
    if hc : p.contained = true ∧ ∃ e ∈ g.getAllEdges v, LeadsToIdentical g p.seq e then
      isTrue ⟨p, h, hc.1, hc.2⟩
    else isFalse (by
      rintro ⟨p2, hp2, h1, h2⟩
      rw [h] at hp2
      cases hp2
      exact hc ⟨h1, h2⟩)

/-- The graph after `previsit` and the visits of a pass in the given order. -/
def visited (order : List VertexID) (g : StringGraph) : StringGraph :=
  (visitVertices visitor order (({ count := 0 }, g.setColors GC_WHITE), false)).1.2

end SGIdenticalRemoveVisitor

namespace SGTransitiveReductionVisitor

/-- BLACK edges occur only as complete twin pairs: the twin of a BLACK edge of
the graph is BLACK. -/
def BlackPaired (g : StringGraph) : Prop :=
  ∀ e ∈ g.edges, g.edgeColor e.id = GC_BLACK → g.edgeColor e.twin = GC_BLACK

end SGTransitiveReductionVisitor

namespace SGBubbleVisitor

/-- The end of the single onward edge of the end of `e`, when the end of `e`
has exactly one onward edge. -/
def bubbleEnd (g : StringGraph) (e : Edge) : Option VertexID :=
  match g.getEdges e.end_ e.getTwinDir.flip with
  | [pBubbleEdge] => some pBubbleEdge.end_
  | _ => none

/-- Every vertex is WHITE or RED. -/
def Clean (g : StringGraph) : Prop :=
  ∀ x, g.vertexColor x = GC_WHITE ∨ g.vertexColor x = GC_RED

/-- The colours during the marking and unmarking loops over the edges `es`:
a vertex that is neither WHITE nor RED is BLACK and the bubble end of one of
the edges, or BLUE and the end of one of the edges that has a bubble end. -/
def Claimed (g0 : StringGraph) (es : List Edge) (g : StringGraph) : Prop :=
  ∀ x, g.vertexColor x = GC_WHITE ∨ g.vertexColor x = GC_RED ∨
    (g.vertexColor x = GC_BLACK ∧ ∃ e ∈ es, bubbleEnd g0 e = some x) ∨
    (g.vertexColor x = GC_BLUE ∧ ∃ e ∈ es, (bubbleEnd g0 e).isSome = true ∧ e.end_ = x)

/-- The vertex `H` has two edges in one direction and none in the other; the
first edge ends at `W1`, the second at `W2`, and each of `W1` and `W2` has the
single onward edge to `U`. -/
def Hub (g : StringGraph) (H U W1 W2 : VertexID) : Prop :=
  ∃ dd e1 e2, g.getEdges H dd = [e1, e2] ∧ g.getEdges H dd.flip = [] ∧
    e1.end_ = W1 ∧ e2.end_ = W2 ∧ bubbleEnd g e1 = some U ∧ bubbleEnd g e2 = some U

/-- Exactly one of the two vertices is RED and the other one is WHITE. -/
def Popped (h : StringGraph) (A B : VertexID) : Prop :=
  (h.vertexColor A = GC_RED ∧ h.vertexColor B = GC_WHITE) ∨
    (h.vertexColor A = GC_WHITE ∧ h.vertexColor B = GC_RED)

/-- The di-bubble `S->{A,B}->T`: `S` has exactly the two edges `eA`, to `A`,
and `eB`, to `B`, in the direction of `eA`, in either adjacency order; `A` and
`B` are distinct and each has exactly one onward edge, `fA` and `fB`, both
ending at `T`. -/
def DiBubble (g : StringGraph) (S A B T : VertexID) (eA eB fA fB : Edge) : Prop :=
  A ≠ B ∧
    (g.getEdges S eA.dir = [eA, eB] ∨ g.getEdges S eA.dir = [eB, eA]) ∧
    eA.end_ = A ∧ eB.end_ = B ∧
    g.getEdges A eA.getTransitiveDir = [fA] ∧ g.getEdges B eB.getTransitiveDir = [fB] ∧
    fA.end_ = T ∧ fB.end_ = T

/-- Each of the four vertices has exactly two edges: the vertices of the
di-bubble have no edges but those of the di-bubble. -/
def TwoEdgesEach (g : StringGraph) (S A B T : VertexID) : Prop :=
  (g.getAllEdges S).length = 2 ∧ (g.getAllEdges A).length = 2 ∧
    (g.getAllEdges B).length = 2 ∧ (g.getAllEdges T).length = 2

end SGBubbleVisitor

namespace SGBubbleVisitor

instance DiBubble.decidable (g : StringGraph) (S A B T : VertexID) (eA eB fA fB : Edge) :
    Decidable (DiBubble g S A B T eA eB fA fB) := by
  unfold DiBubble
  infer_instance

instance TwoEdgesEach.decidable (g : StringGraph) (S A B T : VertexID) :
    Decidable (TwoEdgesEach g S A B T) := by
  unfold TwoEdgesEach
  infer_instance

end SGBubbleVisitor

/-- An overlap algebra for the examples: every two overlaps have a transitive
overlap, the second of them, whose descriptor is on the same strand in the
SENSE direction. -/
def exampleAlgebra : OverlapAlgebra :=
  { hasTransitiveOverlap := fun _ _ => true,
    inferTransitiveOverlap := fun _ b => b,
    overlapToEdgeDesc := fun v _ => { pVertex := v, dir := ED_SENSE, comp := EC_SAME } }

/-- The vertex X = 0 with the edges X->Y (overlap 60) and X->Z (overlap 50) in
the SENSE direction, where Y = 1 and Z = 2 both go on to the vertex 3. -/
def bubbleEdgeGraph : StringGraph :=
  mkGraph 4 (edgePair 0 0 1 ED_SENSE EC_SAME 40 40 60 ++ edgePair 1 0 2 ED_SENSE EC_SAME 50 50 50 ++
    edgePair 2 1 3 ED_SENSE EC_SAME 40 40 60 ++ edgePair 3 2 3 ED_SENSE EC_SAME 40 40 60)

namespace SGBubbleEdgeVisitor

/-- The queue elements that a breadth-first exploration of at most `numSteps`
steps pops, in the order in which it pops them. -/
def bfsPops (alg : OverlapAlgebra) (g : StringGraph) :
    Nat → List ExploreElement → List ExploreElement
  | 0, _ => []
  | _ + 1, [] => []
  | numSteps + 1, ee :: queue =>
    ee :: bfsPops alg g numSteps
      (enqueueNeighbors alg ee.ovr (g.getEdges ee.ed.pVertex ee.ed.getTransitiveDir) queue)

/-- Every vertex of the target list is the vertex of one of the elements that
the exploration from the edge `pXY` pops within 100 steps. -/
def TargetsReached (alg : OverlapAlgebra) (g : StringGraph) (pXY pXZ : Edge) : Prop :=
  ∀ t ∈ (g.getEdges pXZ.end_ pXZ.getTransitiveDir).map (fun e => e.end_),
    ∃ p ∈ bfsPops alg g 100 [{ ed := pXY.getDesc, ovr := pXY.overlap }], p.ed.pVertex = t

instance TargetsReached.decidable (alg : OverlapAlgebra) (g : StringGraph) (pXY pXZ : Edge) :
    Decidable (TargetsReached alg g pXY pXZ) := by
  unfold TargetsReached
  infer_instance

end SGBubbleEdgeVisitor

namespace SGBubbleVisitor

end SGBubbleVisitor

namespace SGBubbleEdgeVisitor

end SGBubbleEdgeVisitor

/-- The vertex X = 0 with the edges X->Y (overlap 60) and X->Z (overlap 50) in
the SENSE direction; Y = 1 and the vertex 3 lie on a cycle of SENSE edges,
1->3 and 3->1, and Z = 2 goes on to the vertex 4, which the cycle does not
reach. -/
def cycleGraph : StringGraph :=
  mkGraph 5 (edgePair 0 0 1 ED_SENSE EC_SAME 40 40 60 ++ edgePair 1 0 2 ED_SENSE EC_SAME 50 50 50 ++
    edgePair 2 1 3 ED_SENSE EC_SAME 40 40 60 ++ edgePair 3 3 1 ED_SENSE EC_SAME 40 40 60 ++
    edgePair 4 2 4 ED_SENSE EC_SAME 40 40 60)

/-- The vertex X = 0 with the edges X->Y (overlap 60) and X->Z (overlap 50) in
the SENSE direction; Y = 1 goes on to the vertex 3 and Z = 2 has no onward
edge. -/
def tipBranchGraph : StringGraph :=
  mkGraph 4 (edgePair 0 0 1 ED_SENSE EC_SAME 40 40 60 ++ edgePair 1 0 2 ED_SENSE EC_SAME 50 50 50 ++
    edgePair 2 1 3 ED_SENSE EC_SAME 40 40 60)

/-- The vertex X = 0 with two SENSE edges of equal overlap 60, to the vertices
5 and 6, and in the ANTISENSE direction the edges X->Y (overlap 60) and X->Z
(overlap 50), where Y = 1 and Z = 2 both go on to the vertex 3. -/
def equalOverlapGraph : StringGraph :=
  mkGraph 7 (edgePair 0 0 5 ED_SENSE EC_SAME 40 40 60 ++ edgePair 1 0 6 ED_SENSE EC_SAME 40 40 60 ++
    edgePair 2 0 1 ED_ANTISENSE EC_SAME 40 40 60 ++ edgePair 3 0 2 ED_ANTISENSE EC_SAME 50 50 50 ++
    edgePair 4 1 3 ED_ANTISENSE EC_SAME 40 40 60 ++ edgePair 5 2 3 ED_ANTISENSE EC_SAME 40 40 60)

/-- An overlap algebra for the examples that differs from `exampleAlgebra` in
the descriptors, which are in the ANTISENSE direction. -/
def exampleAlgebraAnti : OverlapAlgebra :=
  { hasTransitiveOverlap := fun _ _ => true,
    inferTransitiveOverlap := fun _ b => b,
    overlapToEdgeDesc := fun v _ => { pVertex := v, dir := ED_ANTISENSE, comp := EC_SAME } }

namespace SGBubbleEdgeVisitor

/-- The exploration loop with its bookkeeping: the target list when the loop
is left, the elements popped, in order, and the queue when the loop is left. -/
def exploreTrace (alg : OverlapAlgebra) (g : StringGraph) :
    Nat → List ExploreElement → List VertexID →
      List VertexID × List ExploreElement × List ExploreElement
  | 0, queue, targetList => (targetList, [], queue)
  | _ + 1, [], targetList => (targetList, [], [])
  | numSteps + 1, ee :: queue, targetList =>
    if (eraseTarget ee.ed.pVertex targetList).isEmpty = true then
      (eraseTarget ee.ed.pVertex targetList, [ee], queue)
    else
      let r := exploreTrace alg g numSteps
        (enqueueNeighbors alg ee.ovr (g.getEdges ee.ed.pVertex ee.ed.getTransitiveDir) queue)
        (eraseTarget ee.ed.pVertex targetList)
      (r.1, ee :: r.2.1, r.2.2)

end SGBubbleEdgeVisitor

/-- The vertex 0 with two SENSE edges, to the vertex 1 with overlap 40 and to
the vertex 2 with overlap 90, in this order in its adjacency list: the list is
ascending in overlap length. -/
def ascendingOverlapGraph : StringGraph :=
  mkGraph 3 (edgePair 0 0 1 ED_SENSE EC_SAME 60 60 40 ++ edgePair 1 0 2 ED_SENSE EC_SAME 10 10 90)

namespace SGDuplicateVisitor

/-- The visitor and the graph after the visits of a pass, which do not depend
on `checkColors`. -/
def visited (order : List VertexID) (g : StringGraph) : SGDuplicateVisitor × StringGraph :=
  (visitVertices (visitor StringGraph.checkVertexColors) order
    (({ m_hasDuplicate := false }, g), false)).1

end SGDuplicateVisitor

/-- The vertex 0 with the SENSE edges to the vertices 1, 2 and 3, in this
order; the vertices 1 and 2 each have the single onward edge to the vertex 4,
and the vertex 3 has the single onward edge to the vertex 2. -/
def redLostGraph : StringGraph :=
  mkGraph 5 (edgePair 0 0 1 ED_SENSE EC_SAME 40 40 60 ++ edgePair 1 0 2 ED_SENSE EC_SAME 40 40 60 ++
    edgePair 2 0 3 ED_SENSE EC_SAME 40 40 60 ++ edgePair 3 1 4 ED_SENSE EC_SAME 40 40 60 ++
    edgePair 4 2 4 ED_SENSE EC_SAME 40 40 60 ++ edgePair 5 3 2 ED_SENSE EC_SAME 40 40 60)

/-- The vertices A = 0, B = 1, C = 2, F = 3, G = 4 with the overlaps F-C 95,
A-C 90, C-B 90, F-B 60, A-B 40 and F-G 30 between reads of length 100.  The
SENSE list of A is A->C, A->B; the ANTISENSE list of B is B->C, B->F, B->A;
the SENSE list of F is F->C, F->B, F->G.  Every adjacency list is ascending in
sequence length, so that its last edge has the shortest overlap. -/
def orderGraph : StringGraph :=
  mkGraph 5 (edgePair 0 3 2 ED_SENSE EC_SAME 5 5 95 ++ edgePair 1 0 2 ED_SENSE EC_SAME 10 10 90 ++
    edgePair 2 2 1 ED_SENSE EC_SAME 10 10 90 ++ edgePair 3 3 1 ED_SENSE EC_SAME 40 40 60 ++
    edgePair 4 0 1 ED_SENSE EC_SAME 60 60 40 ++ edgePair 5 3 4 ED_SENSE EC_SAME 70 70 30)

namespace SGSmallRepeatResolveVisitor

/-- The vertex has two or more edges in one of the two directions. -/
def busy (g : StringGraph) (v : VertexID) : Bool :=
  decide (2 ≤ (g.getEdges v ED_SENSE).length ∨ 2 ≤ (g.getEdges v ED_ANTISENSE).length)

end SGSmallRepeatResolveVisitor

/-- A remodel algebra for the examples whose irreducible map of every vertex
has three entries: the descriptors of the SENSE edges to the vertices 1, 2 and
3 on the same strand, with overlaps of length 90, 80 and 70.  The two
procedures return the graph as it is. -/
def exampleScanAlgebra : RemodelAlgebra :=
  { overlapMap := fun _ _ =>
      [({ pVertex := 1, dir := ED_SENSE, comp := EC_SAME }, mkOverlap 90),
       ({ pVertex := 2, dir := ED_SENSE, comp := EC_SAME }, mkOverlap 80),
       ({ pVertex := 3, dir := ED_SENSE, comp := EC_SAME }, mkOverlap 70)],
    containMap := fun _ _ => [],
    createEdgesFromOverlap := fun g _ => g,
    updateContainFlags := fun g _ _ => g }

/-- The vertex 0 with the edges 0 -> 1, 0 -> 2, a second edge 0 -> 2 and
0 -> 4, all SENSE on the same strand. -/
def scanGraph : StringGraph :=
  mkGraph 5 (edgePair 0 0 1 ED_SENSE EC_SAME 10 10 90 ++ edgePair 1 0 2 ED_SENSE EC_SAME 20 20 80 ++
    edgePair 2 0 2 ED_SENSE EC_SAME 20 20 80 ++ edgePair 3 0 4 ED_SENSE EC_SAME 30 30 70)

namespace SGRemodelVisitor

/-- The map entries whose descriptor is the descriptor of none of the edges. -/
def unmatched (m : EdgeDescOverlapMap) (es : List Edge) : EdgeDescOverlapMap :=
  m.filter (fun kv => es.all (fun e => decide (e.getDesc ≠ kv.1)))

end SGRemodelVisitor

/-- The vertex 0 with a self-overlap, whose two halves are the edges 0 (SENSE)
and 1 (ANTISENSE) of its adjacency list. -/
def scanSelfOverlapGraph : StringGraph :=
  mkGraph 1 (edgePair 0 0 0 ED_SENSE EC_SAME 10 10 90)

/-- A remodel algebra for the examples whose irreducible map of every vertex
has one entry, the descriptor of the SENSE edge to the vertex 0 on the same
strand.  The two procedures return the graph as it is. -/
def scanSelfOverlapAlgebra : RemodelAlgebra :=
  { overlapMap := fun _ _ =>
      [({ pVertex := 0, dir := ED_SENSE, comp := EC_SAME }, mkOverlap 90)],
    containMap := fun _ _ => [],
    createEdgesFromOverlap := fun g _ => g,
    updateContainFlags := fun g _ _ => g }

namespace SGEdgeStatsVisitor

/-- The invariant of the loops of getMissingCandidates over the state `st`,
where `g` is the graph on entry and `g1` the graph after the first colouring:
only vertex colours differ from `g`; what is BLACK in `g1` is BLACK; a colour
differs from `g1` only at a candidate endpoint; the candidate endpoints are
pairwise distinct, BLACK, and were not BLACK in `g1`; every candidate holds an
overlap of minimal length at least `minOverlap` inferred from an edge of `v`
and an edge of its end that leads to the endpoint. -/
def CandInv (alg : OverlapAlgebra) (getMinOverlapLength : Overlap → Int) (minOverlap : Int)
    (g : StringGraph) (v : VertexID) (g1 : StringGraph) (st : StringGraph × List Candidate) :
    Prop :=
  st.1.edges = g.edges ∧ st.1.vertices = g.vertices ∧ st.1.edgeColor = g.edgeColor ∧
  (∀ x, g1.vertexColor x = GC_BLACK → st.1.vertexColor x = GC_BLACK) ∧
  (∀ x, st.1.vertexColor x = g1.vertexColor x ∨ x ∈ st.2.map (fun c => c.pEndpoint)) ∧
  (st.2.map (fun c => c.pEndpoint)).Nodup ∧
  ∀ c ∈ st.2, st.1.vertexColor c.pEndpoint = GC_BLACK ∧ g1.vertexColor c.pEndpoint ≠ GC_BLACK ∧
    getMinOverlapLength c.ovr ≥ minOverlap ∧
    ∃ pXY ∈ g.getAllEdges v, ∃ pYZ ∈ g.getAllEdges pXY.end_, pYZ.end_ = c.pEndpoint ∧
      alg.hasTransitiveOverlap pXY.overlap pYZ.overlap = true ∧
      c.ovr = alg.inferTransitiveOverlap pXY.overlap pYZ.overlap

end SGEdgeStatsVisitor

/-! # Theorems -/

/-! ## Basic facts about the graph operations -/

theorem EdgeDir.flip_flip (d : EdgeDir) : d.flip.flip = d := by
  cases d <;> rfl

theorem EdgeDir.flip_ne (d : EdgeDir) : d.flip ≠ d := by
  cases d <;> simp [EdgeDir.flip]

theorem sizeAdd_eq {a b : Nat} (ha : a < 2 ^ 63) (hb : b < 2 ^ 63) : sizeAdd a b = a + b := by
  unfold sizeAdd
  apply Nat.mod_eq_of_lt
  omega

namespace StringGraph

theorem mem_getEdges {g : StringGraph} {v : VertexID} {d : EdgeDir} {e : Edge} :
    e ∈ g.getEdges v d ↔ e ∈ g.edges ∧ e.start = v ∧ e.dir = d := by
  simp [getEdges]

theorem mem_getAllEdges {g : StringGraph} {v : VertexID} {e : Edge} :
    e ∈ g.getAllEdges v ↔ e ∈ g.edges ∧ e.start = v := by
  simp [getAllEdges]

theorem getEdges_congr {g h : StringGraph} (he : h.edges = g.edges) (v : VertexID)
    (d : EdgeDir) : h.getEdges v d = g.getEdges v d := by
  simp [getEdges, he]

end StringGraph

namespace SGTransitiveReductionVisitor

theorem tr_blackenEnds_edges (ws : List Edge) (g : StringGraph) :
    (blackenEnds ws g).edges = g.edges := by
  induction ws generalizing g with
  | nil => rfl
  | cons w ws ih =>
    simp only [blackenEnds, List.foldl_cons] at ih ⊢
    rw [ih]
    split <;> rfl

theorem tr_blackenEnds_edgeColor (ws : List Edge) (g : StringGraph) :
    (blackenEnds ws g).edgeColor = g.edgeColor := by
  induction ws generalizing g with
  | nil => rfl
  | cons w ws ih =>
    simp only [blackenEnds, List.foldl_cons] at ih ⊢
    rw [ih]
    split <;> rfl

theorem tr_blackenEnds_vertices (ws : List Edge) (g : StringGraph) :
    (blackenEnds ws g).vertices = g.vertices := by
  induction ws generalizing g with
  | nil => rfl
  | cons w ws ih =>
    simp only [blackenEnds, List.foldl_cons] at ih ⊢
    rw [ih]
    split <;> rfl

theorem tr_blackenEnds_vertexColor (ws : List Edge) (g : StringGraph) (x : VertexID) :
    (blackenEnds ws g).vertexColor x =
      if g.vertexColor x = GC_GRAY ∧ x ∈ ws.map (fun e => e.end_) then GC_BLACK
      else g.vertexColor x := by
  induction ws generalizing g with
  | nil => simp [blackenEnds]
  | cons w ws ih =>
    simp only [blackenEnds, List.foldl_cons] at ih ⊢
    rw [ih]
    by_cases hw : g.vertexColor w.end_ = GC_GRAY
    · by_cases hx : x = w.end_
      · subst hx
        simp [hw, StringGraph.setVertexColor]
      · simp [hw, StringGraph.setVertexColor, hx]
    · by_cases hx : x = w.end_
      · subst hx
        simp [hw]
      · simp [hw, hx]

theorem tr_stage1Inner_eq (L a : Nat) (ws : List Edge) (g : StringGraph) :
    stage1Inner L a ws g =
      blackenEnds (ws.takeWhile (fun wx => decide (sizeAdd a wx.seqLen ≤ L))) g := by
  induction ws generalizing g with
  | nil => rfl
  | cons w ws ih =>
    by_cases h : sizeAdd a w.seqLen ≤ L
    · simp only [stage1Inner, h, if_true, List.takeWhile_cons, decide_True]
      rw [ih]
      rfl
    · simp [stage1Inner, h, List.takeWhile_cons, blackenEnds]

theorem tr_stage2Inner_eq (j : Nat) (ws : List Edge) (g : StringGraph) :
    stage2Inner j ws g = blackenEnds (stage2Prefix j ws) g := by
  induction ws generalizing g j with
  | nil => rfl
  | cons w ws ih =>
    by_cases h : w.seqLen < FUZZ ∨ j = 0
    · simp only [stage2Inner, stage2Prefix, h, if_true]
      rw [ih]
      rfl
    · simp [stage2Inner, stage2Prefix, h, blackenEnds]

theorem tr_stage1Step_scan (L : Nat) : ScanStep (stage1Step L) := by
  intro g vw
  by_cases h : g.vertexColor vw.end_ = GC_GRAY
  · refine ⟨(g.getEdges vw.end_ vw.getTwinDir.flip).takeWhile
      (fun wx => decide (sizeAdd vw.seqLen wx.seqLen ≤ L)), ?_, ?_⟩
    · intro wx hwx
      exact List.takeWhile_subset _ hwx
    · simp [stage1Step, h, tr_stage1Inner_eq]
  · exact ⟨[], by simp, by simp [stage1Step, h, blackenEnds]⟩

theorem tr_stage2Prefix_subset (j : Nat) (ws : List Edge) : ∀ wx ∈ stage2Prefix j ws, wx ∈ ws := by
  induction ws generalizing j with
  | nil => simp [stage2Prefix]
  | cons w ws ih =>
    intro wx hwx
    by_cases h : w.seqLen < FUZZ ∨ j = 0
    · simp only [stage2Prefix, h, if_true, List.mem_cons] at hwx
      rcases hwx with rfl | hwx
      · simp
      · exact List.mem_cons_of_mem _ (ih _ _ hwx)
    · simp [stage2Prefix, h] at hwx

theorem tr_stage2Step_scan : ScanStep stage2Step := by
  intro g vw
  exact ⟨stage2Prefix 0 (g.getEdges vw.end_ vw.getTwinDir.flip),
    tr_stage2Prefix_subset _ _, by simp [stage2Step, tr_stage2Inner_eq]⟩

theorem tr_scan_edges {f : StringGraph → Edge → StringGraph} (hf : ScanStep f) (es : List Edge)
    (g : StringGraph) : (es.foldl f g).edges = g.edges := by
  induction es generalizing g with
  | nil => rfl
  | cons e es ih =>
    obtain ⟨ws, -, hws⟩ := hf g e
    rw [List.foldl_cons, ih, hws, tr_blackenEnds_edges]

theorem tr_scan_edgeColor {f : StringGraph → Edge → StringGraph} (hf : ScanStep f)
    (es : List Edge) (g : StringGraph) : (es.foldl f g).edgeColor = g.edgeColor := by
  induction es generalizing g with
  | nil => rfl
  | cons e es ih =>
    obtain ⟨ws, -, hws⟩ := hf g e
    rw [List.foldl_cons, ih, hws, tr_blackenEnds_edgeColor]

theorem tr_scan_vertices {f : StringGraph → Edge → StringGraph} (hf : ScanStep f)
    (es : List Edge) (g : StringGraph) : (es.foldl f g).vertices = g.vertices := by
  induction es generalizing g with
  | nil => rfl
  | cons e es ih =>
    obtain ⟨ws, -, hws⟩ := hf g e
    rw [List.foldl_cons, ih, hws, tr_blackenEnds_vertices]

/-- A scan changes the colour of a vertex only from GRAY to BLACK, and only at
the end of a two-hop path. -/
theorem tr_scan_vertexColor {f : StringGraph → Edge → StringGraph} (hf : ScanStep f)
    (es : List Edge) (g : StringGraph) (x : VertexID) :
    (es.foldl f g).vertexColor x = g.vertexColor x ∨
      (g.vertexColor x = GC_GRAY ∧ (es.foldl f g).vertexColor x = GC_BLACK ∧ TwoHop g es x) := by
  induction es generalizing g with
  | nil => exact Or.inl rfl
  | cons e es ih =>
    obtain ⟨ws, hsub, hws⟩ := hf g e
    rw [List.foldl_cons]
    have hE : (f g e).edges = g.edges := by rw [hws, tr_blackenEnds_edges]
    have hstep : (f g e).vertexColor x =
        if g.vertexColor x = GC_GRAY ∧ x ∈ ws.map (fun e => e.end_) then GC_BLACK
        else g.vertexColor x := by rw [hws, tr_blackenEnds_vertexColor]
    rcases ih (f g e) with h | ⟨h1, h2, vw, hvw, wx, hwx, hx⟩
    · rw [h, hstep]
      by_cases hc : g.vertexColor x = GC_GRAY ∧ x ∈ ws.map (fun e => e.end_)
      · right
        obtain ⟨hg, hmem⟩ := hc
        rw [List.mem_map] at hmem
        obtain ⟨wx, hwx, rfl⟩ := hmem
        refine ⟨hg, ?_, e, by simp, wx, hsub wx hwx, rfl⟩
        rw [if_pos ⟨hg, List.mem_map.2 ⟨wx, hwx, rfl⟩⟩]
      · left
        rw [if_neg hc]
    · right
      rw [hstep] at h1
      have hg : g.vertexColor x = GC_GRAY := by
        by_cases hc : g.vertexColor x = GC_GRAY ∧ x ∈ ws.map (fun e => e.end_)
        · exact hc.1
        · rw [if_neg hc] at h1
          exact h1
      refine ⟨hg, h2, vw, List.mem_cons_of_mem _ hvw, wx, ?_, hx⟩
      rw [← StringGraph.getEdges_congr hE]
      exact hwx

theorem tr_scan_not_gray {f : StringGraph → Edge → StringGraph} (hf : ScanStep f)
    (es : List Edge) (g : StringGraph) (x : VertexID) (h : g.vertexColor x ≠ GC_GRAY) :
    (es.foldl f g).vertexColor x ≠ GC_GRAY := by
  rcases tr_scan_vertexColor hf es g x with h1 | ⟨h1, -, -⟩
  · rw [h1]
    exact h
  · exact absurd h1 h

theorem tr_mem_takeWhile_of_sorted {ws : List Edge} (hs : ws.Sorted EdgeLenLE) (p : Edge → Bool)
    (hp : ∀ a ∈ ws, ∀ b ∈ ws, EdgeLenLE a b → p b = true → p a = true) {x : Edge}
    (hx : x ∈ ws) (hpx : p x = true) : x ∈ ws.takeWhile p := by
  induction ws with
  | nil => simp at hx
  | cons w ws ih =>
    have hrel := List.rel_of_sorted_cons hs
    have hpw : p w = true := by
      rcases List.mem_cons.1 hx with rfl | hx2
      · exact hpx
      · exact hp w (by simp) x hx (hrel x hx2) hpx
    rw [List.takeWhile_cons_of_pos hpw]
    rcases List.mem_cons.1 hx with rfl | hx2
    · simp
    · exact List.mem_cons_of_mem _
        (ih hs.of_cons (fun a ha b hb => hp a (List.mem_cons_of_mem _ ha) b
          (List.mem_cons_of_mem _ hb)) hx2)

theorem tr_getEdges_sorted {g : StringGraph} (hs : g.edges.Sorted EdgeLenLE) (v : VertexID)
    (d : EdgeDir) : (g.getEdges v d).Sorted EdgeLenLE :=
  List.Sorted.filter _ hs

/-- Stage 1 reaches every onward edge within the length bound, unless the end
of the first edge has already lost its GRAY colour. -/
theorem tr_stage1_complete (L : Nat) (es : List Edge) (g : StringGraph)
    (hs : g.edges.Sorted EdgeLenLE) (hb : ∀ e ∈ g.edges, e.seqLen < 2 ^ 63)
    (hes : ∀ e ∈ es, e.seqLen < 2 ^ 63) :
    ∀ vw ∈ es, ∀ wx ∈ g.getEdges vw.end_ vw.getTwinDir.flip, vw.seqLen + wx.seqLen ≤ L →
      (stage1 L es g).vertexColor vw.end_ ≠ GC_GRAY ∨
        (stage1 L es g).vertexColor wx.end_ ≠ GC_GRAY := by
  induction es generalizing g with
  | nil => simp
  | cons e es ih =>
    intro vw hvw wx hwx hlen
    have hstepE : (stage1Step L g e).edges = g.edges := by
      obtain ⟨ws, -, hws⟩ := tr_stage1Step_scan L g e
      rw [hws, tr_blackenEnds_edges]
    simp only [stage1, List.foldl_cons]
    rcases List.mem_cons.1 hvw with rfl | hvw2
    · by_cases hc : g.vertexColor vw.end_ = GC_GRAY
      · right
        apply tr_scan_not_gray (tr_stage1Step_scan L)
        have hmem : wx ∈ (g.getEdges vw.end_ vw.getTwinDir.flip).takeWhile
            (fun wx => decide (sizeAdd vw.seqLen wx.seqLen ≤ L)) := by
          apply tr_mem_takeWhile_of_sorted (tr_getEdges_sorted hs _ _) _ _ hwx
          · have h1 := hb wx (StringGraph.mem_getEdges.1 hwx).1
            have h2 := hes vw (by simp)
            rw [decide_eq_true_eq, sizeAdd_eq h2 h1]
            exact hlen
          · intro a ha b hb2 hab hpb
            have h1 := hb a (StringGraph.mem_getEdges.1 ha).1
            have h3 := hb b (StringGraph.mem_getEdges.1 hb2).1
            have h2 := hes vw (by simp)
            rw [decide_eq_true_eq, sizeAdd_eq h2 h3] at hpb
            rw [decide_eq_true_eq, sizeAdd_eq h2 h1]
            unfold EdgeLenLE at hab
            omega
        simp only [stage1Step, hc, if_true, tr_stage1Inner_eq]
        rw [tr_blackenEnds_vertexColor]
        by_cases hx : g.vertexColor wx.end_ = GC_GRAY
        · rw [if_pos ⟨hx, List.mem_map.2 ⟨wx, hmem, rfl⟩⟩]
          simp
        · rw [if_neg (fun h => hx h.1)]
          exact hx
      · left
        apply tr_scan_not_gray (tr_stage1Step_scan L)
        simp only [stage1Step, hc, if_false]
        exact hc
    · have := ih (stage1Step L g e) (by rw [hstepE]; exact hs) (by rw [hstepE]; exact hb)
        (fun x hx => hes x (List.mem_cons_of_mem _ hx)) vw hvw2 wx
        (by rw [StringGraph.getEdges_congr hstepE]; exact hwx) hlen
      exact this

/-- Stage 2 reaches the first onward edge of the end of every edge. -/
theorem tr_stage2_head (es : List Edge) (g : StringGraph) :
    ∀ vw ∈ es, ∀ wx, (g.getEdges vw.end_ vw.getTwinDir.flip).head? = some wx →
      (stage2 es g).vertexColor wx.end_ ≠ GC_GRAY := by
  induction es generalizing g with
  | nil => simp
  | cons e es ih =>
    intro vw hvw wx hwx
    have hstepE : (stage2Step g e).edges = g.edges := by
      obtain ⟨ws, -, hws⟩ := tr_stage2Step_scan g e
      rw [hws, tr_blackenEnds_edges]
    simp only [stage2, List.foldl_cons]
    rcases List.mem_cons.1 hvw with rfl | hvw2
    · apply tr_scan_not_gray tr_stage2Step_scan
      simp only [stage2Step, tr_stage2Inner_eq]
      rw [tr_blackenEnds_vertexColor]
      have hmem : wx ∈ stage2Prefix 0 (g.getEdges vw.end_ vw.getTwinDir.flip) := by
        cases hl : g.getEdges vw.end_ vw.getTwinDir.flip with
        | nil => rw [hl] at hwx; simp at hwx
        | cons a l =>
          rw [hl] at hwx
          simp only [List.head?_cons, Option.some.injEq] at hwx
          subst hwx
          simp [stage2Prefix]
      by_cases hx : g.vertexColor wx.end_ = GC_GRAY
      · rw [if_pos ⟨hx, List.mem_map.2 ⟨wx, hmem, rfl⟩⟩]
        simp
      · rw [if_neg (fun h => hx h.1)]
        exact hx
    · exact ih (stage2Step g e) vw hvw2 wx
        (by rw [StringGraph.getEdges_congr hstepE]; exact hwx)

theorem tr_markStep_edges (st : MarkState) (e : Edge) :
    (markStep st e).graph.edges = st.graph.edges := by
  unfold markStep
  split_ifs <;> rfl

theorem tr_markStep_vertices (st : MarkState) (e : Edge) :
    (markStep st e).graph.vertices = st.graph.vertices := by
  unfold markStep
  split_ifs <;> rfl

theorem tr_markStep_vertexColor (st : MarkState) (e : Edge) (x : VertexID) :
    (markStep st e).graph.vertexColor x =
      if x = e.end_ then GC_WHITE else st.graph.vertexColor x := by
  unfold markStep
  split_ifs <;> simp_all [StringGraph.setVertexColor, StringGraph.setEdgeColor]

theorem tr_markStep_edgeColor (st : MarkState) (e : Edge) (i : EdgeID) :
    (markStep st e).graph.edgeColor i =
      if st.graph.vertexColor e.end_ = GC_BLACK ∧ (i = e.id ∨ i = e.twin) then GC_BLACK
      else st.graph.edgeColor i := by
  unfold markStep
  by_cases h1 : st.graph.vertexColor e.end_ = GC_BLACK
  · by_cases h2 : st.graph.edgeColor e.id ≠ GC_BLACK ∨ st.graph.edgeColor e.twin ≠ GC_BLACK
    · simp only [h1, h2, if_true, true_and]
      simp only [StringGraph.setVertexColor, StringGraph.setEdgeColor]
      by_cases h3 : i = e.twin
      · simp [h3]
      · by_cases h4 : i = e.id
        · simp [h4]
        · simp [h3, h4]
    · simp only [h1, h2, if_true, if_false, true_and]
      simp only [StringGraph.setVertexColor]
      push_neg at h2
      by_cases h3 : i = e.id ∨ i = e.twin
      · rw [if_pos h3]
        rcases h3 with rfl | rfl
        · exact h2.1
        · exact h2.2
      · rw [if_neg h3]
  · simp only [h1, if_false, false_and]
    rfl

theorem tr_markEdges_edges (es : List Edge) (st : MarkState) :
    (markEdges es st).graph.edges = st.graph.edges := by
  induction es generalizing st with
  | nil => rfl
  | cons e es ih =>
    simp only [markEdges, List.foldl_cons] at ih ⊢
    rw [ih, tr_markStep_edges]

theorem tr_markEdges_vertices (es : List Edge) (st : MarkState) :
    (markEdges es st).graph.vertices = st.graph.vertices := by
  induction es generalizing st with
  | nil => rfl
  | cons e es ih =>
    simp only [markEdges, List.foldl_cons] at ih ⊢
    rw [ih, tr_markStep_vertices]

theorem tr_markEdges_vertexColor (es : List Edge) (st : MarkState) (x : VertexID) :
    (markEdges es st).graph.vertexColor x =
      if x ∈ es.map (fun e => e.end_) then GC_WHITE else st.graph.vertexColor x := by
  induction es generalizing st with
  | nil => simp [markEdges]
  | cons e es ih =>
    simp only [markEdges, List.foldl_cons] at ih ⊢
    rw [ih, tr_markStep_vertexColor]
    by_cases h1 : x = e.end_
    · simp [h1]
    · simp [h1]

theorem tr_markEdges_black_stays (es : List Edge) (st : MarkState) (i : EdgeID)
    (h : st.graph.edgeColor i = GC_BLACK) : (markEdges es st).graph.edgeColor i = GC_BLACK := by
  induction es generalizing st with
  | nil => exact h
  | cons e es ih =>
    simp only [markEdges, List.foldl_cons] at ih ⊢
    apply ih
    rw [tr_markStep_edgeColor]
    split_ifs
    · rfl
    · exact h

/-- The marking loop changes the colour of an edge only to BLACK, and only for
an edge of the list whose end was BLACK, or for the twin of such an edge. -/
theorem tr_markEdges_edgeColor (es : List Edge) (st : MarkState) (i : EdgeID) :
    (markEdges es st).graph.edgeColor i = st.graph.edgeColor i ∨
      ((markEdges es st).graph.edgeColor i = GC_BLACK ∧
        ∃ e ∈ es, st.graph.vertexColor e.end_ = GC_BLACK ∧ (i = e.id ∨ i = e.twin)) := by
  induction es generalizing st with
  | nil => exact Or.inl rfl
  | cons e es ih =>
    simp only [markEdges, List.foldl_cons] at ih ⊢
    rcases ih (markStep st e) with h | ⟨h1, f, hf, hfc, hfi⟩
    · rw [h, tr_markStep_edgeColor]
      by_cases hc : st.graph.vertexColor e.end_ = GC_BLACK ∧ (i = e.id ∨ i = e.twin)
      · right
        refine ⟨?_, e, by simp, hc.1, hc.2⟩
        rw [if_pos hc]
      · left
        rw [if_neg hc]
    · right
      refine ⟨h1, f, List.mem_cons_of_mem _ hf, ?_, hfi⟩
      rw [tr_markStep_vertexColor] at hfc
      by_cases hx : f.end_ = e.end_
      · rw [if_pos hx] at hfc
        exact absurd hfc (by decide)
      · rw [if_neg hx] at hfc
        exact hfc

/-- When the ends of the edges of the list are pairwise distinct, the marking
loop marks every edge whose end is BLACK, together with its twin. -/
theorem tr_markEdges_complete (es : List Edge) (st : MarkState)
    (hnd : (es.map (fun e => e.end_)).Nodup) :
    ∀ e ∈ es, st.graph.vertexColor e.end_ = GC_BLACK →
      (markEdges es st).graph.edgeColor e.id = GC_BLACK ∧
        (markEdges es st).graph.edgeColor e.twin = GC_BLACK := by
  induction es generalizing st with
  | nil => simp
  | cons a es ih =>
    intro e he hc
    rw [List.map_cons, List.nodup_cons] at hnd
    simp only [markEdges, List.foldl_cons] at ih ⊢
    rcases List.mem_cons.1 he with rfl | he2
    · constructor
      · apply tr_markEdges_black_stays
        rw [tr_markStep_edgeColor, if_pos ⟨hc, Or.inl rfl⟩]
      · apply tr_markEdges_black_stays
        rw [tr_markStep_edgeColor, if_pos ⟨hc, Or.inr rfl⟩]
    · apply ih (markStep st a) hnd.2 e he2
      rw [tr_markStep_vertexColor]
      have hne : e.end_ ≠ a.end_ := by
        intro h
        apply hnd.1
        rw [← h]
        exact List.mem_map.2 ⟨e, he2, rfl⟩
      rw [if_neg hne]
      exact hc

/-- When no end is BLACK the marking loop changes neither a counter nor the
colour of an edge. -/
theorem tr_markEdges_idle (es : List Edge) (st : MarkState)
    (h : ∀ e ∈ es, st.graph.vertexColor e.end_ ≠ GC_BLACK) :
    (markEdges es st).marked_edges = st.marked_edges ∧
      (markEdges es st).trans_count = st.trans_count ∧
      (markEdges es st).graph.edgeColor = st.graph.edgeColor := by
  induction es generalizing st with
  | nil => exact ⟨rfl, rfl, rfl⟩
  | cons a es ih =>
    simp only [markEdges, List.foldl_cons] at ih ⊢
    have ha : st.graph.vertexColor a.end_ ≠ GC_BLACK := h a (by simp)
    have hstep : (markStep st a).marked_edges = st.marked_edges ∧
        (markStep st a).trans_count = st.trans_count ∧
        (markStep st a).graph.edgeColor = st.graph.edgeColor := by
      simp [markStep, ha, StringGraph.setVertexColor]
    have := ih (markStep st a) (by
      intro e he
      rw [tr_markStep_vertexColor]
      split_ifs
      · decide
      · exact h e (List.mem_cons_of_mem _ he))
    rw [this.1, this.2.1, this.2.2]
    exact hstep

theorem tr_colorEnds_edges (es : List Edge) (g : StringGraph) :
    (colorEnds es g).edges = g.edges := by
  induction es generalizing g with
  | nil => rfl
  | cons e es ih =>
    simp only [colorEnds, List.foldl_cons] at ih ⊢
    rw [ih]
    rfl

theorem tr_colorEnds_edgeColor (es : List Edge) (g : StringGraph) :
    (colorEnds es g).edgeColor = g.edgeColor := by
  induction es generalizing g with
  | nil => rfl
  | cons e es ih =>
    simp only [colorEnds, List.foldl_cons] at ih ⊢
    rw [ih]
    rfl

theorem tr_colorEnds_vertices (es : List Edge) (g : StringGraph) :
    (colorEnds es g).vertices = g.vertices := by
  induction es generalizing g with
  | nil => rfl
  | cons e es ih =>
    simp only [colorEnds, List.foldl_cons] at ih ⊢
    rw [ih]
    rfl

theorem tr_colorEnds_vertexColor (es : List Edge) (g : StringGraph) (x : VertexID) :
    (colorEnds es g).vertexColor x =
      if x ∈ es.map (fun e => e.end_) then GC_GRAY else g.vertexColor x := by
  induction es generalizing g with
  | nil => simp [colorEnds]
  | cons e es ih =>
    simp only [colorEnds, List.foldl_cons] at ih ⊢
    rw [ih]
    by_cases h2 : x ∈ es.map (fun e => e.end_)
    · rw [if_pos h2, if_pos (by rw [List.map_cons]; exact List.mem_cons_of_mem _ h2)]
    · rw [if_neg h2]
      by_cases h1 : x = e.end_
      · simp [h1, StringGraph.setVertexColor]
      · have h3 : x ∉ (e :: es).map (fun e => e.end_) := by
          rw [List.map_cons, List.mem_cons]
          push_neg
          exact ⟨h1, h2⟩
        rw [if_neg h3]
        simp [h1, StringGraph.setVertexColor]

theorem tr_scanned_edges (L : Nat) (es : List Edge) (g : StringGraph) :
    (scanned L es g).edges = g.edges := by
  unfold scanned stage2 stage1
  rw [tr_scan_edges tr_stage2Step_scan, tr_scan_edges (tr_stage1Step_scan L), tr_colorEnds_edges]

theorem tr_scanned_edgeColor (L : Nat) (es : List Edge) (g : StringGraph) :
    (scanned L es g).edgeColor = g.edgeColor := by
  unfold scanned stage2 stage1
  rw [tr_scan_edgeColor tr_stage2Step_scan, tr_scan_edgeColor (tr_stage1Step_scan L), tr_colorEnds_edgeColor]

theorem tr_scanned_vertices (L : Nat) (es : List Edge) (g : StringGraph) :
    (scanned L es g).vertices = g.vertices := by
  unfold scanned stage2 stage1
  rw [tr_scan_vertices tr_stage2Step_scan, tr_scan_vertices (tr_stage1Step_scan L), tr_colorEnds_vertices]

theorem tr_twoHop_congr {g h : StringGraph} (he : h.edges = g.edges) (es : List Edge)
    (x : VertexID) : TwoHop h es x ↔ TwoHop g es x := by
  unfold TwoHop
  simp only [StringGraph.getEdges_congr he]

/-- Colours at the start of the marking loop, from an all-WHITE graph: a
vertex that is not an end is WHITE, an end is GRAY or BLACK, and a BLACK
vertex is the end of a two-hop path. -/
theorem tr_scanned_vertexColor (L : Nat) (es : List Edge) (g : StringGraph)
    (hw : ∀ x, g.vertexColor x = GC_WHITE) (x : VertexID) :
    (x ∉ es.map (fun e => e.end_) ∧ (scanned L es g).vertexColor x = GC_WHITE) ∨
      (x ∈ es.map (fun e => e.end_) ∧ ((scanned L es g).vertexColor x = GC_GRAY ∨
        ((scanned L es g).vertexColor x = GC_BLACK ∧ TwoHop g es x))) := by
  have h0 := tr_colorEnds_vertexColor es g x
  have hE0 := tr_colorEnds_edges es g
  have hE1 : (stage1 L es (colorEnds es g)).edges = g.edges := by
    unfold stage1
    rw [tr_scan_edges (tr_stage1Step_scan L), tr_colorEnds_edges]
  have h1 := tr_scan_vertexColor (tr_stage1Step_scan L) es (colorEnds es g) x
  have h2 := tr_scan_vertexColor tr_stage2Step_scan es (stage1 L es (colorEnds es g)) x
  rw [tr_twoHop_congr hE0] at h1
  rw [tr_twoHop_congr hE1] at h2
  unfold scanned
  unfold stage2
  unfold stage1 at h2 ⊢
  by_cases hx : x ∈ es.map (fun e => e.end_)
  · right
    refine ⟨hx, ?_⟩
    rw [if_pos hx] at h0
    rcases h2 with h2 | ⟨-, h2, h3⟩
    · rw [h2]
      rcases h1 with h1 | ⟨-, h1, h3⟩
      · left
        rw [h1, h0]
      · right
        exact ⟨h1, h3⟩
    · right
      exact ⟨h2, h3⟩
  · left
    refine ⟨hx, ?_⟩
    rw [if_neg hx, hw x] at h0
    rcases h1 with h1 | ⟨h1, -, -⟩
    · rcases h2 with h2 | ⟨h2, -, -⟩
      · rw [h2, h1, h0]
      · rw [h1, h0] at h2
        exact absurd h2 (by decide)
    · rw [h0] at h1
      exact absurd h1 (by decide)

theorem tr_le_getLast_of_sorted {es : List Edge} (hs : es.Sorted EdgeLenLE) {l : Edge}
    (hl : es.getLast? = some l) : ∀ u ∈ es, u.seqLen ≤ l.seqLen := by
  induction es with
  | nil => simp
  | cons a es ih =>
    intro u hu
    cases es with
    | nil =>
      simp only [List.getLast?_singleton, Option.some.injEq] at hl
      simp only [List.mem_singleton] at hu
      subst hl hu
      exact le_rfl
    | cons b es =>
      rw [List.getLast?_cons_cons] at hl
      have hlm : l ∈ b :: es := List.mem_of_getLast?_eq_some hl
      rcases List.mem_cons.1 hu with rfl | hu2
      · exact List.rel_of_sorted_cons hs l hlm
      · exact ih hs.of_cons hl u hu2

theorem tr_visitDir_cases (v : VertexID) (st : MarkState) (d : EdgeDir) :
    (st.graph.getEdges v d = [] ∧ visitDir v st d = st) ∨
      ∃ l, (st.graph.getEdges v d).getLast? = some l ∧
        visitDir v st d = markEdges (st.graph.getEdges v d)
          { st with graph := scanned (sizeAdd l.seqLen FUZZ) (st.graph.getEdges v d) st.graph } := by
  cases h : (st.graph.getEdges v d).getLast? with
  | none =>
    left
    refine ⟨List.getLast?_eq_none_iff.1 h, ?_⟩
    simp [visitDir, h]
  | some l =>
    right
    refine ⟨l, rfl, ?_⟩
    simp [visitDir, h, scanned]

theorem tr_visitDir_edges (v : VertexID) (st : MarkState) (d : EdgeDir) :
    (visitDir v st d).graph.edges = st.graph.edges := by
  rcases tr_visitDir_cases v st d with ⟨-, h⟩ | ⟨l, -, h⟩
  · rw [h]
  · rw [h, tr_markEdges_edges, tr_scanned_edges]

theorem tr_visitDir_vertices (v : VertexID) (st : MarkState) (d : EdgeDir) :
    (visitDir v st d).graph.vertices = st.graph.vertices := by
  rcases tr_visitDir_cases v st d with ⟨-, h⟩ | ⟨l, -, h⟩
  · rw [h]
  · rw [h, tr_markEdges_vertices, tr_scanned_vertices]

/-- A direction leaves every vertex WHITE. -/
theorem tr_visitDir_white (v : VertexID) (st : MarkState) (d : EdgeDir)
    (hw : ∀ x, st.graph.vertexColor x = GC_WHITE) :
    ∀ x, (visitDir v st d).graph.vertexColor x = GC_WHITE := by
  intro x
  rcases tr_visitDir_cases v st d with ⟨-, h⟩ | ⟨l, -, h⟩
  · rw [h]
    exact hw x
  · rw [h, tr_markEdges_vertexColor]
    split_ifs with hx
    · rfl
    · rcases tr_scanned_vertexColor (sizeAdd l.seqLen FUZZ) (st.graph.getEdges v d) st.graph hw x
        with ⟨-, h2⟩ | ⟨h2, -⟩
      · exact h2
      · exact absurd h2 hx

theorem tr_visitDir_black_stays (v : VertexID) (st : MarkState) (d : EdgeDir) (i : EdgeID)
    (hb : st.graph.edgeColor i = GC_BLACK) : (visitDir v st d).graph.edgeColor i = GC_BLACK := by
  rcases tr_visitDir_cases v st d with ⟨-, h⟩ | ⟨l, -, h⟩
  · rw [h]
    exact hb
  · rw [h]
    apply tr_markEdges_black_stays
    show (scanned _ _ st.graph).edgeColor i = GC_BLACK
    rw [tr_scanned_edgeColor]
    exact hb

/-- A direction changes the colour of an edge only to BLACK, and only for an
edge of the direction that closes a two-hop path, or for its twin. -/
theorem tr_visitDir_edgeColor (v : VertexID) (st : MarkState) (d : EdgeDir)
    (hw : ∀ x, st.graph.vertexColor x = GC_WHITE) (i : EdgeID) :
    (visitDir v st d).graph.edgeColor i = st.graph.edgeColor i ∨
      ((visitDir v st d).graph.edgeColor i = GC_BLACK ∧
        ∃ f ∈ st.graph.getEdges v d, (i = f.id ∨ i = f.twin) ∧
          TwoHop st.graph (st.graph.getEdges v d) f.end_) := by
  rcases tr_visitDir_cases v st d with ⟨-, h⟩ | ⟨l, -, h⟩
  · left
    rw [h]
  · rw [h]
    rcases tr_markEdges_edgeColor (st.graph.getEdges v d)
      { st with graph := scanned (sizeAdd l.seqLen FUZZ) (st.graph.getEdges v d) st.graph } i
      with h1 | ⟨h1, f, hf, hfc, hfi⟩
    · left
      rw [h1]
      show (scanned _ _ st.graph).edgeColor i = _
      rw [tr_scanned_edgeColor]
    · right
      refine ⟨h1, f, hf, hfi, ?_⟩
      rcases tr_scanned_vertexColor (sizeAdd l.seqLen FUZZ) (st.graph.getEdges v d) st.graph hw
        f.end_ with ⟨-, h2⟩ | ⟨-, h2 | ⟨-, h2⟩⟩
      · rw [h2] at hfc
        exact absurd hfc (by decide)
      · rw [h2] at hfc
        exact absurd hfc (by decide)
      · exact h2

/-- Stage 1 at work: an edge `vx` of the direction whose end closes a two-hop
path `vw`, `wx` within the length bound is BLACK after the direction, unless
`vw` is. -/
theorem tr_visitDir_complete1 (v : VertexID) (st : MarkState) (d : EdgeDir)
    (hw : ∀ x, st.graph.vertexColor x = GC_WHITE)
    (hs : st.graph.edges.Sorted EdgeLenLE) (hb : ∀ e ∈ st.graph.edges, e.seqLen < 2 ^ 63)
    (hnd : ((st.graph.getEdges v d).map (fun e => e.end_)).Nodup) :
    ∀ vw ∈ st.graph.getEdges v d, ∀ wx ∈ st.graph.getEdges vw.end_ vw.getTwinDir.flip,
      ∀ vx ∈ st.graph.getEdges v d, vx.end_ = wx.end_ →
      ∀ u ∈ st.graph.getEdges v d, vw.seqLen + wx.seqLen ≤ u.seqLen + FUZZ →
        (visitDir v st d).graph.edgeColor vx.id = GC_BLACK ∨
          (visitDir v st d).graph.edgeColor vw.id = GC_BLACK := by
  intro vw hvw wx hwx vx hvx hend u hu hlen
  rcases tr_visitDir_cases v st d with ⟨h0, -⟩ | ⟨l, hl, h⟩
  · rw [h0] at hvw
    simp at hvw
  · rw [h]
    set es := st.graph.getEdges v d with hes
    set L := sizeAdd l.seqLen FUZZ with hL
    have hesb : ∀ e ∈ es, e.seqLen < 2 ^ 63 := fun e he => hb e (StringGraph.mem_getEdges.1 he).1
    have hLeq : L = l.seqLen + FUZZ := by
      rw [hL]
      apply sizeAdd_eq (hesb l (List.mem_of_getLast?_eq_some hl))
      unfold FUZZ
      norm_num
    have hul := tr_le_getLast_of_sorted (tr_getEdges_sorted hs v d) hl u hu
    have hE0 := tr_colorEnds_edges es st.graph
    have hc := tr_stage1_complete L es (colorEnds es st.graph) (by rw [hE0]; exact hs)
      (by rw [hE0]; exact hb) hesb vw hvw wx
      (by rw [StringGraph.getEdges_congr hE0]; exact hwx) (by omega)
    have hc2 : (scanned L es st.graph).vertexColor vw.end_ ≠ GC_GRAY ∨
        (scanned L es st.graph).vertexColor wx.end_ ≠ GC_GRAY := by
      rcases hc with hc | hc
      · left
        exact tr_scan_not_gray tr_stage2Step_scan es _ _ hc
      · right
        exact tr_scan_not_gray tr_stage2Step_scan es _ _ hc
    have hblack : ∀ e ∈ es, (scanned L es st.graph).vertexColor e.end_ ≠ GC_GRAY →
        (scanned L es st.graph).vertexColor e.end_ = GC_BLACK := by
      intro e he hne
      rcases tr_scanned_vertexColor L es st.graph hw e.end_ with ⟨h1, -⟩ | ⟨-, h1 | ⟨h1, -⟩⟩
      · exact absurd (List.mem_map.2 ⟨e, he, rfl⟩) h1
      · exact absurd h1 hne
      · exact h1
    rcases hc2 with hc2 | hc2
    · right
      exact (tr_markEdges_complete es _ hnd vw hvw (hblack vw hvw hc2)).1
    · left
      rw [← hend] at hc2
      exact (tr_markEdges_complete es _ hnd vx hvx (hblack vx hvx hc2)).1

/-- Stage 2 at work: an edge of the direction whose end is the end of the
first onward edge of the end of an edge of the direction is BLACK after the
direction, together with its twin. -/
theorem tr_visitDir_complete2 (v : VertexID) (st : MarkState) (d : EdgeDir)
    (hw : ∀ x, st.graph.vertexColor x = GC_WHITE)
    (hnd : ((st.graph.getEdges v d).map (fun e => e.end_)).Nodup) :
    ∀ vw ∈ st.graph.getEdges v d, ∀ wx,
      (st.graph.getEdges vw.end_ vw.getTwinDir.flip).head? = some wx →
      ∀ vx ∈ st.graph.getEdges v d, vx.end_ = wx.end_ →
        (visitDir v st d).graph.edgeColor vx.id = GC_BLACK ∧
          (visitDir v st d).graph.edgeColor vx.twin = GC_BLACK := by
  intro vw hvw wx hwx vx hvx hend
  rcases tr_visitDir_cases v st d with ⟨h0, -⟩ | ⟨l, hl, h⟩
  · rw [h0] at hvw
    simp at hvw
  · rw [h]
    set es := st.graph.getEdges v d with hes
    set L := sizeAdd l.seqLen FUZZ with hL
    have hE1 : (stage1 L es (colorEnds es st.graph)).edges = st.graph.edges := by
      unfold stage1
      rw [tr_scan_edges (tr_stage1Step_scan L), tr_colorEnds_edges]
    have hc := tr_stage2_head es (stage1 L es (colorEnds es st.graph)) vw hvw wx
      (by rw [StringGraph.getEdges_congr hE1]; exact hwx)
    have hc2 : (scanned L es st.graph).vertexColor vx.end_ = GC_BLACK := by
      rcases tr_scanned_vertexColor L es st.graph hw vx.end_ with ⟨h1, -⟩ | ⟨-, h1 | ⟨h1, -⟩⟩
      · exact absurd (List.mem_map.2 ⟨vx, hvx, rfl⟩) h1
      · rw [hend] at h1
        exact absurd h1 hc
      · exact h1
    exact tr_markEdges_complete es _ hnd vx hvx hc2

/-- A direction without a two-hop path to the end of one of its edges changes
neither a counter nor the colour of an edge. -/
theorem tr_visitDir_idle (v : VertexID) (st : MarkState) (d : EdgeDir)
    (hw : ∀ x, st.graph.vertexColor x = GC_WHITE)
    (hno : ∀ f ∈ st.graph.getEdges v d, ¬ TwoHop st.graph (st.graph.getEdges v d) f.end_) :
    (visitDir v st d).marked_edges = st.marked_edges ∧
      (visitDir v st d).trans_count = st.trans_count ∧
      (visitDir v st d).graph.edgeColor = st.graph.edgeColor := by
  rcases tr_visitDir_cases v st d with ⟨-, h⟩ | ⟨l, -, h⟩
  · rw [h]
    exact ⟨rfl, rfl, rfl⟩
  · rw [h]
    have := tr_markEdges_idle (st.graph.getEdges v d)
      { st with graph := scanned (sizeAdd l.seqLen FUZZ) (st.graph.getEdges v d) st.graph }
      (by
        intro e he hc
        rcases tr_scanned_vertexColor (sizeAdd l.seqLen FUZZ) (st.graph.getEdges v d) st.graph hw
          e.end_ with ⟨-, h2⟩ | ⟨-, h2 | ⟨-, h2⟩⟩
        · rw [h2] at hc
          exact absurd hc (by decide)
        · rw [h2] at hc
          exact absurd hc (by decide)
        · exact hno e he h2)
    refine ⟨this.1, this.2.1, ?_⟩
    rw [this.2.2]
    show (scanned _ _ st.graph).edgeColor = _
    rw [tr_scanned_edgeColor]

theorem NoParallelEdges.ends_nodup {g : StringGraph} (h : NoParallelEdges g.edges)
    (v : VertexID) (d : EdgeDir) : ((g.getEdges v d).map (fun e => e.end_)).Nodup := by
  unfold NoParallelEdges at h
  have h1 : ((g.getEdges v d).map (fun e => (e.start, e.dir, e.end_))).Nodup :=
    List.Nodup.sublist (List.Sublist.map _ (List.filter_sublist _)) h
  have h2 : (g.getEdges v d).map (fun e => (e.start, e.dir, e.end_)) =
      ((g.getEdges v d).map (fun e => e.end_)).map (fun x => (v, d, x)) := by
    rw [List.map_map]
    apply List.map_congr_left
    intro e he
    have := StringGraph.mem_getEdges.1 he
    simp [this.2.1, this.2.2]
  rw [h2] at h1
  exact List.Nodup.of_map _ h1

theorem tr_twoHop_spanned {g : StringGraph} {v : VertexID} {d : EdgeDir} {f : Edge}
    (hf : f ∈ g.getEdges v d) (h : TwoHop g (g.getEdges v d) f.end_) : Spanned g.edges f := by
  obtain ⟨vw, hvw, wx, hwx, hx⟩ := h
  have h1 := StringGraph.mem_getEdges.1 hvw
  have h2 := StringGraph.mem_getEdges.1 hwx
  have h3 := StringGraph.mem_getEdges.1 hf
  exact ⟨vw, h1.1, wx, h2.1, by rw [h1.2.1, h3.2.1], by rw [h1.2.2, h3.2.2], h2.2.1, h2.2.2, hx⟩

theorem tr_spanned_twoHop {g : StringGraph} {f : Edge} (h : Spanned g.edges f) :
    TwoHop g (g.getEdges f.start f.dir) f.end_ := by
  obtain ⟨vw, hvw, wx, hwx, h1, h2, h3, h4, h5⟩ := h
  exact ⟨vw, StringGraph.mem_getEdges.2 ⟨hvw, h1, h2⟩, wx,
    StringGraph.mem_getEdges.2 ⟨hwx, h3, h4⟩, h5⟩

theorem tr_visit_graph (s : SGTransitiveReductionVisitor) (g : StringGraph) (v : VertexID) :
    (visit s g v).1.2 =
      (visitDir v (visitDir v (enter s g) ED_SENSE) ED_ANTISENSE).graph := rfl

theorem tr_visit_edges (s : SGTransitiveReductionVisitor) (g : StringGraph) (v : VertexID) :
    (visit s g v).1.2.edges = g.edges := by
  rw [tr_visit_graph, tr_visitDir_edges, tr_visitDir_edges]
  rfl

theorem tr_visit_vertices (s : SGTransitiveReductionVisitor) (g : StringGraph) (v : VertexID) :
    (visit s g v).1.2.vertices = g.vertices := by
  rw [tr_visit_graph, tr_visitDir_vertices, tr_visitDir_vertices]
  rfl

theorem tr_visit_white (s : SGTransitiveReductionVisitor) (g : StringGraph) (v : VertexID)
    (hw : ∀ x, g.vertexColor x = GC_WHITE) : ∀ x, (visit s g v).1.2.vertexColor x = GC_WHITE := by
  rw [tr_visit_graph]
  exact tr_visitDir_white v _ _ (tr_visitDir_white v _ _ hw)

theorem tr_visit_black_stays (s : SGTransitiveReductionVisitor) (g : StringGraph) (v : VertexID)
    (i : EdgeID) (hb : g.edgeColor i = GC_BLACK) : (visit s g v).1.2.edgeColor i = GC_BLACK := by
  rw [tr_visit_graph]
  exact tr_visitDir_black_stays v _ _ i (tr_visitDir_black_stays v _ _ i hb)

/-- A call of `visit` changes the colour of an edge only to BLACK, and only
for an edge that closes a two-hop path, or for its twin. -/
theorem tr_visit_edgeColor (s : SGTransitiveReductionVisitor) (g : StringGraph) (v : VertexID)
    (hw : ∀ x, g.vertexColor x = GC_WHITE) (i : EdgeID) :
    (visit s g v).1.2.edgeColor i = g.edgeColor i ∨
      ((visit s g v).1.2.edgeColor i = GC_BLACK ∧
        ∃ f ∈ g.edges, (i = f.id ∨ i = f.twin) ∧ Spanned g.edges f) := by
  rw [tr_visit_graph]
  have hE1 : (visitDir v (enter s g) ED_SENSE).graph.edges = g.edges := tr_visitDir_edges _ _ _
  have hw1 := tr_visitDir_white v (enter s g) ED_SENSE hw
  rcases tr_visitDir_edgeColor v (visitDir v (enter s g) ED_SENSE) ED_ANTISENSE hw1 i
    with h2 | ⟨h2, f, hf, hfi, hft⟩
  · rw [h2]
    rcases tr_visitDir_edgeColor v (enter s g) ED_SENSE hw i with h1 | ⟨h1, f, hf, hfi, hft⟩
    · left
      exact h1
    · right
      exact ⟨h1, f, (StringGraph.mem_getEdges.1 hf).1, hfi, tr_twoHop_spanned hf hft⟩
  · right
    refine ⟨h2, f, ?_, hfi, ?_⟩
    · rw [← hE1]
      exact (StringGraph.mem_getEdges.1 hf).1
    · rw [← hE1]
      exact tr_twoHop_spanned hf hft

theorem tr_visit_complete1 (s : SGTransitiveReductionVisitor) (g : StringGraph) (v : VertexID)
    (hw : ∀ x, g.vertexColor x = GC_WHITE)
    (hs : g.edges.Sorted EdgeLenLE) (hb : ∀ e ∈ g.edges, e.seqLen < 2 ^ 63)
    (hnp : NoParallelEdges g.edges) (d : EdgeDir) :
    ∀ vw ∈ g.getEdges v d, ∀ wx ∈ g.getEdges vw.end_ vw.getTwinDir.flip,
      ∀ vx ∈ g.getEdges v d, vx.end_ = wx.end_ →
      ∀ u ∈ g.getEdges v d, vw.seqLen + wx.seqLen ≤ u.seqLen + FUZZ →
        (visit s g v).1.2.edgeColor vx.id = GC_BLACK ∨
          (visit s g v).1.2.edgeColor vw.id = GC_BLACK := by
  intro vw hvw wx hwx vx hvx hend u hu hlen
  rw [tr_visit_graph]
  have hE1 : (visitDir v (enter s g) ED_SENSE).graph.edges = g.edges := tr_visitDir_edges _ _ _
  have hw1 := tr_visitDir_white v (enter s g) ED_SENSE hw
  cases d with
  | ED_SENSE =>
    rcases tr_visitDir_complete1 v (enter s g) ED_SENSE hw hs hb (hnp.ends_nodup v _)
      vw hvw wx hwx vx hvx hend u hu hlen with h | h
    · left
      exact tr_visitDir_black_stays v _ _ _ h
    · right
      exact tr_visitDir_black_stays v _ _ _ h
  | ED_ANTISENSE =>
    have hnp1 : NoParallelEdges (visitDir v (enter s g) ED_SENSE).graph.edges := by
      rw [hE1]
      exact hnp
    exact tr_visitDir_complete1 v (visitDir v (enter s g) ED_SENSE) ED_ANTISENSE hw1
      (by rw [hE1]; exact hs) (by rw [hE1]; exact hb) (hnp1.ends_nodup v _)
      vw (by rw [StringGraph.getEdges_congr hE1]; exact hvw) wx
      (by rw [StringGraph.getEdges_congr hE1]; exact hwx) vx
      (by rw [StringGraph.getEdges_congr hE1]; exact hvx) hend u
      (by rw [StringGraph.getEdges_congr hE1]; exact hu) hlen

theorem tr_visit_complete2 (s : SGTransitiveReductionVisitor) (g : StringGraph) (v : VertexID)
    (hw : ∀ x, g.vertexColor x = GC_WHITE) (hnp : NoParallelEdges g.edges) (d : EdgeDir) :
    ∀ vw ∈ g.getEdges v d, ∀ wx,
      (g.getEdges vw.end_ vw.getTwinDir.flip).head? = some wx →
      ∀ vx ∈ g.getEdges v d, vx.end_ = wx.end_ →
        (visit s g v).1.2.edgeColor vx.id = GC_BLACK ∧
          (visit s g v).1.2.edgeColor vx.twin = GC_BLACK := by
  intro vw hvw wx hwx vx hvx hend
  rw [tr_visit_graph]
  have hE1 : (visitDir v (enter s g) ED_SENSE).graph.edges = g.edges := tr_visitDir_edges _ _ _
  have hw1 := tr_visitDir_white v (enter s g) ED_SENSE hw
  cases d with
  | ED_SENSE =>
    have h := tr_visitDir_complete2 v (enter s g) ED_SENSE hw (hnp.ends_nodup v _)
      vw hvw wx hwx vx hvx hend
    exact ⟨tr_visitDir_black_stays v _ _ _ h.1, tr_visitDir_black_stays v _ _ _ h.2⟩
  | ED_ANTISENSE =>
    have hnp1 : NoParallelEdges (visitDir v (enter s g) ED_SENSE).graph.edges := by
      rw [hE1]
      exact hnp
    exact tr_visitDir_complete2 v (visitDir v (enter s g) ED_SENSE) ED_ANTISENSE hw1
      (hnp1.ends_nodup v _)
      vw (by rw [StringGraph.getEdges_congr hE1]; exact hvw) wx
      (by rw [StringGraph.getEdges_congr hE1]; exact hwx) vx
      (by rw [StringGraph.getEdges_congr hE1]; exact hvx) hend

/-- A call of `visit` on a graph none of whose edges closes a two-hop path
changes neither a counter nor the colour of an edge. -/
theorem tr_visit_idle (s : SGTransitiveReductionVisitor) (g : StringGraph) (v : VertexID)
    (hw : ∀ x, g.vertexColor x = GC_WHITE) (hno : ∀ f ∈ g.edges, ¬ Spanned g.edges f) :
    (visit s g v).1.1 = s ∧ (visit s g v).1.2.edgeColor = g.edgeColor := by
  have hE1 : (visitDir v (enter s g) ED_SENSE).graph.edges = g.edges := tr_visitDir_edges _ _ _
  have hw1 := tr_visitDir_white v (enter s g) ED_SENSE hw
  have h1 := tr_visitDir_idle v (enter s g) ED_SENSE hw (by
    intro f hf ht
    exact hno f (StringGraph.mem_getEdges.1 hf).1 (tr_twoHop_spanned hf ht))
  have h2 := tr_visitDir_idle v (visitDir v (enter s g) ED_SENSE) ED_ANTISENSE hw1 (by
    intro f hf ht
    have := tr_twoHop_spanned hf ht
    rw [hE1] at this
    refine hno f ?_ this
    rw [← hE1]
    exact (StringGraph.mem_getEdges.1 hf).1)
  constructor
  · have e1 : (visit s g v).1.1 =
        { marked_verts :=
            if (visitDir v (visitDir v (enter s g) ED_SENSE) ED_ANTISENSE).trans_count > 0
            then s.marked_verts + 1 else s.marked_verts,
          marked_edges :=
            (visitDir v (visitDir v (enter s g) ED_SENSE) ED_ANTISENSE).marked_edges } := rfl
    rw [e1, h2.1, h2.2.1, h1.1, h1.2.1]
    simp [enter]
  · rw [tr_visit_graph, h2.2.2, h1.2.2]
    rfl

theorem tr_visitVertices_cons (order : List VertexID) (v : VertexID)
    (acc : (SGTransitiveReductionVisitor × StringGraph) × Bool) :
    visitVertices visitor (v :: order) acc =
      visitVertices visitor order ((visit acc.1.1 acc.1.2 v).1, (visit acc.1.1 acc.1.2 v).2 || acc.2) :=
  rfl

theorem tr_pass_edges (order : List VertexID)
    (acc : (SGTransitiveReductionVisitor × StringGraph) × Bool) :
    (visitVertices visitor order acc).1.2.edges = acc.1.2.edges := by
  induction order generalizing acc with
  | nil => rfl
  | cons v order ih => rw [tr_visitVertices_cons, ih, tr_visit_edges]

theorem tr_pass_vertices (order : List VertexID)
    (acc : (SGTransitiveReductionVisitor × StringGraph) × Bool) :
    (visitVertices visitor order acc).1.2.vertices = acc.1.2.vertices := by
  induction order generalizing acc with
  | nil => rfl
  | cons v order ih => rw [tr_visitVertices_cons, ih, tr_visit_vertices]

theorem tr_pass_white (order : List VertexID)
    (acc : (SGTransitiveReductionVisitor × StringGraph) × Bool)
    (hw : ∀ x, acc.1.2.vertexColor x = GC_WHITE) :
    ∀ x, (visitVertices visitor order acc).1.2.vertexColor x = GC_WHITE := by
  induction order generalizing acc with
  | nil => exact hw
  | cons v order ih =>
    rw [tr_visitVertices_cons]
    exact ih _ (tr_visit_white _ _ _ hw)

theorem tr_pass_black_stays (order : List VertexID)
    (acc : (SGTransitiveReductionVisitor × StringGraph) × Bool) (i : EdgeID)
    (hb : acc.1.2.edgeColor i = GC_BLACK) :
    (visitVertices visitor order acc).1.2.edgeColor i = GC_BLACK := by
  induction order generalizing acc with
  | nil => exact hb
  | cons v order ih =>
    rw [tr_visitVertices_cons]
    exact ih _ (tr_visit_black_stays _ _ _ _ hb)

/-- The visits change the colour of an edge only to BLACK, and only for an
edge that closes a two-hop path, or for its twin. -/
theorem tr_pass_edgeColor (order : List VertexID)
    (acc : (SGTransitiveReductionVisitor × StringGraph) × Bool)
    (hw : ∀ x, acc.1.2.vertexColor x = GC_WHITE) (i : EdgeID) :
    (visitVertices visitor order acc).1.2.edgeColor i = acc.1.2.edgeColor i ∨
      ((visitVertices visitor order acc).1.2.edgeColor i = GC_BLACK ∧
        ∃ f ∈ acc.1.2.edges, (i = f.id ∨ i = f.twin) ∧ Spanned acc.1.2.edges f) := by
  induction order generalizing acc with
  | nil => exact Or.inl rfl
  | cons v order ih =>
    rw [tr_visitVertices_cons]
    rcases ih ((visit acc.1.1 acc.1.2 v).1, (visit acc.1.1 acc.1.2 v).2 || acc.2)
      (tr_visit_white _ _ _ hw) with h | ⟨h1, f, hf, hfi, hsp⟩
    · rw [h]
      rcases tr_visit_edgeColor acc.1.1 acc.1.2 v hw i with h2 | ⟨h2, h3⟩
      · exact Or.inl h2
      · exact Or.inr ⟨h2, h3⟩
    · right
      refine ⟨h1, f, ?_, hfi, ?_⟩
      · rw [← tr_visit_edges acc.1.1 acc.1.2 v]
        exact hf
      · rw [← tr_visit_edges acc.1.1 acc.1.2 v]
        exact hsp

theorem tr_pass_complete1 (order : List VertexID)
    (acc : (SGTransitiveReductionVisitor × StringGraph) × Bool)
    (hw : ∀ x, acc.1.2.vertexColor x = GC_WHITE)
    (hs : acc.1.2.edges.Sorted EdgeLenLE) (hb : ∀ e ∈ acc.1.2.edges, e.seqLen < 2 ^ 63)
    (hnp : NoParallelEdges acc.1.2.edges) :
    ∀ v ∈ order, ∀ d, ∀ vw ∈ acc.1.2.getEdges v d,
      ∀ wx ∈ acc.1.2.getEdges vw.end_ vw.getTwinDir.flip,
      ∀ vx ∈ acc.1.2.getEdges v d, vx.end_ = wx.end_ →
      ∀ u ∈ acc.1.2.getEdges v d, vw.seqLen + wx.seqLen ≤ u.seqLen + FUZZ →
        (visitVertices visitor order acc).1.2.edgeColor vx.id = GC_BLACK ∨
          (visitVertices visitor order acc).1.2.edgeColor vw.id = GC_BLACK := by
  induction order generalizing acc with
  | nil => simp
  | cons a order ih =>
    intro v hv d vw hvw wx hwx vx hvx hend u hu hlen
    rw [tr_visitVertices_cons]
    have hE := tr_visit_edges acc.1.1 acc.1.2 a
    rcases List.mem_cons.1 hv with rfl | hv2
    · rcases tr_visit_complete1 acc.1.1 acc.1.2 v hw hs hb hnp d vw hvw wx hwx vx hvx hend u hu hlen
        with h | h
      · exact Or.inl (tr_pass_black_stays _ _ _ h)
      · exact Or.inr (tr_pass_black_stays _ _ _ h)
    · exact ih ((visit acc.1.1 acc.1.2 a).1, (visit acc.1.1 acc.1.2 a).2 || acc.2)
        (tr_visit_white _ _ _ hw) (by rw [hE]; exact hs) (by rw [hE]; exact hb)
        (by rw [hE]; exact hnp) v hv2 d
        vw (by rw [StringGraph.getEdges_congr hE]; exact hvw)
        wx (by rw [StringGraph.getEdges_congr hE]; exact hwx)
        vx (by rw [StringGraph.getEdges_congr hE]; exact hvx) hend
        u (by rw [StringGraph.getEdges_congr hE]; exact hu) hlen

theorem tr_pass_complete2 (order : List VertexID)
    (acc : (SGTransitiveReductionVisitor × StringGraph) × Bool)
    (hw : ∀ x, acc.1.2.vertexColor x = GC_WHITE) (hnp : NoParallelEdges acc.1.2.edges) :
    ∀ v ∈ order, ∀ d, ∀ vw ∈ acc.1.2.getEdges v d, ∀ wx,
      (acc.1.2.getEdges vw.end_ vw.getTwinDir.flip).head? = some wx →
      ∀ vx ∈ acc.1.2.getEdges v d, vx.end_ = wx.end_ →
        (visitVertices visitor order acc).1.2.edgeColor vx.id = GC_BLACK ∧
          (visitVertices visitor order acc).1.2.edgeColor vx.twin = GC_BLACK := by
  induction order generalizing acc with
  | nil => simp
  | cons a order ih =>
    intro v hv d vw hvw wx hwx vx hvx hend
    rw [tr_visitVertices_cons]
    have hE := tr_visit_edges acc.1.1 acc.1.2 a
    rcases List.mem_cons.1 hv with rfl | hv2
    · have h := tr_visit_complete2 acc.1.1 acc.1.2 v hw hnp d vw hvw wx hwx vx hvx hend
      exact ⟨tr_pass_black_stays _ _ _ h.1, tr_pass_black_stays _ _ _ h.2⟩
    · exact ih ((visit acc.1.1 acc.1.2 a).1, (visit acc.1.1 acc.1.2 a).2 || acc.2)
        (tr_visit_white _ _ _ hw) (by rw [hE]; exact hnp) v hv2 d
        vw (by rw [StringGraph.getEdges_congr hE]; exact hvw)
        wx (by rw [StringGraph.getEdges_congr hE]; exact hwx)
        vx (by rw [StringGraph.getEdges_congr hE]; exact hvx) hend

/-- On a graph none of whose edges closes a two-hop path the visits change
neither a counter nor the colour of an edge. -/
theorem tr_pass_idle (order : List VertexID)
    (acc : (SGTransitiveReductionVisitor × StringGraph) × Bool)
    (hw : ∀ x, acc.1.2.vertexColor x = GC_WHITE)
    (hno : ∀ f ∈ acc.1.2.edges, ¬ Spanned acc.1.2.edges f) :
    (visitVertices visitor order acc).1.1 = acc.1.1 ∧
      (visitVertices visitor order acc).1.2.edgeColor = acc.1.2.edgeColor := by
  induction order generalizing acc with
  | nil => exact ⟨rfl, rfl⟩
  | cons a order ih =>
    rw [tr_visitVertices_cons]
    have hE := tr_visit_edges acc.1.1 acc.1.2 a
    have h1 := tr_visit_idle acc.1.1 acc.1.2 a hw hno
    have h2 := ih ((visit acc.1.1 acc.1.2 a).1, (visit acc.1.1 acc.1.2 a).2 || acc.2)
      (tr_visit_white _ _ _ hw) (by rw [hE]; exact hno)
    exact ⟨h2.1.trans h1.1, h2.2.trans h1.2⟩

theorem tr_prepared_edges (g : StringGraph) : (prepared g).edges = sortByLen g.edges := rfl

theorem tr_mem_prepared_edges (g : StringGraph) (e : Edge) :
    e ∈ (prepared g).edges ↔ e ∈ g.edges := by
  rw [tr_prepared_edges]
  exact List.mem_insertionSort _

theorem tr_prepared_sorted (g : StringGraph) : (prepared g).edges.Sorted EdgeLenLE :=
  List.sorted_insertionSort _ _

theorem tr_prepared_noParallel (g : StringGraph) (h : NoParallelEdges g.edges) :
    NoParallelEdges (prepared g).edges := by
  unfold NoParallelEdges at h ⊢
  rw [tr_prepared_edges]
  exact ((List.perm_insertionSort _ _).map _).nodup_iff.2 h

theorem tr_prepared_white (g : StringGraph) : ∀ x, (prepared g).vertexColor x = GC_WHITE :=
  fun _ => rfl

theorem tr_visited_edges (g : StringGraph) : (visited g).1.2.edges = sortByLen g.edges := by
  unfold visited
  rw [tr_pass_edges]
  rfl

theorem tr_visited_vertices (g : StringGraph) : (visited g).1.2.vertices = g.vertices := by
  unfold visited
  rw [tr_pass_vertices]
  rfl

theorem tr_visited_edgeColor (g : StringGraph) (i : EdgeID) :
    (visited g).1.2.edgeColor i = GC_WHITE ∨ (visited g).1.2.edgeColor i = GC_BLACK := by
  rcases tr_pass_edgeColor (g.vertices.map (fun v => v.id))
    (({ marked_verts := 0, marked_edges := 0 }, prepared g), false) (tr_prepared_white g) i
    with h | ⟨h, -⟩
  · left
    exact h
  · right
    exact h

theorem tr_mem_result_edges (g : StringGraph) (e : Edge) :
    e ∈ (result g).edges ↔ e ∈ g.edges ∧ (visited g).1.2.edgeColor e.id ≠ GC_BLACK := by
  unfold result
  simp only [StringGraph.setTransitiveFlag, StringGraph.sweepEdges, List.mem_filter,
    decide_eq_true_eq]
  rw [tr_visited_edges]
  unfold sortByLen
  rw [List.mem_insertionSort]

theorem tr_result_checkColors (g : StringGraph) : (result g).checkColors GC_WHITE = true := by
  unfold StringGraph.checkColors
  rw [Bool.and_eq_true, List.all_eq_true, List.all_eq_true]
  constructor
  · intro v _
    rw [decide_eq_true_eq]
    exact tr_pass_white _ _ (tr_prepared_white g) v.id
  · intro e he
    rw [decide_eq_true_eq]
    have h1 := (tr_mem_result_edges g e).1 he
    rcases tr_visited_edgeColor g e.id with h | h
    · exact h
    · exact absurd h h1.2

/-- A full pass on a graph without containments runs to its end: no assertion
fails. -/
theorem tr_runCounting_eq (g : StringGraph) (hc : g.hasContainment = false) :
    runCounting g = some ((visited g).1.1, result g) := by
  have hpost : postvisit (visited g).1.1 (visited g).1.2 = some ((visited g).1.1, result g) := by
    have := tr_result_checkColors g
    unfold result at this
    unfold postvisit
    simp only [this, if_true]
    rfl
  have hpre : visitor.previsit { marked_verts := 0, marked_edges := 0 } g =
      some ({ marked_verts := 0, marked_edges := 0 }, prepared g) := by
    show previsit { marked_verts := 0, marked_edges := 0 } g = _
    unfold previsit
    simp [hc, prepared]
  have hpost2 : visitor.postvisit (visited g).1.1 (visited g).1.2 =
      some ((visited g).1.1, result g) := hpost
  unfold runCounting StringGraph.visit StringGraph.visitInOrder
  rw [hpre]
  simp only []
  unfold visited at hpost2
  rw [hpost2]
  rfl

theorem tr_run_eq (g : StringGraph) (hc : g.hasContainment = false) : run g = some (result g) := by
  have h := tr_runCounting_eq g hc
  unfold runCounting at h
  unfold run
  cases hv : g.visit visitor { marked_verts := 0, marked_edges := 0 } with
  | none => rw [hv] at h; simp at h
  | some r =>
    rw [hv] at h
    simp only [Option.map_some', Option.some.injEq] at h ⊢
    rw [h]

/-- The result of a pass is reduced with respect to the edges of the input,
when no vertex of the input has parallel edges. -/
theorem tr_result_reduced (g : StringGraph) (hb : SeqLenBounded g.edges)
    (hnp : NoParallelEdges g.edges) (hv : EdgesAttached g) :
    Reduced g.edges (result g).edges := by
  intro vw hvw wx hwx hws hwd u hu hus hud hlen vx hvx hxs hxd hend
  have h1 := (tr_mem_result_edges g vw).1 hvw
  have h2 := (tr_mem_result_edges g wx).1 hwx
  have h3 := (tr_mem_result_edges g vx).1 hvx
  have hP := fun e => (tr_mem_prepared_edges g e)
  have := tr_pass_complete1 (g.vertices.map (fun v => v.id))
    (({ marked_verts := 0, marked_edges := 0 }, prepared g), false) (tr_prepared_white g)
    (tr_prepared_sorted g) (fun e he => hb e ((hP e).1 he)) (tr_prepared_noParallel g hnp)
    vw.start (hv vw h1.1) vw.dir
    vw (StringGraph.mem_getEdges.2 ⟨(hP vw).2 h1.1, rfl, rfl⟩)
    wx (StringGraph.mem_getEdges.2 ⟨(hP wx).2 h2.1, hws, hwd⟩)
    vx (StringGraph.mem_getEdges.2 ⟨(hP vx).2 h3.1, hxs, hxd⟩) hend
    u (StringGraph.mem_getEdges.2 ⟨(hP u).2 hu, hus, hud⟩) hlen
  rcases this with h | h
  · exact h3.2 h
  · exact h1.2 h

theorem tr_blackenEnds_hasContainment (ws : List Edge) (g : StringGraph) :
    (blackenEnds ws g).hasContainment = g.hasContainment := by
  induction ws generalizing g with
  | nil => rfl
  | cons w ws ih =>
    simp only [blackenEnds, List.foldl_cons] at ih ⊢
    rw [ih]
    split <;> rfl

theorem tr_scan_hasContainment {f : StringGraph → Edge → StringGraph} (hf : ScanStep f)
    (es : List Edge) (g : StringGraph) :
    (es.foldl f g).hasContainment = g.hasContainment := by
  induction es generalizing g with
  | nil => rfl
  | cons e es ih =>
    obtain ⟨ws, -, hws⟩ := hf g e
    rw [List.foldl_cons, ih, hws, tr_blackenEnds_hasContainment]

theorem tr_colorEnds_hasContainment (es : List Edge) (g : StringGraph) :
    (colorEnds es g).hasContainment = g.hasContainment := by
  induction es generalizing g with
  | nil => rfl
  | cons e es ih =>
    simp only [colorEnds, List.foldl_cons] at ih ⊢
    rw [ih]
    rfl

theorem tr_scanned_hasContainment (L : Nat) (es : List Edge) (g : StringGraph) :
    (scanned L es g).hasContainment = g.hasContainment := by
  unfold scanned stage2 stage1
  rw [tr_scan_hasContainment tr_stage2Step_scan, tr_scan_hasContainment (tr_stage1Step_scan L),
    tr_colorEnds_hasContainment]

theorem tr_markStep_hasContainment (st : MarkState) (e : Edge) :
    (markStep st e).graph.hasContainment = st.graph.hasContainment := by
  unfold markStep
  split_ifs <;> rfl

theorem tr_markEdges_hasContainment (es : List Edge) (st : MarkState) :
    (markEdges es st).graph.hasContainment = st.graph.hasContainment := by
  induction es generalizing st with
  | nil => rfl
  | cons e es ih =>
    simp only [markEdges, List.foldl_cons] at ih ⊢
    rw [ih, tr_markStep_hasContainment]

theorem tr_visitDir_hasContainment (v : VertexID) (st : MarkState) (d : EdgeDir) :
    (visitDir v st d).graph.hasContainment = st.graph.hasContainment := by
  rcases tr_visitDir_cases v st d with ⟨-, h⟩ | ⟨l, -, h⟩
  · rw [h]
  · rw [h, tr_markEdges_hasContainment, tr_scanned_hasContainment]

theorem tr_visit_hasContainment (s : SGTransitiveReductionVisitor) (g : StringGraph)
    (v : VertexID) : (visit s g v).1.2.hasContainment = g.hasContainment := by
  rw [tr_visit_graph, tr_visitDir_hasContainment, tr_visitDir_hasContainment]
  rfl

theorem tr_pass_hasContainment (order : List VertexID)
    (acc : (SGTransitiveReductionVisitor × StringGraph) × Bool) :
    (visitVertices visitor order acc).1.2.hasContainment = acc.1.2.hasContainment := by
  induction order generalizing acc with
  | nil => rfl
  | cons v order ih => rw [tr_visitVertices_cons, ih, tr_visit_hasContainment]

theorem tr_result_hasContainment (g : StringGraph) :
    (result g).hasContainment = g.hasContainment := by
  show (visited g).1.2.hasContainment = _
  unfold visited
  rw [tr_pass_hasContainment]
  rfl

theorem tr_result_vertices (g : StringGraph) : (result g).vertices = g.vertices :=
  tr_visited_vertices g

/-- C1 (amended): on a graph without containments in which no vertex has two
edges in one direction to the same end vertex (every edge belonging to a vertex
of the graph, and the sequence lengths being below 2 ^ 63), a full
SGTransitiveReductionVisitor pass runs to its end, clears hasTransitive, keeps
only edges of the input, and leaves no edge v->x beside surviving edges v->w
(same direction) and w->x (direction opposite to the twin direction of v->w)
with seqLen(v->w) + seqLen(w->x) at most the seqLen of an edge of v in that
direction plus FUZZ = 10. -/
theorem transitive_reduction_reduced (g : StringGraph) (hc : g.hasContainment = false)
    (hb : SeqLenBounded g.edges) (hnp : NoParallelEdges g.edges) (hv : EdgesAttached g) :
    ∃ g2, run g = some g2 ∧ g2.hasTransitive = false ∧ (∀ e ∈ g2.edges, e ∈ g.edges) ∧
      Reduced g.edges g2.edges :=
  ⟨result g, tr_run_eq g hc, rfl, fun e he => ((tr_mem_result_edges g e).1 he).1,
    tr_result_reduced g hb hnp hv⟩

set_option maxRecDepth 100000 in
/-- C1 (amended), at the chain `0 → 1 → 2` with the edge `0 → 2`. -/
theorem transitive_reduction_reduced_witness :
    chainGraph.hasContainment = false ∧ SeqLenBounded chainGraph.edges ∧
      NoParallelEdges chainGraph.edges ∧ EdgesAttached chainGraph ∧
      ∃ g2, run chainGraph = some g2 ∧ g2.hasTransitive = false ∧
        (∀ e ∈ g2.edges, e ∈ chainGraph.edges) ∧ Reduced chainGraph.edges g2.edges :=
  ⟨rfl, by decide, by decide, by decide,
    transitive_reduction_reduced chainGraph rfl (by decide) (by decide) (by decide)⟩

set_option maxRecDepth 100000 in
/-- C1 as stated fails: on the twin-consistent graph without containments in
which vertex 0 has two parallel edges to vertex 2 beside the path 0 → 1 → 2,
the pass removes one of the parallel edges only, so the result is not
reduced. -/
theorem transitive_reduction_parallel_counterexample :
    TwinConsistent parallelGraph ∧ parallelGraph.hasContainment = false ∧
      ∃ g2, run parallelGraph = some g2 ∧ ¬ Reduced g2.edges g2.edges :=
  ⟨by decide, rfl, result parallelGraph, tr_run_eq parallelGraph rfl, by decide⟩

theorem tr_result_sorted (g : StringGraph) : (result g).edges.Sorted EdgeLenLE := by
  show (List.filter _ (visited g).1.2.edges).Sorted EdgeLenLE
  apply List.Sorted.filter
  rw [tr_visited_edges]
  exact List.sorted_insertionSort _ _

theorem tr_result_not_spanned (g : StringGraph) (hb : SeqLenBounded g.edges)
    (hnp : NoParallelEdges g.edges) (hv : EdgesAttached g) (ht : TriangleConsistent g.edges) :
    ∀ f ∈ (prepared (result g)).edges, ¬ Spanned (prepared (result g)).edges f := by
  intro f hf ⟨vw, hvw, wx, hwx, h1, h2, h3, h4, h5⟩
  rw [tr_mem_prepared_edges] at hf hvw hwx
  have hin := fun e (he : e ∈ (result g).edges) => ((tr_mem_result_edges g e).1 he).1
  have hlen := ht vw (hin vw hvw) wx (hin wx hwx) f (hin f hf) h1 h2 h3 h4 h5
  exact tr_result_reduced g hb hnp hv vw hvw wx hwx h3 h4 f (hin f hf) h1.symm h2.symm hlen
    f hf h1.symm h2.symm h5.symm

/-- A second pass after a pass on a triangle-consistent graph without parallel
edges marks nothing and keeps every edge. -/
theorem tr_second_pass_idle (g : StringGraph) (hb : SeqLenBounded g.edges)
    (hnp : NoParallelEdges g.edges) (hv : EdgesAttached g) (ht : TriangleConsistent g.edges) :
    (visited (result g)).1.1 = { marked_verts := 0, marked_edges := 0 } ∧
      (result (result g)).edges = (result g).edges := by
  have hidle := tr_pass_idle ((result g).vertices.map (fun v => v.id))
    (({ marked_verts := 0, marked_edges := 0 }, prepared (result g)), false)
    (tr_prepared_white _) (tr_result_not_spanned g hb hnp hv ht)
  refine ⟨hidle.1, ?_⟩
  have hcol : (visited (result g)).1.2.edgeColor = fun _ => GC_WHITE := hidle.2
  show List.filter _ (visited (result g)).1.2.edges = _
  rw [hcol, tr_visited_edges]
  unfold sortByLen
  rw [List.Sorted.insertionSort_eq (tr_result_sorted g)]
  apply List.filter_eq_self.2
  intro e _
  simp

/-- C2 (amended): on a graph without containments, without parallel edges and
with triangle-consistent lengths (every edge belonging to a vertex of the
graph, and the sequence lengths being below 2 ^ 63), a second full
SGTransitiveReductionVisitor pass right after the first one marks no vertex and
no edge and leaves the edge set as the first pass left it. -/
theorem transitive_reduction_idempotent (g : StringGraph) (hc : g.hasContainment = false)
    (hb : SeqLenBounded g.edges) (hnp : NoParallelEdges g.edges) (hv : EdgesAttached g)
    (ht : TriangleConsistent g.edges) :
    ∃ g1 s2 g2, run g = some g1 ∧ runCounting g1 = some (s2, g2) ∧
      s2.marked_verts = 0 ∧ s2.marked_edges = 0 ∧ g2.edges = g1.edges := by
  have h := tr_second_pass_idle g hb hnp hv ht
  refine ⟨result g, (visited (result g)).1.1, result (result g), tr_run_eq g hc,
    tr_runCounting_eq (result g) ((tr_result_hasContainment g).trans hc), ?_, ?_, h.2⟩
  · rw [h.1]
  · rw [h.1]

set_option maxRecDepth 100000 in
/-- C2 (amended), at the chain `0 → 1 → 2` with the edge `0 → 2`. -/
theorem transitive_reduction_idempotent_witness :
    chainGraph.hasContainment = false ∧ SeqLenBounded chainGraph.edges ∧
      NoParallelEdges chainGraph.edges ∧ EdgesAttached chainGraph ∧
      TriangleConsistent chainGraph.edges ∧
      ∃ g1 s2 g2, run chainGraph = some g1 ∧ runCounting g1 = some (s2, g2) ∧
        s2.marked_verts = 0 ∧ s2.marked_edges = 0 ∧ g2.edges = g1.edges :=
  ⟨rfl, by decide, by decide, by decide, by decide,
    transitive_reduction_idempotent chainGraph rfl (by decide) (by decide) (by decide)
      (by decide)⟩

set_option maxRecDepth 100000 in
/-- C2 as stated fails, in two ways.  On `shortestLostGraph`, a twin-consistent
graph without containments and without parallel edges, the first pass removes
the shortest onward edge of vertex 2, and the second pass then removes the
edge `0 → 3` by stage 2.  On `parallelGraph` the first pass removes one of
two parallel edges and the second pass removes the other. -/
theorem transitive_reduction_second_pass_counterexample :
    (TwinConsistent shortestLostGraph ∧ shortestLostGraph.hasContainment = false ∧
      NoParallelEdges shortestLostGraph.edges ∧
      ∃ g1 g2, run shortestLostGraph = some g1 ∧ run g1 = some g2 ∧
        g2.edges.length < g1.edges.length) ∧
    (TwinConsistent parallelGraph ∧ parallelGraph.hasContainment = false ∧
      ∃ g1 g2, run parallelGraph = some g1 ∧ run g1 = some g2 ∧
        g2.edges.length < g1.edges.length) :=
  ⟨⟨by decide, rfl, by decide, result shortestLostGraph, result (result shortestLostGraph),
      tr_run_eq _ rfl, tr_run_eq _ rfl, by decide⟩,
    ⟨by decide, rfl, result parallelGraph, result (result parallelGraph),
      tr_run_eq _ rfl, tr_run_eq _ rfl, by decide⟩⟩

end SGTransitiveReductionVisitor

theorem EdgeDir.flip_eq_self (d : EdgeDir) : d.flip = d ↔ False := by
  cases d <;> simp [EdgeDir.flip]

theorem EdgeDir.self_eq_flip (d : EdgeDir) : d = d.flip ↔ False := by
  cases d <;> simp [EdgeDir.flip]

theorem IsTwinOf.getTwinDir {t e : Edge} (h : IsTwinOf t e) : t.getTwinDir = e.dir := by
  obtain ⟨-, -, -, -, hd, hc⟩ := h
  unfold Edge.getTwinDir at hd ⊢
  rw [hc, hd]
  cases e.comp <;> simp [EdgeDir.flip_flip]

namespace SGTransitiveReductionVisitor

/-- In a three-vertex chain whose two edges into `C` reach `C` on the same
side, none of the halves of `A-B` and `B-C` closes a two-hop path. -/
theorem chain_not_spanned {g : StringGraph} {A B C : VertexID} {ab ba bc cb ac ca : Edge}
    (h : ThreeChain g A B C ab ba bc cb ac ca) (hside : cb.dir = ca.dir) (E : List Edge)
    (hE : ∀ e, e ∈ E ↔ e ∈ g.edges) :
    ¬ Spanned E ab ∧ ¬ Spanned E ba ∧ ¬ Spanned E bc ∧ ¬ Spanned E cb := by
  obtain ⟨hp, -, t1, t2, t3, s1, e1, s2, e2, s3, e3, d1, d2, nAB, nAC, nBC, -⟩ := h
  have hmem : ∀ e, e ∈ E ↔ e = ab ∨ e = ba ∨ e = bc ∨ e = cb ∨ e = ac ∨ e = ca := by
    intro e
    rw [hE, hp.mem_iff]
    simp
  have g1 := t1.getTwinDir
  have g2 := t2.getTwinDir
  have g3 := t3.getTwinDir
  obtain ⟨-, -, bs, be, bd, -⟩ := t1
  obtain ⟨-, -, cs, ce, cd, -⟩ := t2
  obtain ⟨-, -, as, ae, ad, -⟩ := t3
  rw [e1] at bs
  rw [s1] at be
  rw [e2] at cs
  rw [s2] at ce
  rw [e3] at as
  rw [s3] at ae
  have r1 : bc.getTwinDir = ca.dir := by rw [← cd, hside]
  have r2 : cb.getTwinDir = ab.getTwinDir.flip := by rw [g2, d2]
  have r3 : ac.getTwinDir = ca.dir := ad.symm
  have r4 : ca.getTwinDir = ab.dir := by rw [g3, d1]
  have nBA := nAB.symm
  have nCA := nAC.symm
  have nCB := nBC.symm
  refine ⟨?_, ?_, ?_, ?_⟩ <;>
  · rintro ⟨vw, hvw, wx, hwx, h1, h2, h3, h4, h5⟩
    rw [hmem] at hvw hwx
    rcases hvw with hvw | hvw | hvw | hvw | hvw | hvw <;>
      rcases hwx with hwx | hwx | hwx | hwx | hwx | hwx <;>
      simp only [hvw, hwx, s1, e1, s2, e2, s3, e3, bs, be, cs, ce, as, ae, d1, d2, bd, hside,
        g1, r1, r2, r3, r4, EdgeDir.flip_flip] at h1 h2 h3 h4 h5 <;>
      simp [nAB, nAC, nBC, nBA, nCA, nCB, EdgeDir.flip_eq_self, EdgeDir.self_eq_flip]
        at h1 h2 h3 h4 h5

end SGTransitiveReductionVisitor

theorem eq_singleton_of_nodup {α : Type} {l : List α} {a : α} (hn : l.Nodup)
    (h : ∀ x, x ∈ l ↔ x = a) : l = [a] := by
  have hp : l.Perm [a] :=
    (List.perm_ext_iff_of_nodup hn (List.nodup_singleton a)).2 (by simpa using h)
  exact List.perm_singleton.1 hp

namespace SGTransitiveReductionVisitor

theorem chain_noParallel {g : StringGraph} {A B C : VertexID} {ab ba bc cb ac ca : Edge}
    (h : ThreeChain g A B C ab ba bc cb ac ca) (hside : cb.dir = ca.dir) :
    NoParallelEdges g.edges := by
  obtain ⟨hp, -, t1, t2, t3, s1, e1, s2, e2, s3, e3, d1, d2, nAB, nAC, nBC, -⟩ := h
  obtain ⟨-, -, bs, be, bd, -⟩ := t1
  obtain ⟨-, -, cs, ce, cd, -⟩ := t2
  obtain ⟨-, -, as, ae, ad, -⟩ := t3
  rw [e1] at bs
  rw [s1] at be
  rw [e2] at cs
  rw [s2] at ce
  rw [e3] at as
  rw [s3] at ae
  unfold NoParallelEdges
  rw [(hp.map _).nodup_iff]
  simp only [List.map_cons, List.map_nil, s1, e1, s2, e2, s3, e3, bs, be, cs, ce, as, ae, d1, d2,
    bd, hside]
  simp [nAB, nAC, nBC, nAB.symm, nAC.symm, nBC.symm]

theorem chain_ids {g : StringGraph} {A B C : VertexID} {ab ba bc cb ac ca : Edge}
    (h : ThreeChain g A B C ab ba bc cb ac ca) :
    ∀ x, (x = ab ∨ x = ba ∨ x = bc ∨ x = cb) →
      ∀ f, (f = ab ∨ f = ba ∨ f = bc ∨ f = cb ∨ f = ac ∨ f = ca) →
        (x.id = f.id ∨ x.id = f.twin) → (f = ab ∨ f = ba ∨ f = bc ∨ f = cb) := by
  obtain ⟨-, hid, t1, t2, t3, -⟩ := h
  obtain ⟨i1, j1, -⟩ := t1
  obtain ⟨i2, j2, -⟩ := t2
  obtain ⟨i3, j3, -⟩ := t3
  simp only [List.map_cons, List.map_nil, List.nodup_cons, List.mem_cons, List.mem_singleton,
    List.not_mem_nil, or_false, not_or, List.nodup_nil, and_true] at hid
  obtain ⟨⟨n1, n2, n3, n4, n5⟩, ⟨n6, n7, n8, n9⟩, ⟨n10, n11, n12⟩, ⟨n13, n14⟩, n15⟩ := hid
  intro x hx f hf hxf
  rcases hf with hf | hf | hf | hf | hf | hf
  · exact Or.inl hf
  · exact Or.inr (Or.inl hf)
  · exact Or.inr (Or.inr (Or.inl hf))
  · exact Or.inr (Or.inr (Or.inr hf))
  · exfalso
    rw [hf, ← i3] at hxf
    rcases hx with hx | hx | hx | hx <;> rw [hx] at hxf <;> rcases hxf with hxf | hxf
    · exact n4 hxf
    · exact n5 hxf
    · exact n8 hxf
    · exact n9 hxf
    · exact n11 hxf
    · exact n12 hxf
    · exact n13 hxf
    · exact n14 hxf
  · exfalso
    rw [hf, j3] at hxf
    rcases hx with hx | hx | hx | hx <;> rw [hx] at hxf <;> rcases hxf with hxf | hxf
    · exact n5 hxf
    · exact n4 hxf
    · exact n9 hxf
    · exact n8 hxf
    · exact n12 hxf
    · exact n11 hxf
    · exact n14 hxf
    · exact n13 hxf

/-- C3 (amended): in a three-vertex chain A, B, C (A has edges in one direction
to B and to C, B has an edge to C in the direction that continues A->B, there
are no other edges) in which the edges A->C and B->C reach C on the same side,
a full SGTransitiveReductionVisitor pass removes both halves of A-C and keeps
both halves of A-B and of B-C, whatever the sequence lengths are. -/
theorem chain_reduction (g : StringGraph) (A B C : VertexID) (ab ba bc cb ac ca : Edge)
    (h : ThreeChain g A B C ab ba bc cb ac ca) (hside : cb.dir = ca.dir)
    (hc : g.hasContainment = false) :
    ∃ g2, run g = some g2 ∧ ab ∈ g2.edges ∧ ba ∈ g2.edges ∧ bc ∈ g2.edges ∧ cb ∈ g2.edges ∧
      ac ∉ g2.edges ∧ ca ∉ g2.edges := by
  have hnp := chain_noParallel h hside
  have hns := chain_not_spanned h hside (prepared g).edges (tr_mem_prepared_edges g)
  have hids := chain_ids h
  obtain ⟨hp, -, t1, t2, t3, s1, e1, s2, e2, s3, e3, d1, d2, nAB, nAC, nBC, hV⟩ := h
  have hmem : ∀ e, e ∈ g.edges ↔ e = ab ∨ e = ba ∨ e = bc ∨ e = cb ∨ e = ac ∨ e = ca := by
    intro e
    rw [hp.mem_iff]
    simp
  have hkeep : ∀ x, (x = ab ∨ x = ba ∨ x = bc ∨ x = cb) → x ∈ (result g).edges := by
    intro x hx
    rw [tr_mem_result_edges]
    constructor
    · rw [hmem]
      rcases hx with hx | hx | hx | hx
      · exact Or.inl hx
      · exact Or.inr (Or.inl hx)
      · exact Or.inr (Or.inr (Or.inl hx))
      · exact Or.inr (Or.inr (Or.inr (Or.inl hx)))
    · intro hblack
      rcases tr_pass_edgeColor (g.vertices.map (fun v => v.id))
        (({ marked_verts := 0, marked_edges := 0 }, prepared g), false) (tr_prepared_white g) x.id
        with hw | ⟨-, f, hf, hfi, hsp⟩
      · have hblack2 : (visitVertices visitor (g.vertices.map (fun v => v.id))
            (({ marked_verts := 0, marked_edges := 0 }, prepared g), false)).1.2.edgeColor x.id =
            GC_BLACK := hblack
        rw [hw] at hblack2
        have hwhite : (prepared g).edgeColor x.id = GC_WHITE := rfl
        have hblack3 : (prepared g).edgeColor x.id = GC_BLACK := hblack2
        rw [hwhite] at hblack3
        exact GraphColor.noConfusion hblack3
      · have hf2 := (hmem f).1 ((tr_mem_prepared_edges g f).1 hf)
        rcases hids x hx f hf2 hfi with h1 | h1 | h1 | h1
        · exact hns.1 (h1 ▸ hsp)
        · exact hns.2.1 (h1 ▸ hsp)
        · exact hns.2.2.1 (h1 ▸ hsp)
        · exact hns.2.2.2 (h1 ▸ hsp)
  have hPab : ab ∈ (prepared g).getEdges A ab.dir :=
    StringGraph.mem_getEdges.2 ⟨(tr_mem_prepared_edges g ab).2 ((hmem ab).2 (Or.inl rfl)), s1, rfl⟩
  have hPac : ac ∈ (prepared g).getEdges A ab.dir :=
    StringGraph.mem_getEdges.2 ⟨(tr_mem_prepared_edges g ac).2
      ((hmem ac).2 (Or.inr (Or.inr (Or.inr (Or.inr (Or.inl rfl)))))), s3, d1⟩
  have hhead : ((prepared g).getEdges ab.end_ ab.getTwinDir.flip).head? = some bc := by
    have hnd : ((prepared g).getEdges ab.end_ ab.getTwinDir.flip).Nodup := by
      apply List.Nodup.filter
      exact List.Nodup.of_map _ (tr_prepared_noParallel g hnp)
    have hone : ∀ x, x ∈ (prepared g).getEdges ab.end_ ab.getTwinDir.flip ↔ x = bc := by
      intro x
      rw [StringGraph.mem_getEdges, tr_mem_prepared_edges, hmem]
      obtain ⟨-, -, bs, be, bd, -⟩ := t1
      obtain ⟨-, -, cs, ce, cd, -⟩ := t2
      obtain ⟨-, -, as, ae, ad, -⟩ := t3
      constructor
      · rintro ⟨hx | hx | hx | hx | hx | hx, h1, h2⟩
        · rw [hx, s1, e1] at h1
          exact absurd h1 nAB
        · rw [hx, bd] at h2
          exact absurd h2 (EdgeDir.flip_ne _).symm
        · exact hx
        · rw [hx, cs, e2, e1] at h1
          exact absurd h1 nBC.symm
        · rw [hx, s3, e1] at h1
          exact absurd h1 nAB
        · rw [hx, as, e3, e1] at h1
          exact absurd h1 nBC.symm
      · intro hx
        rw [hx]
        exact ⟨Or.inr (Or.inr (Or.inl rfl)), by rw [s2, e1], d2⟩
    rw [eq_singleton_of_nodup hnd hone]
    rfl
  have hA : A ∈ g.vertices.map (fun v => v.id) := (hV A).2 (Or.inl rfl)
  have hrem := tr_pass_complete2 (g.vertices.map (fun v => v.id))
    (({ marked_verts := 0, marked_edges := 0 }, prepared g), false) (tr_prepared_white g)
    (tr_prepared_noParallel g hnp) A hA ab.dir ab hPab bc hhead ac hPac (by rw [e3, e2])
  refine ⟨result g, tr_run_eq g hc, hkeep ab (Or.inl rfl), hkeep ba (Or.inr (Or.inl rfl)),
    hkeep bc (Or.inr (Or.inr (Or.inl rfl))), hkeep cb (Or.inr (Or.inr (Or.inr rfl))), ?_, ?_⟩
  · intro hin
    exact ((tr_mem_result_edges g ac).1 hin).2 hrem.1
  · intro hin
    have := ((tr_mem_result_edges g ca).1 hin).2
    rw [t3.1] at this
    exact this hrem.2

set_option maxRecDepth 100000 in
/-- C3 (amended), at the chain of the specification, with overlaps A-B 50,
B-C 50 and A-C 95, all on the same strand. -/
theorem chain_reduction_witness :
    ThreeChain specChainGraph 0 1 2
        (edgeHalf 0 0 1 ED_SENSE EC_SAME 50 50) (edgeTwin 0 0 1 ED_SENSE EC_SAME 50 50)
        (edgeHalf 1 1 2 ED_SENSE EC_SAME 50 50) (edgeTwin 1 1 2 ED_SENSE EC_SAME 50 50)
        (edgeHalf 2 0 2 ED_SENSE EC_SAME 5 95) (edgeTwin 2 0 2 ED_SENSE EC_SAME 5 95) ∧
      (edgeTwin 1 1 2 ED_SENSE EC_SAME 50 50).dir = (edgeTwin 2 0 2 ED_SENSE EC_SAME 5 95).dir ∧
      specChainGraph.hasContainment = false ∧
      ∃ g2, run specChainGraph = some g2 ∧
        edgeHalf 0 0 1 ED_SENSE EC_SAME 50 50 ∈ g2.edges ∧
        edgeTwin 0 0 1 ED_SENSE EC_SAME 50 50 ∈ g2.edges ∧
        edgeHalf 1 1 2 ED_SENSE EC_SAME 50 50 ∈ g2.edges ∧
        edgeTwin 1 1 2 ED_SENSE EC_SAME 50 50 ∈ g2.edges ∧
        edgeHalf 2 0 2 ED_SENSE EC_SAME 5 95 ∉ g2.edges ∧
        edgeTwin 2 0 2 ED_SENSE EC_SAME 5 95 ∉ g2.edges :=
  ⟨by decide, by decide, rfl,
    chain_reduction specChainGraph 0 1 2 _ _ _ _ _ _ (by decide) (by decide) rfl⟩

set_option maxRecDepth 100000 in
/-- C3 as stated fails: in the three-vertex chain `chainReverseGraph`, whose
edge A->C is on the reverse strand and reaches C on the side opposite to
B->C, the pass removes the half A->B (identity 0) as well. -/
theorem chain_reverse_counterexample :
    ThreeChain chainReverseGraph 0 1 2
        (edgeHalf 0 0 1 ED_SENSE EC_SAME 50 50) (edgeTwin 0 0 1 ED_SENSE EC_SAME 50 50)
        (edgeHalf 1 1 2 ED_SENSE EC_SAME 50 50) (edgeTwin 1 1 2 ED_SENSE EC_SAME 50 50)
        (edgeHalf 2 0 2 ED_SENSE EC_REVERSE 5 95) (edgeTwin 2 0 2 ED_SENSE EC_REVERSE 5 95) ∧
      TwinConsistent chainReverseGraph ∧ chainReverseGraph.hasContainment = false ∧
      ∃ g2, run chainReverseGraph = some g2 ∧
        edgeHalf 0 0 1 ED_SENSE EC_SAME 50 50 ∉ g2.edges :=
  ⟨by decide, by decide, rfl, result chainReverseGraph, tr_run_eq _ rfl, by decide⟩

end SGTransitiveReductionVisitor

namespace SGContainRemoveVisitor

theorem cr_deleteAll_vertices (v : VertexID) (es : List Edge) (g : StringGraph) :
    (deleteAll v es g).vertices = g.vertices := by
  induction es generalizing g with
  | nil => rfl
  | cons e es ih =>
    simp only [deleteAll, List.foldl_cons] at ih ⊢
    rw [ih]
    rfl

theorem cr_remodelLoop_calls (remodel : StringGraph → VertexID → EdgeID → StringGraph)
    (es : List Edge) (sg : SGContainRemoveVisitor × StringGraph) :
    (remodelLoop remodel es sg).1.calls = sg.1.calls ++ es.map (fun e => (e.end_, e.twin)) := by
  induction es generalizing sg with
  | nil => simp [remodelLoop]
  | cons e es ih =>
    simp only [remodelLoop, List.foldl_cons] at ih ⊢
    rw [ih]
    simp

theorem cr_visit_not_contained (remodel : StringGraph → VertexID → EdgeID → StringGraph)
    (s : SGContainRemoveVisitor) (g : StringGraph) (v : VertexID)
    (h : g.isContained v = false) : visitDefined remodel s g v = ((s, g), false) := by
  simp [visitDefined, h]

end SGContainRemoveVisitor

theorem TwinConsistent.id_inj {g : StringGraph} (h : TwinConsistent g) {a b : Edge}
    (ha : a ∈ g.edges) (hb : b ∈ g.edges) (hid : a.id = b.id) : a = b :=
  List.inj_on_of_nodup_map h.1 ha hb hid

namespace SGContainRemoveVisitor

theorem cr_deleteAll_edges (v : VertexID) (es : List Edge) (g : StringGraph) :
    (deleteAll v es g).edges = g.edges.filter (survives v es) := by
  induction es generalizing g with
  | nil => exact (List.filter_eq_self.2 (fun _ _ => rfl)).symm
  | cons e es ih =>
    simp only [deleteAll, List.foldl_cons] at ih ⊢
    rw [ih]
    simp only [StringGraph.deleteEdge, List.filter_filter]
    apply List.filter_congr
    intro x _
    simp only [survives, List.all_cons]
    rw [Bool.and_comm]

theorem cr_deleteAll_edgeColor (v : VertexID) (es : List Edge) (g : StringGraph) :
    (deleteAll v es g).edgeColor = g.edgeColor := by
  induction es generalizing g with
  | nil => rfl
  | cons e es ih =>
    simp only [deleteAll, List.foldl_cons] at ih ⊢
    rw [ih]
    rfl

/-- An edge of a twin-consistent graph that starts or ends at `v` does not
survive the deletion loop over the edges of `v`. -/
theorem cr_incident_deleted {g : StringGraph} (htc : TwinConsistent g) (v : VertexID)
    (es : List Edge) (hes : ∀ e, e ∈ es ↔ e ∈ g.getAllEdges v) (x : Edge) (hx : x ∈ g.edges)
    (hinc : x.start = v ∨ x.end_ = v) : survives v es x = false := by
  unfold survives
  rw [Bool.eq_false_iff]
  intro hall
  rw [List.all_eq_true] at hall
  rcases hinc with hs | he
  · have := hall x ((hes x).2 (StringGraph.mem_getAllEdges.2 ⟨hx, hs⟩))
    simp [hs] at this
  · obtain ⟨t, ht, h1, h2, h3, h4, -, -⟩ := htc.2 x hx
    have := hall t ((hes t).2 (StringGraph.mem_getAllEdges.2 ⟨ht, h3.trans he⟩))
    simp [h4, h2] at this

/-- An edge of a twin-consistent graph that neither starts nor ends at `v`
survives the deletion loop over the edges of `v`. -/
theorem cr_other_kept {g : StringGraph} (htc : TwinConsistent g) (v : VertexID)
    (es : List Edge) (hes : ∀ e, e ∈ es ↔ e ∈ g.getAllEdges v) (x : Edge) (hx : x ∈ g.edges)
    (hs : x.start ≠ v) (he : x.end_ ≠ v) : survives v es x = true := by
  unfold survives
  rw [List.all_eq_true]
  intro e hmem
  have hev := StringGraph.mem_getAllEdges.1 ((hes e).1 hmem)
  rw [Bool.and_eq_true, decide_eq_true_eq, decide_eq_true_eq]
  constructor
  · rintro ⟨h, -⟩
    exact hs h
  · rintro ⟨-, hid⟩
    obtain ⟨t, ht, h1, h2, h3, h4, -, -⟩ := htc.2 e hev.1
    have hxt : x = t := htc.id_inj hx ht (hid.trans h1.symm)
    apply he
    rw [hxt, h4]
    exact hev.2

theorem cr_remodelLoop_edges {remodel : StringGraph → VertexID → EdgeID → StringGraph}
    {v : VertexID} (hre : RemodelKeepsEdgesAt remodel v) (es : List Edge)
    (sg : SGContainRemoveVisitor × StringGraph) (x : Edge) (hinc : x.start = v ∨ x.end_ = v) :
    x ∈ (remodelLoop remodel es sg).2.edges ↔ x ∈ sg.2.edges := by
  induction es generalizing sg with
  | nil => exact Iff.rfl
  | cons e es ih =>
    simp only [remodelLoop, List.foldl_cons] at ih ⊢
    rw [ih]
    exact hre sg.2 e.end_ e.twin x hinc

theorem cr_mem_sortByLen (l : List Edge) (e : Edge) : e ∈ sortByLen l ↔ e ∈ l :=
  List.mem_insertionSort _

/-- The result of the visit of `v` when it is defined, on a twin-consistent
graph: if v is contained, no edge starts or ends at v, v is BLACK, and when no
remodelling is done the edges are exactly the edges of the input that neither
start nor end at v, with their colours; if v is not contained, the graph is
as it was. -/
theorem cr_visitDefined_result (remodel : StringGraph → VertexID → EdgeID → StringGraph)
    (s : SGContainRemoveVisitor) (g : StringGraph) (v : VertexID)
    (htc : TwinConsistent g) (hre : RemodelKeepsEdgesAt remodel v) :
    (g.isContained v = true →
      (∀ e ∈ (visitDefined remodel s g v).1.2.edges, e.start ≠ v ∧ e.end_ ≠ v) ∧
      (visitDefined remodel s g v).1.2.vertexColor v = GC_BLACK ∧
      ((!g.hasTransitive && !g.exactMode) = false →
        (visitDefined remodel s g v).1.2.edges =
            g.edges.filter (fun e => decide (e.start ≠ v ∧ e.end_ ≠ v)) ∧
          (visitDefined remodel s g v).1.2.edgeColor = g.edgeColor ∧
          (visitDefined remodel s g v).1.2.vertices = g.vertices)) ∧
    (g.isContained v = false → (visitDefined remodel s g v).1.2 = g) := by
  constructor
  · intro hc
    have hc1 : ¬ g.isContained v = false := by simp [hc]
    by_cases hm : (!g.hasTransitive && !g.exactMode) = true
    · simp only [visitDefined, hc1, hm, if_true, if_false]
      refine ⟨?_, ?_, ?_⟩
      · intro e he
        have he2 : e ∈ (deleteAll v (sortByLen (g.getAllEdges v))
            (remodelLoop remodel (sortByLen (g.getAllEdges v)) (s, g)).2).edges := he
        rw [cr_deleteAll_edges, List.mem_filter] at he2
        by_contra hcon
        have hinc : e.start = v ∨ e.end_ = v := by
          by_contra h2
          push_neg at h2
          exact hcon h2
        have heg : e ∈ g.edges := (cr_remodelLoop_edges hre _ (s, g) e hinc).1 he2.1
        have := cr_incident_deleted htc v (sortByLen (g.getAllEdges v))
          (cr_mem_sortByLen _) e heg hinc
        rw [this] at he2
        exact Bool.noConfusion he2.2
      · simp [StringGraph.setVertexColor]
      · intro hno
        exact Bool.noConfusion hno
    · simp only [visitDefined, hc1, hm, if_false]
      have hedges : (deleteAll v (g.getAllEdges v) g).edges =
          g.edges.filter (fun e => decide (e.start ≠ v ∧ e.end_ ≠ v)) := by
        rw [cr_deleteAll_edges]
        apply List.filter_congr
        intro x hx
        by_cases hinc : x.start = v ∨ x.end_ = v
        · rw [cr_incident_deleted htc v _ (fun _ => Iff.rfl) x hx hinc]
          symm
          rw [decide_eq_false_iff_not]
          rintro ⟨h1, h2⟩
          rcases hinc with h | h
          · exact h1 h
          · exact h2 h
        · push_neg at hinc
          rw [cr_other_kept htc v _ (fun _ => Iff.rfl) x hx hinc.1 hinc.2]
          symm
          rw [decide_eq_true_eq]
          exact hinc
      refine ⟨?_, ?_, ?_⟩
      · intro e he
        have he2 : e ∈ (deleteAll v (g.getAllEdges v) g).edges := he
        rw [hedges, List.mem_filter, decide_eq_true_eq] at he2
        exact he2.2
      · simp [StringGraph.setVertexColor]
      · intro _
        refine ⟨hedges, ?_, ?_⟩
        · show (deleteAll v (g.getAllEdges v) g).edgeColor = _
          rw [cr_deleteAll_edgeColor]
        · show (deleteAll v (g.getAllEdges v) g).vertices = _
          rw [cr_deleteAll_vertices]
  · intro hc
    rw [cr_visit_not_contained remodel s g v hc]

/-- The calls recorded in the result of the visit of a contained vertex when
it is defined. -/
theorem cr_visitDefined_calls
    (remodel : StringGraph → VertexID → EdgeID → StringGraph)
    (s : SGContainRemoveVisitor) (g : StringGraph) (v : VertexID)
    (hc : g.isContained v = true) :
    ((g.hasTransitive = false ∧ g.exactMode = false) →
      ∃ l : List Edge, l.Perm (g.getAllEdges v) ∧ l.Sorted EdgeLenLE ∧
        (visitDefined remodel s g v).1.1.calls = s.calls ++ l.map (fun e => (e.end_, e.twin))) ∧
    (¬ (g.hasTransitive = false ∧ g.exactMode = false) →
      (visitDefined remodel s g v).1.1.calls = s.calls) := by
  have hc1 : ¬ g.isContained v = false := by simp [hc]
  constructor
  · rintro ⟨h1, h2⟩
    refine ⟨sortByLen (g.getAllEdges v), List.perm_insertionSort _ _,
      List.sorted_insertionSort _ _, ?_⟩
    simp only [visitDefined, hc1, h1, h2, if_false, Bool.not_false, Bool.and_self, if_true]
    exact cr_remodelLoop_calls remodel _ (s, g)
  · intro h
    have hm : ¬ (!g.hasTransitive && !g.exactMode) = true := by
      intro hm
      apply h
      simpa using hm
    simp [visitDefined, hc1, hm]

theorem cr_deleteAll_cons (v : VertexID) (e : Edge) (es : List Edge) (g : StringGraph) :
    deleteAll v (e :: es) g = deleteAll v es ((g.deleteEdge e.end_ e.twin).deleteEdge v e.id) :=
  rfl

/-- The deletion loop over distinct edges of `v` that are in the graph and do
not end at `v` reads no destroyed edge. -/
theorem cr_deleteLoop_some (v : VertexID) (es : List Edge) :
    ∀ g : StringGraph, (es.map (fun e => e.id)).Nodup →
      (∀ e ∈ es, e ∈ g.edges ∧ e.start = v ∧ e.end_ ≠ v) →
      deleteLoop v es g = some (deleteAll v es g) := by
  induction es with
  | nil => intro g _ _; rfl
  | cons e es ih =>
    intro g hnd hall
    rw [List.map_cons, List.nodup_cons] at hnd
    have he := hall e (List.mem_cons_self _ _)
    unfold deleteLoop
    rw [if_pos he.1, cr_deleteAll_cons]
    apply ih _ hnd.2
    intro e2 he2
    have h2 := hall e2 (List.mem_cons_of_mem _ he2)
    refine ⟨?_, h2.2.1, h2.2.2⟩
    simp only [StringGraph.deleteEdge, List.mem_filter, decide_eq_true_eq]
    refine ⟨⟨h2.1, ?_⟩, ?_⟩
    · rintro ⟨h3, -⟩
      exact he.2.2 (h3.symm.trans h2.2.1)
    · rintro ⟨-, h3⟩
      exact hnd.1 (List.mem_map.2 ⟨e2, he2, h3⟩)

theorem cr_remodelLoop_keeps {remodel : StringGraph → VertexID → EdgeID → StringGraph}
    {v : VertexID}
    (hkeep : ∀ h w t x, x.start = v → x ∈ h.edges → x ∈ (remodel h w t).edges)
    (es : List Edge) (sg : SGContainRemoveVisitor × StringGraph) (x : Edge) (hx : x.start = v)
    (hmem : x ∈ sg.2.edges) : x ∈ (remodelLoop remodel es sg).2.edges := by
  induction es generalizing sg with
  | nil => exact hmem
  | cons e es ih =>
    simp only [remodelLoop, List.foldl_cons] at ih ⊢
    exact ih _ (hkeep sg.2 e.end_ e.twin x hx hmem)

theorem cr_getAllEdges_nodup {g : StringGraph} (hid : (g.edges.map (fun e => e.id)).Nodup)
    (v : VertexID) : ((g.getAllEdges v).map (fun e => e.id)).Nodup :=
  hid.sublist ((List.filter_sublist g.edges).map _)

/-- On a graph with distinct edge objects and without self-loops, with a
remodelling procedure that destroys no edge of `v`, the visit of `v` reads no
destroyed edge. -/
theorem cr_visit_some (remodel : StringGraph → VertexID → EdgeID → StringGraph)
    (s : SGContainRemoveVisitor) (g : StringGraph) (v : VertexID)
    (hid : (g.edges.map (fun e => e.id)).Nodup) (hns : NoSelfLoops g)
    (hkeep : ∀ h w t x, x.start = v → x ∈ h.edges → x ∈ (remodel h w t).edges) :
    visit remodel s g v = some (visitDefined remodel s g v) := by
  have hedge : ∀ e ∈ g.getAllEdges v, e ∈ g.edges ∧ e.start = v ∧ e.end_ ≠ v := by
    intro e he
    obtain ⟨h1, h2⟩ := StringGraph.mem_getAllEdges.1 he
    refine ⟨h1, h2, ?_⟩
    intro h3
    exact hns e h1 (h2.trans h3.symm)
  unfold visit visitDefined
  by_cases hc : g.isContained v = false
  · simp only [hc, if_true]
  · simp only [hc, if_false]
    by_cases hm : (!g.hasTransitive && !g.exactMode) = true
    · simp only [hm, if_true]
      rw [cr_deleteLoop_some v (sortByLen (g.getAllEdges v))]
      · rfl
      · exact ((List.perm_insertionSort _ _).map _).nodup_iff.2 (cr_getAllEdges_nodup hid v)
      · intro e he
        have h := hedge e ((cr_mem_sortByLen _ e).1 he)
        exact ⟨cr_remodelLoop_keeps hkeep _ (s, g) e h.2.1 h.1, h.2.1, h.2.2⟩
    · simp only [hm]
      rw [cr_deleteLoop_some v (g.getAllEdges v) g (cr_getAllEdges_nodup hid v) hedge]
      rfl

theorem cr_keepsEdgesAt_keep {remodel : StringGraph → VertexID → EdgeID → StringGraph}
    {v : VertexID} (hre : RemodelKeepsEdgesAt remodel v) :
    ∀ h w t x, x.start = v → x ∈ h.edges → x ∈ (remodel h w t).edges :=
  fun h w t x hx hmem => (hre h w t x (Or.inl hx)).2 hmem

/-- C5: on a twin-consistent graph without self-loops, with a remodelling
procedure that neither adds nor removes an edge at v, SGContainRemoveVisitor::visit(v)
returns, and: if v is contained, then after it no edge starts at v, no edge
ends at v, v is BLACK, and when no remodelling is done the edges are exactly the
edges of the input that neither start nor end at v, with their colours; if v is
not contained, visit returns the graph as it was. -/
theorem contain_remove_visit (remodel : StringGraph → VertexID → EdgeID → StringGraph)
    (s : SGContainRemoveVisitor) (g : StringGraph) (v : VertexID)
    (htc : TwinConsistent g) (hns : NoSelfLoops g) (hre : RemodelKeepsEdgesAt remodel v) :
    ∃ r, visit remodel s g v = some r ∧
      (g.isContained v = true →
        (∀ e ∈ r.1.2.edges, e.start ≠ v ∧ e.end_ ≠ v) ∧
        r.1.2.vertexColor v = GC_BLACK ∧
        ((!g.hasTransitive && !g.exactMode) = false →
          r.1.2.edges = g.edges.filter (fun e => decide (e.start ≠ v ∧ e.end_ ≠ v)) ∧
            r.1.2.edgeColor = g.edgeColor ∧
            r.1.2.vertices = g.vertices)) ∧
      (g.isContained v = false → r.1.2 = g) :=
  ⟨visitDefined remodel s g v,
    cr_visit_some remodel s g v htc.1 hns (cr_keepsEdgesAt_keep hre),
    cr_visitDefined_result remodel s g v htc hre⟩

set_option maxRecDepth 100000 in
/-- C5, at the contained vertex `1` of `containedGraph`. -/
theorem contain_remove_visit_witness :
    TwinConsistent (containedGraph true) ∧ NoSelfLoops (containedGraph true) ∧
      RemodelKeepsEdgesAt noRemodel 1 ∧
      ∃ r, visit noRemodel { calls := [] } (containedGraph true) 1 = some r ∧
        ((containedGraph true).isContained 1 = true →
          (∀ e ∈ r.1.2.edges, e.start ≠ 1 ∧ e.end_ ≠ 1) ∧
          r.1.2.vertexColor 1 = GC_BLACK ∧
          ((!(containedGraph true).hasTransitive && !(containedGraph true).exactMode) = false →
            r.1.2.edges =
                (containedGraph true).edges.filter (fun e => decide (e.start ≠ 1 ∧ e.end_ ≠ 1)) ∧
              r.1.2.edgeColor = (containedGraph true).edgeColor ∧
              r.1.2.vertices = (containedGraph true).vertices)) ∧
        ((containedGraph true).isContained 1 = false → r.1.2 = containedGraph true) :=
  ⟨by decide, by decide, fun _ _ _ _ _ => Iff.rfl,
    contain_remove_visit noRemodel { calls := [] } (containedGraph true) 1 (by decide) (by decide)
      (fun _ _ _ _ _ => Iff.rfl)⟩

/-- C6 (amended): for a contained vertex, SGContainRemoveVisitor::visit calls
remodelVertexForExcision2 exactly when the graph has no transitive edges left
(hasTransitive is false) and is not in exact mode: it is then called once for
each neighbour edge, with the end vertex and the twin of the edge, in ascending
order of sequence length, before the deletion loop runs over the same list of
edges; otherwise no remodelling call is made and the deletion loop runs over
the neighbour edges.  Every result of the visit holds exactly these calls, and
the visit has a result on graphs with distinct edge objects and no self-loop
when remodelling leaves the edges at the vertex alone. -/
theorem contain_remove_remodel_calls
    (remodel : StringGraph → VertexID → EdgeID → StringGraph)
    (s : SGContainRemoveVisitor) (g : StringGraph) (v : VertexID)
    (hc : g.isContained v = true) :
    ((g.hasTransitive = false ∧ g.exactMode = false) →
      ∃ l : List Edge, l.Perm (g.getAllEdges v) ∧ l.Sorted EdgeLenLE ∧
        (remodelLoop remodel l (s, g)).1.calls = s.calls ++ l.map (fun e => (e.end_, e.twin)) ∧
        visit remodel s g v = (deleteLoop v l (remodelLoop remodel l (s, g)).2).map
          (fun g2 => (((remodelLoop remodel l (s, g)).1, g2.setVertexColor v GC_BLACK), false)) ∧
        ∀ r, visit remodel s g v = some r →
          r.1.1.calls = s.calls ++ l.map (fun e => (e.end_, e.twin))) ∧
    (¬ (g.hasTransitive = false ∧ g.exactMode = false) →
      visit remodel s g v = (deleteLoop v (g.getAllEdges v) g).map
        (fun g2 => ((s, g2.setVertexColor v GC_BLACK), false)) ∧
      ∀ r, visit remodel s g v = some r → r.1.1.calls = s.calls) ∧
    (((g.edges.map (fun e => e.id)).Nodup ∧ NoSelfLoops g ∧ RemodelKeepsEdgesAt remodel v) →
      ∃ r, visit remodel s g v = some r) := by
  have hc1 : ¬ g.isContained v = false := by simp [hc]
  refine ⟨?_, ?_, ?_⟩
  · rintro ⟨h1, h2⟩
    have hv : visit remodel s g v =
        (deleteLoop v (sortByLen (g.getAllEdges v))
          (remodelLoop remodel (sortByLen (g.getAllEdges v)) (s, g)).2).map
          (fun g2 => (((remodelLoop remodel (sortByLen (g.getAllEdges v)) (s, g)).1,
            g2.setVertexColor v GC_BLACK), false)) := by
      have hm : (!g.hasTransitive && !g.exactMode) = true := by simp [h1, h2]
      unfold visit
      rw [if_neg hc1]
      simp only [hm, if_true]
    refine ⟨sortByLen (g.getAllEdges v), List.perm_insertionSort _ _,
      List.sorted_insertionSort _ _, cr_remodelLoop_calls remodel _ (s, g), hv, ?_⟩
    intro r hr
    rw [hv] at hr
    obtain ⟨g2, -, hg2⟩ := Option.map_eq_some'.1 hr
    rw [← hg2]
    exact cr_remodelLoop_calls remodel _ (s, g)
  · intro h
    have hm : ¬ (!g.hasTransitive && !g.exactMode) = true := by
      intro hm
      apply h
      simpa using hm
    have hv : visit remodel s g v = (deleteLoop v (g.getAllEdges v) g).map
        (fun g2 => ((s, g2.setVertexColor v GC_BLACK), false)) := by
      unfold visit
      rw [if_neg hc1]
      exact if_neg hm
    refine ⟨hv, ?_⟩
    intro r hr
    rw [hv] at hr
    obtain ⟨g2, -, hg2⟩ := Option.map_eq_some'.1 hr
    rw [← hg2]
  · rintro ⟨hid, hns, hre⟩
    exact ⟨_, cr_visit_some remodel s g v hid hns (cr_keepsEdgesAt_keep hre)⟩

set_option maxRecDepth 100000 in
/-- C6 (amended), at the contained vertex `1` of `containedGraph`: without
transitive edges the visit makes the two calls for the neighbours 2 and 0. -/
theorem contain_remove_remodel_calls_witness :
    (containedGraph false).isContained 1 = true ∧
    (visit noRemodel { calls := [] } (containedGraph false) 1).map (fun r => r.1.1.calls) =
      some [(2, 3), (0, 0)] ∧
    ∃ r, visit noRemodel { calls := [] } (containedGraph false) 1 = some r :=
  ⟨by decide, by decide,
    (contain_remove_remodel_calls noRemodel { calls := [] } (containedGraph false) 1
      (by decide)).2.2 ⟨by decide, by decide, fun _ _ _ _ _ => Iff.rfl⟩⟩

set_option maxRecDepth 100000 in
/-- C6 as stated fails: at the contained vertex `1`, which has two neighbour
edges, no remodelling call is made when hasTransitive is true and the graph is
not in exact mode, and two calls are made when hasTransitive is false. -/
theorem contain_remove_remodel_counterexample :
    ((containedGraph true).isContained 1 = true ∧ (containedGraph true).hasTransitive = true ∧
      (containedGraph true).exactMode = false ∧
      (visit noRemodel { calls := [] } (containedGraph true) 1).map (fun r => r.1.1.calls) =
        some []) ∧
    ((containedGraph false).isContained 1 = true ∧ (containedGraph false).hasTransitive = false ∧
      (visit noRemodel { calls := [] } (containedGraph false) 1).map (fun r => r.1.1.calls) =
        some [(2, 3), (0, 0)]) := by
  decide

end SGContainRemoveVisitor

theorem sizeToInt_sizeSub {a b : Nat} (ha : a < 2 ^ 31) (hb : b < 2 ^ 31) :
    sizeToInt (sizeSub a b) = (a : Int) - (b : Int) := by
  unfold sizeToInt sizeSub
  norm_num at ha hb ⊢
  split_ifs <;> omega

namespace SGSmallRepeatResolveVisitor

theorem sr_yLongestLen_eq (i : EdgeID) (l : List Edge) (acc : Nat) :
    yLongestLen i l acc =
      max acc (((l.filter (fun e => decide (e.id ≠ i))).map
        (fun e => e.overlap.overlapLength)).foldr max 0) := by
  induction l generalizing acc with
  | nil => simp [yLongestLen]
  | cons a l ih =>
    by_cases h1 : a.id = i
    · simp only [yLongestLen, h1, if_true]
      rw [ih, List.filter_cons_of_neg]
      simp [h1]
    · by_cases h2 : a.overlap.overlapLength > acc
      · simp only [yLongestLen, h1, h2, if_true, if_false]
        rw [ih]
        simp only [ne_eq, h1, not_false_eq_true, decide_True, List.filter_cons_of_pos,
          List.map_cons, List.foldr_cons]
        omega
      · simp only [yLongestLen, h1, h2, if_false]
        rw [ih]
        simp only [ne_eq, h1, not_false_eq_true, decide_True, List.filter_cons_of_pos,
          List.map_cons, List.foldr_cons]
        omega

theorem sr_yLongest_lt {g : StringGraph} (hb : OverlapsFitInt g) (pYX : Edge) :
    yLongest g pYX < 2 ^ 31 := by
  unfold yLongest
  have : ∀ l : List Edge, (∀ e ∈ l, e ∈ g.edges) →
      ((l.map (fun e => e.overlap.overlapLength)).foldr max 0) < 2 ^ 31 := by
    intro l
    induction l with
    | nil => intro _; norm_num
    | cons a l ih =>
      intro hl
      simp only [List.map_cons, List.foldr_cons]
      have h1 := hb a (hl a (by simp))
      have h2 := ih (fun e he => hl e (List.mem_cons_of_mem _ he))
      exact max_lt h1 h2
  apply this
  intro e he
  exact (StringGraph.mem_getEdges.1 (List.mem_of_mem_filter he)).1

theorem sr_getTwin_eq {g : StringGraph} (htc : TwinConsistent g) {pXY pYX : Edge}
    (hY : pYX ∈ g.edges) (hid : pYX.id = pXY.twin) (hst : pYX.start = pXY.end_) :
    getTwin g pXY = some pYX := by
  unfold getTwin
  cases hf : g.edges.find? (fun t => decide (t.start = pXY.end_ ∧ t.id = pXY.twin)) with
  | none =>
    rw [List.find?_eq_none] at hf
    have := hf pYX hY
    simp [hid, hst] at this
  | some m =>
    have hm := List.find?_some hf
    have hmem := List.mem_of_find?_eq_some hf
    rw [decide_eq_true_eq] at hm
    rw [htc.id_inj hmem hY (hm.2.trans hid.symm)]

theorem sr_delete_edges {g : StringGraph} (htc : TwinConsistent g) {x : VertexID}
    {pXY pYX : Edge} (hX : pXY ∈ g.edges) (hxs : pXY.start = x) (hY : pYX ∈ g.edges)
    (hst : pYX.start = pXY.end_) :
    ((g.deleteEdge x pXY.id).deleteEdge pXY.end_ pYX.id).edges =
      g.edges.filter (fun e => decide (e ≠ pXY ∧ e ≠ pYX)) := by
  simp only [StringGraph.deleteEdge, List.filter_filter]
  apply List.filter_congr
  intro e he
  by_cases h1 : e = pXY
  · simp [h1, hxs]
  · by_cases h2 : e = pYX
    · simp [h2, hst]
    · have n1 : e.id ≠ pXY.id := fun h => h1 (htc.id_inj he hX h)
      have n2 : e.id ≠ pYX.id := fun h => h2 (htc.id_inj he hY h)
      simp [h1, h2, n1, n2]

/-- The body of the loop of SGSmallRepeatResolveVisitor::visit for one
direction, on a twin-consistent graph whose overlap lengths fit `int`: when the
direction has at least two edges, with `pXY` the last one, `pFront` the first
one and `pYX` the twin of `pXY`, the body deletes `pXY` and `pYX` and sets
`changed` if `ShouldDelete` holds, and leaves the state as it is otherwise. -/
theorem sr_visitDir_eq (minDiff : Int) (g : StringGraph) (b : Bool) (x : VertexID)
    (d : EdgeDir) (pXY pFront pYX : Edge) (htc : TwinConsistent g) (hb : OverlapsFitInt g)
    (hlen : 2 ≤ (g.getEdges x d).length)
    (hXY : (g.getEdges x d).getLast? = some pXY) (hF : (g.getEdges x d).head? = some pFront)
    (hY : pYX ∈ g.edges) (hid : pYX.id = pXY.twin) (hst : pYX.start = pXY.end_) :
    visitDir minDiff x (g, b) d =
      if ShouldDelete minDiff g pXY pFront pYX then
        ({ g with edges := g.edges.filter (fun e => decide (e ≠ pXY ∧ e ≠ pYX)) }, true)
      else (g, b) := by
  have hXm : pXY ∈ g.getEdges x d := List.mem_of_getLast?_eq_some hXY
  have hFm : pFront ∈ g.getEdges x d := List.mem_of_mem_head? hF
  have hX := StringGraph.mem_getEdges.1 hXm
  have hFg := (StringGraph.mem_getEdges.1 hFm).1
  have b1 := hb pXY hX.1
  have b2 := hb pFront hFg
  have b3 := hb pYX hY
  have b4 := sr_yLongest_lt hb pYX
  have hlen2 : ¬ (g.getEdges x d).length < 2 := by omega
  have hyl : yLongestLen pYX.id (g.getEdges pXY.end_ pYX.dir) 0 = yLongest g pYX := by
    rw [sr_yLongestLen_eq, ← hst]
    unfold yLongest
    simp
  unfold visitDir
  simp only [hlen2, if_false, hXY, hF, sr_getTwin_eq htc hY hid hst, hyl]
  by_cases h0 : pXY.overlap.overlapLength = pFront.overlap.overlapLength
  · have hns : ¬ ShouldDelete minDiff g pXY pFront pYX := fun h => h.1 h0
    simp only [h0, if_true, hns, if_false]
  · by_cases h1 : yLongest g pYX > pYX.overlap.overlapLength
    · rw [sizeToInt_sizeSub b2 b1, sizeToInt_sizeSub b4 b3]
      by_cases h2 : (pFront.overlap.overlapLength : Int) - (pXY.overlap.overlapLength : Int) >
          minDiff ∧ (yLongest g pYX : Int) - (pYX.overlap.overlapLength : Int) > minDiff
      · have hs : ShouldDelete minDiff g pXY pFront pYX := ⟨h0, h1, h2.1, h2.2⟩
        simp only [h0, if_false, h1, if_true, h2, and_self, hs]
        have he := sr_delete_edges htc hX.1 hX.2.1 hY hst
        have hg : (g.deleteEdge x pXY.id).deleteEdge pXY.end_ pYX.id =
            { g with edges := ((g.deleteEdge x pXY.id).deleteEdge pXY.end_ pYX.id).edges } := rfl
        rw [hg, he]
      · have hns : ¬ ShouldDelete minDiff g pXY pFront pYX := fun h => h2 ⟨h.2.2.1, h.2.2.2⟩
        simp only [h0, if_false, h1, if_true, h2, hns]
    · have hns : ¬ ShouldDelete minDiff g pXY pFront pYX := fun h => h1 h.2.1
      simp only [h0, if_false, h1, hns]

/-- C7 (amended): on a twin-consistent graph whose overlap lengths fit `int`,
for every vertex X, every direction d in which X has at least two edges at the
moment the visitor examines d, and every integer minDiff: with XY the last
edge of the direction-d list of X, x_longest the overlap length of the first
edge, yx_len the overlap length of twin(XY) and y_longest the largest overlap
length among the edges of Y in the direction of twin(XY) other than twin(XY)
(0 if none), the visitor deletes XY and its twin if and only if
xy_len differs from x_longest and y_longest > yx_len and
(x_longest - xy_len) > minDiff and (y_longest - yx_len) > minDiff; every other
edge stays, and `visit` examines SENSE first and ANTISENSE on the resulting
graph. -/
theorem small_repeat_deletes_iff (minDiff : Int) (g : StringGraph) (b : Bool) (x : VertexID)
    (d : EdgeDir) (pXY pFront pYX : Edge) (htc : TwinConsistent g) (hb : OverlapsFitInt g)
    (hlen : 2 ≤ (g.getEdges x d).length)
    (hXY : (g.getEdges x d).getLast? = some pXY) (hF : (g.getEdges x d).head? = some pFront)
    (hY : pYX ∈ g.edges) (hid : pYX.id = pXY.twin) (hst : pYX.start = pXY.end_) :
    ((pXY ∉ (visitDir minDiff x (g, b) d).1.edges ∧ pYX ∉ (visitDir minDiff x (g, b) d).1.edges) ↔
      ShouldDelete minDiff g pXY pFront pYX) ∧
    (∀ e ∈ g.edges, e ≠ pXY → e ≠ pYX → e ∈ (visitDir minDiff x (g, b) d).1.edges) ∧
    (∀ e ∈ (visitDir minDiff x (g, b) d).1.edges, e ∈ g.edges) ∧
    (¬ ShouldDelete minDiff g pXY pFront pYX → visitDir minDiff x (g, b) d = (g, b)) ∧
    (ShouldDelete minDiff g pXY pFront pYX → (visitDir minDiff x (g, b) d).2 = true) ∧
    (∀ h : StringGraph, (visit { m_minDiff := minDiff } h x).1.2 =
      (visitDir minDiff x (visitDir minDiff x (h, false) ED_SENSE) ED_ANTISENSE).1) := by
  have heq := sr_visitDir_eq minDiff g b x d pXY pFront pYX htc hb hlen hXY hF hY hid hst
  have hX : pXY ∈ g.edges :=
    (StringGraph.mem_getEdges.1 (List.mem_of_getLast?_eq_some hXY)).1
  by_cases hs : ShouldDelete minDiff g pXY pFront pYX
  · rw [if_pos hs] at heq
    rw [heq]
    refine ⟨?_, ?_, ?_, fun h => absurd hs h, fun _ => rfl, fun _ => rfl⟩
    · constructor
      · intro _
        exact hs
      · intro _
        constructor <;> simp
    · intro e he h1 h2
      simp [he, h1, h2]
    · intro e he
      exact List.mem_of_mem_filter he
  · rw [if_neg hs] at heq
    rw [heq]
    refine ⟨?_, fun e he _ _ => he, fun e he => he, fun _ => rfl, fun h => absurd h hs,
      fun _ => rfl⟩
    constructor
    · intro h
      exact absurd hX h.1
    · intro h
      exact absurd h hs

set_option maxRecDepth 100000 in
/-- C7 (amended), at vertex X of the graph with overlaps X-Y 40, X-Z 90 and
Y-W 90, with minDiff = 10. -/
theorem small_repeat_deletes_iff_witness :
    TwinConsistent (repeatGraph ED_SENSE EC_SAME EC_SAME EC_SAME 40 90 90) ∧
    ShouldDelete 10 (repeatGraph ED_SENSE EC_SAME EC_SAME EC_SAME 40 90 90)
      (edgeHalf 0 0 1 ED_SENSE EC_SAME 60 40) (edgeHalf 1 0 2 ED_SENSE EC_SAME 10 90)
      (edgeTwin 0 0 1 ED_SENSE EC_SAME 60 40) ∧
    (edgeHalf 0 0 1 ED_SENSE EC_SAME 60 40 ∉
        (visitDir 10 0 (repeatGraph ED_SENSE EC_SAME EC_SAME EC_SAME 40 90 90, false)
          ED_SENSE).1.edges ∧
      edgeTwin 0 0 1 ED_SENSE EC_SAME 60 40 ∉
        (visitDir 10 0 (repeatGraph ED_SENSE EC_SAME EC_SAME EC_SAME 40 90 90, false)
          ED_SENSE).1.edges ↔
      ShouldDelete 10 (repeatGraph ED_SENSE EC_SAME EC_SAME EC_SAME 40 90 90)
        (edgeHalf 0 0 1 ED_SENSE EC_SAME 60 40) (edgeHalf 1 0 2 ED_SENSE EC_SAME 10 90)
        (edgeTwin 0 0 1 ED_SENSE EC_SAME 60 40)) :=
  ⟨by decide, by decide,
    (small_repeat_deletes_iff 10 (repeatGraph ED_SENSE EC_SAME EC_SAME EC_SAME 40 90 90) false 0
      ED_SENSE (edgeHalf 0 0 1 ED_SENSE EC_SAME 60 40) (edgeHalf 1 0 2 ED_SENSE EC_SAME 10 90)
      (edgeTwin 0 0 1 ED_SENSE EC_SAME 60 40) (by decide) (by decide) (by decide) (by decide)
      (by decide) (by decide) rfl rfl).1⟩

set_option maxRecDepth 100000 in
/-- C7 as stated fails for a negative minDiff: at vertex X of the graph with
overlaps X-Y 50, X-Z 50 and Y-W 90 and with minDiff = -1, the three
conditions of the claim hold (90 > 50, 50 - 50 > -1, 90 - 50 > -1), but the
visitor skips the direction because xy_len equals x_longest, and X->Y stays. -/
theorem small_repeat_equal_overlap_counterexample :
    TwinConsistent (repeatGraph ED_SENSE EC_SAME EC_SAME EC_SAME 50 50 90) ∧
    ((repeatGraph ED_SENSE EC_SAME EC_SAME EC_SAME 50 50 90).getEdges 0 ED_SENSE).getLast? =
      some (edgeHalf 0 0 1 ED_SENSE EC_SAME 50 50) ∧
    ((repeatGraph ED_SENSE EC_SAME EC_SAME EC_SAME 50 50 90).getEdges 0 ED_SENSE).head? =
      some (edgeHalf 1 0 2 ED_SENSE EC_SAME 50 50) ∧
    ((repeatGraph ED_SENSE EC_SAME EC_SAME EC_SAME 50 50 90).getEdges 0 ED_SENSE).length = 2 ∧
    yLongest (repeatGraph ED_SENSE EC_SAME EC_SAME EC_SAME 50 50 90)
      (edgeTwin 0 0 1 ED_SENSE EC_SAME 50 50) = 90 ∧
    (90 : Int) > 50 ∧ (50 : Int) - 50 > -1 ∧ (90 : Int) - 50 > -1 ∧
    edgeHalf 0 0 1 ED_SENSE EC_SAME 50 50 ∈
      (visit { m_minDiff := -1 } (repeatGraph ED_SENSE EC_SAME EC_SAME EC_SAME 50 50 90) 0).1.2.edges := by
  decide

set_option maxRecDepth 1000000 in
theorem sr_scenario_all :
    ∀ d : EdgeDir, ∀ c1 c2 c3 : EdgeComp, ∀ order ∈ List.permutations' [0, 1, 2, 3],
      (runInOrder 10 order (repeatGraph d c1 c2 c3 40 90 90)).map (fun h => h.edges) =
        some (edgePair 1 0 2 d c2 10 10 90 ++
          edgePair 2 1 3 (edgeHalf 0 0 1 d c1 60 40).getTwinDir c3 10 10 90) := by
  decide

/-- C8: in the graph in which X has edges in one direction to Y (overlap 40)
and Z (overlap 90) and Y has edges in the facing direction back to X (overlap
40) and to W (overlap 90), whatever the direction and the strands of the three
overlaps, after visiting every vertex with SGSmallRepeatResolveVisitor with
minDiff = 10, in any vertex order, both halves of X-Y are deleted and exactly
both halves of X-Z and of Y-W remain. -/
theorem small_repeat_scenario (d : EdgeDir) (c1 c2 c3 : EdgeComp) (order : List VertexID)
    (horder : order.Perm [0, 1, 2, 3]) :
    ∃ g2, runInOrder 10 order (repeatGraph d c1 c2 c3 40 90 90) = some g2 ∧
      g2.edges = edgePair 1 0 2 d c2 10 10 90 ++
        edgePair 2 1 3 (edgeHalf 0 0 1 d c1 60 40).getTwinDir c3 10 10 90 ∧
      edgeHalf 0 0 1 d c1 60 40 ∉ g2.edges ∧ edgeTwin 0 0 1 d c1 60 40 ∉ g2.edges := by
  have h := sr_scenario_all d c1 c2 c3 order (List.mem_permutations'.2 horder)
  cases hr : runInOrder 10 order (repeatGraph d c1 c2 c3 40 90 90) with
  | none => rw [hr] at h; simp at h
  | some g2 =>
    rw [hr] at h
    simp only [Option.map_some', Option.some.injEq] at h
    refine ⟨g2, rfl, h, ?_, ?_⟩
    · rw [h]
      cases d <;> cases c1 <;> cases c2 <;> cases c3 <;> decide
    · rw [h]
      cases d <;> cases c1 <;> cases c2 <;> cases c3 <;> decide

/-- C8, in the vertex order X, Y, Z, W with all overlaps on the same strand. -/
theorem small_repeat_scenario_witness :
    [0, 1, 2, 3].Perm [0, 1, 2, 3] ∧
      ∃ g2, runInOrder 10 [0, 1, 2, 3] (repeatGraph ED_SENSE EC_SAME EC_SAME EC_SAME 40 90 90) =
          some g2 ∧
        g2.edges = edgePair 1 0 2 ED_SENSE EC_SAME 10 10 90 ++
          edgePair 2 1 3 (edgeHalf 0 0 1 ED_SENSE EC_SAME 60 40).getTwinDir EC_SAME 10 10 90 ∧
        edgeHalf 0 0 1 ED_SENSE EC_SAME 60 40 ∉ g2.edges ∧
        edgeTwin 0 0 1 ED_SENSE EC_SAME 60 40 ∉ g2.edges :=
  ⟨List.Perm.refl _, small_repeat_scenario ED_SENSE EC_SAME EC_SAME EC_SAME [0, 1, 2, 3]
    (List.Perm.refl _)⟩

end SGSmallRepeatResolveVisitor

namespace SGBubbleVisitor

theorem bv_markStep_edges (st : StringGraph × Bool) (e : Edge) :
    (markStep st e).1.edges = st.1.edges := by
  unfold markStep
  split
  · split <;> rfl
  · rfl

theorem bv_unmarkStep_edges (g : StringGraph) (e : Edge) : (unmarkStep g e).edges = g.edges := by
  unfold unmarkStep
  split <;> simp only [] <;> split_ifs <;> rfl

theorem bv_mark_edges (es : List Edge) (st : StringGraph × Bool) :
    (es.foldl markStep st).1.edges = st.1.edges := by
  induction es generalizing st with
  | nil => rfl
  | cons e es ih => rw [List.foldl_cons, ih, bv_markStep_edges]

theorem bv_unmark_edges (es : List Edge) (g : StringGraph) :
    (es.foldl unmarkStep g).edges = g.edges := by
  induction es generalizing g with
  | nil => rfl
  | cons e es ih => rw [List.foldl_cons, ih, bv_unmarkStep_edges]

theorem bv_visitDirs_edges (v : VertexID) (ds : List EdgeDir) (st : VisitState) :
    (visitDirs v ds st).1.graph.edges = st.graph.edges := by
  induction ds generalizing st with
  | nil => rfl
  | cons d ds ih =>
    unfold visitDirs
    simp only []
    by_cases h1 : (st.graph.getEdges v d).length > 1
    · by_cases h2 : checkAbort st.graph (st.graph.getEdges v d) = true
      · simp only [h1, h2, if_true]
      · simp only [h1, h2, if_true, if_false, Bool.false_eq_true]
        rw [ih]
        show (List.foldl unmarkStep _ _).edges = _
        rw [bv_unmark_edges, bv_mark_edges]
    · simp only [h1, if_false]
      rw [ih]

theorem bv_visit_edges (s : SGBubbleVisitor) (g : StringGraph) (v : VertexID) :
    (visit s g v).1.2.edges = g.edges :=
  bv_visitDirs_edges v EDGE_DIRECTIONS _

theorem bv_visitVertices_cons (order : List VertexID) (v : VertexID)
    (acc : (SGBubbleVisitor × StringGraph) × Bool) :
    visitVertices visitor (v :: order) acc =
      visitVertices visitor order ((visit acc.1.1 acc.1.2 v).1, (visit acc.1.1 acc.1.2 v).2 || acc.2) :=
  rfl

end SGBubbleVisitor

namespace SGTrimVisitor

theorem tv_setVertexColor_twice (g : StringGraph) (v : VertexID) (c : GraphColor) :
    (g.setVertexColor v c).setVertexColor v c = g.setVertexColor v c := by
  unfold StringGraph.setVertexColor
  congr 1
  funext x
  by_cases h : x = v <;> simp [h]

theorem tv_countEdges_congr {g h : StringGraph} (he : h.edges = g.edges) (v : VertexID)
    (d : EdgeDir) : h.countEdges v d = g.countEdges v d := by
  unfold StringGraph.countEdges
  rw [StringGraph.getEdges_congr he]

theorem tv_isDeadEnd_congr {g h : StringGraph} (he : h.edges = g.edges) (v : VertexID) :
    isDeadEnd h v ↔ isDeadEnd g v := by
  unfold isDeadEnd
  rw [tv_countEdges_congr he, tv_countEdges_congr he]

/-- A call of SGTrimVisitor::visit colours the vertex BLACK and returns true
when the vertex is a dead end, and leaves the graph alone and returns false
otherwise. -/
theorem tv_visit_eq (s : SGTrimVisitor) (g : StringGraph) (v : VertexID) :
    (isDeadEnd g v → (visit s g v).1.2 = g.setVertexColor v GC_BLACK ∧ (visit s g v).2 = true) ∧
    (¬ isDeadEnd g v → (visit s g v).1.2 = g ∧ (visit s g v).2 = false) := by
  unfold isDeadEnd
  have h0b : (g.setVertexColor v GC_BLACK).countEdges v ED_ANTISENSE =
      g.countEdges v ED_ANTISENSE := tv_countEdges_congr rfl v _
  by_cases h0 : g.countEdges v ED_SENSE = 0 <;> by_cases h1 : g.countEdges v ED_ANTISENSE = 0 <;>
    simp [visit, visitDir, h0, h1, h0b, tv_setVertexColor_twice]

theorem tv_visitVertices_cons (order : List VertexID) (v : VertexID)
    (acc : (SGTrimVisitor × StringGraph) × Bool) :
    visitVertices visitor (v :: order) acc =
      visitVertices visitor order ((visit acc.1.1 acc.1.2 v).1, (visit acc.1.1 acc.1.2 v).2 || acc.2) :=
  rfl

/-- The visits of a pass keep the vertex table and the edges, and colour BLACK
exactly the visited dead ends. -/
theorem tv_pass (order : List VertexID) (acc : (SGTrimVisitor × StringGraph) × Bool) :
    (visitVertices visitor order acc).1.2.vertices = acc.1.2.vertices ∧
      (visitVertices visitor order acc).1.2.edges = acc.1.2.edges ∧
      ∀ x, (visitVertices visitor order acc).1.2.vertexColor x =
        if x ∈ order ∧ isDeadEnd acc.1.2 x then GC_BLACK else acc.1.2.vertexColor x := by
  induction order generalizing acc with
  | nil => exact ⟨rfl, rfl, fun x => by simp [visitVertices]⟩
  | cons a order ih =>
    rw [tv_visitVertices_cons]
    have hv := tv_visit_eq acc.1.1 acc.1.2 a
    have h := ih ((visit acc.1.1 acc.1.2 a).1, (visit acc.1.1 acc.1.2 a).2 || acc.2)
    by_cases hd : isDeadEnd acc.1.2 a
    · have hg : (visit acc.1.1 acc.1.2 a).1.2 = acc.1.2.setVertexColor a GC_BLACK := (hv.1 hd).1
      have hE : (visit acc.1.1 acc.1.2 a).1.2.edges = acc.1.2.edges := by rw [hg]; rfl
      refine ⟨?_, ?_, ?_⟩
      · rw [h.1]
        show (visit acc.1.1 acc.1.2 a).1.2.vertices = _
        rw [hg]
        rfl
      · rw [h.2.1]
        exact hE
      · intro x
        rw [h.2.2 x]
        show (if x ∈ order ∧ isDeadEnd (visit acc.1.1 acc.1.2 a).1.2 x then GC_BLACK
          else (visit acc.1.1 acc.1.2 a).1.2.vertexColor x) = _
        have hiff : isDeadEnd (acc.1.2.setVertexColor a GC_BLACK) x ↔ isDeadEnd acc.1.2 x :=
          tv_isDeadEnd_congr rfl x
        simp only [hg, hiff]
        by_cases hx : x = a
        · subst hx
          simp [hd, StringGraph.setVertexColor]
        · simp [hx, StringGraph.setVertexColor]
    · have hg : (visit acc.1.1 acc.1.2 a).1.2 = acc.1.2 := (hv.2 hd).1
      refine ⟨?_, ?_, ?_⟩
      · rw [h.1]
        show (visit acc.1.1 acc.1.2 a).1.2.vertices = _
        rw [hg]
      · rw [h.2.1]
        show (visit acc.1.1 acc.1.2 a).1.2.edges = _
        rw [hg]
      · intro x
        rw [h.2.2 x]
        show (if x ∈ order ∧ isDeadEnd (visit acc.1.1 acc.1.2 a).1.2 x then GC_BLACK
          else (visit acc.1.1 acc.1.2 a).1.2.vertexColor x) = _
        simp only [hg]
        by_cases hx : x = a
        · subst hx
          simp [hd]
        · simp [hx]

theorem tv_run_eq (order : List VertexID) (g : StringGraph) :
    runInOrder order g = some ((visited order g).sweepVertices GC_BLACK) := rfl

/-- C10: for every graph and every visiting order of its vertices, a full
SGTrimVisitor pass removes exactly the vertices that had zero edges in the
SENSE direction or zero edges in the ANTISENSE direction in the graph before
the pass; and visit(v) returns true if and only if it coloured v BLACK (when it
returns false it leaves the graph as it was). -/
theorem trim_removes_dead_ends (g : StringGraph) (order : List VertexID)
    (horder : order.Perm (g.vertices.map (fun v => v.id))) :
    (∃ g2, runInOrder order g = some g2 ∧
      g2.vertices = g.vertices.filter (fun v => decide (¬ isDeadEnd g v.id))) ∧
    (∀ (s : SGTrimVisitor) (h : StringGraph) (v : VertexID),
      ((visit s h v).2 = true → (visit s h v).1.2 = h.setVertexColor v GC_BLACK) ∧
      ((visit s h v).2 = false → (visit s h v).1.2 = h)) := by
  constructor
  · have hp := tv_pass order
      (({ num_island := 0, num_terminal := 0, num_contig := 0 }, g.setColors GC_WHITE), false)
    have hp1 : (visited order g).vertices = g.vertices := hp.1
    have hp3 : ∀ x, (visited order g).vertexColor x =
        if x ∈ order ∧ isDeadEnd (g.setColors GC_WHITE) x then GC_BLACK else GC_WHITE := hp.2.2
    refine ⟨(visited order g).sweepVertices GC_BLACK, tv_run_eq order g, ?_⟩
    show List.filter _ (visited order g).vertices = _
    rw [hp1]
    apply List.filter_congr
    intro u hu
    have hin : u.id ∈ order := horder.mem_iff.2 (List.mem_map.2 ⟨u, hu, rfl⟩)
    have hiff := tv_isDeadEnd_congr (show (g.setColors GC_WHITE).edges = g.edges from rfl) u.id
    rw [hp3 u.id]
    simp only [hiff]
    by_cases hd : isDeadEnd g u.id
    · simp [hin, hd]
    · simp [hd]
  · intro s h v
    have hv := tv_visit_eq s h v
    by_cases hd : isDeadEnd h v
    · exact ⟨fun _ => (hv.1 hd).1, fun hf => by rw [(hv.1 hd).2] at hf; exact Bool.noConfusion hf⟩
    · exact ⟨fun ht => by rw [(hv.2 hd).2] at ht; exact Bool.noConfusion ht, fun _ => (hv.2 hd).1⟩

set_option maxRecDepth 100000 in
/-- C10, at the chain graph visited in the order 2, 0, 1. -/
theorem trim_removes_dead_ends_witness :
    [2, 0, 1].Perm (chainGraph.vertices.map (fun v => v.id)) ∧
      ∃ g2, runInOrder [2, 0, 1] chainGraph = some g2 ∧
        g2.vertices = chainGraph.vertices.filter (fun v => decide (¬ isDeadEnd chainGraph v.id)) :=
  ⟨by decide, (trim_removes_dead_ends chainGraph [2, 0, 1] (by decide)).1⟩

/-- The edges after a full pass: those whose start and end are not visited
dead ends. -/
theorem tv_result (g : StringGraph) (order : List VertexID) :
    ∃ g2, runInOrder order g = some g2 ∧
      g2.vertices = g.vertices.filter
        (fun v => decide (¬ (v.id ∈ order ∧ isDeadEnd g v.id))) ∧
      g2.edges = g.edges.filter (fun e => decide (¬ (e.start ∈ order ∧ isDeadEnd g e.start) ∧
        ¬ (e.end_ ∈ order ∧ isDeadEnd g e.end_))) := by
  have hp := tv_pass order
    (({ num_island := 0, num_terminal := 0, num_contig := 0 }, g.setColors GC_WHITE), false)
  have hp1 : (visited order g).vertices = g.vertices := hp.1
  have hp2 : (visited order g).edges = g.edges := hp.2.1
  have hp3 : ∀ x, (visited order g).vertexColor x =
      if x ∈ order ∧ isDeadEnd (g.setColors GC_WHITE) x then GC_BLACK else GC_WHITE := hp.2.2
  have hcol : ∀ x, (visited order g).vertexColor x ≠ GC_BLACK ↔
      ¬ (x ∈ order ∧ isDeadEnd g x) := by
    intro x
    have hiff := tv_isDeadEnd_congr (show (g.setColors GC_WHITE).edges = g.edges from rfl) x
    rw [hp3 x]
    simp only [hiff]
    by_cases hd : x ∈ order ∧ isDeadEnd g x
    · simp [hd]
    · simp [hd]
  refine ⟨(visited order g).sweepVertices GC_BLACK, tv_run_eq order g, ?_, ?_⟩
  · show List.filter _ (visited order g).vertices = _
    rw [hp1]
    apply List.filter_congr
    intro u _
    exact decide_eq_decide.2 (hcol u.id)
  · show List.filter _ (visited order g).edges = _
    rw [hp2]
    apply List.filter_congr
    intro e _
    apply decide_eq_decide.2
    rw [hcol, hcol]

/-- A vertex all of whose edges lie in one list of length one is a dead end. -/
theorem tv_single_edge_deadEnd (g : StringGraph) (X : VertexID) (xy : Edge)
    (hxy : g.getAllEdges X = [xy]) : isDeadEnd g X := by
  have hsub : ∀ d, g.getEdges X d = (g.getAllEdges X).filter (fun e => decide (e.dir = d)) := by
    intro d
    unfold StringGraph.getEdges StringGraph.getAllEdges
    rw [List.filter_filter]
    apply List.filter_congr
    intro e _
    by_cases h1 : e.start = X <;> by_cases h2 : e.dir = d <;> simp [h1, h2]
  unfold isDeadEnd StringGraph.countEdges
  rw [hsub, hsub, hxy]
  cases hd : xy.dir <;> simp [hd]

/-- C11 (amended): for every graph in which vertex X has exactly one edge,
ending at vertex Y, and Y has an edge in each of the two directions: after one
SGTrimVisitor pass, in any visiting order, X is removed, Y is still in the
graph, Y still has every one of its edges whose end vertex has edges in both
directions, and every edge Y still has is one of its former edges and does not
lead to X. -/
theorem trim_tip (g : StringGraph) (order : List VertexID) (X Y : VertexID) (xy : Edge)
    (horder : order.Perm (g.vertices.map (fun v => v.id)))
    (hX : X ∈ g.vertices.map (fun v => v.id)) (hY : Y ∈ g.vertices.map (fun v => v.id))
    (hxy : g.getAllEdges X = [xy]) (_hend : xy.end_ = Y) (hYboth : ¬ isDeadEnd g Y) :
    ∃ g2, runInOrder order g = some g2 ∧
      X ∉ g2.vertices.map (fun v => v.id) ∧ Y ∈ g2.vertices.map (fun v => v.id) ∧
      (∀ e ∈ g.getAllEdges Y, ¬ isDeadEnd g e.end_ → e ∈ g2.getAllEdges Y) ∧
      (∀ e ∈ g2.getAllEdges Y, e ∈ g.getAllEdges Y ∧ e.end_ ≠ X) := by
  obtain ⟨g2, hrun, hV, hE⟩ := tv_result g order
  have hXd : isDeadEnd g X := tv_single_edge_deadEnd g X xy hxy
  have hXo : X ∈ order := horder.mem_iff.2 hX
  refine ⟨g2, hrun, ?_, ?_, ?_, ?_⟩
  · rw [hV]
    intro hmem
    obtain ⟨u, hu, hux⟩ := List.mem_map.1 hmem
    have h2 := (List.mem_filter.1 hu).2
    rw [hux] at h2
    simp [hXo, hXd] at h2
  · rw [hV]
    obtain ⟨u, hu, huy⟩ := List.mem_map.1 hY
    refine List.mem_map.2 ⟨u, List.mem_filter.2 ⟨hu, ?_⟩, huy⟩
    rw [huy]
    simp [hYboth]
  · intro e he hd
    obtain ⟨he1, he2⟩ := StringGraph.mem_getAllEdges.1 he
    refine StringGraph.mem_getAllEdges.2 ⟨?_, he2⟩
    rw [hE]
    refine List.mem_filter.2 ⟨he1, ?_⟩
    rw [he2]
    simp [hYboth, hd]
  · intro e he
    obtain ⟨he1, he2⟩ := StringGraph.mem_getAllEdges.1 he
    rw [hE] at he1
    obtain ⟨he3, he4⟩ := List.mem_filter.1 he1
    refine ⟨StringGraph.mem_getAllEdges.2 ⟨he3, he2⟩, ?_⟩
    intro hx
    rw [hx] at he4
    simp [hXo, hXd] at he4

set_option maxRecDepth 100000 in
/-- C11, at the tip graph visited in the order 3, 1, 0, 5, 2, 4: the tip 0 is
removed and the vertex 1 keeps its edges to the vertices 2 and 3. -/
theorem trim_tip_witness :
    ∃ g2, runInOrder [3, 1, 0, 5, 2, 4] tipGraph = some g2 ∧
      0 ∉ g2.vertices.map (fun v => v.id) ∧ 1 ∈ g2.vertices.map (fun v => v.id) ∧
      (∀ e ∈ tipGraph.getAllEdges 1, ¬ isDeadEnd tipGraph e.end_ → e ∈ g2.getAllEdges 1) ∧
      (∀ e ∈ g2.getAllEdges 1, e ∈ tipGraph.getAllEdges 1 ∧ e.end_ ≠ 0) :=
  trim_tip tipGraph [3, 1, 0, 5, 2, 4] 0 1 (edgeHalf 0 0 1 ED_SENSE EC_SAME 40 60)
    (by decide) (by decide) (by decide) (by decide) (by decide) (by decide)

set_option maxRecDepth 100000 in
/-- C11 as stated fails.  In both graphs the vertex 0 has exactly one edge,
ending at the vertex 1, which has two other edges.  When the three edges of the
vertex 1 lie in one direction, the pass removes the vertex 1 as well; when the
ends 2 and 3 of its other edges have no further edge, the pass removes them
and the vertex 1 is left without any edge. -/
theorem trim_tip_counterexample :
    (tipOneSidedGraph.getAllEdges 0).length = 1 ∧
    (∀ e ∈ tipOneSidedGraph.getAllEdges 0, e.end_ = 1) ∧
    ((tipOneSidedGraph.getAllEdges 1).filter (fun e => decide (e.end_ ≠ 0))).length = 2 ∧
    (∃ g2, runInOrder (tipOneSidedGraph.vertices.map (fun v => v.id)) tipOneSidedGraph = some g2 ∧
      g2.vertices.map (fun v => v.id) = [2, 3]) ∧
    (tipStarGraph.getAllEdges 0).length = 1 ∧
    (∀ e ∈ tipStarGraph.getAllEdges 0, e.end_ = 1) ∧
    ((tipStarGraph.getAllEdges 1).filter (fun e => decide (e.end_ ≠ 0))).length = 2 ∧
    (∃ g2, runInOrder (tipStarGraph.vertices.map (fun v => v.id)) tipStarGraph = some g2 ∧
      g2.vertices.map (fun v => v.id) = [1] ∧ g2.getAllEdges 1 = []) := by
  refine ⟨by decide, by decide, by decide, ⟨_, rfl, by decide⟩, by decide, by decide, by decide,
    ⟨_, rfl, by decide, by decide⟩⟩

end SGTrimVisitor

theorem TwinConsistent.twinPaired {g : StringGraph} (h : TwinConsistent g) : TwinPaired g := by
  refine ⟨h.1, ?_⟩
  intro e he
  obtain ⟨t, ht, h1, h2, h3, _⟩ := h.2 e he
  exact ⟨t, ht, h3, h1, h2⟩

namespace SGIslandVisitor

theorem iv_countAllEdges_congr {g h : StringGraph} (he : h.edges = g.edges) (v : VertexID) :
    h.countAllEdges v = g.countAllEdges v := by
  unfold StringGraph.countAllEdges StringGraph.getAllEdges
  rw [he]

theorem iv_visit_eq (s : SGIslandVisitor) (g : StringGraph) (v : VertexID) :
    (g.countAllEdges v = 0 → visit s g v = ((s, g.setVertexColor v GC_BLACK), true)) ∧
    (g.countAllEdges v ≠ 0 → visit s g v = ((s, g), false)) := by
  unfold visit
  by_cases h : g.countAllEdges v = 0 <;> simp [h]

theorem iv_visitVertices_cons (order : List VertexID) (v : VertexID)
    (acc : (SGIslandVisitor × StringGraph) × Bool) :
    visitVertices visitor (v :: order) acc =
      visitVertices visitor order ((visit acc.1.1 acc.1.2 v).1, (visit acc.1.1 acc.1.2 v).2 || acc.2) :=
  rfl

/-- The visits of a pass keep the vertex table and the edges, colour BLACK
exactly the visited vertices without edges, and accumulate the flag `true`
exactly when there is such a vertex. -/
theorem iv_pass (order : List VertexID) (acc : (SGIslandVisitor × StringGraph) × Bool) :
    (visitVertices visitor order acc).1.2.vertices = acc.1.2.vertices ∧
      (visitVertices visitor order acc).1.2.edges = acc.1.2.edges ∧
      (∀ x, (visitVertices visitor order acc).1.2.vertexColor x =
        if x ∈ order ∧ acc.1.2.countAllEdges x = 0 then GC_BLACK else acc.1.2.vertexColor x) ∧
      (visitVertices visitor order acc).2 =
        (order.any (fun x => decide (acc.1.2.countAllEdges x = 0)) || acc.2) := by
  induction order generalizing acc with
  | nil => exact ⟨rfl, rfl, fun x => by simp [visitVertices], by simp [visitVertices]⟩
  | cons a order ih =>
    rw [iv_visitVertices_cons]
    have hv := iv_visit_eq acc.1.1 acc.1.2 a
    have h := ih ((visit acc.1.1 acc.1.2 a).1, (visit acc.1.1 acc.1.2 a).2 || acc.2)
    by_cases hd : acc.1.2.countAllEdges a = 0
    · have hg := hv.1 hd
      rw [hg] at h ⊢
      have hc : ∀ x, (acc.1.2.setVertexColor a GC_BLACK).countAllEdges x = acc.1.2.countAllEdges x :=
        fun x => iv_countAllEdges_congr rfl x
      refine ⟨h.1, h.2.1, ?_, ?_⟩
      · intro x
        rw [h.2.2.1 x]
        simp only [hc]
        by_cases hx : x = a
        · subst hx
          simp [hd, StringGraph.setVertexColor]
        · simp [hx, StringGraph.setVertexColor]
      · rw [h.2.2.2]
        simp [hc, hd]
    · have hg := hv.2 hd
      rw [hg] at h ⊢
      refine ⟨h.1, h.2.1, ?_, ?_⟩
      · intro x
        rw [h.2.2.1 x]
        by_cases hx : x = a
        · subst hx
          simp [hd]
        · simp [hx]
      · rw [h.2.2.2]
        simp [hd]

theorem iv_run_eq (order : List VertexID) (g : StringGraph) :
    runInOrder order g =
      some (((visited order g).1.1, (visited order g).1.2.sweepVertices GC_BLACK),
        (visited order g).2) := rfl

/-- The result of a full pass in terms of the graph before the pass. -/
theorem iv_result (g : StringGraph) (order : List VertexID) :
    ∃ r, runInOrder order g = some r ∧
      r.1.2.vertices = g.vertices.filter
        (fun v => decide (¬ (v.id ∈ order ∧ g.countAllEdges v.id = 0))) ∧
      r.1.2.edges = g.edges.filter
        (fun e => decide (¬ (e.start ∈ order ∧ g.countAllEdges e.start = 0) ∧
          ¬ (e.end_ ∈ order ∧ g.countAllEdges e.end_ = 0))) ∧
      r.2 = order.any (fun x => decide (g.countAllEdges x = 0)) := by
  have hp := iv_pass order (({}, g.setColors GC_WHITE), false)
  have hp1 : (visited order g).1.2.vertices = g.vertices := hp.1
  have hp2 : (visited order g).1.2.edges = g.edges := hp.2.1
  have hc : ∀ x, (g.setColors GC_WHITE).countAllEdges x = g.countAllEdges x :=
    fun x => iv_countAllEdges_congr rfl x
  have hp3 : ∀ x, (visited order g).1.2.vertexColor x =
      if x ∈ order ∧ g.countAllEdges x = 0 then GC_BLACK else GC_WHITE := by
    intro x
    have := hp.2.2.1 x
    simp only [hc] at this
    exact this
  have hp4 : (visited order g).2 = order.any (fun x => decide (g.countAllEdges x = 0)) := by
    have := hp.2.2.2
    simp only [hc, Bool.or_false] at this
    exact this
  have hcol : ∀ x, (visited order g).1.2.vertexColor x ≠ GC_BLACK ↔
      ¬ (x ∈ order ∧ g.countAllEdges x = 0) := by
    intro x
    rw [hp3 x]
    by_cases hd : x ∈ order ∧ g.countAllEdges x = 0
    · simp [hd]
    · simp [hd]
  refine ⟨_, iv_run_eq order g, ?_, ?_, hp4⟩
  · show List.filter _ (visited order g).1.2.vertices = _
    rw [hp1]
    apply List.filter_congr
    intro u _
    exact decide_eq_decide.2 (hcol u.id)
  · show List.filter _ (visited order g).1.2.edges = _
    rw [hp2]
    apply List.filter_congr
    intro e _
    apply decide_eq_decide.2
    rw [hcol, hcol]

theorem iv_countAllEdges_ne_zero {g : StringGraph} {e : Edge} (he : e ∈ g.edges) :
    g.countAllEdges e.start ≠ 0 := by
  unfold StringGraph.countAllEdges
  intro h
  have hm : e ∈ g.getAllEdges e.start := StringGraph.mem_getAllEdges.2 ⟨he, rfl⟩
  rw [List.length_eq_zero.1 h] at hm
  exact absurd hm (List.not_mem_nil _)

/-- In a graph with the twin invariant a pass removes no edge. -/
theorem iv_result_edges (g : StringGraph) (order : List VertexID) (htp : TwinPaired g) :
    g.edges.filter
      (fun e => decide (¬ (e.start ∈ order ∧ g.countAllEdges e.start = 0) ∧
        ¬ (e.end_ ∈ order ∧ g.countAllEdges e.end_ = 0))) = g.edges := by
  apply List.filter_eq_self.2
  intro e he
  obtain ⟨t, ht, hts, _⟩ := htp.2 e he
  have h1 := iv_countAllEdges_ne_zero he
  have h2 := iv_countAllEdges_ne_zero ht
  rw [hts] at h2
  simp [h1, h2]

/-- C12: for every graph with the twin invariant and every visiting order of
its vertices, a full SGIslandVisitor pass removes exactly the vertices whose
total edge count is 0; every other vertex remains with its record (identity,
sequence, containment mark) unchanged, and the edge table, hence every
adjacency list, is unchanged. -/
theorem island_removes_islands (g : StringGraph) (order : List VertexID)
    (horder : order.Perm (g.vertices.map (fun v => v.id))) (htp : TwinPaired g) :
    ∃ r, runInOrder order g = some r ∧
      r.1.2.vertices = g.vertices.filter (fun v => decide (g.countAllEdges v.id ≠ 0)) ∧
      r.1.2.edges = g.edges ∧ ∀ v, r.1.2.getAllEdges v = g.getAllEdges v := by
  obtain ⟨r, hrun, hV, hE, _⟩ := iv_result g order
  rw [iv_result_edges g order htp] at hE
  refine ⟨r, hrun, ?_, hE, ?_⟩
  · rw [hV]
    apply List.filter_congr
    intro u hu
    have hin : u.id ∈ order := horder.mem_iff.2 (List.mem_map.2 ⟨u, hu, rfl⟩)
    simp [hin]
  · intro v
    unfold StringGraph.getAllEdges
    rw [hE]

set_option maxRecDepth 100000 in
/-- C12, at the chain graph with two vertices without edges, visited in the
order 3, 0, 4, 2, 1. -/
theorem island_removes_islands_witness :
    ∃ r, runInOrder [3, 0, 4, 2, 1] islandGraph = some r ∧
      r.1.2.vertices = islandGraph.vertices.filter
        (fun v => decide (islandGraph.countAllEdges v.id ≠ 0)) ∧
      r.1.2.edges = islandGraph.edges ∧ ∀ v, r.1.2.getAllEdges v = islandGraph.getAllEdges v :=
  island_removes_islands islandGraph [3, 0, 4, 2, 1] (by decide) (by decide)

/-- C13: island removal is idempotent.  For every graph with the twin invariant,
after a full SGIslandVisitor pass a second full pass, in any visiting order of
the remaining vertices, colours no vertex BLACK (every vertex is WHITE after
its visits), returns the flag false from every visit, and removes no vertex
and no edge. -/
theorem island_idempotent (g : StringGraph) (order : List VertexID)
    (horder : order.Perm (g.vertices.map (fun v => v.id))) (htp : TwinPaired g) :
    ∃ r1, runInOrder order g = some r1 ∧
      ∀ order2 : List VertexID, order2.Perm (r1.1.2.vertices.map (fun v => v.id)) →
        (∀ x, (visited order2 r1.1.2).1.2.vertexColor x = GC_WHITE) ∧
        ∃ r2, runInOrder order2 r1.1.2 = some r2 ∧ r2.2 = false ∧
          r2.1.2.vertices = r1.1.2.vertices ∧ r2.1.2.edges = r1.1.2.edges := by
  obtain ⟨r1, hrun, hV0, hE, _⟩ := iv_result g order
  rw [iv_result_edges g order htp] at hE
  have hV : r1.1.2.vertices =
      g.vertices.filter (fun v => decide (g.countAllEdges v.id ≠ 0)) := by
    rw [hV0]
    apply List.filter_congr
    intro u hu
    have hin : u.id ∈ order := horder.mem_iff.2 (List.mem_map.2 ⟨u, hu, rfl⟩)
    simp [hin]
  refine ⟨r1, hrun, ?_⟩
  intro order2 horder2
  have hcount : ∀ x ∈ order2, r1.1.2.countAllEdges x ≠ 0 := by
    intro x hx
    rw [iv_countAllEdges_congr hE]
    obtain ⟨u, hu, hux⟩ := List.mem_map.1 (horder2.mem_iff.1 hx)
    rw [hV] at hu
    have := (List.mem_filter.1 hu).2
    rw [hux] at this
    simpa using this
  have hno : ∀ x, ¬ (x ∈ order2 ∧ r1.1.2.countAllEdges x = 0) :=
    fun x h => hcount x h.1 h.2
  constructor
  · intro x
    have hp := (iv_pass order2 (({}, r1.1.2.setColors GC_WHITE), false)).2.2.1 x
    have hc : (r1.1.2.setColors GC_WHITE).countAllEdges x = r1.1.2.countAllEdges x :=
      iv_countAllEdges_congr rfl x
    simp only [hc, hno x, if_false] at hp
    exact hp
  · obtain ⟨r2, hrun2, hV2, hE2, hF2⟩ := iv_result r1.1.2 order2
    refine ⟨r2, hrun2, ?_, ?_, ?_⟩
    · rw [hF2, List.any_eq_false]
      intro x hx
      simpa using hcount x hx
    · rw [hV2]
      apply List.filter_eq_self.2
      intro u _
      exact decide_eq_true (hno u.id)
    · rw [hE2]
      apply List.filter_eq_self.2
      intro e _
      exact decide_eq_true ⟨hno e.start, hno e.end_⟩

set_option maxRecDepth 100000 in
/-- C13, at the chain graph with two vertices without edges: the first pass
leaves the vertices 0, 1, 2, and the second pass, visiting them in the order
2, 0, 1, removes nothing. -/
theorem island_idempotent_witness :
    ∃ r1, runInOrder [3, 0, 4, 2, 1] islandGraph = some r1 ∧
      ∀ order2 : List VertexID, order2.Perm (r1.1.2.vertices.map (fun v => v.id)) →
        (∀ x, (visited order2 r1.1.2).1.2.vertexColor x = GC_WHITE) ∧
        ∃ r2, runInOrder order2 r1.1.2 = some r2 ∧ r2.2 = false ∧
          r2.1.2.vertices = r1.1.2.vertices ∧ r2.1.2.edges = r1.1.2.edges :=
  island_idempotent islandGraph [3, 0, 4, 2, 1] (by decide) (by decide)

end SGIslandVisitor

namespace SGIdenticalRemoveVisitor

theorem ir_findIdentical_iff (g : StringGraph) (pVertex : Vertex) (es : List Edge) :
    findIdentical g pVertex es = true ↔ ∃ e ∈ es, LeadsToIdentical g pVertex.seq e := by
  induction es with
  | nil => simp [findIdentical]
  | cons a es ih =>
    unfold findIdentical
    cases ho : g.getVertex a.end_ with
    | none =>
      simp only []
      rw [ih]
      constructor
      · rintro ⟨e, he, h⟩
        exact ⟨e, List.mem_cons_of_mem _ he, h⟩
      · rintro ⟨e, he, h⟩
        rcases List.mem_cons.1 he with rfl | he
        · obtain ⟨_, _, o, ho2, _⟩ := h
          rw [ho] at ho2
          exact Option.noConfusion ho2
        · exact ⟨e, he, h⟩
    | some o =>
      simp only []
      have hfirst : LeadsToIdentical g pVertex.seq a ↔
          a.overlap.isContainment = true ∧ a.overlap.containedIdx = 0 ∧ o.seq = pVertex.seq := by
        constructor
        · rintro ⟨h1, h2, o2, ho2, h3⟩
          rw [ho] at ho2
          cases ho2
          exact ⟨h1, h2, h3⟩
        · rintro ⟨h1, h2, h3⟩
          exact ⟨h1, h2, o, ho, h3⟩
      have hrest : (∃ e ∈ a :: es, LeadsToIdentical g pVertex.seq e) ↔
          LeadsToIdentical g pVertex.seq a ∨ ∃ e ∈ es, LeadsToIdentical g pVertex.seq e := by
        simp
      rw [hrest, hfirst, ← ih]
      by_cases hlen : pVertex.seq.length = o.seq.length
      · by_cases hcont : a.overlap.isContainment = true
        · by_cases hidx : a.overlap.containedIdx = 0
          · by_cases hseq : pVertex.seq = o.seq
            · simp [hlen, hcont, hidx, hseq]
            · have hseq2 : ¬ o.seq = pVertex.seq := fun h => hseq h.symm
              simp [hlen, hcont, hidx, hseq, hseq2]
          · simp [hlen, hcont, hidx]
        · simp [hlen, hcont]
      · have hseq : ¬ o.seq = pVertex.seq := fun h => hlen (by rw [h])
        simp [hlen, hseq]

/-- The two outcomes of a call of `visit`. -/
theorem ir_visit_eq (s : SGIdenticalRemoveVisitor) (g : StringGraph) (v : VertexID) :
    (Identical g v →
      visit s g v = (({ count := s.count + 1 }, g.setVertexColor v GC_BLACK), false)) ∧
    (¬ Identical g v → visit s g v = ((s, g), false)) := by
  unfold visit Identical
  cases hp : g.getVertex v with
  | none => simp
  | some p =>
    simp only [Option.some.injEq, exists_eq_left']
    by_cases hc : p.contained = true
    · by_cases hf : findIdentical g p (g.getAllEdges v) = true
      · have := (ir_findIdentical_iff g p _).1 hf
        simp [hc, hf, this]
      · have hno : ¬ ∃ e ∈ g.getAllEdges v, LeadsToIdentical g p.seq e :=
          fun h => hf ((ir_findIdentical_iff g p _).2 h)
        simp only [hc, hf, hno, true_and, not_false_eq_true, forall_true_left, and_true]
        constructor
        · intro h
          exact h.elim
        · simp
    · simp [hc]

/-- C14: SGIdenticalRemoveVisitor::visit(v) colours v BLACK and increments the
counter by one if v is contained and has an edge whose overlap is a containment
with contained index 0 and whose end vertex has the sequence of v; otherwise it
changes neither the graph nor the counter.  In both cases it returns false and
leaves the edges, the vertex table, the colours of the edges and the colour of
every other vertex as they were. -/
theorem identical_remove_visit (s : SGIdenticalRemoveVisitor) (g : StringGraph) (v : VertexID) :
    (Identical g v →
      visit s g v = (({ count := s.count + 1 }, g.setVertexColor v GC_BLACK), false)) ∧
    (¬ Identical g v → visit s g v = ((s, g), false)) ∧
    (visit s g v).1.2.edges = g.edges ∧ (visit s g v).1.2.vertices = g.vertices ∧
    (visit s g v).1.2.edgeColor = g.edgeColor ∧
    ∀ x, x ≠ v → (visit s g v).1.2.vertexColor x = g.vertexColor x := by
  have h := ir_visit_eq s g v
  refine ⟨h.1, h.2, ?_⟩
  by_cases hi : Identical g v
  · rw [h.1 hi]
    refine ⟨rfl, rfl, rfl, ?_⟩
    intro x hx
    simp [StringGraph.setVertexColor, hx]
  · rw [h.2 hi]
    exact ⟨rfl, rfl, rfl, fun _ _ => rfl⟩

set_option maxRecDepth 100000 in
/-- C14, at the two identical reads: the visit of the read 2, whose edge to the
read 1 reports the contained index 0, colours it BLACK and counts it. -/
theorem identical_remove_visit_witness :
    Identical identicalGraph 2 ∧
      visit { count := 0 } identicalGraph 2 =
        (({ count := 1 }, identicalGraph.setVertexColor 2 GC_BLACK), false) :=
  ⟨by decide, (identical_remove_visit { count := 0 } identicalGraph 2).1 (by decide)⟩

theorem ir_getVertex_congr {g h : StringGraph} (hv : h.vertices = g.vertices) (v : VertexID) :
    h.getVertex v = g.getVertex v := by
  unfold StringGraph.getVertex
  rw [hv]

theorem ir_identical_congr {g h : StringGraph} (hv : h.vertices = g.vertices)
    (he : h.edges = g.edges) (v : VertexID) : Identical h v ↔ Identical g v := by
  unfold Identical LeadsToIdentical StringGraph.getAllEdges
  simp only [ir_getVertex_congr hv, he]

theorem ir_getVertex_mem {g : StringGraph} {v : VertexID} {p : Vertex}
    (h : g.getVertex v = some p) : v ∈ g.vertices.map (fun u => u.id) := by
  unfold StringGraph.getVertex at h
  have h1 := List.mem_of_find?_eq_some h
  have h2 := List.find?_some h
  exact List.mem_map.2 ⟨p, h1, by simpa using h2⟩

theorem ir_identical_mem {g : StringGraph} {v : VertexID} (h : Identical g v) :
    v ∈ g.vertices.map (fun u => u.id) := by
  obtain ⟨p, hp, _⟩ := h
  exact ir_getVertex_mem hp

theorem ir_visitVertices_cons (order : List VertexID) (v : VertexID)
    (acc : (SGIdenticalRemoveVisitor × StringGraph) × Bool) :
    visitVertices visitor (v :: order) acc =
      visitVertices visitor order ((visit acc.1.1 acc.1.2 v).1, (visit acc.1.1 acc.1.2 v).2 || acc.2) :=
  rfl

/-- The visits of a pass keep the vertex table and the edges, and colour BLACK
exactly the visited vertices that have an identical neighbour. -/
theorem ir_pass (order : List VertexID) (acc : (SGIdenticalRemoveVisitor × StringGraph) × Bool) :
    (visitVertices visitor order acc).1.2.vertices = acc.1.2.vertices ∧
      (visitVertices visitor order acc).1.2.edges = acc.1.2.edges ∧
      ∀ x, (visitVertices visitor order acc).1.2.vertexColor x =
        if x ∈ order ∧ Identical acc.1.2 x then GC_BLACK else acc.1.2.vertexColor x := by
  induction order generalizing acc with
  | nil => exact ⟨rfl, rfl, fun x => by simp [visitVertices]⟩
  | cons a order ih =>
    rw [ir_visitVertices_cons]
    have hv := ir_visit_eq acc.1.1 acc.1.2 a
    have h := ih ((visit acc.1.1 acc.1.2 a).1, (visit acc.1.1 acc.1.2 a).2 || acc.2)
    by_cases hd : Identical acc.1.2 a
    · have hg := hv.1 hd
      rw [hg] at h ⊢
      have hc : ∀ x, Identical (acc.1.2.setVertexColor a GC_BLACK) x ↔ Identical acc.1.2 x :=
        fun x => ir_identical_congr rfl rfl x
      refine ⟨h.1, h.2.1, ?_⟩
      intro x
      rw [h.2.2 x]
      simp only [hc]
      by_cases hx : x = a
      · subst hx
        simp [hd, StringGraph.setVertexColor]
      · simp [hx, StringGraph.setVertexColor]
    · have hg := hv.2 hd
      rw [hg] at h ⊢
      refine ⟨h.1, h.2.1, ?_⟩
      intro x
      rw [h.2.2 x]
      by_cases hx : x = a
      · subst hx
        simp [hd]
      · simp [hx]

theorem ir_run_eq (order : List VertexID) (g : StringGraph) :
    runInOrder order g = some ((visited order g).sweepVertices GC_BLACK) := rfl

/-- The result of a full pass over all vertices: the vertices with an
identical neighbour are removed together with the edges at them. -/
theorem ir_result (g : StringGraph) (order : List VertexID)
    (horder : order.Perm (g.vertices.map (fun v => v.id))) :
    ∃ g2, runInOrder order g = some g2 ∧
      g2.vertices = g.vertices.filter (fun v => decide (¬ Identical g v.id)) ∧
      g2.edges = g.edges.filter
        (fun e => decide (¬ Identical g e.start ∧ ¬ Identical g e.end_)) := by
  have hp := ir_pass order (({ count := 0 }, g.setColors GC_WHITE), false)
  have hp1 : (visited order g).vertices = g.vertices := hp.1
  have hp2 : (visited order g).edges = g.edges := hp.2.1
  have hc : ∀ x, Identical (g.setColors GC_WHITE) x ↔ Identical g x :=
    fun x => ir_identical_congr rfl rfl x
  have hcol : ∀ x, (visited order g).vertexColor x ≠ GC_BLACK ↔ ¬ Identical g x := by
    intro x
    have h3 : (visited order g).vertexColor x =
        if x ∈ order ∧ Identical (g.setColors GC_WHITE) x then GC_BLACK else GC_WHITE :=
      hp.2.2 x
    rw [h3]
    simp only [hc]
    by_cases hd : Identical g x
    · have hin : x ∈ order := horder.mem_iff.2 (ir_identical_mem hd)
      simp [hd, hin]
    · simp [hd]
  refine ⟨(visited order g).sweepVertices GC_BLACK, ir_run_eq order g, ?_, ?_⟩
  · show List.filter _ (visited order g).vertices = _
    rw [hp1]
    apply List.filter_congr
    intro u _
    exact decide_eq_decide.2 (hcol u.id)
  · show List.filter _ (visited order g).edges = _
    rw [hp2]
    apply List.filter_congr
    intro e _
    apply decide_eq_decide.2
    rw [hcol, hcol]

theorem ir_mem_filter_ids (g : StringGraph) (x : VertexID) :
    x ∈ (g.vertices.filter (fun v => decide (¬ Identical g v.id))).map (fun v => v.id) ↔
      x ∈ g.vertices.map (fun v => v.id) ∧ ¬ Identical g x := by
  constructor
  · intro h
    obtain ⟨u, hu, hux⟩ := List.mem_map.1 h
    obtain ⟨hu1, hu2⟩ := List.mem_filter.1 hu
    rw [hux] at hu2
    exact ⟨List.mem_map.2 ⟨u, hu1, hux⟩, by simpa using hu2⟩
  · rintro ⟨h1, h2⟩
    obtain ⟨u, hu, hux⟩ := List.mem_map.1 h1
    refine List.mem_map.2 ⟨u, List.mem_filter.2 ⟨hu, ?_⟩, hux⟩
    rw [hux]
    simpa using h2

/-- A contained vertex whose only edge to a vertex of its own sequence is `r`
has an identical neighbour exactly when `r` is a containment that reports the
contained index 0. -/
theorem ir_identical_iff_idx (g : StringGraph) (R : VertexID) (p o : Vertex) (r : Edge)
    (hp : g.getVertex R = some p) (hc : p.contained = true)
    (hr : r ∈ g.edges) (hrs : r.start = R) (ho : g.getVertex r.end_ = some o)
    (hseq : o.seq = p.seq) (hcont : r.overlap.isContainment = true)
    (hother : ∀ e ∈ g.edges, e.start = R → e ≠ r →
      ∀ q, g.getVertex e.end_ = some q → q.seq ≠ p.seq) :
    Identical g R ↔ r.overlap.containedIdx = 0 := by
  constructor
  · rintro ⟨p2, hp2, _, e, he, h1, h2, q, hq, hqs⟩
    rw [hp] at hp2
    cases hp2
    obtain ⟨he1, he2⟩ := StringGraph.mem_getAllEdges.1 he
    by_cases her : e = r
    · rw [← her]
      exact h2
    · exact absurd hqs (hother e he1 he2 her q hq)
  · intro hidx
    exact ⟨p, hp, hc, r, StringGraph.mem_getAllEdges.2 ⟨hr, hrs⟩, hcont, hidx, o, ho, hseq⟩

/-- C15 (amended): for every graph in which R1 and R2 have the same sequence,
are both marked as contained and are joined by a mutual containment overlap of
which exactly one half reports the contained index 0, and in which no other
edge of R1 or R2 leads to a vertex with that sequence: after a full
SGIdenticalRemoveVisitor pass, in any visiting order, exactly one of R1, R2
remains in the graph, the two halves of the overlap between them are gone, and
the survivor has exactly those of its former edges whose end vertex has not
itself an identical neighbour. -/
theorem identical_pair (g : StringGraph) (order : List VertexID) (R1 R2 : VertexID)
    (p1 p2 : Vertex) (r12 r21 : Edge)
    (horder : order.Perm (g.vertices.map (fun v => v.id))) (hne : R1 ≠ R2)
    (hp1 : g.getVertex R1 = some p1) (hp2 : g.getVertex R2 = some p2)
    (hc1 : p1.contained = true) (hc2 : p2.contained = true) (hseq : p1.seq = p2.seq)
    (h12 : r12 ∈ g.edges) (hs12 : r12.start = R1) (he12 : r12.end_ = R2)
    (h21 : r21 ∈ g.edges) (hs21 : r21.start = R2) (he21 : r21.end_ = R1)
    (hcont12 : r12.overlap.isContainment = true) (hcont21 : r21.overlap.isContainment = true)
    (hidx : r12.overlap.containedIdx = 0 ↔ r21.overlap.containedIdx ≠ 0)
    (hother : ∀ e ∈ g.edges, e.start = R1 ∨ e.start = R2 → e ≠ r12 → e ≠ r21 →
      ∀ q, g.getVertex e.end_ = some q → q.seq ≠ p1.seq) :
    ∃ g2, runInOrder order g = some g2 ∧
      ((R1 ∈ g2.vertices.map (fun v => v.id) ∧ R2 ∉ g2.vertices.map (fun v => v.id)) ∨
        (R2 ∈ g2.vertices.map (fun v => v.id) ∧ R1 ∉ g2.vertices.map (fun v => v.id))) ∧
      r12 ∉ g2.edges ∧ r21 ∉ g2.edges ∧
      ∀ S ∈ g2.vertices.map (fun v => v.id),
        ∀ e, e ∈ g2.getAllEdges S ↔ e ∈ g.getAllEdges S ∧ ¬ Identical g e.end_ := by
  obtain ⟨g2, hrun, hV, hE⟩ := ir_result g order horder
  have hI1 : Identical g R1 ↔ r12.overlap.containedIdx = 0 :=
    ir_identical_iff_idx g R1 p1 p2 r12 hp1 hc1 h12 hs12 (by rw [he12]; exact hp2) hseq.symm
      hcont12 (fun e he hes her q hq =>
        hother e he (Or.inl hes) her (fun h => hne (by rw [← hes, h, hs21])) q hq)
  have hI2 : Identical g R2 ↔ r21.overlap.containedIdx = 0 :=
    ir_identical_iff_idx g R2 p2 p1 r21 hp2 hc2 h21 hs21 (by rw [he21]; exact hp1) hseq
      hcont21 (fun e he hes her q hq => by
        rw [← hseq]
        exact hother e he (Or.inr hes) (fun h => hne (by rw [← hs12, ← h, hes])) her q hq)
  have hm1 := ir_getVertex_mem hp1
  have hm2 := ir_getVertex_mem hp2
  have hone : (Identical g R1 ∧ ¬ Identical g R2) ∨ (Identical g R2 ∧ ¬ Identical g R1) := by
    by_cases h : r12.overlap.containedIdx = 0
    · exact Or.inl ⟨hI1.2 h, fun h2 => hidx.1 h (hI2.1 h2)⟩
    · have h2 : r21.overlap.containedIdx = 0 := by
        by_contra h3
        exact h (hidx.2 h3)
      exact Or.inr ⟨hI2.2 h2, fun h3 => h (hI1.1 h3)⟩
  refine ⟨g2, hrun, ?_, ?_, ?_, ?_⟩
  · rw [hV, ir_mem_filter_ids, ir_mem_filter_ids]
    rcases hone with ⟨ha, hb⟩ | ⟨ha, hb⟩
    · exact Or.inr ⟨⟨hm2, hb⟩, fun h => h.2 ha⟩
    · exact Or.inl ⟨⟨hm1, hb⟩, fun h => h.2 ha⟩
  · rw [hE]
    intro h
    have h2 := (List.mem_filter.1 h).2
    rw [hs12, he12] at h2
    rcases hone with ⟨ha, _⟩ | ⟨ha, _⟩ <;> simp [ha] at h2
  · rw [hE]
    intro h
    have h2 := (List.mem_filter.1 h).2
    rw [hs21, he21] at h2
    rcases hone with ⟨ha, _⟩ | ⟨ha, _⟩ <;> simp [ha] at h2
  · intro S hS e
    rw [hV, ir_mem_filter_ids] at hS
    rw [StringGraph.mem_getAllEdges, StringGraph.mem_getAllEdges, hE, List.mem_filter]
    constructor
    · rintro ⟨⟨h1, h2⟩, h3⟩
      exact ⟨⟨h1, h3⟩, by simpa using (of_decide_eq_true h2).2⟩
    · rintro ⟨⟨h1, h3⟩, h4⟩
      refine ⟨⟨h1, decide_eq_true ⟨?_, h4⟩⟩, h3⟩
      rw [h3]
      exact hS.2

set_option maxRecDepth 100000 in
/-- C15, at the two reads with the sequence ACGTACGTACGT, visited in the order
2, 0, 1: the read 2 is removed and the read 1 remains. -/
theorem identical_pair_witness :
    ∃ g2, runInOrder [2, 0, 1] identicalGraph = some g2 ∧
      ((1 ∈ g2.vertices.map (fun v => v.id) ∧ 2 ∉ g2.vertices.map (fun v => v.id)) ∨
        (2 ∈ g2.vertices.map (fun v => v.id) ∧ 1 ∉ g2.vertices.map (fun v => v.id))) ∧
      Edge.mk 4 1 2 ED_SENSE EC_SAME 5 0 (Overlap.mk 12 true 1) ∉ g2.edges ∧
      Edge.mk 5 2 1 ED_ANTISENSE EC_SAME 4 0 (Overlap.mk 12 true 0) ∉ g2.edges ∧
      ∀ S ∈ g2.vertices.map (fun v => v.id),
        ∀ e, e ∈ g2.getAllEdges S ↔ e ∈ identicalGraph.getAllEdges S ∧
          ¬ Identical identicalGraph e.end_ :=
  identical_pair identicalGraph [2, 0, 1] 1 2 (Vertex.mk 1 "ACGTACGTACGT" true)
    (Vertex.mk 2 "ACGTACGTACGT" true) (Edge.mk 4 1 2 ED_SENSE EC_SAME 5 0 (Overlap.mk 12 true 1))
    (Edge.mk 5 2 1 ED_ANTISENSE EC_SAME 4 0 (Overlap.mk 12 true 0))
    (by decide) (by decide) (by decide) (by decide) (by decide) (by decide) (by decide)
    (by decide) (by decide) (by decide) (by decide) (by decide) (by decide) (by decide)
    (by decide) (by decide) (by decide)

set_option maxRecDepth 100000 in
/-- C15 as stated fails.  In the graph of the two identical reads 1 and 2 the
survivor 1 had two edges before the pass and has one after it: its edge to the
removed read is gone.  In the graph of three identical reads, the reads 1 and 2
satisfy the conditions of the claim, the third vertex being the read 0, and the
pass removes both of them. -/
theorem identical_pair_counterexample :
    (∃ g2, runInOrder [0, 1, 2] identicalGraph = some g2 ∧
      g2.vertices.map (fun v => v.id) = [0, 1] ∧
      (identicalGraph.getAllEdges 1).length = 2 ∧ (g2.getAllEdges 1).length = 1) ∧
    (∃ g2, runInOrder [0, 1, 2] threeIdenticalGraph = some g2 ∧
      g2.vertices.map (fun v => v.id) = [0]) := by
  refine ⟨⟨_, rfl, by decide, by decide, by decide⟩, ⟨_, rfl, by decide⟩⟩

end SGIdenticalRemoveVisitor

theorem TwinPaired.eq_of_id_eq {g : StringGraph} (h : TwinPaired g) {a b : Edge}
    (ha : a ∈ g.edges) (hb : b ∈ g.edges) (hid : a.id = b.id) : a = b :=
  List.inj_on_of_nodup_map h.1 ha hb hid

/-- The twin invariant goes over to a graph whose edges are the edges that
pass a test, when the twin of an edge that passes the test passes it too. -/
theorem tp_filter {g h : StringGraph} (keep : Edge → Bool)
    (hE : h.edges = g.edges.filter keep) (htp : TwinPaired g)
    (hclosed : ∀ x ∈ g.edges, ∀ t ∈ g.edges, t.start = x.end_ → t.id = x.twin → t.twin = x.id →
      keep x = true → keep t = true) : TwinPaired h := by
  constructor
  · rw [hE]
    exact htp.1.sublist ((List.filter_sublist _).map _)
  · intro x hx
    rw [hE] at hx ⊢
    obtain ⟨hx1, hx2⟩ := List.mem_filter.1 hx
    obtain ⟨t, ht, h1, h2, h3⟩ := htp.2 x hx1
    exact ⟨t, List.mem_filter.2 ⟨ht, hclosed x hx1 t ht h1 h2 h3 hx2⟩, h1, h2, h3⟩

/-- The test that removes the edge `e` of the vertex `v` with its twin is
passed by the twin of every edge that passes it. -/
theorem tp_keep_closed {g : StringGraph} (htp : TwinPaired g) {e : Edge} (he : e ∈ g.edges)
    {v : VertexID} (hv : e.start = v) {x t : Edge} (hx : x ∈ g.edges) (ht : t ∈ g.edges)
    (_h1 : t.start = x.end_) (_h2 : t.id = x.twin) (h3 : t.twin = x.id)
    (hk : ¬ (x.start = v ∧ x.id = e.id) ∧ ¬ (x.start = e.end_ ∧ x.id = e.twin)) :
    ¬ (t.start = v ∧ t.id = e.id) ∧ ¬ (t.start = e.end_ ∧ t.id = e.twin) := by
  obtain ⟨te, hte, e1, e2, e3⟩ := htp.2 e he
  constructor
  · rintro ⟨-, hid⟩
    have hte2 : t = e := htp.eq_of_id_eq ht he hid
    apply hk.2
    have hxte : x = te := htp.eq_of_id_eq hx hte (by rw [e2, ← hte2, h3])
    rw [hxte]
    exact ⟨e1, e2⟩
  · rintro ⟨-, hid⟩
    have hte2 : t = te := htp.eq_of_id_eq ht hte (hid.trans e2.symm)
    apply hk.1
    have hxe : x = e := htp.eq_of_id_eq hx he (by rw [← h3, hte2, e3])
    rw [hxe]
    exact ⟨hv, rfl⟩

theorem tp_congr {g h : StringGraph} (hE : h.edges = g.edges) (htp : TwinPaired g) :
    TwinPaired h := by
  unfold TwinPaired at htp ⊢
  rw [hE]
  exact htp

namespace SGContainRemoveVisitor

end SGContainRemoveVisitor

namespace SGSmallRepeatResolveVisitor

theorem sr_getTwin_some {g : StringGraph} {e t : Edge} (h : getTwin g e = some t) :
    t ∈ g.edges ∧ t.start = e.end_ ∧ t.id = e.twin := by
  unfold getTwin at h
  have hm := List.find?_some h
  rw [decide_eq_true_eq] at hm
  exact ⟨List.mem_of_find?_eq_some h, hm.1, hm.2⟩

theorem sr_visitDir_twinPaired (minDiff : Int) (x : VertexID) (st : StringGraph × Bool)
    (dir : EdgeDir) (htp : TwinPaired st.1) : TwinPaired (visitDir minDiff x st dir).1 := by
  unfold visitDir
  simp only []
  split
  · exact htp
  · split
    · rename_i pXY pFront hXY hF
      split
      · exact htp
      · split
        · exact htp
        · rename_i pYX hYX
          split
          · split
            · obtain ⟨hY, hst, hid⟩ := sr_getTwin_some hYX
              have hXm := StringGraph.mem_getEdges.1 (List.mem_of_getLast?_eq_some hXY)
              simp only [StringGraph.deleteEdge]
              refine tp_filter (g := st.1) (fun e => decide (¬ (e.start = x ∧ e.id = pXY.id)) &&
                decide (¬ (e.start = pXY.end_ ∧ e.id = pYX.id))) ?_ htp ?_
              · simp only [List.filter_filter]
                apply List.filter_congr
                intro e _
                rw [Bool.and_comm]
              · intro e he t ht h1 h2 h3 hk
                rw [Bool.and_eq_true, decide_eq_true_eq, decide_eq_true_eq] at hk ⊢
                rw [hid] at hk ⊢
                exact tp_keep_closed htp hXm.1 hXm.2.1 he ht h1 h2 h3 hk
            · exact htp
          · exact htp
    · exact htp

theorem sr_visit_twinPaired (s : SGSmallRepeatResolveVisitor) (g : StringGraph) (x : VertexID)
    (htp : TwinPaired g) : TwinPaired (visit s g x).1.2 := by
  unfold visit
  simp only [EDGE_DIRECTIONS, List.foldl_cons, List.foldl_nil]
  exact sr_visitDir_twinPaired _ _ _ _ (sr_visitDir_twinPaired _ _ _ _ htp)

end SGSmallRepeatResolveVisitor

namespace SGTransitiveReductionVisitor

theorem tr_markStep_blackPaired (st : MarkState) (e : Edge) (htp : TwinPaired st.graph)
    (he : e ∈ st.graph.edges) (hbp : BlackPaired st.graph) :
    BlackPaired (markStep st e).graph := by
  intro x hx hc
  rw [tr_markStep_edges] at hx
  rw [tr_markStep_edgeColor] at hc ⊢
  by_cases hb : st.graph.vertexColor e.end_ = GC_BLACK
  · by_cases h1 : x.id = e.id
    · have hxe : x = e := htp.eq_of_id_eq hx he h1
      rw [if_pos ⟨hb, Or.inr (by rw [hxe])⟩]
    · by_cases h2 : x.id = e.twin
      · obtain ⟨t, ht, -, t2, t3⟩ := htp.2 e he
        have hxt : x = t := htp.eq_of_id_eq hx ht (h2.trans t2.symm)
        rw [if_pos ⟨hb, Or.inl (by rw [hxt, t3])⟩]
      · rw [if_neg (by rintro ⟨-, h | h⟩; exact h1 h; exact h2 h)] at hc
        have := hbp x hx hc
        split_ifs
        · rfl
        · exact this
  · rw [if_neg (fun h => hb h.1)] at hc ⊢
    exact hbp x hx hc

theorem tr_markStep_twinPaired (st : MarkState) (e : Edge) (htp : TwinPaired st.graph) :
    TwinPaired (markStep st e).graph :=
  tp_congr (tr_markStep_edges st e) htp

theorem tr_markEdges_blackPaired (es : List Edge) (st : MarkState) (htp : TwinPaired st.graph)
    (hes : ∀ e ∈ es, e ∈ st.graph.edges) (hbp : BlackPaired st.graph) :
    BlackPaired (markEdges es st).graph := by
  induction es generalizing st with
  | nil => exact hbp
  | cons e es ih =>
    simp only [markEdges, List.foldl_cons] at ih ⊢
    apply ih
    · exact tr_markStep_twinPaired st e htp
    · intro f hf
      rw [tr_markStep_edges]
      exact hes f (List.mem_cons_of_mem _ hf)
    · exact tr_markStep_blackPaired st e htp (hes e (List.mem_cons_self _ _)) hbp

theorem tr_visitDir_blackPaired (v : VertexID) (st : MarkState) (d : EdgeDir)
    (htp : TwinPaired st.graph) (hbp : BlackPaired st.graph) :
    BlackPaired (visitDir v st d).graph := by
  rcases tr_visitDir_cases v st d with ⟨-, h⟩ | ⟨l, -, h⟩
  · rw [h]
    exact hbp
  · rw [h]
    apply tr_markEdges_blackPaired
    · exact tp_congr (tr_scanned_edges _ _ _) htp
    · intro e he
      show e ∈ (scanned _ _ st.graph).edges
      rw [tr_scanned_edges]
      exact (StringGraph.mem_getEdges.1 he).1
    · intro e he hc
      have he2 : e ∈ st.graph.edges := by
        have : e ∈ (scanned (sizeAdd l.seqLen FUZZ) (st.graph.getEdges v d) st.graph).edges := he
        rw [tr_scanned_edges] at this
        exact this
      have hc2 : st.graph.edgeColor e.id = GC_BLACK := by
        have : (scanned (sizeAdd l.seqLen FUZZ) (st.graph.getEdges v d) st.graph).edgeColor e.id =
            GC_BLACK := hc
        rw [tr_scanned_edgeColor] at this
        exact this
      show (scanned _ _ st.graph).edgeColor e.twin = GC_BLACK
      rw [tr_scanned_edgeColor]
      exact hbp e he2 hc2

theorem tr_visit_blackPaired (s : SGTransitiveReductionVisitor) (g : StringGraph) (v : VertexID)
    (htp : TwinPaired g) (hbp : BlackPaired g) : BlackPaired (visit s g v).1.2 := by
  rw [tr_visit_graph]
  apply tr_visitDir_blackPaired
  · exact tp_congr (tr_visitDir_edges _ _ _) htp
  · exact tr_visitDir_blackPaired v (enter s g) ED_SENSE htp hbp

theorem tr_pass_blackPaired (order : List VertexID)
    (acc : (SGTransitiveReductionVisitor × StringGraph) × Bool)
    (htp : TwinPaired acc.1.2) (hbp : BlackPaired acc.1.2) :
    BlackPaired (visitVertices visitor order acc).1.2 := by
  induction order generalizing acc with
  | nil => exact hbp
  | cons v order ih =>
    rw [tr_visitVertices_cons]
    exact ih _ (tp_congr (tr_visit_edges _ _ _) htp) (tr_visit_blackPaired _ _ _ htp hbp)

theorem tr_prepared_twinPaired (g : StringGraph) (htp : TwinPaired g) :
    TwinPaired (prepared g) := by
  constructor
  · rw [tr_prepared_edges]
    exact ((List.perm_insertionSort _ _).map _).nodup_iff.2 htp.1
  · intro e he
    obtain ⟨t, ht, h⟩ := htp.2 e ((tr_mem_prepared_edges g e).1 he)
    exact ⟨t, (tr_mem_prepared_edges g t).2 ht, h⟩

/-- C17: the colour assertion of SGTransitiveReductionVisitor::postvisit never
fails.  For every graph with the twin invariant and without containments,
previsit succeeds, and after the visits of any list of vertices every vertex is
WHITE, every edge is WHITE or BLACK, and the twin of a BLACK edge is BLACK; so
postvisit passes its assertion: after sweepEdges(BLACK) every vertex and every
remaining edge is WHITE. -/
theorem transitive_reduction_colours (g : StringGraph) (order : List VertexID)
    (hc : g.hasContainment = false) (htp : TwinPaired g) :
    ∃ sg1, previsit { marked_verts := 0, marked_edges := 0 } g = some sg1 ∧
      (∀ x, (visitVertices visitor order (sg1, false)).1.2.vertexColor x = GC_WHITE) ∧
      (∀ i, (visitVertices visitor order (sg1, false)).1.2.edgeColor i = GC_WHITE ∨
        (visitVertices visitor order (sg1, false)).1.2.edgeColor i = GC_BLACK) ∧
      (∀ e ∈ (visitVertices visitor order (sg1, false)).1.2.edges,
        ∀ t ∈ (visitVertices visitor order (sg1, false)).1.2.edges, t.id = e.twin →
          ((visitVertices visitor order (sg1, false)).1.2.edgeColor e.id = GC_BLACK ↔
            (visitVertices visitor order (sg1, false)).1.2.edgeColor t.id = GC_BLACK)) ∧
      ∃ sg2, postvisit (visitVertices visitor order (sg1, false)).1.1
          (visitVertices visitor order (sg1, false)).1.2 = some sg2 ∧
        sg2.2.checkColors GC_WHITE = true ∧
        sg2.2.edges = (visitVertices visitor order (sg1, false)).1.2.edges.filter
          (fun e => decide ((visitVertices visitor order (sg1, false)).1.2.edgeColor e.id ≠
            GC_BLACK)) := by
  have hpre : previsit { marked_verts := 0, marked_edges := 0 } g =
      some ({ marked_verts := 0, marked_edges := 0 }, prepared g) := by
    unfold previsit
    simp [hc, prepared]
  refine ⟨_, hpre, ?_⟩
  have hw := tr_pass_white order
    (({ marked_verts := 0, marked_edges := 0 }, prepared g), false) (tr_prepared_white g)
  have hE := tr_pass_edges order (({ marked_verts := 0, marked_edges := 0 }, prepared g), false)
  have htp2 := tr_prepared_twinPaired g htp
  have hbp := tr_pass_blackPaired order
    (({ marked_verts := 0, marked_edges := 0 }, prepared g), false) htp2
    (fun e _ h => absurd (show GC_WHITE = GC_BLACK from h) (by decide))
  have hcol : ∀ i, (visitVertices visitor order
      (({ marked_verts := 0, marked_edges := 0 }, prepared g), false)).1.2.edgeColor i = GC_WHITE ∨
      (visitVertices visitor order
        (({ marked_verts := 0, marked_edges := 0 }, prepared g), false)).1.2.edgeColor i =
          GC_BLACK := by
    intro i
    rcases tr_pass_edgeColor order
      (({ marked_verts := 0, marked_edges := 0 }, prepared g), false) (tr_prepared_white g) i
      with h | ⟨h, -⟩
    · left
      exact h
    · right
      exact h
  refine ⟨hw, hcol, ?_, ?_⟩
  · intro e he t ht hid
    constructor
    · intro hb
      rw [hid]
      exact hbp e he hb
    · intro hb
      have he2 : e ∈ (prepared g).edges := by rw [← hE]; exact he
      have ht2 : t ∈ (prepared g).edges := by rw [← hE]; exact ht
      obtain ⟨t', ht', -, t2, t3⟩ := htp2.2 e he2
      have htt : t = t' := htp2.eq_of_id_eq ht2 ht' (hid.trans t2.symm)
      have := hbp t ht hb
      rw [htt, t3] at this
      exact this
  · have hchk : (((visitVertices visitor order
        (({ marked_verts := 0, marked_edges := 0 }, prepared g), false)).1.2.sweepEdges
          GC_BLACK).setTransitiveFlag false).checkColors GC_WHITE = true := by
      unfold StringGraph.checkColors
      rw [Bool.and_eq_true, List.all_eq_true, List.all_eq_true]
      constructor
      · intro v _
        rw [decide_eq_true_eq]
        exact hw v.id
      · intro e he
        rw [decide_eq_true_eq]
        have h1 : e ∈ List.filter _ _ := he
        have h2 := (List.mem_filter.1 h1).2
        rw [decide_eq_true_eq] at h2
        rcases hcol e.id with h | h
        · exact h
        · exact absurd h h2
    refine ⟨((visitVertices visitor order
        (({ marked_verts := 0, marked_edges := 0 }, prepared g), false)).1.1,
      ((visitVertices visitor order
        (({ marked_verts := 0, marked_edges := 0 }, prepared g), false)).1.2.sweepEdges
          GC_BLACK).setTransitiveFlag false), ?_, hchk, rfl⟩
    unfold postvisit
    simp only [hchk, if_true]

set_option maxRecDepth 100000 in
/-- C17, at the chain graph with the vertices visited in the order 2, 0, 1. -/
theorem transitive_reduction_colours_witness :
    chainGraph.hasContainment = false ∧ TwinPaired chainGraph ∧
    ∃ sg1, previsit { marked_verts := 0, marked_edges := 0 } chainGraph = some sg1 ∧
      (∀ x, (visitVertices visitor [2, 0, 1] (sg1, false)).1.2.vertexColor x = GC_WHITE) ∧
      (∀ i, (visitVertices visitor [2, 0, 1] (sg1, false)).1.2.edgeColor i = GC_WHITE ∨
        (visitVertices visitor [2, 0, 1] (sg1, false)).1.2.edgeColor i = GC_BLACK) ∧
      (∀ e ∈ (visitVertices visitor [2, 0, 1] (sg1, false)).1.2.edges,
        ∀ t ∈ (visitVertices visitor [2, 0, 1] (sg1, false)).1.2.edges, t.id = e.twin →
          ((visitVertices visitor [2, 0, 1] (sg1, false)).1.2.edgeColor e.id = GC_BLACK ↔
            (visitVertices visitor [2, 0, 1] (sg1, false)).1.2.edgeColor t.id = GC_BLACK)) ∧
      ∃ sg2, postvisit (visitVertices visitor [2, 0, 1] (sg1, false)).1.1
          (visitVertices visitor [2, 0, 1] (sg1, false)).1.2 = some sg2 ∧
        sg2.2.checkColors GC_WHITE = true ∧
        sg2.2.edges = (visitVertices visitor [2, 0, 1] (sg1, false)).1.2.edges.filter
          (fun e => decide ((visitVertices visitor [2, 0, 1] (sg1, false)).1.2.edgeColor e.id ≠
            GC_BLACK)) :=
  ⟨by decide, by decide, transitive_reduction_colours chainGraph [2, 0, 1] (by decide) (by decide)⟩

end SGTransitiveReductionVisitor

namespace SGBubbleVisitor

theorem bv_bubbleEnd_congr {g h : StringGraph} (hE : h.edges = g.edges) (e : Edge) :
    bubbleEnd h e = bubbleEnd g e := by
  unfold bubbleEnd
  rw [StringGraph.getEdges_congr hE]

theorem bv_markStep_eq (st : StringGraph × Bool) (e : Edge) :
    markStep st e =
      match bubbleEnd st.1 e with
      | some u =>
        if st.1.vertexColor u = GC_BLACK then (st.1.setVertexColor e.end_ GC_RED, true)
        else ((st.1.setVertexColor u GC_BLACK).setVertexColor e.end_ GC_BLUE, st.2)
      | none => st := by
  unfold markStep bubbleEnd
  generalize st.1.getEdges e.end_ e.getTwinDir.flip = l
  rcases l with _ | ⟨a, _ | ⟨b, l⟩⟩ <;> rfl

theorem bv_unmarkStep_eq (g : StringGraph) (e : Edge) :
    unmarkStep g e =
      match bubbleEnd g e with
      | some u =>
        if (g.setVertexColor u GC_WHITE).vertexColor e.end_ = GC_BLUE then
          (g.setVertexColor u GC_WHITE).setVertexColor e.end_ GC_WHITE
        else g.setVertexColor u GC_WHITE
      | none => if g.vertexColor e.end_ = GC_BLUE then g.setVertexColor e.end_ GC_WHITE else g := by
  unfold unmarkStep bubbleEnd
  generalize g.getEdges e.end_ e.getTwinDir.flip = l
  rcases l with _ | ⟨a, _ | ⟨b, l⟩⟩ <;> rfl

theorem bv_markStep_claimed (g0 : StringGraph) (T : List Edge) (st : StringGraph × Bool)
    (e : Edge) (he : e ∈ T) (hE : st.1.edges = g0.edges) (h : Claimed g0 T st.1) :
    Claimed g0 T (markStep st e).1 := by
  rw [bv_markStep_eq, bv_bubbleEnd_congr hE]
  cases hb : bubbleEnd g0 e with
  | none => exact h
  | some u =>
    simp only []
    by_cases hc : st.1.vertexColor u = GC_BLACK
    · rw [if_pos hc]
      intro x
      by_cases hx : x = e.end_
      · right; left
        simp [StringGraph.setVertexColor, hx]
      · have := h x
        simpa [StringGraph.setVertexColor, hx] using this
    · rw [if_neg hc]
      intro x
      by_cases hx : x = e.end_
      · right; right; right
        refine ⟨by simp [StringGraph.setVertexColor, hx], e, he, by simp [hb], hx.symm⟩
      · by_cases hxu : x = u
        · right; right; left
          subst hxu
          refine ⟨by simp [StringGraph.setVertexColor, hx], e, he, hb⟩
        · have := h x
          simpa [StringGraph.setVertexColor, hx, hxu] using this

theorem bv_mark_claimed (g0 : StringGraph) (T : List Edge) (es : List Edge)
    (st : StringGraph × Bool) (hes : ∀ e ∈ es, e ∈ T) (hE : st.1.edges = g0.edges)
    (h : Claimed g0 T st.1) : Claimed g0 T (es.foldl markStep st).1 := by
  induction es generalizing st with
  | nil => exact h
  | cons e es ih =>
    rw [List.foldl_cons]
    apply ih
    · intro f hf
      exact hes f (List.mem_cons_of_mem _ hf)
    · rw [bv_markStep_edges]
      exact hE
    · exact bv_markStep_claimed g0 T st e (hes e (List.mem_cons_self _ _)) hE h

theorem bv_unmarkStep_claimed (g0 : StringGraph) (e : Edge) (rest : List Edge) (g : StringGraph)
    (hE : g.edges = g0.edges) (h : Claimed g0 (e :: rest) g) :
    Claimed g0 rest (unmarkStep g e) := by
  rw [bv_unmarkStep_eq, bv_bubbleEnd_congr hE]
  intro x
  have hx := h x
  cases hb : bubbleEnd g0 e with
  | none =>
    simp only []
    by_cases hw : g.vertexColor e.end_ = GC_BLUE
    · rw [if_pos hw]
      by_cases hxe : x = e.end_
      · left
        simp [StringGraph.setVertexColor, hxe]
      · have hcol : (g.setVertexColor e.end_ GC_WHITE).vertexColor x = g.vertexColor x := by
          simp [StringGraph.setVertexColor, hxe]
        rw [hcol]
        rcases hx with h1 | h1 | ⟨h1, f, hf, hfb⟩ | ⟨h1, f, hf, hfs, hfe⟩
        · exact Or.inl h1
        · exact Or.inr (Or.inl h1)
        · rcases List.mem_cons.1 hf with rfl | hf
          · rw [hb] at hfb
            exact Option.noConfusion hfb
          · exact Or.inr (Or.inr (Or.inl ⟨h1, f, hf, hfb⟩))
        · rcases List.mem_cons.1 hf with rfl | hf
          · exact absurd hfe.symm hxe
          · exact Or.inr (Or.inr (Or.inr ⟨h1, f, hf, hfs, hfe⟩))
    · rw [if_neg hw]
      rcases hx with h1 | h1 | ⟨h1, f, hf, hfb⟩ | ⟨h1, f, hf, hfs, hfe⟩
      · exact Or.inl h1
      · exact Or.inr (Or.inl h1)
      · rcases List.mem_cons.1 hf with rfl | hf
        · rw [hb] at hfb
          exact Option.noConfusion hfb
        · exact Or.inr (Or.inr (Or.inl ⟨h1, f, hf, hfb⟩))
      · rcases List.mem_cons.1 hf with rfl | hf
        · rw [hb] at hfs
          exact Bool.noConfusion hfs
        · exact Or.inr (Or.inr (Or.inr ⟨h1, f, hf, hfs, hfe⟩))
  | some u =>
    simp only []
    have key : ∀ c : GraphColor,
        (if (g.setVertexColor u GC_WHITE).vertexColor e.end_ = GC_BLUE then
          (g.setVertexColor u GC_WHITE).setVertexColor e.end_ GC_WHITE
        else g.setVertexColor u GC_WHITE).vertexColor x = c →
        c = GC_WHITE ∨ (x ≠ u ∧ c = g.vertexColor x ∧ (x = e.end_ → c ≠ GC_BLUE)) := by
      intro c hc
      by_cases hxu : x = u
      · left
        rw [← hc]
        split_ifs <;> simp [StringGraph.setVertexColor, hxu]
      · by_cases hxe : x = e.end_
        · by_cases hw : (g.setVertexColor u GC_WHITE).vertexColor e.end_ = GC_BLUE
          · left
            rw [← hc, if_pos hw]
            simp [StringGraph.setVertexColor, hxe]
          · right
            rw [if_neg hw] at hc
            refine ⟨hxu, ?_, ?_⟩
            · rw [← hc]
              simp [StringGraph.setVertexColor, hxu]
            · intro _ hcb
              apply hw
              rw [← hxe, hc, hcb]
        · right
          refine ⟨hxu, ?_, fun h => absurd h hxe⟩
          rw [← hc]
          split_ifs <;> simp [StringGraph.setVertexColor, hxu, hxe]
    rcases key _ rfl with hk | ⟨hxu, hk, hblue⟩
    · exact Or.inl hk
    · rw [hk]
      rcases hx with h1 | h1 | ⟨h1, f, hf, hfb⟩ | ⟨h1, f, hf, hfs, hfe⟩
      · exact Or.inl h1
      · exact Or.inr (Or.inl h1)
      · rcases List.mem_cons.1 hf with rfl | hf
        · rw [hb] at hfb
          exact absurd (Option.some.inj hfb).symm hxu
        · exact Or.inr (Or.inr (Or.inl ⟨h1, f, hf, hfb⟩))
      · rcases List.mem_cons.1 hf with rfl | hf
        · exact absurd (hk ▸ h1) (hblue hfe.symm)
        · exact Or.inr (Or.inr (Or.inr ⟨h1, f, hf, hfs, hfe⟩))

theorem bv_unmark_clean (g0 : StringGraph) (es : List Edge) (g : StringGraph)
    (hE : g.edges = g0.edges) (h : Claimed g0 es g) : Clean (es.foldl unmarkStep g) := by
  induction es generalizing g with
  | nil =>
    intro x
    rcases h x with h1 | h1 | ⟨-, f, hf, -⟩ | ⟨-, f, hf, -⟩
    · exact Or.inl h1
    · exact Or.inr h1
    · exact absurd hf (List.not_mem_nil _)
    · exact absurd hf (List.not_mem_nil _)
  | cons e es ih =>
    rw [List.foldl_cons]
    apply ih
    · rw [bv_unmarkStep_edges]
      exact hE
    · exact bv_unmarkStep_claimed g0 e es g hE h

theorem bv_clean_claimed (g0 : StringGraph) (T : List Edge) (g : StringGraph) (h : Clean g) :
    Claimed g0 T g := by
  intro x
  rcases h x with h1 | h1
  · exact Or.inl h1
  · exact Or.inr (Or.inl h1)

/-- The loop over the directions keeps every vertex WHITE or RED, on the
normal path and on the path of the early return. -/
theorem bv_visitDirs_clean (v : VertexID) (ds : List EdgeDir) (st : VisitState)
    (h : Clean st.graph) : Clean (visitDirs v ds st).1.graph := by
  induction ds generalizing st with
  | nil => exact h
  | cons d ds ih =>
    unfold visitDirs
    simp only []
    by_cases h1 : (st.graph.getEdges v d).length > 1
    · by_cases h2 : checkAbort st.graph (st.graph.getEdges v d) = true
      · simp only [h1, h2, if_true]
        exact h
      · simp only [h1, h2, if_true, if_false, Bool.false_eq_true]
        apply ih
        show Clean (List.foldl unmarkStep _ _)
        apply bv_unmark_clean st.graph
        · rw [bv_mark_edges]
        · exact bv_mark_claimed st.graph _ _ _ (fun _ he => he) rfl
            (bv_clean_claimed _ _ _ h)
    · simp only [h1, if_false]
      exact ih st h

theorem bv_visit_clean (s : SGBubbleVisitor) (g : StringGraph) (v : VertexID) (h : Clean g) :
    Clean (visit s g v).1.2 :=
  bv_visitDirs_clean v EDGE_DIRECTIONS _ h

theorem bv_markStep_frame (st : StringGraph × Bool) (e : Edge) :
    (markStep st e).1.vertices = st.1.vertices ∧ (markStep st e).1.edgeColor = st.1.edgeColor := by
  rw [bv_markStep_eq]
  cases bubbleEnd st.1 e with
  | none => exact ⟨rfl, rfl⟩
  | some u =>
    simp only []
    split_ifs <;> exact ⟨rfl, rfl⟩

theorem bv_unmarkStep_frame (g : StringGraph) (e : Edge) :
    (unmarkStep g e).vertices = g.vertices ∧ (unmarkStep g e).edgeColor = g.edgeColor := by
  rw [bv_unmarkStep_eq]
  cases bubbleEnd g e with
  | none =>
    simp only []
    split_ifs <;> exact ⟨rfl, rfl⟩
  | some u =>
    simp only []
    split_ifs <;> exact ⟨rfl, rfl⟩

theorem bv_mark_frame (es : List Edge) (st : StringGraph × Bool) :
    (es.foldl markStep st).1.vertices = st.1.vertices ∧
      (es.foldl markStep st).1.edgeColor = st.1.edgeColor := by
  induction es generalizing st with
  | nil => exact ⟨rfl, rfl⟩
  | cons e es ih =>
    rw [List.foldl_cons, (ih _).1, (ih _).2]
    exact bv_markStep_frame st e

theorem bv_unmark_frame (es : List Edge) (g : StringGraph) :
    (es.foldl unmarkStep g).vertices = g.vertices ∧
      (es.foldl unmarkStep g).edgeColor = g.edgeColor := by
  induction es generalizing g with
  | nil => exact ⟨rfl, rfl⟩
  | cons e es ih =>
    rw [List.foldl_cons, (ih _).1, (ih _).2]
    exact bv_unmarkStep_frame g e

theorem bv_visitDirs_frame (v : VertexID) (ds : List EdgeDir) (st : VisitState) :
    (visitDirs v ds st).1.graph.vertices = st.graph.vertices ∧
      (visitDirs v ds st).1.graph.edgeColor = st.graph.edgeColor := by
  induction ds generalizing st with
  | nil => exact ⟨rfl, rfl⟩
  | cons d ds ih =>
    unfold visitDirs
    simp only []
    by_cases h1 : (st.graph.getEdges v d).length > 1
    · by_cases h2 : checkAbort st.graph (st.graph.getEdges v d) = true
      · rw [if_pos h1, if_pos h2]
        exact ⟨rfl, rfl⟩
      · simp only [h1, h2, if_true, if_false, Bool.false_eq_true]
        rw [(ih _).1, (ih _).2]
        show (List.foldl unmarkStep _ _).vertices = _ ∧ (List.foldl unmarkStep _ _).edgeColor = _
        rw [(bv_unmark_frame _ _).1, (bv_unmark_frame _ _).2]
        exact bv_mark_frame _ _
    · simp only [h1, if_false]
      exact ih st

theorem bv_visit_frame (s : SGBubbleVisitor) (g : StringGraph) (v : VertexID) :
    (visit s g v).1.2.vertices = g.vertices ∧ (visit s g v).1.2.edgeColor = g.edgeColor :=
  bv_visitDirs_frame v EDGE_DIRECTIONS _

/-- The visits of a pass keep every vertex WHITE or RED and leave the vertex
table, the edges and the colours of the edges alone. -/
theorem bv_pass_clean (order : List VertexID) (acc : (SGBubbleVisitor × StringGraph) × Bool)
    (h : Clean acc.1.2) :
    Clean (visitVertices visitor order acc).1.2 ∧
      (visitVertices visitor order acc).1.2.vertices = acc.1.2.vertices ∧
      (visitVertices visitor order acc).1.2.edges = acc.1.2.edges ∧
      (visitVertices visitor order acc).1.2.edgeColor = acc.1.2.edgeColor := by
  induction order generalizing acc with
  | nil => exact ⟨h, rfl, rfl, rfl⟩
  | cons v order ih =>
    rw [bv_visitVertices_cons]
    obtain ⟨h1, h2, h3, h4⟩ := ih ((visit acc.1.1 acc.1.2 v).1, (visit acc.1.1 acc.1.2 v).2 || acc.2)
      (bv_visit_clean _ _ _ h)
    refine ⟨h1, ?_, ?_, ?_⟩
    · rw [h2]
      exact (bv_visit_frame _ _ _).1
    · rw [h3]
      exact bv_visit_edges _ _ _
    · rw [h4]
      exact (bv_visit_frame _ _ _).2

/-- C18: the colour assertion of SGBubbleVisitor::postvisit never fails.  If
every vertex is WHITE or RED when SGBubbleVisitor::visit is called, every
vertex is WHITE or RED when it returns, on the normal path and on the path of
the early return; so a full pass, in any visiting order, passes the assertion
of postvisit: after sweepVertices(RED) every remaining vertex and every edge
is WHITE. -/
theorem bubble_colours (s : SGBubbleVisitor) (g : StringGraph) (v : VertexID)
    (order : List VertexID) (hclean : Clean g) :
    Clean (visit s g v).1.2 ∧
    ∃ g2, runInOrder order g = some g2 ∧ g2.checkColors GC_WHITE = true ∧
      (∀ u ∈ g2.vertices, g2.vertexColor u.id = GC_WHITE) ∧
      g2.vertices = g.vertices.filter
        (fun u => decide ((visitVertices visitor order
          (({ num_bubbles := 0 }, g.setColors GC_WHITE), false)).1.2.vertexColor u.id ≠ GC_RED)) := by
  refine ⟨bv_visit_clean s g v hclean, ?_⟩
  obtain ⟨hc, hV, hE, hEC⟩ := bv_pass_clean order
    (({ num_bubbles := 0 }, g.setColors GC_WHITE), false) (fun _ => Or.inl rfl)
  have hvert : ∀ u ∈ ((visitVertices visitor order
      (({ num_bubbles := 0 }, g.setColors GC_WHITE), false)).1.2.sweepVertices GC_RED).vertices,
      (visitVertices visitor order
        (({ num_bubbles := 0 }, g.setColors GC_WHITE), false)).1.2.vertexColor u.id = GC_WHITE := by
    intro u hu
    have h1 : u ∈ List.filter _ _ := hu
    have h2 := (List.mem_filter.1 h1).2
    rw [decide_eq_true_eq] at h2
    rcases hc u.id with h | h
    · exact h
    · exact absurd h h2
  have hchk : ((visitVertices visitor order
      (({ num_bubbles := 0 }, g.setColors GC_WHITE), false)).1.2.sweepVertices
        GC_RED).checkColors GC_WHITE = true := by
    unfold StringGraph.checkColors
    rw [Bool.and_eq_true, List.all_eq_true, List.all_eq_true]
    constructor
    · intro u hu
      rw [decide_eq_true_eq]
      exact hvert u hu
    · intro e _
      rw [decide_eq_true_eq]
      show (visitVertices visitor order
        (({ num_bubbles := 0 }, g.setColors GC_WHITE), false)).1.2.edgeColor e.id = GC_WHITE
      rw [hEC]
      rfl
  refine ⟨(visitVertices visitor order
      (({ num_bubbles := 0 }, g.setColors GC_WHITE), false)).1.2.sweepVertices GC_RED,
    ?_, hchk, hvert, ?_⟩
  · have hpre : visitor.previsit { num_bubbles := 0 } g =
        some ({ num_bubbles := 0 }, g.setColors GC_WHITE) := rfl
    have hpost : visitor.postvisit
        (visitVertices visitor order
          (({ num_bubbles := 0 }, g.setColors GC_WHITE), false)).1.1
        (visitVertices visitor order
          (({ num_bubbles := 0 }, g.setColors GC_WHITE), false)).1.2 =
        some ((visitVertices visitor order
          (({ num_bubbles := 0 }, g.setColors GC_WHITE), false)).1.1,
          (visitVertices visitor order
            (({ num_bubbles := 0 }, g.setColors GC_WHITE), false)).1.2.sweepVertices GC_RED) := by
      show postvisit _ _ = _
      unfold postvisit
      simp only [hchk, if_true]
    unfold runInOrder StringGraph.visitInOrder
    rw [hpre]
    simp only []
    rw [hpost]
    rfl
  · show List.filter _ _ = _
    rw [hV]
    rfl

set_option maxRecDepth 100000 in
/-- C18, at the di-bubble visited in the order 3, 0, 2, 1. -/
theorem bubble_colours_witness :
    Clean (bubbleGraph ED_SENSE EC_SAME EC_SAME EC_SAME EC_SAME false false) ∧
    Clean (visit { num_bubbles := 0 }
      (bubbleGraph ED_SENSE EC_SAME EC_SAME EC_SAME EC_SAME false false) 0).1.2 ∧
    ∃ g2, runInOrder [3, 0, 2, 1]
        (bubbleGraph ED_SENSE EC_SAME EC_SAME EC_SAME EC_SAME false false) = some g2 ∧
      g2.checkColors GC_WHITE = true ∧
      (∀ u ∈ g2.vertices, g2.vertexColor u.id = GC_WHITE) ∧
      g2.vertices =
        (bubbleGraph ED_SENSE EC_SAME EC_SAME EC_SAME EC_SAME false false).vertices.filter
          (fun u => decide ((visitVertices visitor [3, 0, 2, 1]
            (({ num_bubbles := 0 },
              (bubbleGraph ED_SENSE EC_SAME EC_SAME EC_SAME EC_SAME false false).setColors
                GC_WHITE), false)).1.2.vertexColor u.id ≠ GC_RED)) :=
  ⟨fun _ => Or.inl rfl,
    bubble_colours { num_bubbles := 0 }
      (bubbleGraph ED_SENSE EC_SAME EC_SAME EC_SAME EC_SAME false false) 0 [3, 0, 2, 1]
      (fun _ => Or.inl rfl)⟩

theorem Popped.symm {h : StringGraph} {A B : VertexID} (hp : Popped h A B) : Popped h B A := by
  rcases hp with ⟨h1, h2⟩ | ⟨h1, h2⟩
  · exact Or.inr ⟨h2, h1⟩
  · exact Or.inl ⟨h2, h1⟩

theorem Hub.congr {g h : StringGraph} (hE : h.edges = g.edges) {H U W1 W2 : VertexID}
    (hub : Hub g H U W1 W2) : Hub h H U W1 W2 := by
  obtain ⟨dd, e1, e2, h1, h2, h3, h4, h5, h6⟩ := hub
  refine ⟨dd, e1, e2, ?_, ?_, h3, h4, ?_, ?_⟩
  · rw [StringGraph.getEdges_congr hE]
    exact h1
  · rw [StringGraph.getEdges_congr hE]
    exact h2
  · rw [bv_bubbleEnd_congr hE]
    exact h5
  · rw [bv_bubbleEnd_congr hE]
    exact h6

end SGBubbleVisitor

namespace SGBubbleEdgeVisitor

theorem be_bfsPops_length (alg : OverlapAlgebra) (g : StringGraph) (n : Nat)
    (queue : List ExploreElement) : (bfsPops alg g n queue).length ≤ n := by
  induction n generalizing queue with
  | zero => simp [bfsPops]
  | succ n ih =>
    cases queue with
    | nil => simp [bfsPops]
    | cons ee queue =>
      simp only [bfsPops, List.length_cons]
      exact Nat.succ_le_succ (ih _)

/-- The exploration loop leaves the target list empty exactly when every
target vertex is the vertex of a popped element. -/
theorem be_explore_eq_nil (alg : OverlapAlgebra) (g : StringGraph) (n : Nat)
    (queue : List ExploreElement) (targetList : List VertexID) :
    explore alg g n queue targetList = [] ↔
      ∀ t ∈ targetList, ∃ p ∈ bfsPops alg g n queue, p.ed.pVertex = t := by
  induction n generalizing queue targetList with
  | zero =>
    simp only [explore, bfsPops, List.not_mem_nil, false_and, exists_false]
    exact List.eq_nil_iff_forall_not_mem
  | succ n ih =>
    cases queue with
    | nil =>
      simp only [explore, bfsPops, List.not_mem_nil, false_and, exists_false]
      exact List.eq_nil_iff_forall_not_mem
    | cons ee queue =>
      simp only [explore, bfsPops]
      by_cases hempty : (eraseTarget ee.ed.pVertex targetList).isEmpty = true
      · rw [if_pos hempty]
        have hnil : eraseTarget ee.ed.pVertex targetList = [] := List.isEmpty_iff.1 hempty
        constructor
        · intro _ t ht
          refine ⟨ee, List.mem_cons_self _ _, ?_⟩
          by_contra hne
          have : t ∈ eraseTarget ee.ed.pVertex targetList := by
            unfold eraseTarget
            exact List.mem_filter.2 ⟨ht, decide_eq_true (fun h => hne h.symm)⟩
          rw [hnil] at this
          exact absurd this (List.not_mem_nil _)
        · intro _
          exact hnil
      · rw [if_neg hempty, ih]
        constructor
        · intro h t ht
          by_cases hv : t = ee.ed.pVertex
          · exact ⟨ee, List.mem_cons_self _ _, hv.symm⟩
          · have hmem : t ∈ eraseTarget ee.ed.pVertex targetList := by
              unfold eraseTarget
              exact List.mem_filter.2 ⟨ht, decide_eq_true hv⟩
            obtain ⟨p, hp, hpt⟩ := h t hmem
            exact ⟨p, List.mem_cons_of_mem _ hp, hpt⟩
        · intro h t ht
          unfold eraseTarget at ht
          obtain ⟨ht1, ht2⟩ := List.mem_filter.1 ht
          rw [decide_eq_true_eq] at ht2
          obtain ⟨p, hp, hpt⟩ := h t ht1
          rcases List.mem_cons.1 hp with rfl | hp
          · exact absurd hpt.symm ht2
          · exact ⟨p, hp, hpt⟩

/-- The part of the loop body after the choice of `pXY` and `pXZ`. -/
theorem be_collapse_eq (alg : OverlapAlgebra) (st : VisitState) (pXY pXZ : Edge) :
    collapse alg st pXY pXZ =
      if TargetsReached alg st.graph pXY pXZ then
        if pXZ ∈ (st.graph.deleteEdges pXZ.end_).edges then
          some { graph := (st.graph.deleteEdges pXZ.end_).setVertexColor pXZ.end_ GC_RED,
                 num_bubbles := st.num_bubbles + 1,
                 bubble_found := true }
        else none
      else some st := by
  unfold collapse TargetsReached
  simp only [List.isEmpty_iff, be_explore_eq_nil]

theorem be_deleteEdges_edges (g : StringGraph) (v : VertexID) :
    (g.deleteEdges v).edges =
      g.edges.filter (SGContainRemoveVisitor.survives v (g.getAllEdges v)) :=
  SGContainRemoveVisitor.cr_deleteAll_edges v (g.getAllEdges v) g

theorem be_deleteEdges_none (g : StringGraph) (v : VertexID) :
    (g.deleteEdges v).getAllEdges v = [] := by
  rw [List.eq_nil_iff_forall_not_mem]
  intro x hx
  obtain ⟨hx1, hx2⟩ := StringGraph.mem_getAllEdges.1 hx
  rw [be_deleteEdges_edges] at hx1
  obtain ⟨hx3, hx4⟩ := List.mem_filter.1 hx1
  unfold SGContainRemoveVisitor.survives at hx4
  rw [List.all_eq_true] at hx4
  have := hx4 x (StringGraph.mem_getAllEdges.2 ⟨hx3, hx2⟩)
  simp [hx2] at this

/-- In a twin-consistent graph, `deleteEdges` on the end vertex of an edge
destroys the edge, as the twin of an edge of that vertex. -/
theorem be_deleteEdges_destroys {g : StringGraph} (htc : TwinConsistent g) (e : Edge)
    (he : e ∈ g.edges) : e ∉ (g.deleteEdges e.end_).edges := by
  intro hmem
  rw [be_deleteEdges_edges] at hmem
  obtain ⟨-, hs⟩ := List.mem_filter.1 hmem
  obtain ⟨t, ht, h1, h2, h3, h4, -, -⟩ := htc.2 e he
  unfold SGContainRemoveVisitor.survives at hs
  rw [List.all_eq_true] at hs
  have := hs t (StringGraph.mem_getAllEdges.2 ⟨ht, h3⟩)
  simp [h4, h2] at this

/-- In a twin-consistent graph the loop body has no defined result whenever it
finds a bubble: it reads the edge `pXZ` after `deleteEdges` has destroyed
it. -/
theorem be_collapse_undefined (alg : OverlapAlgebra) (st : VisitState) (pXY pXZ : Edge)
    (htc : TwinConsistent st.graph) (hXZ : pXZ ∈ st.graph.edges)
    (hreach : TargetsReached alg st.graph pXY pXZ) : collapse alg st pXY pXZ = none := by
  rw [be_collapse_eq, if_pos hreach, if_neg (be_deleteEdges_destroys htc pXZ hXZ)]

set_option maxRecDepth 100000 in
/-- C20, evaluated at the bubble of the vertex X = 0 of `bubbleEdgeGraph`, a
twin-consistent graph.  The SENSE list of X holds the edges XY (overlap 60,
Y = 1) and XZ (overlap 50, Z = 2); the vertex 3, the only downstream neighbour
of Z, is popped by the exploration from Y, so the bubble-found branch is
taken.  The call of deleteEdges on Z destroys the two edges of Z with their
twins, among them XZ itself; the next statement reads XZ, so that the loop
body and the visit of X have no defined result. -/
theorem bubble_edge_reads_destroyed_edge :
    TwinConsistent bubbleEdgeGraph ∧
    bubbleEdgeGraph.getEdges 0 ED_SENSE =
      [edgeHalf 0 0 1 ED_SENSE EC_SAME 40 60, edgeHalf 1 0 2 ED_SENSE EC_SAME 50 50] ∧
    TargetsReached exampleAlgebra bubbleEdgeGraph (edgeHalf 0 0 1 ED_SENSE EC_SAME 40 60)
      (edgeHalf 1 0 2 ED_SENSE EC_SAME 50 50) ∧
    edgeHalf 1 0 2 ED_SENSE EC_SAME 50 50 ∈ bubbleEdgeGraph.edges ∧
    (bubbleEdgeGraph.deleteEdges 2).edges =
      edgePair 0 0 1 ED_SENSE EC_SAME 40 40 60 ++ edgePair 2 1 3 ED_SENSE EC_SAME 40 40 60 ∧
    edgeHalf 1 0 2 ED_SENSE EC_SAME 50 50 ∉ (bubbleEdgeGraph.deleteEdges 2).edges ∧
    (collapse exampleAlgebra { graph := bubbleEdgeGraph, num_bubbles := 0, bubble_found := false }
      (edgeHalf 0 0 1 ED_SENSE EC_SAME 40 60) (edgeHalf 1 0 2 ED_SENSE EC_SAME 50 50)).isNone =
        true ∧
    (visit exampleAlgebra { num_bubbles := 0 } bubbleEdgeGraph 0).isNone = true := by
  refine ⟨by decide, by decide, by decide, by decide, by decide, by decide, by decide, by decide⟩

end SGBubbleEdgeVisitor

namespace SGRemodelVisitor

theorem rm_createLoop_calls (alg : RemodelAlgebra) (remaining : EdgeDescOverlapMap)
    (sg : SGRemodelVisitor × StringGraph) :
    (createLoop alg remaining sg).1.calls = sg.1.calls ++ remaining.map (fun kv => kv.2) := by
  induction remaining generalizing sg with
  | nil => simp [createLoop]
  | cons kv remaining ih =>
    simp only [createLoop, List.foldl_cons] at ih ⊢
    rw [ih]
    simp

end SGRemodelVisitor

namespace SGSmallRepeatResolveVisitor

end SGSmallRepeatResolveVisitor

namespace SGBubbleVisitor

end SGBubbleVisitor

namespace SGBubbleEdgeVisitor

end SGBubbleEdgeVisitor

namespace SGBubbleEdgeVisitor

theorem be_exploreTrace_explore (alg : OverlapAlgebra) (g : StringGraph) (n : Nat)
    (queue : List ExploreElement) (targetList : List VertexID) :
    (exploreTrace alg g n queue targetList).1 = explore alg g n queue targetList := by
  induction n generalizing queue targetList with
  | zero => rfl
  | succ n ih =>
    cases queue with
    | nil => rfl
    | cons ee queue =>
      simp only [exploreTrace, explore]
      split_ifs
      · rfl
      · exact ih _ _

theorem be_exploreTrace_length (alg : OverlapAlgebra) (g : StringGraph) (n : Nat)
    (queue : List ExploreElement) (targetList : List VertexID) :
    (exploreTrace alg g n queue targetList).2.1.length ≤ n := by
  induction n generalizing queue targetList with
  | zero => simp [exploreTrace]
  | succ n ih =>
    cases queue with
    | nil => simp [exploreTrace]
    | cons ee queue =>
      simp only [exploreTrace]
      split_ifs
      · simp
      · simp only [List.length_cons]
        exact Nat.succ_le_succ (ih _ _)

theorem be_exploreTrace_prefix (alg : OverlapAlgebra) (g : StringGraph) (n : Nat)
    (queue : List ExploreElement) (targetList : List VertexID) :
    (exploreTrace alg g n queue targetList).2.1 <+: bfsPops alg g n queue := by
  induction n generalizing queue targetList with
  | zero => simp [exploreTrace, bfsPops]
  | succ n ih =>
    cases queue with
    | nil => simp [exploreTrace, bfsPops]
    | cons ee queue =>
      simp only [exploreTrace, bfsPops]
      split_ifs
      · exact List.prefix_cons_inj ee |>.2 (List.nil_prefix)
      · exact (List.prefix_cons_inj ee).2 (ih _ _)

/-- The loop body for a direction with the two edges `pXY` and `pXZ`, the
first with the longer overlap. -/
theorem be_visitDirs_two (alg : OverlapAlgebra) (st : VisitState) (x : VertexID)
    (dir : EdgeDir) (rest : List EdgeDir) (pXY pXZ : Edge)
    (hedges : st.graph.getEdges x dir = [pXY, pXZ] ∨ st.graph.getEdges x dir = [pXZ, pXY])
    (hlen : pXY.overlap.overlapLength > pXZ.overlap.overlapLength) :
    visitDirs alg x (dir :: rest) st =
      (collapse alg st pXY pXZ).bind (visitDirs alg x rest) := by
  have hnot : ¬ pXZ.overlap.overlapLength > pXY.overlap.overlapLength := Nat.lt_asymm hlen
  rcases hedges with h | h
  · simp only [visitDirs, h, hlen, if_true]
    cases collapse alg st pXY pXZ <;> rfl
  · simp only [visitDirs, h, hnot, hlen, if_true, if_false]
    cases collapse alg st pXY pXZ <;> rfl

/-- When the end of `pXZ` has no edge in the onward direction, the target list
is empty and the loop body takes the bubble-found branch. -/
theorem be_targets_none (alg : OverlapAlgebra) (g : StringGraph) (pXY pXZ : Edge)
    (hnone : g.getEdges pXZ.end_ pXZ.getTransitiveDir = []) : TargetsReached alg g pXY pXZ := by
  unfold TargetsReached
  rw [hnone]
  intro t ht
  exact absurd ht (List.not_mem_nil _)

/-- C21: the exploration loop of SGBubbleEdgeVisitor::visit pops at most as
many queue elements as its step budget allows, whatever the graph and the
queue are, and the loop body of a direction runs it once with the budget 100;
the popped elements are an initial part of the breadth-first order.  The loop
returns on every input: it is defined by recursion on the budget. -/
theorem bubble_edge_pops_bounded (alg : OverlapAlgebra) (st : VisitState) (pXY pXZ : Edge)
    (numSteps : Nat) (queue : List ExploreElement) (targetList : List VertexID) :
    (exploreTrace alg st.graph numSteps queue targetList).2.1.length ≤ numSteps ∧
    (exploreTrace alg st.graph numSteps queue targetList).2.1 <+:
      bfsPops alg st.graph numSteps queue ∧
    (exploreTrace alg st.graph numSteps queue targetList).1 =
      explore alg st.graph numSteps queue targetList ∧
    (exploreTrace alg st.graph 100 [{ ed := pXY.getDesc, ovr := pXY.overlap }]
      ((st.graph.getEdges pXZ.end_ pXZ.getTransitiveDir).map (fun e => e.end_))).2.1.length ≤
        100 ∧
    collapse alg st pXY pXZ =
      if (exploreTrace alg st.graph 100 [{ ed := pXY.getDesc, ovr := pXY.overlap }]
        ((st.graph.getEdges pXZ.end_ pXZ.getTransitiveDir).map (fun e => e.end_))).1.isEmpty =
          true then
        if pXZ ∈ (st.graph.deleteEdges pXZ.end_).edges then
          some { graph := (st.graph.deleteEdges pXZ.end_).setVertexColor pXZ.end_ GC_RED,
                 num_bubbles := st.num_bubbles + 1,
                 bubble_found := true }
        else none
      else some st := by
  refine ⟨be_exploreTrace_length _ _ _ _ _, be_exploreTrace_prefix _ _ _ _ _,
    be_exploreTrace_explore _ _ _ _ _, be_exploreTrace_length _ _ _ _ _, ?_⟩
  rw [be_exploreTrace_explore]
  rfl

set_option maxRecDepth 1000000 in
/-- C21, at the graph with a cycle: the exploration from Y = 1 goes round the
cycle, pops 100 elements and is left with a queue that is not empty; the
visit of the vertex 0 returns false and deletes no edge. -/
theorem bubble_edge_pops_bounded_witness :
    (exploreTrace exampleAlgebra cycleGraph 100
      [{ ed := (edgeHalf 0 0 1 ED_SENSE EC_SAME 40 60).getDesc,
         ovr := (edgeHalf 0 0 1 ED_SENSE EC_SAME 40 60).overlap }] [4]).2.1.length = 100 ∧
    (exploreTrace exampleAlgebra cycleGraph 100
      [{ ed := (edgeHalf 0 0 1 ED_SENSE EC_SAME 40 60).getDesc,
         ovr := (edgeHalf 0 0 1 ED_SENSE EC_SAME 40 60).overlap }] [4]).2.2 ≠ [] ∧
    (visit exampleAlgebra { num_bubbles := 0 } cycleGraph 0).map
      (fun r => (r.2, r.1.2.edges)) = some (false, cycleGraph.edges) ∧
    (exploreTrace exampleAlgebra cycleGraph 100
      [{ ed := (edgeHalf 0 0 1 ED_SENSE EC_SAME 40 60).getDesc,
         ovr := (edgeHalf 0 0 1 ED_SENSE EC_SAME 40 60).overlap }] [4]).2.1.length ≤ 100 :=
  ⟨by decide, by decide, by decide,
    (bubble_edge_pops_bounded exampleAlgebra
      { graph := cycleGraph, num_bubbles := 0, bubble_found := false }
      (edgeHalf 0 0 1 ED_SENSE EC_SAME 40 60) (edgeHalf 1 0 2 ED_SENSE EC_SAME 50 50) 100
      [{ ed := (edgeHalf 0 0 1 ED_SENSE EC_SAME 40 60).getDesc,
         ovr := (edgeHalf 0 0 1 ED_SENSE EC_SAME 40 60).overlap }] [4]).1⟩

set_option maxRecDepth 100000 in
/-- C28, evaluated at the vertex X = 0 of `tipBranchGraph`, a twin-consistent
graph.  The SENSE list of X holds the edges XY (overlap 60, Y = 1) and XZ
(overlap 50, Z = 2), and Z has no edge in the onward direction: the target
list is empty from the start and the bubble-found branch is taken.  The call
of deleteEdges on Z destroys the only edge of Z with its twin, which is XZ;
the next statement reads XZ, so that the loop body and the visit of X have no
defined result. -/
theorem bubble_edge_empty_target_reads_destroyed_edge :
    TwinConsistent tipBranchGraph ∧
    tipBranchGraph.getEdges 0 ED_SENSE =
      [edgeHalf 0 0 1 ED_SENSE EC_SAME 40 60, edgeHalf 1 0 2 ED_SENSE EC_SAME 50 50] ∧
    tipBranchGraph.getEdges 2 (edgeHalf 1 0 2 ED_SENSE EC_SAME 50 50).getTransitiveDir = [] ∧
    explore exampleAlgebra tipBranchGraph 100
      [{ ed := (edgeHalf 0 0 1 ED_SENSE EC_SAME 40 60).getDesc,
         ovr := (edgeHalf 0 0 1 ED_SENSE EC_SAME 40 60).overlap }] [] = [] ∧
    tipBranchGraph.getAllEdges 2 = [edgeTwin 1 0 2 ED_SENSE EC_SAME 50 50] ∧
    (tipBranchGraph.deleteEdges 2).edges =
      edgePair 0 0 1 ED_SENSE EC_SAME 40 40 60 ++ edgePair 2 1 3 ED_SENSE EC_SAME 40 40 60 ∧
    edgeHalf 1 0 2 ED_SENSE EC_SAME 50 50 ∉ (tipBranchGraph.deleteEdges 2).edges ∧
    (collapse exampleAlgebra { graph := tipBranchGraph, num_bubbles := 0, bubble_found := false }
      (edgeHalf 0 0 1 ED_SENSE EC_SAME 40 60) (edgeHalf 1 0 2 ED_SENSE EC_SAME 50 50)).isNone =
        true ∧
    (visit exampleAlgebra { num_bubbles := 0 } tipBranchGraph 0).isNone = true := by
  refine ⟨by decide, by decide, by decide, by decide, by decide, by decide, by decide,
    by decide, by decide⟩

/-- C29: in SGBubbleEdgeVisitor::visit, if X has exactly two edges in the SENSE
direction and their overlap lengths are equal, the call returns false and
leaves the visitor and the graph as they were, whatever the edges of X in the
ANTISENSE direction are. -/
theorem bubble_edge_equal_break (alg : OverlapAlgebra) (s : SGBubbleEdgeVisitor)
    (g : StringGraph) (x : VertexID) (e0 e1 : Edge)
    (hedges : g.getEdges x ED_SENSE = [e0, e1])
    (heq : e0.overlap.overlapLength = e1.overlap.overlapLength) :
    visit alg s g x = some ((s, g), false) := by
  have h0 : ¬ e0.overlap.overlapLength > e1.overlap.overlapLength := by
    rw [heq]
    exact Nat.lt_irrefl _
  have h1 : ¬ e1.overlap.overlapLength > e0.overlap.overlapLength := by
    rw [heq]
    exact Nat.lt_irrefl _
  unfold visit
  simp only [EDGE_DIRECTIONS, visitDirs, hedges, h0, h1, if_false]

set_option maxRecDepth 100000 in
/-- C29, at the graph in which the vertex 0 has two SENSE edges of equal
overlap and a bubble in the ANTISENSE direction, where the exploration from
the edge with the longer overlap reaches every downstream neighbour of the end
of the other edge: the visit of the vertex 0 returns false and leaves the graph
as it was. -/
theorem bubble_edge_equal_break_witness :
    equalOverlapGraph.getEdges 0 ED_ANTISENSE =
      [edgeHalf 2 0 1 ED_ANTISENSE EC_SAME 40 60, edgeHalf 3 0 2 ED_ANTISENSE EC_SAME 50 50] ∧
    TargetsReached exampleAlgebraAnti equalOverlapGraph
      (edgeHalf 2 0 1 ED_ANTISENSE EC_SAME 40 60) (edgeHalf 3 0 2 ED_ANTISENSE EC_SAME 50 50) ∧
    visit exampleAlgebraAnti { num_bubbles := 0 } equalOverlapGraph 0 =
      some (({ num_bubbles := 0 }, equalOverlapGraph), false) :=
  ⟨by decide, by decide,
    bubble_edge_equal_break exampleAlgebraAnti { num_bubbles := 0 } equalOverlapGraph 0
      (edgeHalf 0 0 5 ED_SENSE EC_SAME 40 60) (edgeHalf 1 0 6 ED_SENSE EC_SAME 40 60)
      (by decide) (by decide)⟩

end SGBubbleEdgeVisitor

namespace SGBreakWriteVisitor

/-- The value of the function in terms of the last two edges of the list. -/
theorem bw_calc_eq (g : StringGraph) (v : VertexID) (dir : EdgeDir) (init : List Edge)
    (e2 e1 : Edge) (h : g.getEdges v dir = init ++ [e2, e1]) :
    calculateOverlapLengthDifference g v dir =
      (e2.overlap.overlapLength : Int) - (e1.overlap.overlapLength : Int) := by
  unfold calculateOverlapLengthDifference
  simp only [h]
  have hlen : (init ++ [e2, e1]).length = init.length + 2 := by simp
  have h1 : (init ++ [e2, e1])[(init ++ [e2, e1]).length - 1]? = some e1 := by
    rw [hlen, List.getElem?_append_right (by omega)]
    have : init.length + 2 - 1 - init.length = 1 := by omega
    rw [this]
    rfl
  have h2 : (init ++ [e2, e1])[(init ++ [e2, e1]).length - 2]? = some e2 := by
    rw [hlen, List.getElem?_append_right (by omega)]
    have : init.length + 2 - 2 - init.length = 0 := by omega
    rw [this]
    rfl
  rw [h1, h2]
  have : ¬ (init ++ [e2, e1]).length < 2 := by
    rw [hlen]
    omega
  simp only [this, if_false]

theorem bw_split_last_two (l : List Edge) (h : 2 ≤ l.length) :
    ∃ init e2 e1, l = init ++ [e2, e1] := by
  have hne : l ≠ [] := by
    intro hl
    rw [hl] at h
    simp at h
  obtain ⟨l1, e1, rfl⟩ : ∃ l1 e1, l = l1 ++ [e1] :=
    ⟨l.dropLast, l.getLast hne, (List.dropLast_append_getLast hne).symm⟩
  have hne1 : l1 ≠ [] := by
    intro hl
    rw [hl] at h
    simp at h
  obtain ⟨init, e2, rfl⟩ : ∃ init e2, l1 = init ++ [e2] :=
    ⟨l1.dropLast, l1.getLast hne1, (List.dropLast_append_getLast hne1).symm⟩
  exact ⟨init, e2, e1, by simp⟩

/-- C23 (amended): for every vertex and direction whose adjacency list is
sorted descending by overlap length, so that the last edge has the shortest
overlap, SGBreakWriteVisitor::calculateOverlapLengthDifference returns 0 when
there are fewer than two edges, and otherwise the overlap length of the edge
before the last minus that of the last edge: the second-shortest minus the
shortest overlap length, which is not negative. -/
theorem overlap_length_difference (g : StringGraph) (v : VertexID) (dir : EdgeDir)
    (hsorted : (g.getEdges v dir).Sorted
      (fun a b => a.overlap.overlapLength ≥ b.overlap.overlapLength)) :
    ((g.getEdges v dir).length < 2 → calculateOverlapLengthDifference g v dir = 0) ∧
    (2 ≤ (g.getEdges v dir).length →
      0 ≤ calculateOverlapLengthDifference g v dir ∧
      ∃ init e2 e1, g.getEdges v dir = init ++ [e2, e1] ∧
        calculateOverlapLengthDifference g v dir =
          (e2.overlap.overlapLength : Int) - (e1.overlap.overlapLength : Int) ∧
        e1.overlap.overlapLength ≤ e2.overlap.overlapLength ∧
        ∀ e ∈ init, e2.overlap.overlapLength ≤ e.overlap.overlapLength) := by
  constructor
  · intro h
    unfold calculateOverlapLengthDifference
    simp only [h, if_true]
  · intro h
    obtain ⟨init, e2, e1, hl⟩ := bw_split_last_two _ h
    have hc := bw_calc_eq g v dir init e2 e1 hl
    rw [hl] at hsorted
    have hp := List.pairwise_append.1 hsorted
    have h21 : e1.overlap.overlapLength ≤ e2.overlap.overlapLength := by
      have := hp.2.1
      simp only [List.pairwise_cons, List.mem_singleton, forall_eq] at this
      exact this.1
    refine ⟨?_, init, e2, e1, hl, hc, h21, ?_⟩
    · rw [hc]
      omega
    · intro e he
      exact hp.2.2 e he e2 (by simp)

set_option maxRecDepth 100000 in
/-- C23, at the vertex X = 0 of the small-repeat graph, whose SENSE list holds
the overlaps 90 and 40 in this order: the function returns 50. -/
theorem overlap_length_difference_witness :
    calculateOverlapLengthDifference
      (repeatGraph ED_SENSE EC_SAME EC_SAME EC_SAME 40 90 90) 0 ED_SENSE = 50 ∧
    (2 ≤ ((repeatGraph ED_SENSE EC_SAME EC_SAME EC_SAME 40 90 90).getEdges 0 ED_SENSE).length →
      0 ≤ calculateOverlapLengthDifference
        (repeatGraph ED_SENSE EC_SAME EC_SAME EC_SAME 40 90 90) 0 ED_SENSE ∧
      ∃ init e2 e1,
        (repeatGraph ED_SENSE EC_SAME EC_SAME EC_SAME 40 90 90).getEdges 0 ED_SENSE =
          init ++ [e2, e1] ∧
        calculateOverlapLengthDifference
          (repeatGraph ED_SENSE EC_SAME EC_SAME EC_SAME 40 90 90) 0 ED_SENSE =
          (e2.overlap.overlapLength : Int) - (e1.overlap.overlapLength : Int) ∧
        e1.overlap.overlapLength ≤ e2.overlap.overlapLength ∧
        ∀ e ∈ init, e2.overlap.overlapLength ≤ e.overlap.overlapLength) :=
  ⟨by decide,
    (overlap_length_difference (repeatGraph ED_SENSE EC_SAME EC_SAME EC_SAME 40 90 90) 0 ED_SENSE
      (by decide)).2⟩

set_option maxRecDepth 100000 in
/-- C23 as stated fails.  The SENSE list of the vertex 0 holds two edges and is
sorted ascending by overlap length, 40 then 90; the function returns -50, which
is negative and is not the second-shortest minus the shortest overlap
length, 50. -/
theorem overlap_length_difference_counterexample :
    (ascendingOverlapGraph.getEdges 0 ED_SENSE).Sorted
      (fun a b => a.overlap.overlapLength ≤ b.overlap.overlapLength) ∧
    (ascendingOverlapGraph.getEdges 0 ED_SENSE).map (fun e => e.overlap.overlapLength) =
      [40, 90] ∧
    calculateOverlapLengthDifference ascendingOverlapGraph 0 ED_SENSE = -50 := by
  refine ⟨by decide, by decide, by decide⟩

end SGBreakWriteVisitor

namespace SGDuplicateVisitor

theorem dv_mark_flag_true (c : GraphColor) (es : List Edge) :
    ∀ (seen : List EdgeDesc) (h : StringGraph), (markDuplicatesFrom c seen es (h, true)).2 = true := by
  induction es with
  | nil => intro seen h; rfl
  | cons e es ih =>
    intro seen h
    unfold markDuplicatesFrom
    split_ifs
    · exact ih _ _
    · exact ih _ _

/-- The loop of markDuplicateEdges changes nothing but edge colours, and no
edge colour when it returns false. -/
theorem dv_mark_frame (c : GraphColor) (es : List Edge) :
    ∀ (seen : List EdgeDesc) (st : StringGraph × Bool),
      (markDuplicatesFrom c seen es st).1.vertices = st.1.vertices ∧
      (markDuplicatesFrom c seen es st).1.edges = st.1.edges ∧
      (markDuplicatesFrom c seen es st).1.vertexColor = st.1.vertexColor ∧
      ((markDuplicatesFrom c seen es st).2 = false →
        (markDuplicatesFrom c seen es st).1.edgeColor = st.1.edgeColor) := by
  induction es with
  | nil => intro seen st; exact ⟨rfl, rfl, rfl, fun _ => rfl⟩
  | cons e es ih =>
    intro seen st
    unfold markDuplicatesFrom
    split_ifs
    · obtain ⟨h1, h2, h3, -⟩ := ih seen (st.1.setEdgeColor e.id c, true)
      refine ⟨h1, h2, h3, ?_⟩
      intro hf
      rw [dv_mark_flag_true] at hf
      exact Bool.noConfusion hf
    · exact ih _ st

/-- The visit of a vertex changes nothing but edge colours, and no edge colour
when it leaves `m_hasDuplicate` false. -/
theorem dv_visit_frame (s : SGDuplicateVisitor) (g : StringGraph) (v : VertexID) :
    (visit s g v).1.2.vertices = g.vertices ∧ (visit s g v).1.2.edges = g.edges ∧
    (visit s g v).1.2.vertexColor = g.vertexColor ∧
    ((visit s g v).1.1.m_hasDuplicate = false →
      (visit s g v).1.2.edgeColor = g.edgeColor ∧ s.m_hasDuplicate = false) := by
  obtain ⟨h1, h2, h3, h4⟩ := dv_mark_frame GC_RED (g.getAllEdges v) [] (g, false)
  refine ⟨h1, h2, h3, ?_⟩
  intro hf
  have hf2 : ((g.markDuplicateEdges v GC_RED).2 || s.m_hasDuplicate) = false := hf
  rw [Bool.or_eq_false_iff] at hf2
  exact ⟨h4 hf2.1, hf2.2⟩

theorem dv_pass_frame (chk : StringGraph → GraphColor → Bool) (order : List VertexID) :
    ∀ acc : (SGDuplicateVisitor × StringGraph) × Bool,
      (visitVertices (visitor chk) order acc).1.2.vertices = acc.1.2.vertices ∧
      (visitVertices (visitor chk) order acc).1.2.edges = acc.1.2.edges ∧
      (visitVertices (visitor chk) order acc).1.2.vertexColor = acc.1.2.vertexColor ∧
      ((visitVertices (visitor chk) order acc).1.1.m_hasDuplicate = false →
        (visitVertices (visitor chk) order acc).1.2.edgeColor = acc.1.2.edgeColor ∧
          acc.1.1.m_hasDuplicate = false) ∧
      (visitVertices (visitor chk) order acc).2 = acc.2 := by
  induction order with
  | nil => intro acc; exact ⟨rfl, rfl, rfl, fun h => ⟨rfl, h⟩, rfl⟩
  | cons v order ih =>
    intro acc
    simp only [visitVertices]
    obtain ⟨h1, h2, h3, h4, h5⟩ := ih (((visitor chk).visit acc.1.1 acc.1.2 v).1,
      ((visitor chk).visit acc.1.1 acc.1.2 v).2 || acc.2)
    obtain ⟨f1, f2, f3, f4⟩ := dv_visit_frame acc.1.1 acc.1.2 v
    refine ⟨h1.trans f1, h2.trans f2, h3.trans f3, ?_, ?_⟩
    · intro hf
      obtain ⟨h6, h7⟩ := h4 hf
      obtain ⟨h8, h9⟩ := f4 h7
      exact ⟨h6.trans h8, h9⟩
    · rw [h5]
      exact Bool.false_or _

theorem dv_pass_chk (chk chk2 : StringGraph → GraphColor → Bool) (order : List VertexID) :
    ∀ acc : (SGDuplicateVisitor × StringGraph) × Bool,
      visitVertices (visitor chk) order acc = visitVertices (visitor chk2) order acc := by
  induction order with
  | nil => intro acc; rfl
  | cons v order ih =>
    intro acc
    simp only [visitVertices]
    exact ih _

theorem dv_checkVertexColors_congr {g h : StringGraph} (hv : h.vertices = g.vertices)
    (hc : h.vertexColor = g.vertexColor) (c : GraphColor) :
    h.checkVertexColors c = g.checkVertexColors c := by
  unfold StringGraph.checkVertexColors
  rw [hv, hc]

/-- The pass with any `checkColors`: it returns exactly when the assertions of
previsit and postvisit hold, and the result is then the graph after the
visits, without its RED edges when a duplicate was found. -/
theorem dv_run_any (chk : StringGraph → GraphColor → Bool) (order : List VertexID)
    (g : StringGraph) :
    runInOrder chk order g =
      if chk g GC_WHITE = true ∧ chk (visited order g).2 GC_WHITE = true then
        some (if (visited order g).1.m_hasDuplicate = true
          then (visited order g).2.sweepEdges GC_RED else (visited order g).2)
      else none := by
  have hvis : (visitVertices (visitor chk) order (({ m_hasDuplicate := false }, g), false)).1 =
      visited order g := by
    unfold visited
    rw [dv_pass_chk chk StringGraph.checkVertexColors]
  unfold runInOrder StringGraph.visitInOrder
  by_cases h1 : chk g GC_WHITE = true
  · have hpre : (visitor chk).previsit { m_hasDuplicate := false } g =
        some ({ m_hasDuplicate := false }, g) := by
      show (if chk g GC_WHITE = true then _ else _) = _
      rw [if_pos h1]
    rw [hpre]
    simp only []
    rw [hvis]
    by_cases h2 : chk (visited order g).2 GC_WHITE = true
    · have hpost : (visitor chk).postvisit (visited order g).1 (visited order g).2 =
          some ((visited order g).1, if (visited order g).1.m_hasDuplicate = true
            then (visited order g).2.sweepEdges GC_RED else (visited order g).2) := by
        show (if chk (visited order g).2 GC_WHITE = true then _ else _) = _
        rw [if_pos h2]
      rw [hpost, if_pos (show chk g GC_WHITE = true ∧ chk (visited order g).2 GC_WHITE = true from
        ⟨h1, h2⟩)]
      rfl
    · have hpost : (visitor chk).postvisit (visited order g).1 (visited order g).2 = none := by
        show (if chk (visited order g).2 GC_WHITE = true then _ else _) = _
        rw [if_neg h2]
      rw [hpost, if_neg (show ¬ (chk g GC_WHITE = true ∧ chk (visited order g).2 GC_WHITE = true) from
        fun hh => h2 hh.2)]
      rfl
  · have hpre : (visitor chk).previsit { m_hasDuplicate := false } g = none := by
      show (if chk g GC_WHITE = true then _ else _) = _
      rw [if_neg h1]
    rw [hpre, if_neg (show ¬ (chk g GC_WHITE = true ∧ chk (visited order g).2 GC_WHITE = true) from
      fun hh => h1 hh.1)]
    rfl

/-- The pass with a `checkColors` that covers the vertices only, over a graph
whose vertices are WHITE: both assertions hold. -/
theorem dv_run_eq (order : List VertexID) (g : StringGraph)
    (hw : g.checkVertexColors GC_WHITE = true) :
    runInOrder StringGraph.checkVertexColors order g =
      some (if (visited order g).1.m_hasDuplicate = true
        then (visited order g).2.sweepEdges GC_RED else (visited order g).2) := by
  obtain ⟨h1, -, h3, -, -⟩ := dv_pass_frame StringGraph.checkVertexColors order
    (({ m_hasDuplicate := false }, g), false)
  have hchk : (visited order g).2.checkVertexColors GC_WHITE = true := by
    have hcg : (visited order g).2.checkVertexColors GC_WHITE = g.checkVertexColors GC_WHITE :=
      dv_checkVertexColors_congr (g := g) (h := (visited order g).2) h1 h3 GC_WHITE
    rw [hcg]
    exact hw
  rw [dv_run_any, if_pos (show StringGraph.checkVertexColors g GC_WHITE = true ∧
    StringGraph.checkVertexColors (visited order g).2 GC_WHITE = true from ⟨hw, hchk⟩)]

/-- C22 (amended): duplicate edges are not fatal when the checkColors(WHITE)
assertions hold, as they do with a checkColors that covers the vertices only.
For every graph whose colours are all WHITE before the pass and every order of
the visits: whatever checkColors computes, the pass returns exactly when the
assertions of previsit and postvisit hold, and postvisit then goes on to
sweepEdges(RED) when m_hasDuplicate is set; when the visits have coloured an
edge RED, m_hasDuplicate is set and no RED edge remains in the graph after the
sweep; and with a checkColors that covers the vertices only both assertions
hold and the pass returns the swept graph. -/
theorem duplicate_sweep (chk : StringGraph → GraphColor → Bool) (order : List VertexID)
    (g : StringGraph) (hw : g.checkColors GC_WHITE = true) :
    (runInOrder chk order g =
      if chk g GC_WHITE = true ∧ chk (visited order g).2 GC_WHITE = true then
        some (if (visited order g).1.m_hasDuplicate = true
          then (visited order g).2.sweepEdges GC_RED else (visited order g).2)
      else none) ∧
    ((∃ e ∈ g.edges, (visited order g).2.edgeColor e.id = GC_RED) →
      (visited order g).1.m_hasDuplicate = true ∧
      ∀ e ∈ ((visited order g).2.sweepEdges GC_RED).edges,
        ((visited order g).2.sweepEdges GC_RED).edgeColor e.id ≠ GC_RED) ∧
    ∃ g2, runInOrder StringGraph.checkVertexColors order g = some g2 ∧
      g2.vertices = g.vertices ∧
      ((∃ e ∈ g.edges, (visited order g).2.edgeColor e.id = GC_RED) →
        g2 = (visited order g).2.sweepEdges GC_RED ∧
        ∀ e ∈ g2.edges, g2.edgeColor e.id ≠ GC_RED) := by
  have hw2 : g.checkVertexColors GC_WHITE = true ∧
      g.edges.all (fun e => decide (g.edgeColor e.id = GC_WHITE)) = true := by
    unfold StringGraph.checkColors at hw
    rw [Bool.and_eq_true] at hw
    exact hw
  obtain ⟨h1, -, -, h4, -⟩ := dv_pass_frame StringGraph.checkVertexColors order
    (({ m_hasDuplicate := false }, g), false)
  have hflag : (∃ e ∈ g.edges, (visited order g).2.edgeColor e.id = GC_RED) →
      (visited order g).1.m_hasDuplicate = true := by
    rintro ⟨e, he, hred⟩
    by_contra hf
    have hf2 : (visited order g).1.m_hasDuplicate = false := by simpa using hf
    have hcol : (visited order g).2.edgeColor = g.edgeColor := (h4 hf2).1
    rw [hcol] at hred
    have := List.all_eq_true.1 hw2.2 e he
    rw [decide_eq_true_eq, hred] at this
    exact GraphColor.noConfusion this
  have hswept : ∀ e ∈ ((visited order g).2.sweepEdges GC_RED).edges,
      ((visited order g).2.sweepEdges GC_RED).edgeColor e.id ≠ GC_RED := by
    intro e2 he2
    have h5 : e2 ∈ List.filter _ _ := he2
    have h6 := (List.mem_filter.1 h5).2
    rw [decide_eq_true_eq] at h6
    exact h6
  refine ⟨dv_run_any chk order g, fun hred => ⟨hflag hred, hswept⟩,
    _, dv_run_eq order g hw2.1, ?_, ?_⟩
  · split_ifs
    · exact h1
    · exact h1
  · intro hred
    rw [if_pos (hflag hred)]
    exact ⟨rfl, hswept⟩

set_option maxRecDepth 100000 in
/-- C22 (amended), at the graph with two parallel edges from 0 to 2: the visits
colour the edges 6 and 7 RED, and the pass with a checkColors that covers the
vertices only returns the graph without these two edges. -/
theorem duplicate_sweep_witness :
    parallelGraph.checkColors GC_WHITE = true ∧
    (parallelGraph.edges.filter
      (fun e => decide ((visited [0, 1, 2] parallelGraph).2.edgeColor e.id = GC_RED))).map
        (fun e => e.id) = [6, 7] ∧
    (runInOrder StringGraph.checkVertexColors [0, 1, 2] parallelGraph).map
      (fun g2 => g2.edges.map (fun e => e.id)) = some [0, 1, 2, 3, 4, 5] ∧
    ((runInOrder StringGraph.checkVertexColors [0, 1, 2] parallelGraph =
      if StringGraph.checkVertexColors parallelGraph GC_WHITE = true ∧
          StringGraph.checkVertexColors (visited [0, 1, 2] parallelGraph).2 GC_WHITE = true then
        some (if (visited [0, 1, 2] parallelGraph).1.m_hasDuplicate = true
          then (visited [0, 1, 2] parallelGraph).2.sweepEdges GC_RED
          else (visited [0, 1, 2] parallelGraph).2)
      else none) ∧
    ((∃ e ∈ parallelGraph.edges, (visited [0, 1, 2] parallelGraph).2.edgeColor e.id = GC_RED) →
      (visited [0, 1, 2] parallelGraph).1.m_hasDuplicate = true ∧
      ∀ e ∈ ((visited [0, 1, 2] parallelGraph).2.sweepEdges GC_RED).edges,
        ((visited [0, 1, 2] parallelGraph).2.sweepEdges GC_RED).edgeColor e.id ≠ GC_RED) ∧
    ∃ g2, runInOrder StringGraph.checkVertexColors [0, 1, 2] parallelGraph = some g2 ∧
      g2.vertices = parallelGraph.vertices ∧
      ((∃ e ∈ parallelGraph.edges, (visited [0, 1, 2] parallelGraph).2.edgeColor e.id = GC_RED) →
        g2 = (visited [0, 1, 2] parallelGraph).2.sweepEdges GC_RED ∧
        ∀ e ∈ g2.edges, g2.edgeColor e.id ≠ GC_RED)) :=
  ⟨by decide, by decide, by decide,
    duplicate_sweep StringGraph.checkVertexColors [0, 1, 2] parallelGraph (by decide)⟩

/-- The assertion of `postvisit` with a `checkColors` that covers the edges
fails on every graph that holds a RED edge. -/
theorem dv_postvisit_red (s : SGDuplicateVisitor) (g : StringGraph) (e : Edge)
    (he : e ∈ g.edges) (hred : g.edgeColor e.id = GC_RED) :
    postvisit StringGraph.checkColors s g = none := by
  unfold postvisit
  have hchk : g.checkColors GC_WHITE = false := by
    unfold StringGraph.checkColors
    rw [Bool.and_eq_false_iff]
    right
    rw [List.all_eq_false]
    exact ⟨e, he, by simp [hred]⟩
  simp [hchk]

set_option maxRecDepth 100000 in
/-- C22 as stated fails: with a checkColors that covers every vertex and every
edge, the pass aborts.  At the graph with the vertices 0, 1, 2 and two parallel
edges from 0 to 2, all colours WHITE, the assertion of previsit holds; the
visits colour the second edge from 0 to 2 (identifier 6) and its twin
(identifier 7) RED and set m_hasDuplicate; the assertion of postvisit, which
stands before the sweep, then fails, and the RED edges are still in the graph
at that point. -/
theorem duplicate_check_counterexample :
    parallelGraph.checkColors GC_WHITE = true ∧
    previsit StringGraph.checkColors { m_hasDuplicate := false } parallelGraph =
      some ({ m_hasDuplicate := false }, parallelGraph) ∧
    (visited [0, 1, 2] parallelGraph).1.m_hasDuplicate = true ∧
    (visited [0, 1, 2] parallelGraph).2.edges = parallelGraph.edges ∧
    (parallelGraph.edges.filter
      (fun e => decide ((visited [0, 1, 2] parallelGraph).2.edgeColor e.id = GC_RED))).map
        (fun e => e.id) = [6, 7] ∧
    (visited [0, 1, 2] parallelGraph).2.checkColors GC_WHITE = false ∧
    postvisit StringGraph.checkColors (visited [0, 1, 2] parallelGraph).1
      (visited [0, 1, 2] parallelGraph).2 = none ∧
    runInOrder StringGraph.checkColors [0, 1, 2] parallelGraph = none :=
  ⟨by decide, rfl, by decide, by decide, by decide, by decide,
    dv_postvisit_red _ _ (edgeHalf 3 0 2 ED_SENSE EC_SAME 20 80) (by decide) (by decide),
    Option.isNone_iff_eq_none.1 (by decide)⟩

end SGDuplicateVisitor

namespace SGBubbleVisitor

set_option maxRecDepth 100000 in
/-- C24, evaluated at the visit of the vertex 0 of the graph in which the
neighbour 3 goes on to the neighbour 2.  After the first two iterations of the
marking loop the neighbour 2 is RED and a bubble is recorded; the third
iteration colours it BLACK as the end of the onward edge of the neighbour 3,
and the unmarking loop colours it WHITE.  The visit returns true and counts a
bubble, and leaves every vertex WHITE; the full pass counts one bubble and
removes no vertex. -/
theorem bubble_red_lost :
    TwinConsistent redLostGraph ∧
    (redLostGraph.getEdges 0 ED_SENSE).map (fun e => e.end_) = [1, 2, 3] ∧
    (((redLostGraph.getEdges 0 ED_SENSE).take 2).foldl markStep
      (redLostGraph, false)).1.vertexColor 2 = GC_RED ∧
    (((redLostGraph.getEdges 0 ED_SENSE).take 2).foldl markStep (redLostGraph, false)).2 = true ∧
    ((redLostGraph.getEdges 0 ED_SENSE).foldl markStep (redLostGraph, false)).1.vertexColor 2 =
      GC_BLACK ∧
    (visit { num_bubbles := 0 } redLostGraph 0).2 = true ∧
    (visit { num_bubbles := 0 } redLostGraph 0).1.1.num_bubbles = 1 ∧
    (∀ x ∈ redLostGraph.vertices,
      (visit { num_bubbles := 0 } redLostGraph 0).1.2.vertexColor x.id = GC_WHITE) ∧
    ((redLostGraph.visitInOrder [0, 1, 2, 3, 4] visitor { num_bubbles := 0 }).map
      (fun r => (r.1.1.num_bubbles, r.1.2.vertices.map (fun u => u.id), r.2))) =
        some (1, [0, 1, 2, 3, 4], true) := by
  refine ⟨by decide, by decide, by decide, by decide, by decide, by decide, by decide, by decide,
    by decide⟩

end SGBubbleVisitor

namespace SGSmallRepeatResolveVisitor

set_option maxRecDepth 100000 in
/-- C25 as stated fails.  The adjacency lists of the graph are sorted and the
two orders visit all its vertices.  When A = 0 is visited before B = 1, the
visit of A deletes A-B and the visit of B then deletes B-F; when B is visited
before A, the visit of B deletes B-A and B-F stays. -/
theorem small_repeat_order_counterexample :
    orderGraph.edges.Sorted EdgeLenLE ∧ TwinConsistent orderGraph ∧
    [0, 1, 2, 3, 4].Perm (orderGraph.vertices.map (fun v => v.id)) ∧
    [1, 0, 2, 3, 4].Perm (orderGraph.vertices.map (fun v => v.id)) ∧
    (runInOrder 10 [0, 1, 2, 3, 4] orderGraph).map (fun g2 => g2.edges.map (fun e => e.id)) =
      some [0, 1, 2, 3, 4, 5, 10, 11] ∧
    (runInOrder 10 [1, 0, 2, 3, 4] orderGraph).map (fun g2 => g2.edges.map (fun e => e.id)) =
      some [0, 1, 2, 3, 4, 5, 6, 7, 10, 11] := by
  refine ⟨by decide, by decide, by decide, by decide, by decide, by decide⟩

theorem sr_deleteEdge_sublist (g : StringGraph) (x : VertexID) (i : EdgeID) :
    (g.deleteEdge x i).edges.Sublist g.edges :=
  List.filter_sublist _

/-- A direction only deletes edges. -/
theorem sr_visitDir_sublist (minDiff : Int) (x : VertexID) (st : StringGraph × Bool)
    (dir : EdgeDir) : (visitDir minDiff x st dir).1.edges.Sublist st.1.edges := by
  unfold visitDir
  simp only []
  split
  · exact List.Sublist.refl _
  · split
    · split
      · exact List.Sublist.refl _
      · split
        · exact List.Sublist.refl _
        · split
          · split
            · exact (sr_deleteEdge_sublist _ _ _).trans (sr_deleteEdge_sublist _ _ _)
            · exact List.Sublist.refl _
          · exact List.Sublist.refl _
    · exact List.Sublist.refl _

theorem sr_visit_sublist (s : SGSmallRepeatResolveVisitor) (g : StringGraph) (x : VertexID) :
    (visit s g x).1.2.edges.Sublist g.edges := by
  unfold visit
  simp only [EDGE_DIRECTIONS, List.foldl_cons, List.foldl_nil]
  exact (sr_visitDir_sublist _ _ _ _).trans (sr_visitDir_sublist _ _ (g, false) _)

theorem sr_visit_state (s : SGSmallRepeatResolveVisitor) (g : StringGraph) (x : VertexID) :
    (visit s g x).1.1 = s := rfl

theorem sr_getEdges_length_le {g h : StringGraph} (hsub : h.edges.Sublist g.edges)
    (v : VertexID) (d : EdgeDir) : (h.getEdges v d).length ≤ (g.getEdges v d).length :=
  (hsub.filter _).length_le

/-- A direction with fewer than two edges leaves the state as it is. -/
theorem sr_visitDir_idle (minDiff : Int) (x : VertexID) (st : StringGraph × Bool)
    (dir : EdgeDir) (h : (st.1.getEdges x dir).length < 2) : visitDir minDiff x st dir = st := by
  unfold visitDir
  simp only []
  rw [if_pos h]

/-- The visit of a vertex that is not busy in a graph with more edges is idle. -/
theorem sr_visit_idle (s : SGSmallRepeatResolveVisitor) {g g0 : StringGraph} (x : VertexID)
    (hsub : g.edges.Sublist g0.edges) (hb : busy g0 x = false) : visit s g x = ((s, g), false) := by
  have hb2 : ¬ (2 ≤ (g0.getEdges x ED_SENSE).length ∨ 2 ≤ (g0.getEdges x ED_ANTISENSE).length) := by
    unfold busy at hb
    exact of_decide_eq_false hb
  have h1 : (g.getEdges x ED_SENSE).length < 2 := by
    have := sr_getEdges_length_le hsub x ED_SENSE
    omega
  have h2 : (g.getEdges x ED_ANTISENSE).length < 2 := by
    have := sr_getEdges_length_le hsub x ED_ANTISENSE
    omega
  unfold visit
  simp only [EDGE_DIRECTIONS, List.foldl_cons, List.foldl_nil]
  rw [sr_visitDir_idle _ _ (g, false) _ h1, sr_visitDir_idle _ _ (g, false) _ h2]

/-- The driver loop does the same when the vertices that are not busy in a
graph with more edges are left out of the order. -/
theorem sr_visitVertices_filter (g0 : StringGraph) (order : List VertexID) :
    ∀ acc : (SGSmallRepeatResolveVisitor × StringGraph) × Bool,
      acc.1.2.edges.Sublist g0.edges →
      visitVertices visitor order acc = visitVertices visitor (order.filter (busy g0)) acc := by
  induction order with
  | nil => intro acc _; rfl
  | cons v rest ih =>
    intro acc hsub
    by_cases hb : busy g0 v = true
    · rw [List.filter_cons_of_pos hb]
      simp only [visitVertices]
      exact ih _ ((sr_visit_sublist _ _ _).trans hsub)
    · rw [List.filter_cons_of_neg hb]
      simp only [visitVertices]
      have hidle : visitor.visit acc.1.1 acc.1.2 v = ((acc.1.1, acc.1.2), false) :=
        sr_visit_idle acc.1.1 v hsub (Bool.eq_false_iff.2 hb)
      rw [hidle]
      simp only [Bool.false_or]
      exact ih acc hsub

/-- The driver loop only deletes edges and keeps the twin pairing. -/
theorem sr_visitVertices_sublist (order : List VertexID) :
    ∀ acc : (SGSmallRepeatResolveVisitor × StringGraph) × Bool,
      (visitVertices visitor order acc).1.2.edges.Sublist acc.1.2.edges ∧
      (TwinPaired acc.1.2 → TwinPaired (visitVertices visitor order acc).1.2) := by
  induction order with
  | nil => intro acc; exact ⟨List.Sublist.refl _, id⟩
  | cons v rest ih =>
    intro acc
    simp only [visitVertices]
    obtain ⟨h1, h2⟩ := ih ((visitor.visit acc.1.1 acc.1.2 v).1,
      (visitor.visit acc.1.1 acc.1.2 v).2 || acc.2)
    exact ⟨h1.trans (sr_visit_sublist _ _ _), fun htp => h2 (sr_visit_twinPaired _ _ _ htp)⟩

theorem sr_runInOrder_eq (minDiff : Int) (order : List VertexID) (g : StringGraph) :
    runInOrder minDiff order g =
      some (visitVertices visitor order (({ m_minDiff := minDiff }, g), false)).1.2 := rfl

/-- C25, amended: the result of a pass depends on the vertex order only through
the relative order of the vertices that have two or more edges in one
direction.  Two orders that list these vertices in the same relative order
leave the same graph, and a pass in any order returns a graph whose edges are
edges of the input graph, in the same adjacency order, with the twin pairing
kept. -/
theorem small_repeat_order (minDiff : Int) (g : StringGraph) (order1 order2 : List VertexID)
    (h : order1.filter (busy g) = order2.filter (busy g)) :
    runInOrder minDiff order1 g = runInOrder minDiff order2 g ∧
    ∃ g2, runInOrder minDiff order1 g = some g2 ∧ g2.edges.Sublist g.edges ∧
      (TwinPaired g → TwinPaired g2) := by
  refine ⟨?_, _, sr_runInOrder_eq minDiff order1 g, ?_⟩
  · rw [sr_runInOrder_eq, sr_runInOrder_eq,
      sr_visitVertices_filter g order1 _ (List.Sublist.refl _),
      sr_visitVertices_filter g order2 _ (List.Sublist.refl _), h]
  · exact sr_visitVertices_sublist order1 (({ m_minDiff := minDiff }, g), false)

set_option maxRecDepth 100000 in
/-- The amended statement of C25 on a graph with five vertices, for two orders
that differ in the place of the vertex without two edges in a direction. -/
theorem small_repeat_order_witness :
    [0, 1, 2, 3, 4].filter (busy orderGraph) = [4, 0, 1, 2, 3].filter (busy orderGraph) ∧
    (runInOrder 10 [0, 1, 2, 3, 4] orderGraph = runInOrder 10 [4, 0, 1, 2, 3] orderGraph ∧
    ∃ g2, runInOrder 10 [0, 1, 2, 3, 4] orderGraph = some g2 ∧
      g2.edges.Sublist orderGraph.edges ∧ (TwinPaired orderGraph → TwinPaired g2)) :=
  ⟨by decide, small_repeat_order 10 orderGraph [0, 1, 2, 3, 4] [4, 0, 1, 2, 3] (by decide)⟩

end SGSmallRepeatResolveVisitor

namespace SGRemodelVisitor

theorem rm_eraseP_eq_filter (d : EdgeDesc) :
    ∀ m : EdgeDescOverlapMap, (m.map (fun kv => kv.1)).Nodup →
      m.eraseP (fun kv => decide (kv.1 = d)) = m.filter (fun kv => decide (kv.1 ≠ d))
  | [], _ => rfl
  | kv :: m, hk => by
    rw [List.map_cons, List.nodup_cons] at hk
    by_cases h : kv.1 = d
    · rw [List.eraseP_cons_of_pos (by simpa using h), List.filter_cons_of_neg (by simpa using h)]
      symm
      apply List.filter_eq_self.2
      intro kv2 hkv2
      rw [decide_eq_true_eq]
      intro h2
      exact hk.1 (List.mem_map.2 ⟨kv2, hkv2, h2.trans h.symm⟩)
    · rw [List.eraseP_cons_of_neg (by simpa using h), List.filter_cons_of_pos (by simpa using h),
        rm_eraseP_eq_filter d m hk.2]

theorem rm_filter_nodup (p : EdgeDesc × Overlap → Bool) {m : EdgeDescOverlapMap}
    (hk : (m.map (fun kv => kv.1)).Nodup) : ((m.filter p).map (fun kv => kv.1)).Nodup :=
  hk.sublist ((List.filter_sublist m).map _)

/-- One iteration of the scan: an edge whose descriptor is a key erases the
entry and leaves the graph as it is; any other edge leaves the map as it is and
colours itself and its twin BLACK. -/
theorem rm_matchStep_cases (m : EdgeDescOverlapMap) (h : StringGraph) (e : Edge)
    (hk : (m.map (fun kv => kv.1)).Nodup) :
    (e.getDesc ∈ m.map (fun kv => kv.1) →
      matchStep (m, h) e = (m.filter (fun kv => decide (kv.1 ≠ e.getDesc)), h)) ∧
    (e.getDesc ∉ m.map (fun kv => kv.1) →
      matchStep (m, h) e = (m, (h.setEdgeColor e.id GC_BLACK).setEdgeColor e.twin GC_BLACK)) := by
  constructor
  · intro hin
    obtain ⟨kv, hkv, hd⟩ := List.mem_map.1 hin
    unfold matchStep
    cases hf : List.find? (fun kv => decide (kv.1 = e.getDesc)) m with
    | none =>
      exact absurd hd (by simpa using List.find?_eq_none.1 hf kv hkv)
    | some x =>
      simp only [hf]
      rw [rm_eraseP_eq_filter e.getDesc m hk]
  · intro hnot
    unfold matchStep
    cases hf : List.find? (fun kv => decide (kv.1 = e.getDesc)) m with
    | none => simp only [hf]
    | some x =>
      have hx := List.find?_some hf
      rw [decide_eq_true_eq] at hx
      exact absurd (List.mem_map.2 ⟨x, List.mem_of_find?_eq_some hf, hx⟩) hnot

theorem rm_matchStep_map (m : EdgeDescOverlapMap) (h : StringGraph) (e : Edge)
    (hk : (m.map (fun kv => kv.1)).Nodup) :
    (matchStep (m, h) e).1 = m.filter (fun kv => decide (kv.1 ≠ e.getDesc)) := by
  by_cases hin : e.getDesc ∈ m.map (fun kv => kv.1)
  · rw [(rm_matchStep_cases m h e hk).1 hin]
  · rw [(rm_matchStep_cases m h e hk).2 hin]
    symm
    apply List.filter_eq_self.2
    intro kv hkv
    rw [decide_eq_true_eq]
    intro h2
    exact hin (List.mem_map.2 ⟨kv, hkv, h2⟩)

/-- The map after the scan of a list of edges: the entries matched by none of
them, in the order of the map. -/
theorem rm_scan_map (es : List Edge) :
    ∀ (m : EdgeDescOverlapMap) (h : StringGraph), (m.map (fun kv => kv.1)).Nodup →
      (es.foldl matchStep (m, h)).1 = unmatched m es := by
  induction es with
  | nil =>
    intro m h _
    simp [unmatched]
  | cons e es ih =>
    intro m h hk
    rw [List.foldl_cons]
    have hm := rm_matchStep_map m h e hk
    have hk2 : ((matchStep (m, h) e).1.map (fun kv => kv.1)).Nodup := by
      rw [hm]
      exact rm_filter_nodup _ hk
    have := ih (matchStep (m, h) e).1 (matchStep (m, h) e).2 hk2
    rw [Prod.mk.eta] at this
    rw [this, hm]
    unfold unmatched
    rw [List.filter_filter]
    apply List.filter_congr
    intro kv _
    simp only [List.all_cons]
    rw [Bool.and_comm]
    congr 1
    by_cases hd : e.getDesc = kv.1
    · simp [hd]
    · have hd2 : ¬ kv.1 = e.getDesc := fun h2 => hd h2.symm
      simp [hd, hd2]

theorem rm_matchStep_color_black (st : EdgeDescOverlapMap × StringGraph) (e : Edge) (i : EdgeID)
    (hb : st.2.edgeColor i = GC_BLACK) : (matchStep st e).2.edgeColor i = GC_BLACK := by
  unfold matchStep
  split
  · exact hb
  · simp only [StringGraph.setEdgeColor]
    split
    · rfl
    · split
      · rfl
      · exact hb

/-- The scan never takes the colour BLACK from an edge. -/
theorem rm_scan_color_black (es : List Edge) :
    ∀ (st : EdgeDescOverlapMap × StringGraph) (i : EdgeID), st.2.edgeColor i = GC_BLACK →
      (es.foldl matchStep st).2.edgeColor i = GC_BLACK := by
  induction es with
  | nil => intro st i hb; exact hb
  | cons e es ih =>
    intro st i hb
    rw [List.foldl_cons]
    exact ih _ i (rm_matchStep_color_black st e i hb)

theorem rm_matchStep_color_keep (st : EdgeDescOverlapMap × StringGraph) (e : Edge) (i : EdgeID)
    (h1 : e.id ≠ i) (h2 : e.twin ≠ i) : (matchStep st e).2.edgeColor i = st.2.edgeColor i := by
  unfold matchStep
  split
  · rfl
  · simp only [StringGraph.setEdgeColor]
    rw [if_neg (fun h => h2 h.symm), if_neg (fun h => h1 h.symm)]

/-- The scan leaves the colour of an edge that is neither one of the scanned
edges nor the twin of one of them. -/
theorem rm_scan_color_keep (es : List Edge) (i : EdgeID) :
    ∀ (st : EdgeDescOverlapMap × StringGraph), (∀ e ∈ es, e.id ≠ i ∧ e.twin ≠ i) →
      (es.foldl matchStep st).2.edgeColor i = st.2.edgeColor i := by
  induction es with
  | nil => intro st _; rfl
  | cons e es ih =>
    intro st hall
    rw [List.foldl_cons, ih _ (fun e2 he2 => hall e2 (List.mem_cons_of_mem _ he2))]
    exact rm_matchStep_color_keep st e i (hall e (List.mem_cons_self _ _)).1
      (hall e (List.mem_cons_self _ _)).2

/-- In a graph with the twin invariant and without loops, no other edge of a
vertex has the identity of an edge of the vertex, and no edge of the vertex has
it as its twin. -/
theorem rm_others_differ {g : StringGraph} (htp : TwinPaired g) (hns : NoSelfLoops g)
    {v : VertexID} {pre post : List Edge} {e : Edge}
    (hes : g.getAllEdges v = pre ++ e :: post) :
    ∀ e2 ∈ pre ++ post, e2.id ≠ e.id ∧ e2.twin ≠ e.id := by
  have hsub : (g.getAllEdges v).Sublist g.edges := List.filter_sublist _
  have hnd : ((g.getAllEdges v).map (fun x => x.id)).Nodup := htp.1.sublist (hsub.map _)
  rw [hes, List.map_append, List.map_cons] at hnd
  have hnd2 := List.nodup_middle.1 hnd
  rw [List.nodup_cons, ← List.map_append] at hnd2
  have hemem : e ∈ g.getAllEdges v := by
    rw [hes]
    exact List.mem_append_right _ (List.mem_cons_self _ _)
  have he := StringGraph.mem_getAllEdges.1 hemem
  intro e2 he2
  have he2mem : e2 ∈ g.getAllEdges v := by
    rw [hes]
    rcases List.mem_append.1 he2 with h | h
    · exact List.mem_append_left _ h
    · exact List.mem_append_right _ (List.mem_cons_of_mem _ h)
  have he2g := StringGraph.mem_getAllEdges.1 he2mem
  constructor
  · intro hid
    exact hnd2.1 (List.mem_map.2 ⟨e2, he2, hid⟩)
  · intro htw
    obtain ⟨t, ht, hts, htid, _⟩ := htp.2 e2 he2g.1
    have hte : t = e := by
      have hinj := List.inj_on_of_nodup_map htp.1
      exact hinj ht he.1 (htid.trans htw)
    rw [hte, he.2, ← he2g.2] at hts
    exact hns e2 he2g.1 hts

theorem rm_mem_unmatched_keys (m : EdgeDescOverlapMap) (pre : List Edge) (d : EdgeDesc) :
    d ∈ (unmatched m pre).map (fun kv => kv.1) ↔
      d ∈ m.map (fun kv => kv.1) ∧ ∀ e2 ∈ pre, e2.getDesc ≠ d := by
  unfold unmatched
  simp only [List.mem_map, List.mem_filter, List.all_eq_true, decide_eq_true_eq]
  constructor
  · rintro ⟨kv, ⟨hkv, hall⟩, rfl⟩
    exact ⟨⟨kv, hkv, rfl⟩, hall⟩
  · rintro ⟨⟨kv, hkv, rfl⟩, hall⟩
    exact ⟨kv, ⟨hkv, hall⟩, rfl⟩

/-- C26 (amended): the scan of SGRemodelVisitor::visit over the existing edges
of the vertex, in a graph without self-overlaps.  The keys of the irreducible
map are pairwise distinct, as in every map; the graph has the twin invariant
and no edge from a vertex to itself.  For every existing edge
`e`, with `pre` the edges scanned before it: if the descriptor of `e` is in the
map and is the descriptor of no edge of `pre`, the iteration for `e` leaves the
graph as it is and erases the entry of the descriptor, and `e` has its colour of
before the visit when the scan ends; otherwise the iteration leaves the map as
it is, and `e` and its twin are BLACK when the scan ends.  The scan ends with
the map entries matched by no existing edge, createEdgesFromOverlap is called
once for each of them, in the order of the map, and visit returns true exactly
when there is one. -/
theorem remodel_scan (alg : RemodelAlgebra) (s : SGRemodelVisitor) (g : StringGraph)
    (v : VertexID) (hkeys : ((alg.overlapMap g v).map (fun kv => kv.1)).Nodup)
    (htp : TwinPaired g) (hns : NoSelfLoops g) :
    (∀ pre e post, g.getAllEdges v = pre ++ e :: post →
      ((e.getDesc ∈ (alg.overlapMap g v).map (fun kv => kv.1) ∧
          (∀ e2 ∈ pre, e2.getDesc ≠ e.getDesc)) →
        (matchStep (pre.foldl matchStep (alg.overlapMap g v, g)) e).2 =
            (pre.foldl matchStep (alg.overlapMap g v, g)).2 ∧
          e.getDesc ∈ (pre.foldl matchStep (alg.overlapMap g v, g)).1.map (fun kv => kv.1) ∧
          (matchStep (pre.foldl matchStep (alg.overlapMap g v, g)) e).1 =
            (pre.foldl matchStep (alg.overlapMap g v, g)).1.filter
              (fun kv => decide (kv.1 ≠ e.getDesc)) ∧
          ((g.getAllEdges v).foldl matchStep (alg.overlapMap g v, g)).2.edgeColor e.id =
            g.edgeColor e.id) ∧
      (¬ (e.getDesc ∈ (alg.overlapMap g v).map (fun kv => kv.1) ∧
          (∀ e2 ∈ pre, e2.getDesc ≠ e.getDesc)) →
        (matchStep (pre.foldl matchStep (alg.overlapMap g v, g)) e).1 =
            (pre.foldl matchStep (alg.overlapMap g v, g)).1 ∧
          ((g.getAllEdges v).foldl matchStep (alg.overlapMap g v, g)).2.edgeColor e.id =
            GC_BLACK ∧
          ((g.getAllEdges v).foldl matchStep (alg.overlapMap g v, g)).2.edgeColor e.twin =
            GC_BLACK)) ∧
    ((g.getAllEdges v).foldl matchStep (alg.overlapMap g v, g)).1 =
      unmatched (alg.overlapMap g v) (g.getAllEdges v) ∧
    (visit alg s g v).1.1.calls =
      s.calls ++ (unmatched (alg.overlapMap g v) (g.getAllEdges v)).map (fun kv => kv.2) ∧
    ((visit alg s g v).2 = true ↔ unmatched (alg.overlapMap g v) (g.getAllEdges v) ≠ []) := by
  have hfinal := rm_scan_map (g.getAllEdges v) (alg.overlapMap g v) g hkeys
  refine ⟨?_, hfinal, ?_, ?_⟩
  · intro pre e post hes
    have hpre := rm_scan_map pre (alg.overlapMap g v) g hkeys
    have hk2 : ((pre.foldl matchStep (alg.overlapMap g v, g)).1.map (fun kv => kv.1)).Nodup := by
      rw [hpre]
      exact rm_filter_nodup _ hkeys
    have hcases := rm_matchStep_cases (pre.foldl matchStep (alg.overlapMap g v, g)).1
      (pre.foldl matchStep (alg.overlapMap g v, g)).2 e hk2
    rw [Prod.mk.eta] at hcases
    have hin : e.getDesc ∈ (pre.foldl matchStep (alg.overlapMap g v, g)).1.map (fun kv => kv.1) ↔
        (e.getDesc ∈ (alg.overlapMap g v).map (fun kv => kv.1) ∧
          ∀ e2 ∈ pre, e2.getDesc ≠ e.getDesc) := by
      rw [hpre]
      exact rm_mem_unmatched_keys _ _ _
    have hsplit : (g.getAllEdges v).foldl matchStep (alg.overlapMap g v, g) =
        post.foldl matchStep (matchStep (pre.foldl matchStep (alg.overlapMap g v, g)) e) := by
      rw [hes, List.foldl_append, List.foldl_cons]
    constructor
    · intro hkept
      have hstep := hcases.1 (hin.2 hkept)
      refine ⟨by rw [hstep], hin.2 hkept, by rw [hstep], ?_⟩
      have hd := rm_others_differ htp hns hes
      rw [hsplit, rm_scan_color_keep post e.id _
        (fun e2 he2 => hd e2 (List.mem_append_right _ he2)), hstep]
      exact rm_scan_color_keep pre e.id _ (fun e2 he2 => hd e2 (List.mem_append_left _ he2))
    · intro hnot
      have hstep := hcases.2 (fun h => hnot (hin.1 h))
      refine ⟨by rw [hstep], ?_, ?_⟩
      · rw [hsplit]
        apply rm_scan_color_black
        rw [hstep]
        simp only [StringGraph.setEdgeColor]
        split
        · rfl
        · exact if_pos trivial
      · rw [hsplit]
        apply rm_scan_color_black
        rw [hstep]
        simp only [StringGraph.setEdgeColor]
        exact if_pos trivial
  · unfold visit
    simp only [rm_createLoop_calls]
    rw [hfinal]
  · unfold visit
    simp only []
    rw [hfinal]
    cases unmatched (alg.overlapMap g v) (g.getAllEdges v) with
    | nil => simp
    | cons kv rest => simp

set_option maxRecDepth 100000 in
/-- The scan of C26 (amended) at the vertex 0 of a graph with the edges 0 -> 1, 0 -> 2,
0 -> 2 and 0 -> 4 and a map with the descriptors of edges to 1, 2 and 3: the
edges with the identities 0 and 2 stay WHITE, the second edge to 2 and the edge
to 4 are BLACK with their twins, and createEdgesFromOverlap is called once, for
the entry of the vertex 3. -/
theorem remodel_scan_witness :
    (((exampleScanAlgebra.overlapMap scanGraph 0).map (fun kv => kv.1)).Nodup ∧
      TwinPaired scanGraph ∧ NoSelfLoops scanGraph) ∧
    ((scanGraph.getAllEdges 0).map (fun e => e.id) = [0, 2, 4, 6] ∧
      ([0, 1, 2, 3, 4, 5, 6, 7].map
        ((scanGraph.getAllEdges 0).foldl matchStep
          (exampleScanAlgebra.overlapMap scanGraph 0, scanGraph)).2.edgeColor =
        [GC_WHITE, GC_WHITE, GC_WHITE, GC_WHITE, GC_BLACK, GC_BLACK, GC_BLACK, GC_BLACK])) ∧
    ((visit exampleScanAlgebra { calls := [] } scanGraph 0).1.1.calls =
        [] ++ (unmatched (exampleScanAlgebra.overlapMap scanGraph 0)
          (scanGraph.getAllEdges 0)).map (fun kv => kv.2) ∧
      (visit exampleScanAlgebra { calls := [] } scanGraph 0).1.1.calls = [mkOverlap 70] ∧
      (visit exampleScanAlgebra { calls := [] } scanGraph 0).2 = true) :=
  ⟨⟨by decide, by decide, by decide⟩, ⟨by decide, by decide⟩,
    (remodel_scan exampleScanAlgebra { calls := [] } scanGraph 0 (by decide) (by decide)
      (by decide)).2.2.1, by decide, by decide⟩

set_option maxRecDepth 100000 in
/-- C26 as stated fails on a self-overlap.  The vertex 0 has the two halves of
a self-overlap in its adjacency list, with the identifiers 0 and 1, each the
twin of the other, and the irreducible map holds the descriptor of the first
half only.  The first half is the first edge found for its descriptor and
erases the entry; the second half has a descriptor that is not in the map, so
it is coloured BLACK together with its twin, which is the first half: when the
scan ends the first half is BLACK and has not kept its colour WHITE. -/
theorem remodel_scan_self_overlap_counterexample :
    (((scanSelfOverlapAlgebra.overlapMap scanSelfOverlapGraph 0).map (fun kv => kv.1)).Nodup ∧
      TwinPaired scanSelfOverlapGraph) ∧
    (scanSelfOverlapGraph.getAllEdges 0).map (fun e => (e.id, e.end_, e.twin)) =
      [(0, 0, 1), (1, 0, 0)] ∧
    (scanSelfOverlapGraph.getAllEdges 0).map
      (fun e => decide (e.getDesc ∈
        (scanSelfOverlapAlgebra.overlapMap scanSelfOverlapGraph 0).map (fun kv => kv.1))) =
      [true, false] ∧
    scanSelfOverlapGraph.edgeColor 0 = GC_WHITE ∧
    ((scanSelfOverlapGraph.getAllEdges 0).foldl matchStep
      (scanSelfOverlapAlgebra.overlapMap scanSelfOverlapGraph 0, scanSelfOverlapGraph)).2.edgeColor
        0 = GC_BLACK ∧
    ((scanSelfOverlapGraph.getAllEdges 0).foldl matchStep
      (scanSelfOverlapAlgebra.overlapMap scanSelfOverlapGraph 0, scanSelfOverlapGraph)).1 = [] ∧
    (visit scanSelfOverlapAlgebra { calls := [] } scanSelfOverlapGraph 0).1.2.edgeColor 0 =
      GC_BLACK := by
  refine ⟨⟨by decide, by decide⟩, by decide, by decide, by decide, by decide, by decide,
    by decide⟩

end SGRemodelVisitor

namespace SGEdgeStatsVisitor

theorem es_colorEnds_color (c : GraphColor) (es : List Edge) :
    ∀ (g : StringGraph) (x : VertexID), (colorEnds c es g).vertexColor x =
      if x ∈ es.map (fun e => e.end_) then c else g.vertexColor x := by
  induction es with
  | nil => intro g x; simp [colorEnds]
  | cons e es ih =>
    intro g x
    have h := ih (g.setVertexColor e.end_ c) x
    simp only [colorEnds, List.foldl_cons] at h ⊢
    rw [h]
    simp only [StringGraph.setVertexColor, List.map_cons, List.mem_cons]
    by_cases h1 : x ∈ es.map (fun e => e.end_)
    · simp [h1]
    · by_cases h2 : x = e.end_
      · simp [h2]
      · simp [h1, h2]

theorem es_colorEnds_frame (c : GraphColor) (es : List Edge) :
    ∀ g : StringGraph, (colorEnds c es g).edges = g.edges ∧
      (colorEnds c es g).vertices = g.vertices ∧ (colorEnds c es g).edgeColor = g.edgeColor := by
  induction es with
  | nil => intro g; exact ⟨rfl, rfl, rfl⟩
  | cons e es ih =>
    intro g
    have h := ih (g.setVertexColor e.end_ c)
    simp only [colorEnds, List.foldl_cons] at h ⊢
    exact h

theorem es_resetCandidates_color (out : List Candidate) :
    ∀ (g : StringGraph) (x : VertexID), (resetCandidates out g).vertexColor x =
      if x ∈ out.map (fun c => c.pEndpoint) then GC_WHITE else g.vertexColor x := by
  induction out with
  | nil => intro g x; simp [resetCandidates]
  | cons c out ih =>
    intro g x
    have h := ih (g.setVertexColor c.pEndpoint GC_WHITE) x
    simp only [resetCandidates, List.foldl_cons] at h ⊢
    rw [h]
    simp only [StringGraph.setVertexColor, List.map_cons, List.mem_cons]
    by_cases h1 : x ∈ out.map (fun c => c.pEndpoint)
    · simp [h1]
    · by_cases h2 : x = c.pEndpoint
      · simp [h2]
      · simp [h1, h2]

theorem es_resetCandidates_frame (out : List Candidate) :
    ∀ g : StringGraph, (resetCandidates out g).edges = g.edges ∧
      (resetCandidates out g).vertices = g.vertices ∧
      (resetCandidates out g).edgeColor = g.edgeColor := by
  induction out with
  | nil => intro g; exact ⟨rfl, rfl, rfl⟩
  | cons c out ih =>
    intro g
    have h := ih (g.setVertexColor c.pEndpoint GC_WHITE)
    simp only [resetCandidates, List.foldl_cons] at h ⊢
    exact h

/-- The body of the inner loop keeps the invariant. -/
theorem es_candidateStep_inv (alg : OverlapAlgebra) (getMinOverlapLength : Overlap → Int)
    (minOverlap : Int) (g : StringGraph) (v : VertexID) (g1 : StringGraph)
    (st : StringGraph × List Candidate) (pXY pYZ : Edge)
    (hXY : pXY ∈ g.getAllEdges v) (hYZ : pYZ ∈ g.getAllEdges pXY.end_)
    (hinv : CandInv alg getMinOverlapLength minOverlap g v g1 st) :
    CandInv alg getMinOverlapLength minOverlap g v g1
      (candidateStep alg getMinOverlapLength minOverlap pXY st pYZ) := by
  unfold candidateStep
  split
  · rename_i hcol
    split
    · rename_i htrans
      split
      · rename_i hlen
        obtain ⟨h1, h2, h3, h4, h5, h6, h7⟩ := hinv
        have hnew : pYZ.end_ ∉ st.2.map (fun c => c.pEndpoint) := by
          intro hmem
          obtain ⟨c, hc, hce⟩ := List.mem_map.1 hmem
          have := (h7 c hc).1
          rw [hce] at this
          exact hcol this
        refine ⟨h1, h2, h3, ?_, ?_, ?_, ?_⟩
        · intro x hx
          simp only [StringGraph.setVertexColor]
          split
          · rfl
          · exact h4 x hx
        · intro x
          simp only [StringGraph.setVertexColor, List.map_append, List.map_cons, List.map_nil,
            List.mem_append, List.mem_singleton]
          by_cases hx : x = pYZ.end_
          · exact Or.inr (Or.inr hx)
          · rw [if_neg hx]
            rcases h5 x with h | h
            · exact Or.inl h
            · exact Or.inr (Or.inl h)
        · rw [List.map_append, List.map_cons, List.map_nil]
          apply List.Nodup.append h6 (List.nodup_singleton _)
          intro x hx hx2
          rw [List.mem_singleton] at hx2
          rw [hx2] at hx
          exact hnew hx
        · intro c hc
          rcases List.mem_append.1 hc with hc | hc
          · obtain ⟨a, b, d, e⟩ := h7 c hc
            refine ⟨?_, b, d, e⟩
            simp only [StringGraph.setVertexColor]
            split
            · rfl
            · exact a
          · rw [List.mem_singleton] at hc
            subst hc
            refine ⟨?_, ?_, hlen, pXY, hXY, pYZ, hYZ, rfl, htrans, rfl⟩
            · simp only [StringGraph.setVertexColor]
              exact if_pos trivial
            · intro hb
              exact hcol (h4 _ hb)
      · exact hinv
    · exact hinv
  · exact hinv

theorem es_inner_inv (alg : OverlapAlgebra) (getMinOverlapLength : Overlap → Int)
    (minOverlap : Int) (g : StringGraph) (v : VertexID) (g1 : StringGraph) (pXY : Edge)
    (hXY : pXY ∈ g.getAllEdges v) (l : List Edge) :
    ∀ st : StringGraph × List Candidate, (∀ e ∈ l, e ∈ g.getAllEdges pXY.end_) →
      CandInv alg getMinOverlapLength minOverlap g v g1 st →
      CandInv alg getMinOverlapLength minOverlap g v g1
        (l.foldl (candidateStep alg getMinOverlapLength minOverlap pXY) st) := by
  induction l with
  | nil => intro st _ h; exact h
  | cons e l ih =>
    intro st hl h
    rw [List.foldl_cons]
    exact ih _ (fun e2 he2 => hl e2 (List.mem_cons_of_mem _ he2))
      (es_candidateStep_inv alg getMinOverlapLength minOverlap g v g1 st pXY e hXY
        (hl e (List.mem_cons_self _ _)) h)

/-- The body of the outer loop keeps the invariant. -/
theorem es_neighborLoop_inv (alg : OverlapAlgebra) (getMinOverlapLength : Overlap → Int)
    (minOverlap : Int) (g : StringGraph) (v : VertexID) (g1 : StringGraph)
    (st : StringGraph × List Candidate) (pXY : Edge) (hXY : pXY ∈ g.getAllEdges v)
    (hinv : CandInv alg getMinOverlapLength minOverlap g v g1 st) :
    CandInv alg getMinOverlapLength minOverlap g v g1
      (neighborLoop alg getMinOverlapLength minOverlap st pXY) := by
  unfold neighborLoop
  apply es_inner_inv alg getMinOverlapLength minOverlap g v g1 pXY hXY _ st _ hinv
  intro e he
  unfold StringGraph.getAllEdges at he ⊢
  rw [hinv.1] at he
  exact he

theorem es_outer_inv (alg : OverlapAlgebra) (getMinOverlapLength : Overlap → Int)
    (minOverlap : Int) (g : StringGraph) (v : VertexID) (g1 : StringGraph) (l : List Edge) :
    ∀ st : StringGraph × List Candidate, (∀ e ∈ l, e ∈ g.getAllEdges v) →
      CandInv alg getMinOverlapLength minOverlap g v g1 st →
      CandInv alg getMinOverlapLength minOverlap g v g1
        (l.foldl (neighborLoop alg getMinOverlapLength minOverlap) st) := by
  induction l with
  | nil => intro st _ h; exact h
  | cons e l ih =>
    intro st hl h
    rw [List.foldl_cons]
    exact ih _ (fun e2 he2 => hl e2 (List.mem_cons_of_mem _ he2))
      (es_neighborLoop_inv alg getMinOverlapLength minOverlap g v g1 st e
        (hl e (List.mem_cons_self _ _)) h)

/-- The invariant holds when the loops of getMissingCandidates are left. -/
theorem es_loops_inv (alg : OverlapAlgebra) (getMinOverlapLength : Overlap → Int)
    (g : StringGraph) (v : VertexID) (minOverlap : Int) :
    CandInv alg getMinOverlapLength minOverlap g v
      ((colorEnds GC_BLACK (g.getAllEdges v) g).setVertexColor v GC_BLACK)
      ((g.getAllEdges v).foldl (neighborLoop alg getMinOverlapLength minOverlap)
        ((colorEnds GC_BLACK (g.getAllEdges v) g).setVertexColor v GC_BLACK, [])) := by
  apply es_outer_inv alg getMinOverlapLength minOverlap g v _ _ _ (fun e he => he)
  obtain ⟨h1, h2, h3⟩ := es_colorEnds_frame GC_BLACK (g.getAllEdges v) g
  refine ⟨h1, h2, h3, fun x hx => hx, fun x => Or.inl rfl, List.nodup_nil, ?_⟩
  intro c hc
  exact absurd hc (List.not_mem_nil _)

theorem es_setVertexColor_color (g : StringGraph) (v : VertexID) (c : GraphColor)
    (x : VertexID) :
    (g.setVertexColor v c).vertexColor x = if x = v then c else g.vertexColor x := rfl

/-- The colours on return from getMissingCandidates: a vertex is WHITE or has
its colour of the entry. -/
theorem es_result_color (alg : OverlapAlgebra) (getMinOverlapLength : Overlap → Int)
    (g : StringGraph) (v : VertexID) (minOverlap : Int) (x : VertexID) :
    (getMissingCandidates alg getMinOverlapLength g v minOverlap).1.vertexColor x = GC_WHITE ∨
    (getMissingCandidates alg getMinOverlapLength g v minOverlap).1.vertexColor x =
      g.vertexColor x := by
  obtain ⟨_, _, _, _, h5, _, _⟩ := es_loops_inv alg getMinOverlapLength g v minOverlap
  unfold getMissingCandidates
  simp only []
  rw [es_resetCandidates_color]
  split
  · exact Or.inl rfl
  · rename_i hout
    rw [es_setVertexColor_color]
    split
    · exact Or.inl rfl
    · rename_i hxv
      rw [es_colorEnds_color]
      split
      · exact Or.inl rfl
      · rename_i hends
        right
        rcases h5 x with h | h
        · rw [h, es_setVertexColor_color, if_neg hxv, es_colorEnds_color, if_neg hends]
        · exact absurd h hout

/-- C27: SGEdgeStatsVisitor::getMissingCandidates restores the colouring and
returns each endpoint once.  On return every vertex that was WHITE on entry is
WHITE, so that all vertices are WHITE when all were; the vertices, the edges and
the edge colours are those of the entry.  The endpoints of the returned
candidates are pairwise distinct; none is the visited vertex or the end of one
of its edges; each candidate holds the overlap inferred from an edge of the
visited vertex and an edge of its end that leads to the endpoint, and the
minimal length of this overlap is at least minOverlap. -/
theorem missing_candidates (alg : OverlapAlgebra) (getMinOverlapLength : Overlap → Int)
    (g : StringGraph) (v : VertexID) (minOverlap : Int) :
    (∀ x, g.vertexColor x = GC_WHITE →
      (getMissingCandidates alg getMinOverlapLength g v minOverlap).1.vertexColor x = GC_WHITE) ∧
    ((∀ u ∈ g.vertices, g.vertexColor u.id = GC_WHITE) →
      ∀ u ∈ (getMissingCandidates alg getMinOverlapLength g v minOverlap).1.vertices,
        (getMissingCandidates alg getMinOverlapLength g v minOverlap).1.vertexColor u.id =
          GC_WHITE) ∧
    (getMissingCandidates alg getMinOverlapLength g v minOverlap).1.vertices = g.vertices ∧
    (getMissingCandidates alg getMinOverlapLength g v minOverlap).1.edges = g.edges ∧
    (getMissingCandidates alg getMinOverlapLength g v minOverlap).1.edgeColor = g.edgeColor ∧
    ((getMissingCandidates alg getMinOverlapLength g v minOverlap).2.map
      (fun c => c.pEndpoint)).Nodup ∧
    ∀ c ∈ (getMissingCandidates alg getMinOverlapLength g v minOverlap).2,
      c.pEndpoint ≠ v ∧ (∀ e ∈ g.getAllEdges v, e.end_ ≠ c.pEndpoint) ∧
      getMinOverlapLength c.ovr ≥ minOverlap ∧
      ∃ pXY ∈ g.getAllEdges v, ∃ pYZ ∈ g.getAllEdges pXY.end_, pYZ.end_ = c.pEndpoint ∧
        alg.hasTransitiveOverlap pXY.overlap pYZ.overlap = true ∧
        c.ovr = alg.inferTransitiveOverlap pXY.overlap pYZ.overlap := by
  have hwhite : ∀ x, g.vertexColor x = GC_WHITE →
      (getMissingCandidates alg getMinOverlapLength g v minOverlap).1.vertexColor x =
        GC_WHITE := by
    intro x hx
    rcases es_result_color alg getMinOverlapLength g v minOverlap x with h | h
    · exact h
    · rw [h, hx]
  obtain ⟨h1, h2, h3, _, _, h6, h7⟩ := es_loops_inv alg getMinOverlapLength g v minOverlap
  have hframe : (getMissingCandidates alg getMinOverlapLength g v minOverlap).1.vertices =
        g.vertices ∧
      (getMissingCandidates alg getMinOverlapLength g v minOverlap).1.edges = g.edges ∧
      (getMissingCandidates alg getMinOverlapLength g v minOverlap).1.edgeColor =
        g.edgeColor := by
    unfold getMissingCandidates
    simp only []
    obtain ⟨a1, a2, a3⟩ := es_resetCandidates_frame
      ((g.getAllEdges v).foldl (neighborLoop alg getMinOverlapLength minOverlap)
        ((colorEnds GC_BLACK (g.getAllEdges v) g).setVertexColor v GC_BLACK, [])).2
      ((colorEnds GC_WHITE (g.getAllEdges v)
        ((g.getAllEdges v).foldl (neighborLoop alg getMinOverlapLength minOverlap)
          ((colorEnds GC_BLACK (g.getAllEdges v) g).setVertexColor v GC_BLACK, [])).1).setVertexColor
        v GC_WHITE)
    obtain ⟨b1, b2, b3⟩ := es_colorEnds_frame GC_WHITE (g.getAllEdges v)
      ((g.getAllEdges v).foldl (neighborLoop alg getMinOverlapLength minOverlap)
        ((colorEnds GC_BLACK (g.getAllEdges v) g).setVertexColor v GC_BLACK, [])).1
    refine ⟨?_, ?_, ?_⟩
    · rw [a2]
      exact b2.trans h2
    · rw [a1]
      exact b1.trans h1
    · rw [a3]
      exact b3.trans h3
  refine ⟨hwhite, ?_, hframe.1, hframe.2.1, hframe.2.2, h6, ?_⟩
  · intro hall u hu
    rw [hframe.1] at hu
    exact hwhite u.id (hall u hu)
  · intro c hc
    obtain ⟨_, hnb, hlen, hprov⟩ := h7 c hc
    refine ⟨?_, ?_, hlen, hprov⟩
    · intro hcv
      apply hnb
      rw [hcv, es_setVertexColor_color]
      exact if_pos rfl
    · intro e he hce
      apply hnb
      rw [es_setVertexColor_color]
      split
      · rfl
      · rw [es_colorEnds_color, if_pos (List.mem_map.2 ⟨e, he, hce⟩)]

set_option maxRecDepth 100000 in
/-- The statement of C27 at the vertex 0 of a graph in which the ends 1 and 2
of the two edges of 0 both lead on to the vertex 3: one candidate is returned,
the vertex 3 with the overlap of length 60 inferred through the vertex 1, and
all vertices are WHITE on return. -/
theorem missing_candidates_witness :
    (∀ u ∈ bubbleEdgeGraph.vertices, bubbleEdgeGraph.vertexColor u.id = GC_WHITE) ∧
    (getMissingCandidates exampleAlgebra (fun o => (o.overlapLength : Int))
      bubbleEdgeGraph 0 50).2 = [{ pEndpoint := 3, ovr := mkOverlap 60 }] ∧
    ∀ u ∈ (getMissingCandidates exampleAlgebra (fun o => (o.overlapLength : Int))
        bubbleEdgeGraph 0 50).1.vertices,
      (getMissingCandidates exampleAlgebra (fun o => (o.overlapLength : Int))
        bubbleEdgeGraph 0 50).1.vertexColor u.id = GC_WHITE :=
  ⟨by decide, by decide,
    (missing_candidates exampleAlgebra (fun o => (o.overlapLength : Int))
      bubbleEdgeGraph 0 50).2.1 (by decide)⟩

end SGEdgeStatsVisitor

end SGA
